import Mathlib

/-!
# Cauchy Reed–Solomon coder over GF(2^8)

A shallow embedding of `galois.cc` and `cauchy_rscode.cc`.

Conventions of the embedding.

* A C `int` is an `Int`; the `char` cells of the bit matrices are naturals
  (they only ever hold `0` or `1`); a byte of a shard buffer is a natural and
  the C `^` on bytes is `Nat.xor`.
* A C array is a total map from the cell number to the cell; `load` reads a
  cell and `store` writes one.  Cells that the program never initialises read
  as the default the map was created with.
* A counted `for` loop is `forLoop`; a `while` loop whose number of rounds is
  not syntactically bounded carries a fuel argument, and the theorems prove
  that the fuel given is enough.
* The caller's shard buffers are `Shards`: buffer `i < k` is data shard `i`
  and buffer `k + j` is code shard `j`; the buffers are disjoint by
  construction.  A pointer is a buffer together with a byte offset.
-/

/-- Read cell `i` of an array. -/
def load {α : Type} (a : Nat → α) (i : Int) : α := a i.toNat

/-- Write `v` to cell `i` of an array. -/
def store {α : Type} (a : Nat → α) (i : Int) (v : α) : Nat → α :=
  fun j => if (j : Int) = i then v else a j

/-- The loop `for (i = 0; i < n; i++) s = body i s`. -/
def forLoop {σ : Type} (n : Nat) (body : Nat → σ → σ) (s : σ) : σ :=
  (List.range n).foldl (fun s i => body i s) s

/-- The library call `memcpy(dst + d, src + s, n)` on arrays. -/
def memcpyArr {α : Type} (dst : Nat → α) (d : Nat) (src : Nat → α) (s n : Nat) : Nat → α :=
  fun j => if d ≤ j ∧ j < d + n then src (s + (j - d)) else dst j

/-- The library call `bzero(dst + d, n)` on a `char` array. -/
def bzeroArr (dst : Nat → Nat) (d n : Nat) : Nat → Nat :=
  fun j => if d ≤ j ∧ j < d + n then 0 else dst j

namespace GaloisOperator

def word_size : Int := 8
def gf_size : Int := 256
def max_in_gf : Int := 255
/-- The primitive polynomial, written `0435` (octal) in the source. -/
def prim_poly : Int := 285

/-- The two tables of `_CreateLogTable` and its running `index`. -/
structure LogTables where
  log_table : Nat → Int
  anti_log_table : Nat → Int
  index : Int

/-- One round of the second loop of `_CreateLogTable`. -/
def _CreateLogTable_step (log : Nat) (t : LogTables) : LogTables :=
  let log_table := store t.log_table t.index (log : Int)
  let anti_log_table := store t.anti_log_table log t.index
  let index := t.index <<< (1 : Int)
  let index :=
    if Int.land index gf_size ≠ 0 then Int.land (Int.xor index prim_poly) max_in_gf else index
  ⟨log_table, anti_log_table, index⟩

/-- The log and anti-log tables built by `_CreateLogTable`. -/
def _CreateLogTable : LogTables :=
  let t := forLoop 255 _CreateLogTable_step ⟨fun _ => max_in_gf, fun _ => 0, 1⟩
  ⟨t.log_table, store t.anti_log_table max_in_gf (load t.anti_log_table 0), t.index⟩

/-- Cell `index` of the multiplication table after `_CreateTables`: the loops
write cell `x * 256 + y` for `x, y` in `[0, 256)`; other cells are never
written and read as `0` here. -/
def m_mul_table (index : Int) : Int :=
  if index < 0 ∨ index ≥ gf_size * gf_size then 0
  else
    let x := index / gf_size
    let y := index % gf_size
    if x = 0 ∨ y = 0 then 0
    else
      let logx := load _CreateLogTable.log_table x
      let logy := load _CreateLogTable.log_table y
      let mul_table_index := logx + logy
      let mul_table_index :=
        if mul_table_index > max_in_gf then mul_table_index - max_in_gf else mul_table_index
      load _CreateLogTable.anti_log_table mul_table_index

/-- Cell `index` of the division table after `_CreateTables` (see `m_mul_table`). -/
def m_div_table (index : Int) : Int :=
  if index < 0 ∨ index ≥ gf_size * gf_size then 0
  else
    let x := index / gf_size
    let y := index % gf_size
    if y = 0 then -1
    else if x = 0 then 0
    else
      let logx := load _CreateLogTable.log_table x
      let logy := load _CreateLogTable.log_table y
      let div_table_index := logx - logy
      let div_table_index :=
        if div_table_index < 0 then div_table_index + max_in_gf else div_table_index
      load _CreateLogTable.anti_log_table div_table_index

/-- `GaloisOperator::Multiply`. -/
def Multiply (x y : Int) : Int :=
  if x = 0 ∨ y = 0 then 0
  else m_mul_table (Int.lor (x <<< word_size) y)

/-- `GaloisOperator::Divide`. -/
def Divide (x y : Int) : Int :=
  if y = 0 then -1
  else if x = 0 then 0
  else m_div_table (Int.lor (x <<< word_size) y)

end GaloisOperator

namespace CauchyRSCoder

open GaloisOperator

def kPacketSize : Nat := 4096
def kWordBits : Nat := 8

/-- The function-local statics `ONEs` and `NOs` of `_CountCauchyOnes`, as
filled on the first call from `PPs`. -/
def _CountCauchyOnes_statics (PPs : Int) : (Nat → Int) × Nat :=
  forLoop kWordBits
    (fun i s =>
      if Int.land PPs ((1 : Int) <<< (i : Int)) ≠ 0 then
        (store s.1 s.2 ((1 : Int) <<< (i : Int)), s.2 + 1)
      else s)
    (fun _ => 0, 0)

/-- `CauchyRSCoder::_CountCauchyOnes`.  The statics `PPs`, `ONEs`, `NOs` are
computed on the first call and hold the same values on every call. -/
def _CountCauchyOnes (num : Int) : Int :=
  let highbit : Int := (1 : Int) <<< ((kWordBits : Int) - 1)
  let PPs := Multiply highbit 2
  let ONEs := (_CountCauchyOnes_statics PPs).1
  let NOs := (_CountCauchyOnes_statics PPs).2
  let ones_count : Int :=
    forLoop kWordBits
      (fun i c => if Int.land num ((1 : Int) <<< (i : Int)) ≠ 0 then c + 1 else c) 0
  let cur_ones_count := ones_count
  let r : Int × Int × Int :=
    forLoop (kWordBits - 1)
      (fun _ s =>
        let num := s.1
        let cur_ones_count := s.2.1
        let ones_count := s.2.2
        if Int.land num highbit ≠ 0 then
          let num := Int.xor num highbit
          let num := num <<< (1 : Int)
          let num := Int.xor num PPs
          let cur_ones_count := cur_ones_count - 1
          let cur_ones_count :=
            forLoop NOs
              (fun j c => c + (if Int.land num (ONEs j) ≠ 0 then 1 else -1)) cur_ones_count
          (num, cur_ones_count, ones_count + cur_ones_count)
        else
          let num := num <<< (1 : Int)
          (num, cur_ones_count, ones_count + cur_ones_count))
      (num, cur_ones_count, ones_count)
  r.2.2

/-- First loop nest of `_GenerateEncodeMatrix`: the Cauchy matrix. -/
def _GenerateEncodeMatrix_cauchy (k m : Nat) : Nat → Int :=
  forLoop m
    (fun i matrix =>
      forLoop k
        (fun j matrix =>
          let index := i * k + j
          store matrix index (Divide 1 (Int.xor (i : Int) ((m : Int) + (j : Int)))))
        matrix)
    (fun _ => 0)

/-- Second loop nest of `_GenerateEncodeMatrix`: make the first row all one. -/
def _GenerateEncodeMatrix_firstRow (k m : Nat) (matrix : Nat → Int) : Nat → Int :=
  forLoop k
    (fun i matrix =>
      if load matrix i ≠ 1 then
        let tmp := Divide 1 (load matrix i)
        (forLoop m
          (fun _ s =>
            let matrix := s.1
            let index := s.2
            (store matrix index (Multiply (load matrix index) tmp), index + k))
          (matrix, (i : Int))).1
      else matrix)
    matrix

/-- Step 2 of the row improvement of `_GenerateEncodeMatrix`: the pair
`(min_ones_count, best_m_index)` after trying every column of the row. -/
def _GenerateEncodeMatrix_best (k : Nat) (matrix : Nat → Int) (index : Int)
    (min_ones_count : Int) : Int × Int :=
  forLoop k
    (fun j s =>
      let min_ones_count := s.1
      if load matrix (index + j) ≠ 1 then
        let tmp := Divide 1 (load matrix (index + j))
        let cur_ones_count : Int :=
          forLoop k
            (fun k' c => c + _CountCauchyOnes (Multiply (load matrix (index + k')) tmp)) 0
        if cur_ones_count < min_ones_count then (cur_ones_count, (j : Int)) else s
      else s)
    (min_ones_count, -1)

/-- Third loop nest of `_GenerateEncodeMatrix`: improve the other rows. -/
def _GenerateEncodeMatrix_otherRows (k m : Nat) (matrix : Nat → Int) : Nat → Int :=
  forLoop (m - 1)
    (fun i' matrix =>
      let i := i' + 1
      let index : Int := i * k
      let min_ones_count : Int :=
        forLoop k (fun j c => c + _CountCauchyOnes (load matrix (index + j))) 0
      let best_m_index := (_GenerateEncodeMatrix_best k matrix index min_ones_count).2
      if best_m_index ≠ -1 then
        let tmp := Divide 1 (load matrix (index + best_m_index))
        forLoop k
          (fun j matrix => store matrix (index + j) (Multiply (load matrix (index + j)) tmp))
          matrix
      else matrix)
    matrix

/-- `CauchyRSCoder::_GenerateEncodeMatrix` for `k` data parts and `m` code parts. -/
def _GenerateEncodeMatrix (k m : Nat) : Nat → Int :=
  _GenerateEncodeMatrix_otherRows k m
    (_GenerateEncodeMatrix_firstRow k m (_GenerateEncodeMatrix_cauchy k m))

/-- The body of the loop over `m` in `_MatrixToBitMatrix`: one column of the
`w * w` block of one matrix element. -/
def _MatrixToBitMatrix_column (num_bits_per_row bit_matrix_col m : Nat)
    (s : (Nat → Nat) × Int) : (Nat → Nat) × Int :=
  let matrix_element := s.2
  let bit_matrix :=
    forLoop kWordBits
      (fun n bit_matrix =>
        store bit_matrix ((bit_matrix_col + m + n * num_bits_per_row : Nat) : Int)
          (if Int.land matrix_element ((1 : Int) <<< (n : Int)) ≠ 0 then 1 else 0))
      s.1
  (bit_matrix, Multiply matrix_element 2)

/-- `CauchyRSCoder::_MatrixToBitMatrix`. -/
def _MatrixToBitMatrix (k m : Nat) (matrix : Nat → Int) : Nat → Nat :=
  let num_bits_per_row := k * kWordBits
  (forLoop m
    (fun i s =>
      let bit_matrix_row := s.2
      let bit_matrix_col := bit_matrix_row
      let t :=
        forLoop k
          (fun j t =>
            let matrix_element := load matrix ((i * k + j : Nat) : Int)
            let bit_matrix :=
              (forLoop kWordBits (_MatrixToBitMatrix_column num_bits_per_row t.2)
                (t.1, matrix_element)).1
            (bit_matrix, t.2 + kWordBits))
          (s.1, bit_matrix_col)
      (t.1, bit_matrix_row + num_bits_per_row * kWordBits))
    ((fun _ => 0), 0)).1

/-- One schedule tuple `operations[i]`: cells `0 .. 4` of the source are, in
this order, the source device, the source bit, the destination device, the
destination bit and the operation code (`0` copy, `1` xor). -/
structure Tuple where
  src_dev : Int
  src_bit : Int
  dst_dev : Int
  dst_bit : Int
  op : Int
deriving DecidableEq, Repr

/-- The last tuple of a schedule: only cell `0` is written, with `-1`. -/
def sentinel : Tuple := ⟨-1, 0, 0, 0, 0⟩

/-- The variables of `_BitMatrixToSchedule` that live across its loops. -/
structure Sched where
  diff : Nat → Int
  frm : Nat → Int
  flink : Nat → Int
  blink : Nat → Int
  best_diff : Int
  best_row_index : Int
  top : Int
  operations : List Tuple

/-- First loop of `_BitMatrixToSchedule`: count the ones of every row, link
the rows into a list and pick the row with the fewest ones. -/
def _BitMatrixToSchedule_init (num_data_parts num_code_parts : Nat)
    (bit_matrix : Nat → Nat) : Sched :=
  let s :=
    forLoop (num_code_parts * kWordBits)
      (fun i (s : Sched) =>
        let num_ones : Int :=
          forLoop (num_data_parts * kWordBits)
            (fun j c => if bit_matrix (i * (num_data_parts * kWordBits) + j) = 1 then c + 1 else c)
            0
        let s : Sched :=
          { s with
            diff := store s.diff i num_ones
            frm := store s.frm i (-1)
            flink := store s.flink i ((i : Int) + 1)
            blink := store s.blink i ((i : Int) - 1) }
        if num_ones < s.best_diff then
          { s with best_diff := num_ones, best_row_index := i }
        else s)
      { diff := fun _ => 0, frm := fun _ => 0, flink := fun _ => 0, blink := fun _ => 0,
        best_diff := (num_data_parts : Int) * kWordBits + 1, best_row_index := -1,
        top := 0, operations := [] }
  { s with flink := store s.flink ((num_code_parts : Int) * kWordBits - 1) (-1) }

/-- Take row `row_index` out of the doubly linked list. -/
def _BitMatrixToSchedule_unlink (s : Sched) (row_index : Int) : Sched :=
  if load s.blink row_index = -1 then
    let top := load s.flink row_index
    if top ≠ -1 then { s with top := top, blink := store s.blink top (-1) }
    else { s with top := top }
  else
    let flink := store s.flink (load s.blink row_index) (load s.flink row_index)
    if load flink row_index ≠ -1 then
      { s with flink := flink, blink := store s.blink (load flink row_index) (load s.blink row_index) }
    else { s with flink := flink }

/-- The tuples emitted for row `row_index` when it is computed from scratch
(`from[row_index] == -1`). -/
def _BitMatrixToSchedule_scratch (num_data_parts : Nat) (bit_matrix : Nat → Nat)
    (row_index : Int) (operations : List Tuple) : List Tuple :=
  let matrix_iter : Int := row_index * num_data_parts * kWordBits
  (forLoop (num_data_parts * kWordBits)
    (fun j (s : List Tuple × Int) =>
      if load bit_matrix (matrix_iter + j) ≠ 0 then
        (s.1 ++ [{ op := s.2, src_dev := (j : Int) / kWordBits, src_bit := (j : Int) % kWordBits,
                   dst_dev := num_data_parts + row_index / kWordBits,
                   dst_bit := row_index % kWordBits }], 1)
      else s)
    (operations, 0)).1

/-- The tuples emitted for row `row_index` when it is derived from the row
`from[row_index]` computed earlier. -/
def _BitMatrixToSchedule_derive (num_data_parts : Nat) (bit_matrix : Nat → Nat)
    (row_index from_row : Int) (operations : List Tuple) : List Tuple :=
  let matrix_iter : Int := row_index * num_data_parts * kWordBits
  let operations :=
    operations ++ [{ op := 0, src_dev := num_data_parts + from_row / kWordBits,
                     src_bit := from_row % kWordBits,
                     dst_dev := num_data_parts + row_index / kWordBits,
                     dst_bit := row_index % kWordBits }]
  let b1 : Int := from_row * num_data_parts * kWordBits
  forLoop (num_data_parts * kWordBits)
    (fun j (operations : List Tuple) =>
      if load bit_matrix (matrix_iter + j) ^^^ load bit_matrix (b1 + j) ≠ 0 then
        operations ++ [{ op := 1, src_dev := (j : Int) / kWordBits, src_bit := (j : Int) % kWordBits,
                         dst_dev := num_data_parts + row_index / kWordBits,
                         dst_bit := row_index % kWordBits }]
      else operations)
    operations

/-- Body of the loop `for (i = top; i != -1; i = flink[i])`: re-rate row `i`
against the row just emitted. -/
def _BitMatrixToSchedule_rate (num_data_parts : Nat) (bit_matrix : Nat → Nat)
    (row_index i : Int) (s : Sched) : Sched :=
  let matrix_iter : Int := row_index * num_data_parts * kWordBits
  let b1 : Int := i * num_data_parts * kWordBits
  let num_ones : Int :=
    forLoop (num_data_parts * kWordBits)
      (fun j c => c + ((load bit_matrix (matrix_iter + j) ^^^ load bit_matrix (b1 + j) : Nat) : Int))
      1
  let s : Sched :=
    if num_ones < load s.diff i then
      { s with frm := store s.frm i row_index, diff := store s.diff i num_ones }
    else s
  if load s.diff i < s.best_diff then
    { s with best_diff := load s.diff i, best_row_index := i }
  else s

/-- The loop `for (i = top; i != -1; i = flink[i])`. -/
def _BitMatrixToSchedule_scan (num_data_parts : Nat) (bit_matrix : Nat → Nat)
    (row_index : Int) : Nat → Int → Sched → Sched
  | 0, _, s => s
  | fuel + 1, i, s =>
    if i ≠ -1 then
      let s := _BitMatrixToSchedule_rate num_data_parts bit_matrix row_index i s
      _BitMatrixToSchedule_scan num_data_parts bit_matrix row_index fuel (load s.flink i) s
    else s

/-- One round of the loop `while (top != -1)`. -/
def _BitMatrixToSchedule_round (num_data_parts num_code_parts : Nat)
    (bit_matrix : Nat → Nat) (s : Sched) : Sched :=
  let row_index := s.best_row_index
  let s := _BitMatrixToSchedule_unlink s row_index
  let operations :=
    if load s.frm row_index = -1 then
      _BitMatrixToSchedule_scratch num_data_parts bit_matrix row_index s.operations
    else
      _BitMatrixToSchedule_derive num_data_parts bit_matrix row_index (load s.frm row_index)
        s.operations
  let s : Sched :=
    { s with operations := operations, best_diff := (num_data_parts : Int) * kWordBits + 1 }
  _BitMatrixToSchedule_scan num_data_parts bit_matrix row_index (num_code_parts * kWordBits)
    s.top s

/-- The loop `while (top != -1)`. -/
def _BitMatrixToSchedule_while (num_data_parts num_code_parts : Nat)
    (bit_matrix : Nat → Nat) : Nat → Sched → Sched
  | 0, s => s
  | fuel + 1, s =>
    if s.top ≠ -1 then
      _BitMatrixToSchedule_while num_data_parts num_code_parts bit_matrix fuel
        (_BitMatrixToSchedule_round num_data_parts num_code_parts bit_matrix s)
    else s

/-- `CauchyRSCoder::_BitMatrixToSchedule`: the tuples in the order of
emission, the sentinel last.  Every round of the `while` loop unlinks one of
the `num_code_parts * kWordBits` rows, which is the fuel given. -/
def _BitMatrixToSchedule (num_data_parts num_code_parts : Nat) (bit_matrix : Nat → Nat) :
    List Tuple :=
  let s :=
    _BitMatrixToSchedule_while num_data_parts num_code_parts bit_matrix
      (num_code_parts * kWordBits)
      (_BitMatrixToSchedule_init num_data_parts num_code_parts bit_matrix)
  s.operations ++ [sentinel]

end CauchyRSCoder

/-- The shard buffers of the caller: the byte at an offset of a buffer.
Buffer `i < k` is `data_ptrs[i]`, buffer `k + j` is `coding_ptrs[j]`. -/
abbrev Shards := Nat → Int → Nat

/-- A `char *` into the shard buffers. -/
structure Ptr where
  part : Nat
  off : Int
deriving DecidableEq, Repr

/-- How a call of `Encode` or `Decode` ends: it returns, an `assert` fails,
or it reads outside an array (undefined behaviour in the source). -/
inductive Outcome where
  | returned
  | assertFailed
  | outOfBounds
deriving DecidableEq, Repr

/-- The coder object: the members of `class CauchyRSCoder` that the
operations read. -/
structure CauchyRSCoder where
  m_num_data_parts : Nat
  m_num_code_parts : Nat
  m_encoding_bit_matrix : Nat → Nat
  m_encoding_schedule : List CauchyRSCoder.Tuple

namespace CauchyRSCoder

/-- `MemXor(src1, src2, dst, size)`: `dst[i] = src1[i] ^ src2[i]`, eight bytes
at a time in the source.  Both call sites pass `dst` itself as `src2` and a
different sub-packet as `src1`, so every word is read before it is written. -/
def MemXor (src1 src2 dst : Ptr) (size : Nat) (mem : Shards) : Shards :=
  fun b o =>
    if b = dst.part ∧ dst.off ≤ o ∧ o < dst.off + size then
      mem src1.part (src1.off + (o - dst.off)) ^^^ mem src2.part (src2.off + (o - dst.off))
    else mem b o

/-- The library call `memcpy(dst, src, size)` on the shard buffers. -/
def memcpy (dst src : Ptr) (size : Nat) (mem : Shards) : Shards :=
  fun b o =>
    if b = dst.part ∧ dst.off ≤ o ∧ o < dst.off + size then
      mem src.part (src.off + (o - dst.off))
    else mem b o

/-- The body of the inner loop of `_DoScheduleOperations`: run one tuple. -/
def _DoScheduleOperations_op (ptrs : Nat → Ptr) (t : Tuple) (mem : Shards) : Shards :=
  let src : Ptr := ⟨(load ptrs t.src_dev).part, (load ptrs t.src_dev).off + t.src_bit * kPacketSize⟩
  let dst : Ptr := ⟨(load ptrs t.dst_dev).part, (load ptrs t.dst_dev).off + t.dst_bit * kPacketSize⟩
  if t.op ≠ 0 then MemXor src dst dst kPacketSize mem
  else memcpy dst src kPacketSize mem

/-- The inner loop `for (i = 0; schedule[i][0] >= 0; i++)` of
`_DoScheduleOperations`. -/
def _DoScheduleOperations_stripe (ptrs : Nat → Ptr) : List Tuple → Shards → Shards
  | [], mem => mem
  | t :: schedule, mem =>
    if t.src_dev ≥ 0 then
      _DoScheduleOperations_stripe ptrs schedule (_DoScheduleOperations_op ptrs t mem)
    else mem

/-- The outer loop `for (count = 0; count < size; count += unit_size)` of
`_DoScheduleOperations`; `count` grows in every round, so `size` rounds of
fuel are enough.  `size` and `count` are `int` in the source and integers
here: the two agree as long as `count += unit_size` stays below `2 ^ 31`, that
is for every `size` up to `2147450880`, the largest multiple of the stripe size
that an `int` holds; for a larger `size` the addition overflows in the source
and this definition says nothing about the program. -/
def _DoScheduleOperations_loop (num_parts : Nat) (schedule : List Tuple) (size : Int) :
    Nat → Int → (Nat → Ptr) → Shards → Shards
  | 0, _, _, mem => mem
  | fuel + 1, count, ptrs, mem =>
    if count < size then
      let unit_size : Int := kPacketSize * kWordBits
      let mem := _DoScheduleOperations_stripe ptrs schedule mem
      let ptrs :=
        forLoop num_parts
          (fun i (ptrs : Nat → Ptr) =>
            store ptrs i ⟨(load ptrs i).part, (load ptrs i).off + unit_size⟩)
          ptrs
      _DoScheduleOperations_loop num_parts schedule size fuel (count + unit_size) ptrs mem
    else mem

/-- `CauchyRSCoder::_DoScheduleOperations`. -/
def _DoScheduleOperations (c : CauchyRSCoder) (schedule : List Tuple) (ptrs : Nat → Ptr)
    (size : Int) (mem : Shards) : Shards :=
  _DoScheduleOperations_loop (c.m_num_data_parts + c.m_num_code_parts) schedule size
    size.toNat 0 ptrs mem

/-- `CauchyRSCoder::_Init`, as run by the constructor for `num_data_parts`
and `num_code_parts`. -/
def _Init (num_data_parts num_code_parts : Nat) : CauchyRSCoder :=
  let coding_matrix := _GenerateEncodeMatrix num_data_parts num_code_parts
  let m_encoding_bit_matrix := _MatrixToBitMatrix num_data_parts num_code_parts coding_matrix
  { m_num_data_parts := num_data_parts
    m_num_code_parts := num_code_parts
    m_encoding_bit_matrix := m_encoding_bit_matrix
    m_encoding_schedule :=
      _BitMatrixToSchedule num_data_parts num_code_parts m_encoding_bit_matrix }

/-- The caller's `data_ptrs[i]`. -/
def data_ptrs (i : Int) : Ptr := ⟨i.toNat, 0⟩

/-- The caller's `coding_ptrs[j]` of a coder with `k` data parts. -/
def coding_ptrs (k : Nat) (j : Int) : Ptr := ⟨k + j.toNat, 0⟩

/-- `CauchyRSCoder::Encode`. -/
def Encode (c : CauchyRSCoder) (size : Int) (mem : Shards) : Outcome × Shards :=
  if ¬ (size > 0) then (Outcome.assertFailed, mem)
  else
    let ptrs : Nat → Ptr :=
      forLoop c.m_num_data_parts (fun i ptrs => store ptrs i (data_ptrs i)) (fun _ => ⟨0, 0⟩)
    let ptrs : Nat → Ptr :=
      forLoop c.m_num_code_parts
        (fun i ptrs => store ptrs ((i : Int) + c.m_num_data_parts) (coding_ptrs c.m_num_data_parts i))
        ptrs
    (Outcome.returned, _DoScheduleOperations c c.m_encoding_schedule ptrs size mem)

/-- The row search `for (j = i + 1; j < num_rows && matrix[j * num_cols + i] == 0; j++)`
of `_InvertBitMatrix`. -/
def _InvertBitMatrix_search (matrix : Nat → Nat) (num_rows i : Nat) : Nat → Nat → Nat
  | 0, j => j
  | fuel + 1, j =>
    if j < num_rows ∧ matrix (j * num_rows + i) = 0 then
      _InvertBitMatrix_search matrix num_rows i fuel (j + 1)
    else j

/-- The statement `row_j ^= row_i` on the matrix and on the inverse. -/
def _InvertBitMatrix_addRow (num_cols i j : Nat) (s : (Nat → Nat) × (Nat → Nat)) :
    (Nat → Nat) × (Nat → Nat) :=
  forLoop num_cols
    (fun k s =>
      (store s.1 ((j * num_cols + k : Nat) : Int) (s.1 (j * num_cols + k) ^^^ s.1 (i * num_cols + k)),
       store s.2 ((j * num_cols + k : Nat) : Int) (s.2 (j * num_cols + k) ^^^ s.2 (i * num_cols + k))))
    s

/-- The row exchange of `_InvertBitMatrix`, on the matrix and on the inverse. -/
def _InvertBitMatrix_swap (num_cols i j : Nat) (s : (Nat → Nat) × (Nat → Nat)) :
    (Nat → Nat) × (Nat → Nat) :=
  forLoop num_cols
    (fun k s =>
      let tmp := s.1 (i * num_cols + k)
      let matrix := store s.1 ((i * num_cols + k : Nat) : Int) (s.1 (j * num_cols + k))
      let matrix := store matrix ((j * num_cols + k : Nat) : Int) tmp
      let tmp := s.2 (i * num_cols + k)
      let inverse := store s.2 ((i * num_cols + k : Nat) : Int) (s.2 (j * num_cols + k))
      let inverse := store inverse ((j * num_cols + k : Nat) : Int) tmp
      (matrix, inverse))
    s

/-- One round of the first phase of `_InvertBitMatrix` (column `i`): `none`
when no row below has a one in the column, where the source exchanges row `i`
with the row after the last one. -/
def _InvertBitMatrix_column (num_rows i : Nat) (s : (Nat → Nat) × (Nat → Nat)) :
    Option ((Nat → Nat) × (Nat → Nat)) :=
  let num_cols := num_rows
  let swapped : Option ((Nat → Nat) × (Nat → Nat)) :=
    if s.1 (i * num_cols + i) = 0 then
      let j := _InvertBitMatrix_search s.1 num_rows i num_rows (i + 1)
      if j < num_rows then some (_InvertBitMatrix_swap num_cols i j s) else none
    else some s
  swapped.map fun s =>
    forLoop (num_rows - (i + 1))
      (fun j' s =>
        let j := i + 1 + j'
        if s.1 (j * num_cols + i) ≠ 0 then _InvertBitMatrix_addRow num_cols i j s else s)
      s

/-- The second phase of `_InvertBitMatrix`: `for (i = num_rows - 1; i >= 0; i--)`. -/
def _InvertBitMatrix_back (num_rows : Nat) (s : (Nat → Nat) × (Nat → Nat)) :
    (Nat → Nat) × (Nat → Nat) :=
  let num_cols := num_rows
  forLoop num_rows
    (fun i' s =>
      let i := num_rows - 1 - i'
      forLoop i
        (fun j s =>
          if s.1 (j * num_cols + i) ≠ 0 then _InvertBitMatrix_addRow num_cols i j s else s)
        s)
    s

/-- `_InvertBitMatrix(matrix, inverse, num_rows)`: the final contents of
`matrix` and `inverse`. -/
def _InvertBitMatrix (matrix inverse : Nat → Nat) (num_rows : Nat) :
    Option ((Nat → Nat) × (Nat → Nat)) :=
  let num_cols := num_rows
  let inverse :=
    forLoop num_rows
      (fun i inverse =>
        forLoop num_cols
          (fun j inverse => store inverse ((i * num_cols + j : Nat) : Int) (if i = j then 1 else 0))
          inverse)
      inverse
  let upper :=
    forLoop num_cols
      (fun i (s : Option ((Nat → Nat) × (Nat → Nat))) =>
        s.bind (_InvertBitMatrix_column num_rows i))
      (some (matrix, inverse))
  upper.map (_InvertBitMatrix_back num_rows)

/-- The locals of `Decode` that its two pointer set-up loops fill. -/
structure DecodeSetup where
  ptrs : Nat → Ptr
  rowid_to_partidx : Nat → Int
  partidx_to_rowid : Nat → Int
  good_code_part_index : Nat
  erased_part_index : Nat
  num_erased_data_parts : Nat
  num_erased_code_parts : Nat

/-- The loop `while (erased[good_code_part_index]) good_code_part_index++`:
`none` when it reads `erased` at or after `num_total_parts`.  The index grows
in every round, so `num_total_parts + 1` rounds of fuel are enough. -/
def Decode_skip (erased : Nat → Bool) (num_total_parts : Nat) : Nat → Nat → Option Nat
  | 0, _ => none
  | fuel + 1, g =>
    if g < num_total_parts then
      if erased g then Decode_skip erased num_total_parts fuel (g + 1) else some g
    else none

/-- The body of the first pointer set-up loop of `Decode`, for data part `i`. -/
def Decode_setup_data (c : CauchyRSCoder) (erased : Nat → Bool) (i : Nat) (s : DecodeSetup) :
    Option DecodeSetup :=
  let k := c.m_num_data_parts
  let num_total_parts := c.m_num_data_parts + c.m_num_code_parts
  if ¬ erased i then
    some { s with
      ptrs := store s.ptrs i (data_ptrs i)
      rowid_to_partidx := store s.rowid_to_partidx i i
      partidx_to_rowid := store s.partidx_to_rowid i i }
  else
    (Decode_skip erased num_total_parts (num_total_parts + 1) s.good_code_part_index).map
      fun (g : Nat) =>
        let ptrs := store s.ptrs i (coding_ptrs k ((g : Int) - k))
        let rowid_to_partidx := store s.rowid_to_partidx i g
        let partidx_to_rowid := store s.partidx_to_rowid g i
        { ptrs := store ptrs s.erased_part_index (data_ptrs i)
          rowid_to_partidx := store rowid_to_partidx s.erased_part_index i
          partidx_to_rowid := store partidx_to_rowid i s.erased_part_index
          good_code_part_index := g + 1
          erased_part_index := s.erased_part_index + 1
          num_erased_data_parts := s.num_erased_data_parts + 1
          num_erased_code_parts := s.num_erased_code_parts }

/-- The body of the second pointer set-up loop of `Decode`, for part `i` (a
code part). -/
def Decode_setup_code (c : CauchyRSCoder) (erased : Nat → Bool) (i : Nat) (s : DecodeSetup) :
    DecodeSetup :=
  let k := c.m_num_data_parts
  if erased i then
    { s with
      ptrs := store s.ptrs s.erased_part_index (coding_ptrs k ((i : Int) - k))
      rowid_to_partidx := store s.rowid_to_partidx s.erased_part_index i
      partidx_to_rowid := store s.partidx_to_rowid i s.erased_part_index
      erased_part_index := s.erased_part_index + 1
      num_erased_code_parts := s.num_erased_code_parts + 1 }
  else s

/-- The two pointer set-up loops of `Decode`. -/
def Decode_setup (c : CauchyRSCoder) (erased : Nat → Bool) : Option DecodeSetup :=
  let k := c.m_num_data_parts
  let num_total_parts := c.m_num_data_parts + c.m_num_code_parts
  let s :=
    forLoop k (fun i (s : Option DecodeSetup) => s.bind (Decode_setup_data c erased i))
      (some
        { ptrs := fun _ => ⟨0, 0⟩, rowid_to_partidx := fun _ => 0, partidx_to_rowid := fun _ => 0,
          good_code_part_index := k, erased_part_index := k,
          num_erased_data_parts := 0, num_erased_code_parts := 0 })
  s.map fun s =>
    forLoop (num_total_parts - k) (fun i' (s : DecodeSetup) => Decode_setup_code c erased (k + i') s)
      s

/-- The matrix `tmp_bit_matrix` that `Decode` inverts: for data part `i` the
identity block-row when the part is not erased, otherwise the block-row of the
encoding bit matrix of the code part that stands in for it. -/
def Decode_tmp_bit_matrix (c : CauchyRSCoder) (rowid_to_partidx : Nat → Int) : Nat → Nat :=
  let k := c.m_num_data_parts
  (forLoop k
    (fun i (s : (Nat → Nat) × Nat) =>
      let iter := s.2
      let tmp_bit_matrix :=
        if load rowid_to_partidx i = i then
          forLoop kWordBits
            (fun j tmp => store tmp ((iter + (j + i * kWordBits + j * k * kWordBits) : Nat) : Int) 1)
            (bzeroArr s.1 iter (k * kWordBits * kWordBits))
        else
          memcpyArr s.1 iter c.m_encoding_bit_matrix
            ((k : Int) * kWordBits * kWordBits * (load rowid_to_partidx i - k)).toNat
            (k * kWordBits * kWordBits)
      (tmp_bit_matrix, iter + k * kWordBits * kWordBits))
    (fun _ => 0, 0)).1

/-- The rows of the decoding bit matrix for the erased data parts: the
block-rows of the inverse at the erased positions. -/
def Decode_data_rows (c : CauchyRSCoder) (s : DecodeSetup) (inverse_bit_matrix : Nat → Nat)
    (decoding_bit_matrix : Nat → Nat) : Nat → Nat :=
  let k := c.m_num_data_parts
  (forLoop s.num_erased_data_parts
    (fun i (d : (Nat → Nat) × Nat) =>
      (memcpyArr d.1 d.2 inverse_bit_matrix
        ((k : Int) * kWordBits * kWordBits * load s.rowid_to_partidx ((k : Int) + i)).toNat
        (k * kWordBits * kWordBits),
       d.2 + k * kWordBits * kWordBits))
    (decoding_bit_matrix, 0)).1

/-- Round `k'` of the loop of `Decode` over the erased code parts: the rows of
the decoding bit matrix for one erased code part. -/
def Decode_code_rows (c : CauchyRSCoder) (s : DecodeSetup) (k' : Nat)
    (decoding_bit_matrix : Nat → Nat) : Nat → Nat :=
  let k := c.m_num_data_parts
  let code_part_idx : Int :=
    load s.rowid_to_partidx ((k' : Int) + s.num_erased_data_parts + k) - k
  let iter : Nat := k * kWordBits * kWordBits * (s.num_erased_data_parts + k')
  let d :=
    memcpyArr decoding_bit_matrix iter c.m_encoding_bit_matrix
      (code_part_idx * k * kWordBits * kWordBits).toNat (k * kWordBits * kWordBits)
  let d :=
    forLoop k
      (fun i d =>
        if load s.rowid_to_partidx i ≠ i then
          forLoop kWordBits (fun j d => bzeroArr d (iter + j * k * kWordBits + i * kWordBits) kWordBits) d
        else d)
      d
  let index : Int := code_part_idx * k * kWordBits * kWordBits
  forLoop k
    (fun i d =>
      if load s.rowid_to_partidx i ≠ i then
        let p1 : Int := (load s.partidx_to_rowid i - k) * k * kWordBits * kWordBits
        forLoop kWordBits
          (fun j d =>
            let p2 : Nat := iter + j * k * kWordBits
            forLoop kWordBits
              (fun m d =>
                if load c.m_encoding_bit_matrix (index + j * k * kWordBits + i * kWordBits + m) ≠ 0 then
                  forLoop (k * kWordBits)
                    (fun n d =>
                      store d ((p2 + n : Nat) : Int)
                        (d (p2 + n) ^^^ load d (p1 + n + m * k * kWordBits)))
                    d
                else d)
              d)
          d
      else d)
    d

/-- The decoding bit matrix that `Decode` builds; `none` when
`_InvertBitMatrix` runs out of rows. -/
def Decode_decoding_bit_matrix (c : CauchyRSCoder) (s : DecodeSetup) : Option (Nat → Nat) :=
  let k := c.m_num_data_parts
  let data_rows : Option (Nat → Nat) :=
    if s.num_erased_data_parts > 0 then
      (_InvertBitMatrix (Decode_tmp_bit_matrix c s.rowid_to_partidx) (fun _ => 0)
          (k * kWordBits)).map
        fun r => Decode_data_rows c s r.2 (fun _ => 0)
    else some (fun _ => 0)
  data_rows.map fun d => forLoop s.num_erased_code_parts (Decode_code_rows c s) d

/-- `CauchyRSCoder::Decode`. -/
def Decode (c : CauchyRSCoder) (erased : Nat → Bool) (size : Int) (mem : Shards) :
    Outcome × Shards :=
  if ¬ (size > 0) then (Outcome.assertFailed, mem)
  else
    let num_total_parts := c.m_num_data_parts + c.m_num_code_parts
    let good_parts_count : Int :=
      forLoop num_total_parts (fun i n => if ¬ erased i then n + 1 else n) 0
    if ¬ (good_parts_count ≥ c.m_num_data_parts) then (Outcome.assertFailed, mem)
    else if good_parts_count = (c.m_num_data_parts : Int) + c.m_num_code_parts then
      (Outcome.returned, mem)
    else
      match Decode_setup c erased with
      | none => (Outcome.outOfBounds, mem)
      | some s =>
        match Decode_decoding_bit_matrix c s with
        | none => (Outcome.outOfBounds, mem)
        | some decoding_bit_matrix =>
          let decoding_schedule :=
            _BitMatrixToSchedule c.m_num_data_parts
              (s.num_erased_data_parts + s.num_erased_code_parts) decoding_bit_matrix
          (Outcome.returned, _DoScheduleOperations c decoding_schedule s.ptrs size mem)

end CauchyRSCoder

namespace GaloisOperator

/-- A field element other than zero, as an `int`. -/
def IsUnit256 (x : Int) : Prop := 1 ≤ x ∧ x ≤ 255

/-- The 256 cells of the anti-log table, written out. -/
def antiLogList : List Int :=
  [1, 2, 4, 8, 16, 32, 64, 128, 29, 58, 116, 232, 205, 135, 19, 38,
   76, 152, 45, 90, 180, 117, 234, 201, 143, 3, 6, 12, 24, 48, 96, 192,
   157, 39, 78, 156, 37, 74, 148, 53, 106, 212, 181, 119, 238, 193, 159, 35,
   70, 140, 5, 10, 20, 40, 80, 160, 93, 186, 105, 210, 185, 111, 222, 161,
   95, 190, 97, 194, 153, 47, 94, 188, 101, 202, 137, 15, 30, 60, 120, 240,
   253, 231, 211, 187, 107, 214, 177, 127, 254, 225, 223, 163, 91, 182, 113, 226,
   217, 175, 67, 134, 17, 34, 68, 136, 13, 26, 52, 104, 208, 189, 103, 206,
   129, 31, 62, 124, 248, 237, 199, 147, 59, 118, 236, 197, 151, 51, 102, 204,
   133, 23, 46, 92, 184, 109, 218, 169, 79, 158, 33, 66, 132, 21, 42, 84,
   168, 77, 154, 41, 82, 164, 85, 170, 73, 146, 57, 114, 228, 213, 183, 115,
   230, 209, 191, 99, 198, 145, 63, 126, 252, 229, 215, 179, 123, 246, 241, 255,
   227, 219, 171, 75, 150, 49, 98, 196, 149, 55, 110, 220, 165, 87, 174, 65,
   130, 25, 50, 100, 200, 141, 7, 14, 28, 56, 112, 224, 221, 167, 83, 166,
   81, 162, 89, 178, 121, 242, 249, 239, 195, 155, 43, 86, 172, 69, 138, 9,
   18, 36, 72, 144, 61, 122, 244, 245, 247, 243, 251, 235, 203, 139, 11, 22,
   44, 88, 176, 125, 250, 233, 207, 131, 27, 54, 108, 216, 173, 71, 142, 1]

/-- The 256 cells of the log table, written out. -/
def logList : List Int :=
  [255, 0, 1, 25, 2, 50, 26, 198, 3, 223, 51, 238, 27, 104, 199, 75,
   4, 100, 224, 14, 52, 141, 239, 129, 28, 193, 105, 248, 200, 8, 76, 113,
   5, 138, 101, 47, 225, 36, 15, 33, 53, 147, 142, 218, 240, 18, 130, 69,
   29, 181, 194, 125, 106, 39, 249, 185, 201, 154, 9, 120, 77, 228, 114, 166,
   6, 191, 139, 98, 102, 221, 48, 253, 226, 152, 37, 179, 16, 145, 34, 136,
   54, 208, 148, 206, 143, 150, 219, 189, 241, 210, 19, 92, 131, 56, 70, 64,
   30, 66, 182, 163, 195, 72, 126, 110, 107, 58, 40, 84, 250, 133, 186, 61,
   202, 94, 155, 159, 10, 21, 121, 43, 78, 212, 229, 172, 115, 243, 167, 87,
   7, 112, 192, 247, 140, 128, 99, 13, 103, 74, 222, 237, 49, 197, 254, 24,
   227, 165, 153, 119, 38, 184, 180, 124, 17, 68, 146, 217, 35, 32, 137, 46,
   55, 63, 209, 91, 149, 188, 207, 205, 144, 135, 151, 178, 220, 252, 190, 97,
   242, 86, 211, 171, 20, 42, 93, 158, 132, 60, 57, 83, 71, 109, 65, 162,
   31, 45, 67, 216, 183, 123, 164, 118, 196, 23, 73, 236, 127, 12, 111, 246,
   108, 161, 59, 82, 41, 157, 85, 170, 251, 96, 134, 177, 187, 204, 62, 90,
   203, 89, 95, 176, 156, 169, 160, 81, 11, 245, 22, 235, 122, 117, 44, 215,
   79, 174, 213, 233, 230, 231, 173, 232, 116, 214, 244, 234, 168, 80, 88, 175]

/-- The anti-log of an exponent, the exponent taken modulo 255. -/
def alog (e : Nat) : Nat := (_CreateLogTable.anti_log_table (e % 255)).toNat

/-- The log of a field element. -/
def lg (x : Nat) : Nat := (_CreateLogTable.log_table x).toNat

/-- A field element: a byte. -/
structure GF256 where
  val : Nat
  lt : val < 256
deriving DecidableEq

/-- The byte `n mod 256` as a field element. -/
def GF256.byte (n : Nat) : GF256 := ⟨n % 256, Nat.mod_lt _ (by decide)⟩

def GF256.zero : GF256 := ⟨0, by decide⟩

def GF256.one : GF256 := ⟨1, by decide⟩

/-- The element `2`, the root of the primitive polynomial. -/
def GF256.two : GF256 := ⟨2, by decide⟩

/-- Addition in the field: the C `^` on bytes. -/
def GF256.add (a b : GF256) : GF256 :=
  ⟨a.val ^^^ b.val, Nat.xor_lt_two_pow (n := 8) a.lt b.lt⟩

/-- Multiplication in the field: `Multiply` on bytes. -/
def GF256.mul (a b : GF256) : GF256 :=
  ⟨(Multiply a.val b.val).toNat % 256, Nat.mod_lt _ (by decide)⟩

/-- Inversion in the field: `Divide(1, a)`, and zero for zero. -/
def GF256.inv (a : GF256) : GF256 :=
  ⟨(Divide 1 a.val).toNat % 256, Nat.mod_lt _ (by decide)⟩

/-- The carry-less product of two bytes: the product of the polynomials over
GF(2) whose coefficients are the bits of `x` and of `y`.  Written from the
words of the specification, to be compared with `Multiply`. -/
def clmul (x y : Nat) : Nat :=
  (List.range 8).foldl (fun acc i => if y.testBit i then acc ^^^ (x <<< i) else acc) 0

/-- The remainder of a polynomial of degree below 15 modulo the primitive
polynomial `285`, that is `x^8 + x^4 + x^3 + x^2 + 1`: the terms of degree 14
down to 8 are cancelled in turn.  Written from the words of the specification. -/
def polyMod (p : Nat) : Nat :=
  (List.range 7).foldl (fun p t => if p.testBit (14 - t) then p ^^^ (285 <<< (6 - t)) else p) p

/-- Multiplication in GF(2^8) as the specification words it: the carry-less
product reduced modulo the primitive polynomial. -/
def specMultiply (x y : Nat) : Nat := polyMod (clmul x y)

end GaloisOperator

namespace CauchyRSCoder

open GaloisOperator

/-- The first loop nest of `_GenerateEncodeMatrix` with a log: the matrix and
the second arguments of the calls `Divide(1, d)`, in the order of the calls. -/
def _GenerateEncodeMatrix_cauchy_calls (k m : Nat) : (Nat → Int) × List Int :=
  forLoop m
    (fun i (s : (Nat → Int) × List Int) =>
      forLoop k
        (fun j (s : (Nat → Int) × List Int) =>
          let index := i * k + j
          let d := Int.xor (i : Int) ((m : Int) + (j : Int))
          (store s.1 index (Divide 1 d), s.2 ++ [d]))
        s)
    (fun _ => 0, [])

/-- The second loop nest of `_GenerateEncodeMatrix` with the log of the calls
of `Divide`. -/
def _GenerateEncodeMatrix_firstRow_calls (k m : Nat) (s : (Nat → Int) × List Int) :
    (Nat → Int) × List Int :=
  forLoop k
    (fun i (s : (Nat → Int) × List Int) =>
      if load s.1 i ≠ 1 then
        let d := load s.1 i
        let tmp := Divide 1 d
        ((forLoop m
          (fun _ (t : (Nat → Int) × Int) =>
            (store t.1 t.2 (Multiply (load t.1 t.2) tmp), t.2 + k))
          (s.1, (i : Int))).1, s.2 ++ [d])
      else s)
    s

/-- Step 2 of the row improvement of `_GenerateEncodeMatrix` with the log of
the calls of `Divide`. -/
def _GenerateEncodeMatrix_best_calls (k : Nat) (matrix : Nat → Int) (index : Int)
    (min_ones_count : Int) (log : List Int) : (Int × Int) × List Int :=
  forLoop k
    (fun j (s : (Int × Int) × List Int) =>
      if load matrix (index + j) ≠ 1 then
        let d := load matrix (index + j)
        let tmp := Divide 1 d
        let cur_ones_count : Int :=
          forLoop k
            (fun k' c => c + _CountCauchyOnes (Multiply (load matrix (index + k')) tmp)) 0
        (if cur_ones_count < s.1.1 then (cur_ones_count, (j : Int)) else s.1, s.2 ++ [d])
      else s)
    ((min_ones_count, -1), log)

/-- The third loop nest of `_GenerateEncodeMatrix` with the log of the calls
of `Divide`. -/
def _GenerateEncodeMatrix_otherRows_calls (k m : Nat) (s : (Nat → Int) × List Int) :
    (Nat → Int) × List Int :=
  forLoop (m - 1)
    (fun i' (s : (Nat → Int) × List Int) =>
      let matrix := s.1
      let i := i' + 1
      let index : Int := i * k
      let min_ones_count : Int :=
        forLoop k (fun j c => c + _CountCauchyOnes (load matrix (index + j))) 0
      let b := _GenerateEncodeMatrix_best_calls k matrix index min_ones_count s.2
      let best_m_index := b.1.2
      if best_m_index ≠ -1 then
        let d := load matrix (index + best_m_index)
        let tmp := Divide 1 d
        (forLoop k
          (fun j matrix => store matrix (index + j) (Multiply (load matrix (index + j)) tmp))
          matrix, b.2 ++ [d])
      else (matrix, b.2))
    s

/-- `CauchyRSCoder::_GenerateEncodeMatrix` with the log of the second
arguments of all its calls `Divide(1, d)`. -/
def _GenerateEncodeMatrix_calls (k m : Nat) : (Nat → Int) × List Int :=
  _GenerateEncodeMatrix_otherRows_calls k m
    (_GenerateEncodeMatrix_firstRow_calls k m (_GenerateEncodeMatrix_cauchy_calls k m))

/-- The sum of `_CountCauchyOnes` over row `i` of a matrix with `k` columns,
as step 1 of the row improvement of `_GenerateEncodeMatrix` computes it. -/
def rowCauchyOnes (k : Nat) (M : Nat → Int) (i : Nat) : Int :=
  forLoop k (fun j c => c + _CountCauchyOnes (M (i * k + j))) 0

/-- The sum of `_CountCauchyOnes` over row `i` divided by its element `j`, as
step 2 of the row improvement of `_GenerateEncodeMatrix` computes it. -/
def candOnes (k : Nat) (M : Nat → Int) (i j : Nat) : Int :=
  forLoop k
    (fun k' c => c + _CountCauchyOnes (Multiply (M (i * k + k')) (Divide 1 (M (i * k + j))))) 0

/-- A cell of a block-row of the encoding bit matrix with the columns of the
data parts that are not there set to zero: the cell `col` of the row that
starts at `rowStart`. -/
def maskedCell (rtp : Nat → Int) (B : Nat → Nat) (rowStart col : Nat) : Nat :=
  if rtp (col / 8) ≠ ((col / 8 : Nat) : Int) then 0 else B (rowStart + col)

/-- The columns below `C` of data parts that are not there in which the row of
the encoding bit matrix that starts at `rowStart` is not zero. -/
def substTerms (rtp : Nat → Int) (B : Nat → Nat) (rowStart C : Nat) : List Nat :=
  (List.range C).filter
    (fun c => decide (rtp (c / 8) ≠ ((c / 8 : Nat) : Int)) && decide (B (rowStart + c) ≠ 0))

/-- The cell `col` of a row of the decoding bit matrix for an erased code part
after the rows of the inverse `Tinv` for the columns below `C` have been added
to it. -/
def codeRowCell (n : Nat) (rtp : Nat → Int) (B Tinv : Nat → Nat) (rowStart C col : Nat) : Nat :=
  maskedCell rtp B rowStart col
    ^^^ (substTerms rtp B rowStart C).foldl (fun acc c => acc ^^^ Tinv (c * n + col)) 0

/-- The number of erased parts among the first `n`. -/
def erasedCount (erased : Nat → Bool) (n : Nat) : Nat :=
  ((List.range n).filter (fun i => erased i)).length

/-- Forward links: following `flink` from `cur` walks through the rows of
the list in order and ends at `-1`. -/
def FwdLinked (flink : Nat → Int) : Int → List Nat → Prop
  | cur, [] => cur = -1
  | cur, a :: t => cur = (a : Int) ∧ FwdLinked flink (flink a) t

/-- Backward links: every row of the list points back to the row before it,
the first one to `prev`. -/
def BwdLinked (blink : Nat → Int) : Int → List Nat → Prop
  | _, [] => True
  | prev, a :: t => blink a = prev ∧ BwdLinked blink (a : Int) t

/-- The number of ones of row `i`, as the first loop of
`_BitMatrixToSchedule` counts it. -/
def rowOnes (k : Nat) (B : Nat → Nat) (i : Nat) : Int :=
  forLoop (k * kWordBits) (fun j c => if B (i * (k * kWordBits) + j) = 1 then c + 1 else c) 0

/-- The rating of row `i` against the emitted row `x`: one plus the sum of the
cell-wise xor of the two rows. -/
def rowRate (k : Nat) (B : Nat → Nat) (x i : Nat) : Int :=
  forLoop (k * kWordBits)
    (fun j c => c + ((B (x * k * kWordBits + j) ^^^ B (i * k * kWordBits + j) : Nat) : Int)) 1

/-- The tuples emitted for row `x` whose `from` entry is `f`. -/
def rowGroup (k : Nat) (B : Nat → Nat) (x : Nat) (f : Int) : List Tuple :=
  if f = -1 then _BitMatrixToSchedule_scratch k B x []
  else _BitMatrixToSchedule_derive k B x f []

/-- The tuples of a list of emitted rows, the row emitted last first in the
list; every row comes with its `from` entry. -/
def planOps (k : Nat) (B : Nat → Nat) : List (Nat × Int) → List Tuple
  | [] => []
  | (x, f) :: older => planOps k B older ++ rowGroup k B x f

/-- Every emitted row is either computed from scratch or derived from a row
emitted before it whose rating was below the row's count of ones. -/
def PlanOK (k : Nat) (B : Nat → Nat) : List (Nat × Int) → Prop
  | [] => True
  | (x, f) :: older =>
    (f = -1 ∨ ∃ p, p ∈ older.map Prod.fst ∧ f = (p : Int) ∧ rowRate k B p x ≤ rowOnes k B x)
      ∧ PlanOK k B older

/-- The tuple that reads sub-packet `j mod 8` of part `j div 8` for row `x`. -/
def srcTuple (k x j : Nat) (op : Int) : Tuple :=
  { op := op, src_dev := (j : Int) / kWordBits, src_bit := (j : Int) % kWordBits,
    dst_dev := (k : Int) + (x : Int) / kWordBits, dst_bit := (x : Int) % kWordBits }

/-- The tuple that copies the sub-packet of the emitted row `p` to row `x`. -/
def fromTuple (k x p : Nat) : Tuple :=
  { op := 0, src_dev := (k : Int) + (p : Int) / kWordBits, src_bit := (p : Int) % kWordBits,
    dst_dev := (k : Int) + (x : Int) / kWordBits, dst_bit := (x : Int) % kWordBits }

/-- The columns in which row `x` is not zero. -/
def scratchSrcs (k : Nat) (B : Nat → Nat) (x : Nat) : List Nat :=
  (List.range (k * kWordBits)).filter (fun j => decide (B (x * k * kWordBits + j) ≠ 0))

/-- The columns in which rows `x` and `p` differ. -/
def deriveSrcs (k : Nat) (B : Nat → Nat) (x p : Nat) : List Nat :=
  (List.range (k * kWordBits)).filter
    (fun j => decide (B (x * k * kWordBits + j) ^^^ B (p * k * kWordBits + j) ≠ 0))

/-- A copy from the first source, then an xor from each of the others. -/
def copyThenXor (k x : Nat) : List Nat → List Tuple
  | [] => []
  | j :: t => srcTuple k x j 0 :: t.map (fun j => srcTuple k x j 1)

/-- The destination of a tuple. -/
def Tuple.dst (t : Tuple) : Int × Int := (t.dst_dev, t.dst_bit)

/-- The destination sub-packet of row `x` in a schedule for `k` data parts. -/
def rowDst (k x : Nat) : Int × Int := ((k : Int) + (x : Int) / kWordBits, (x : Int) % kWordBits)

/-- The first tuple that targets a destination is a copy, every later one an xor. -/
def FirstCopy (ops : List Tuple) : Prop :=
  ∀ pre t post, ops = pre ++ t :: post →
    ((∀ u, u ∈ pre → u.dst ≠ t.dst) → t.op = 0) ∧ ((∃ u, u ∈ pre ∧ u.dst = t.dst) → t.op = 1)

/-- The xor of the bytes `g j` over the listed sources `j`. -/
def xorSrcs (g : Nat → Nat) (js : List Nat) : Nat := js.foldl (fun acc j => acc ^^^ g j) 0

/-- Byte `(b, o)` lies in sub-packet `bit` of the buffer `p` of a stripe that
starts at offset `base`. -/
def InPkt (base : Int) (p bit : Nat) (b : Nat) (o : Int) : Prop :=
  b = p ∧ base + (bit : Int) * kPacketSize ≤ o ∧ o < base + (bit : Int) * kPacketSize + kPacketSize

instance (base : Int) (p bit b : Nat) (o : Int) : Decidable (InPkt base p bit b o) := by
  unfold InPkt
  exact inferInstance

/-- The value of row `x` of the bit-matrix product at byte `rel` of a stripe
starting at `base`: the xor of the bytes `rel` of the sub-packets `j mod 8` of
the buffers `part (j div 8)` over the columns `j` where the row is not zero. -/
def rowValue (k : Nat) (B : Nat → Nat) (part : Nat → Nat) (base : Int) (mem : Shards)
    (x : Nat) (rel : Int) : Nat :=
  xorSrcs (fun j => mem (part (j / kWordBits))
    (base + ((j % kWordBits : Nat) : Int) * kPacketSize + rel)) (scratchSrcs k B x)

/-- The state after running the tuples of the emitted rows `done` on `mem`:
only the sub-packets of the emitted rows have changed, and, for a matrix of
zeros and ones, the sub-packet of every emitted row that is not zero holds the
value of the row. -/
structure PlanPost (k r : Nat) (B : Nat → Nat) (part : Nat → Nat) (base : Int)
    (mem m' : Shards) (done : List (Nat × Int)) : Prop where
  frame : ∀ b o, (∀ x, x ∈ done.map Prod.fst →
    ¬ InPkt base (part (k + x / kWordBits)) (x % kWordBits) b o) → m' b o = mem b o
  value : (∀ x j, x < r * kWordBits → j < k * kWordBits → B (x * k * kWordBits + j) ≤ 1) →
    ∀ x, x ∈ done.map Prod.fst → scratchSrcs k B x ≠ [] → ∀ rel : Int, 0 ≤ rel →
    rel < kPacketSize →
    m' (part (k + x / kWordBits)) (base + ((x % kWordBits : Nat) : Int) * kPacketSize + rel)
      = rowValue k B part base mem x rel

/-- Stripe `s` of the shard buffers: the 32768-byte slices that start at byte
`s * 32768` of every buffer, as buffers of their own. -/
def stripeOf (mem : Shards) (s : Nat) : Shards := fun b o => mem b ((s : Int) * 32768 + o)

/-- The number of rounds of the loop over `count` in `_DoScheduleOperations`. -/
def numStripes (size : Int) : Nat := ((size + 32767) / 32768).toNat

/-- The array `ptrs` at the start of round `s` of `_DoScheduleOperations`. -/
def stripePtrs (np : Nat) (ptrs : Nat → Ptr) (s : Nat) : Nat → Ptr :=
  fun d => if d < np then ⟨(ptrs d).part, (ptrs d).off + (s : Int) * 32768⟩ else ptrs d

/-- The bit `n` of a matrix element, as `_MatrixToBitMatrix` stores it. -/
def bitOf (e : Int) (n : Nat) : Nat := if Int.land e ((1 : Int) <<< (n : Int)) ≠ 0 then 1 else 0

/-- The element `a` multiplied `c` times by two in the field. -/
def mulPow (c : Nat) (a : Int) : Int := (fun e => Multiply e 2)^[c] a

/-- The cell `idx` of the bit matrix of the coding matrix `M` with `k` columns. -/
def bitMatrixCell (k : Nat) (M : Nat → Int) (idx : Nat) : Nat :=
  bitOf (mulPow (idx % (k * kWordBits) % kWordBits)
      (M (idx / (k * kWordBits) / kWordBits * k + idx % (k * kWordBits) / kWordBits)))
    (idx / (k * kWordBits) % kWordBits)

/-- The number of one bits of a byte. -/
def onesOf (e : Int) : Nat := (List.range 8).foldl (fun s n => s + bitOf e n) 0

/-- The number of ones of the `8 * 8` block of the bit matrix of the element
`a`: column `c` of the block holds the bits of `a` multiplied `c` times by two. -/
def blockOnes (a : Int) : Nat := (List.range 8).foldl (fun s c => s + onesOf (mulPow c a)) 0

/-- The body of `_CountCauchyOnes` with the static `PPs` at the value `p`. -/
def countOnesWith (p : Int) (num : Int) : Int :=
  let highbit : Int := (1 : Int) <<< ((kWordBits : Int) - 1)
  let PPs := p
  let ONEs := (_CountCauchyOnes_statics PPs).1
  let NOs := (_CountCauchyOnes_statics PPs).2
  let ones_count : Int :=
    forLoop kWordBits
      (fun i c => if Int.land num ((1 : Int) <<< (i : Int)) ≠ 0 then c + 1 else c) 0
  let cur_ones_count := ones_count
  let r : Int × Int × Int :=
    forLoop (kWordBits - 1)
      (fun _ s =>
        let num := s.1
        let cur_ones_count := s.2.1
        let ones_count := s.2.2
        if Int.land num highbit ≠ 0 then
          let num := Int.xor num highbit
          let num := num <<< (1 : Int)
          let num := Int.xor num PPs
          let cur_ones_count := cur_ones_count - 1
          let cur_ones_count :=
            forLoop NOs
              (fun j c => c + (if Int.land num (ONEs j) ≠ 0 then 1 else -1)) cur_ones_count
          (num, cur_ones_count, ones_count + cur_ones_count)
        else
          let num := num <<< (1 : Int)
          (num, cur_ones_count, ones_count + cur_ones_count))
      (num, cur_ones_count, ones_count)
  r.2.2

/-- An array operation writes the cells in `A` with their value in `final`
and leaves the other cells alone. -/
def Writes {α : Type} (f : (Nat → α) → (Nat → α)) (A : Nat → Prop) (final : Nat → α) : Prop :=
  ∀ bm, (∀ idx, A idx → f bm idx = final idx) ∧ (∀ idx, ¬ A idx → f bm idx = bm idx)

/-- Multiplication by two in the field, on the naturals below 256. -/
def xtime (e : Nat) : Nat := if 128 ≤ e then (2 * e - 256) ^^^ 29 else 2 * e

/-- The number of code parts below `n` that are not erased. -/
def goodCodeCount (k : Nat) (erased : Nat → Bool) (n : Nat) : Nat :=
  ((List.range n).filter (fun i => decide (k ≤ i) && !erased i)).length

/-- The matrix over GF(2) that the first `n * n` cells of a `char` array hold,
row by row. -/
def bitMatrix (n : Nat) (A : Nat → Nat) : Matrix (Fin n) (Fin n) (ZMod 2) :=
  Matrix.of fun i j => ((A (i.val * n + j.val) : Nat) : ZMod 2)

/-- The first `i` columns are those of an upper triangular matrix with ones on
the diagonal. -/
def Tri (n i : Nat) (M : Nat → Nat) : Prop :=
  ∀ c, c < i → M (c * n + c) = 1 ∧ ∀ r, c < r → r < n → M (r * n + c) = 0

/-- What the row operations of `_InvertBitMatrix` keep true of the working
copy and the companion, for the matrix `A` that the call started with. -/
structure GaussInv (n : Nat) (A : Nat → Nat) (s : (Nat → Nat) × (Nat → Nat)) : Prop where
  bits1 : ∀ r c, r < n → c < n → s.1 (r * n + c) ≤ 1
  bits2 : ∀ r c, r < n → c < n → s.2 (r * n + c) ≤ 1
  prod : bitMatrix n s.2 * bitMatrix n A = bitMatrix n s.1
  det : (bitMatrix n s.1).det = (bitMatrix n A).det

/-- The invariant of the pointer set-up loops of `Decode` for `k` data parts
and `m` code parts:
`i` data parts and `i2` code parts have been looked at. -/
structure SetupInv (k m : Nat) (erased : Nat → Bool) (i i2 : Nat) (s : DecodeSetup) : Prop where
  ned : s.num_erased_data_parts = erasedCount erased i
  nec : s.num_erased_code_parts + erasedCount erased k = erasedCount erased (k + i2)
  epi : s.erased_part_index = k + s.num_erased_data_parts + s.num_erased_code_parts
  good_ge : k ≤ s.good_code_part_index
  good_le : s.good_code_part_index ≤ k + m
  good_count : goodCodeCount k erased s.good_code_part_index = s.num_erased_data_parts
  intact : ∀ d, d < i → erased d = false →
    s.ptrs d = ⟨d, 0⟩ ∧ s.rowid_to_partidx d = (d : Int)
  subst : ∀ d, d < i → erased d = true → ∃ cp : Nat, k ≤ cp ∧ cp < s.good_code_part_index ∧
    erased cp = false ∧ s.ptrs d = ⟨cp, 0⟩ ∧ s.rowid_to_partidx d = (cp : Int)
  subst_mono : ∀ d d', d < d' → d' < i → erased d = true → erased d' = true →
    s.rowid_to_partidx d < s.rowid_to_partidx d'
  out_data : ∀ e, k ≤ e → e < k + s.num_erased_data_parts → ∃ d : Nat, d < i ∧ erased d = true ∧
    s.ptrs e = ⟨d, 0⟩ ∧ s.rowid_to_partidx e = (d : Int) ∧ s.partidx_to_rowid d = (e : Int)
  out_code : ∀ e, k + s.num_erased_data_parts ≤ e → e < s.erased_part_index →
    ∃ cp : Nat, k ≤ cp ∧ cp < k + i2 ∧ erased cp = true ∧
      s.ptrs e = ⟨cp, 0⟩ ∧ s.rowid_to_partidx e = (cp : Int)
  out_mono : ∀ e e', k ≤ e → e < e' → e' < s.erased_part_index →
    s.rowid_to_partidx e < s.rowid_to_partidx e'
  all_data : ∀ d, d < i → erased d = true → ∃ e, k ≤ e ∧ e < k + s.num_erased_data_parts ∧
    s.rowid_to_partidx e = (d : Int)
  all_code : ∀ cp, k ≤ cp → cp < k + i2 → erased cp = true →
    ∃ e, k + s.num_erased_data_parts ≤ e ∧ e < s.erased_part_index ∧
      s.rowid_to_partidx e = (cp : Int)

/-- What the pointer set-up loops of `Decode` keep true of `partidx_to_rowid`
and of the code parts that the search for stand-ins has passed: `i` data parts
have been looked at. -/
structure SetupInv2 (k : Nat) (erased : Nat → Bool) (i : Nat) (s : DecodeSetup) : Prop where
  inv_lo : ∀ d, d < i → load s.partidx_to_rowid (s.rowid_to_partidx d) = (d : Int)
  inv_hi : ∀ e, k ≤ e → e < s.erased_part_index →
    load s.partidx_to_rowid (s.rowid_to_partidx e) = (e : Int)
  all_subst : ∀ cp, k ≤ cp → cp < s.good_code_part_index → erased cp = false →
    ∃ d, d < i ∧ erased d = true ∧ s.rowid_to_partidx d = (cp : Int)

/-- The loop invariant of `while (top != -1)` in `_BitMatrixToSchedule`: `L`
lists the rows still linked, `done` the rows emitted so far (last first). -/
structure SchedInv (k n : Nat) (B : Nat → Nat) (s : Sched) (L : List Nat)
    (done : List (Nat × Int)) : Prop where
  fwd : FwdLinked s.flink s.top L
  bwd : BwdLinked s.blink (-1) L
  perm : (done.map Prod.fst ++ L).Perm (List.range n)
  ops : s.operations = planOps k B done
  best : L ≠ [] → ∃ b, b ∈ L ∧ s.best_row_index = (b : Int)
  diff_le : ∀ i, i ∈ L → load s.diff i ≤ rowOnes k B i
  frm_ok : ∀ i, i ∈ L → load s.frm i = -1 ∨
    ∃ p, p ∈ done.map Prod.fst ∧ load s.frm i = (p : Int) ∧ rowRate k B p i ≤ rowOnes k B i
  plan : PlanOK k B done

/-- The entry `diff[i]` of every linked row is exact: the count of ones of the
row when it has no `from` row, its rating against the `from` row otherwise. -/
def DiffExact (k : Nat) (B : Nat → Nat) (L : List Nat) (s : Sched) : Prop :=
  ∀ i, i ∈ L → (load s.frm i = -1 ∧ load s.diff i = rowOnes k B i) ∨
    ∃ p : Nat, load s.frm i = (p : Int) ∧ load s.diff i = rowRate k B p i

/-- What the re-rating loop keeps true of the rows still linked. -/
structure RateInv (k : Nat) (B : Nat → Nat) (L : List Nat) (done : List (Nat × Int))
    (s : Sched) : Prop where
  diff_le : ∀ i, i ∈ L → load s.diff i ≤ rowOnes k B i
  frm_ok : ∀ i, i ∈ L → load s.frm i = -1 ∨
    ∃ p, p ∈ done.map Prod.fst ∧ load s.frm i = (p : Int) ∧ rowRate k B p i ≤ rowOnes k B i
  best : s.best_diff ≤ (k : Int) * kWordBits → ∃ b, b ∈ L ∧ s.best_row_index = (b : Int)

end CauchyRSCoder

namespace CauchyRSCoder

/-- Bit `i` of the byte `v`, as an element of GF(2). -/
def bitZ (v i : Nat) : ZMod 2 := if v.testBit i then 1 else 0

end CauchyRSCoder

/-! ## Loops and arrays -/

theorem forLoop_zero {σ : Type} (body : Nat → σ → σ) (s : σ) : forLoop 0 body s = s := rfl

theorem forLoop_succ {σ : Type} (n : Nat) (body : Nat → σ → σ) (s : σ) :
    forLoop (n + 1) body s = body n (forLoop n body s) := by
  simp [forLoop, List.range_succ]

/-- Loop invariant rule for `forLoop`. -/
theorem forLoop_inv {σ : Type} (P : Nat → σ → Prop) (n : Nat) (body : Nat → σ → σ) (s : σ)
    (h0 : P 0 s) (hstep : ∀ i, i < n → ∀ t, P i t → P (i + 1) (body i t)) :
    P n (forLoop n body s) := by
  induction n with
  | zero => simpa [forLoop_zero] using h0
  | succ n ih =>
    rw [forLoop_succ]
    exact hstep n (Nat.lt_succ_self n) _ (ih (fun i hi t ht => hstep i (Nat.lt_succ_of_lt hi) t ht))

theorem forLoop_congr {σ : Type} (n : Nat) (f g : Nat → σ → σ) (s : σ)
    (h : ∀ i, i < n → ∀ t, f i t = g i t) : forLoop n f s = forLoop n g s := by
  induction n with
  | zero => rfl
  | succ n ih =>
    rw [forLoop_succ, forLoop_succ, h n (Nat.lt_succ_self n),
      ih (fun i hi t => h i (Nat.lt_succ_of_lt hi) t)]

theorem load_natCast {α : Type} (a : Nat → α) (i : Nat) : load a (i : Int) = a i := by
  simp [load]

theorem load_of_nonneg {α : Type} (a : Nat → α) (i : Int) (n : Nat) (h : i = n) :
    load a i = a n := by
  subst h; simp [load]

theorem store_apply {α : Type} (a : Nat → α) (i : Int) (v : α) (j : Nat) :
    store a i v j = if (j : Int) = i then v else a j := rfl

theorem store_same {α : Type} (a : Nat → α) (i : Nat) (v : α) : store a (i : Int) v i = v := by
  simp [store]

theorem store_other {α : Type} (a : Nat → α) (i : Int) (v : α) (j : Nat) (h : (j : Int) ≠ i) :
    store a i v j = a j := by
  simp [store, h]

/-- The counting loop of `Decode` counts the parts that are not erased. -/
theorem good_parts_count_eq (erased : Nat → Bool) (n : Nat) :
    forLoop n (fun i (c : Int) => if ¬ erased i then c + 1 else c) 0
      = (((List.range n).filter (fun i => !erased i)).length : Int) := by
  induction n with
  | zero => rfl
  | succ n ih =>
    rw [forLoop_succ, ih, List.range_succ, List.filter_append]
    by_cases h : erased n <;> simp [h]

/-- Erased and intact parts add up to all parts. -/
theorem erased_add_good (erased : Nat → Bool) (n : Nat) :
    ((List.range n).filter (fun i => erased i)).length
      + ((List.range n).filter (fun i => !erased i)).length = n := by
  induction n with
  | zero => rfl
  | succ n ih =>
    rw [List.range_succ, List.filter_append, List.filter_append]
    by_cases h : erased n <;> simp [h] <;> omega

namespace CauchyRSCoder

theorem good_parts_count_erasedCount (erased : Nat → Bool) (n : Nat) :
    forLoop n (fun i (c : Int) => if ¬ erased i then c + 1 else c) 0
      = (n : Int) - erasedCount erased n := by
  rw [good_parts_count_eq]
  have := erased_add_good erased n
  unfold erasedCount
  omega

theorem erasedCount_eq_zero (erased : Nat → Bool) (n : Nat)
    (h : ∀ i, i < n → erased i = false) : erasedCount erased n = 0 := by
  unfold erasedCount
  simp only [List.length_eq_zero, List.filter_eq_nil_iff, List.mem_range]
  intro i hi
  simp [h i hi]

/-- The shape of `Decode` once the parts are counted. -/
theorem Decode_unfold (c : CauchyRSCoder) (erased : Nat → Bool) (size : Int) (mem : Shards) :
    Decode c erased size mem =
      if ¬ (size > 0) then (Outcome.assertFailed, mem)
      else if c.m_num_code_parts < erasedCount erased (c.m_num_data_parts + c.m_num_code_parts)
        then (Outcome.assertFailed, mem)
      else if erasedCount erased (c.m_num_data_parts + c.m_num_code_parts) = 0
        then (Outcome.returned, mem)
      else
        match Decode_setup c erased with
        | none => (Outcome.outOfBounds, mem)
        | some s =>
          match Decode_decoding_bit_matrix c s with
          | none => (Outcome.outOfBounds, mem)
          | some decoding_bit_matrix =>
            (Outcome.returned,
              _DoScheduleOperations c
                (_BitMatrixToSchedule c.m_num_data_parts
                  (s.num_erased_data_parts + s.num_erased_code_parts) decoding_bit_matrix)
                s.ptrs size mem) := by
  dsimp only [Decode]
  rw [good_parts_count_erasedCount]
  by_cases hs : size > 0
  · simp only [hs, not_true_eq_false, if_false]
    by_cases h1 : c.m_num_code_parts
        < erasedCount erased (c.m_num_data_parts + c.m_num_code_parts)
    · have : ¬ (((c.m_num_data_parts + c.m_num_code_parts : Nat) : Int)
        - erasedCount erased (c.m_num_data_parts + c.m_num_code_parts) ≥ c.m_num_data_parts) := by
        push_cast; omega
      simp only [this, h1, not_false_eq_true, if_true]
    · have h1' : (((c.m_num_data_parts + c.m_num_code_parts : Nat) : Int)
        - erasedCount erased (c.m_num_data_parts + c.m_num_code_parts) ≥ c.m_num_data_parts) := by
        push_cast; omega
      simp only [h1', h1, not_true_eq_false, if_false]
      by_cases h2 : erasedCount erased (c.m_num_data_parts + c.m_num_code_parts) = 0
      · have : ((c.m_num_data_parts + c.m_num_code_parts : Nat) : Int)
          - erasedCount erased (c.m_num_data_parts + c.m_num_code_parts)
            = (c.m_num_data_parts : Int) + c.m_num_code_parts := by
          push_cast; omega
        rw [if_pos this, if_pos h2]
      · have : ¬ (((c.m_num_data_parts + c.m_num_code_parts : Nat) : Int)
          - erasedCount erased (c.m_num_data_parts + c.m_num_code_parts)
            = (c.m_num_data_parts : Int) + c.m_num_code_parts) := by
          push_cast; omega
        rw [if_neg this, if_neg h2]
  · simp only [hs, not_false_eq_true, if_true]

/-- The outcome of `Decode` is a failed `assert` exactly when the size is
not positive or too many parts are erased. -/
theorem Decode_assert_iff (c : CauchyRSCoder) (erased : Nat → Bool) (size : Int) (mem : Shards) :
    (Decode c erased size mem).1 = Outcome.assertFailed ↔
      (size ≤ 0 ∨ c.m_num_code_parts
        < erasedCount erased (c.m_num_data_parts + c.m_num_code_parts)) := by
  rw [Decode_unfold]
  by_cases hs : size > 0
  · simp only [hs, not_true_eq_false, if_false]
    by_cases h1 : c.m_num_code_parts
        < erasedCount erased (c.m_num_data_parts + c.m_num_code_parts)
    · simp [h1]
    · have : ¬ size ≤ 0 := by omega
      simp only [h1, if_false, this, or_self, iff_false]
      split
      · simp
      · split
        · simp
        · split <;> simp
  · simp only [hs, not_false_eq_true, if_true, true_iff]
    left; omega

/-- A failed `assert` of `Decode` leaves the shards as they were. -/
theorem Decode_assert_mem (c : CauchyRSCoder) (erased : Nat → Bool) (size : Int) (mem : Shards)
    (h : (Decode c erased size mem).1 = Outcome.assertFailed) :
    (Decode c erased size mem).2 = mem := by
  rw [Decode_unfold] at h ⊢
  split
  · rfl
  · split
    · rfl
    · split
      · rfl
      · rename_i h1 h2 h3
        simp only [h1, h2, h3, if_false] at h
        revert h
        split
        · simp
        · split <;> simp

end CauchyRSCoder

namespace CauchyRSCoder

/-! ## The doubly linked list of `_BitMatrixToSchedule` -/

theorem FwdLinked_congr (fl fl' : Nat → Int) (l : List Nat) (c : Int)
    (h : ∀ a, a ∈ l → fl' a = fl a) (hl : FwdLinked fl c l) : FwdLinked fl' c l := by
  induction l generalizing c with
  | nil => exact hl
  | cons a t ih =>
    obtain ⟨h1, h2⟩ := hl
    refine ⟨h1, ?_⟩
    rw [h a (List.mem_cons_self a t)]
    exact ih _ (fun b hb => h b (List.mem_cons_of_mem a hb)) h2

theorem BwdLinked_congr (bl bl' : Nat → Int) (l : List Nat) (p : Int)
    (h : ∀ a, a ∈ l → bl' a = bl a) (hl : BwdLinked bl p l) : BwdLinked bl' p l := by
  induction l generalizing p with
  | nil => trivial
  | cons a t ih =>
    obtain ⟨h1, h2⟩ := hl
    refine ⟨by rw [h a (List.mem_cons_self a t)]; exact h1, ?_⟩
    exact ih _ (fun b hb => h b (List.mem_cons_of_mem a hb)) h2

/-- The forward link of a listed row is `-1` or a listed row. -/
theorem FwdLinked_next (fl : Nat → Int) (l : List Nat) (c : Int) (hl : FwdLinked fl c l)
    (x : Nat) (hx : x ∈ l) : fl x = -1 ∨ ∃ b, b ∈ l ∧ fl x = (b : Int) := by
  induction l generalizing c with
  | nil => cases hx
  | cons a t ih =>
    obtain ⟨_, h2⟩ := hl
    rcases List.mem_cons.1 hx with rfl | hx
    · cases t with
      | nil => left; exact h2
      | cons b t' => right; exact ⟨b, by simp, h2.1⟩
    · rcases ih _ h2 hx with h | ⟨b, hb, h⟩
      · left; exact h
      · right; exact ⟨b, List.mem_cons_of_mem a hb, h⟩

/-- The backward link of a listed row is the start value or a listed row. -/
theorem BwdLinked_prev (bl : Nat → Int) (l : List Nat) (p : Int) (hl : BwdLinked bl p l)
    (x : Nat) (hx : x ∈ l) : bl x = p ∨ ∃ b, b ∈ l ∧ bl x = (b : Int) := by
  induction l generalizing p with
  | nil => cases hx
  | cons a t ih =>
    obtain ⟨h1, h2⟩ := hl
    rcases List.mem_cons.1 hx with rfl | hx
    · left; exact h1
    · rcases ih _ h2 hx with h | ⟨b, hb, h⟩
      · right; exact ⟨a, by simp, h⟩
      · right; exact ⟨b, List.mem_cons_of_mem a hb, h⟩

/-- Unlinking a row that is not the first of the list. -/
theorem unlink_tail (fl bl : Nat → Int) (x : Nat) (t : List Nat) (a : Nat) (p c : Int)
    (hf : FwdLinked fl c (a :: t)) (hb : BwdLinked bl p (a :: t)) (hnd : (a :: t).Nodup)
    (hx : x ∈ t) :
    (∃ q : Nat, q ∈ a :: t ∧ q ≠ x ∧ bl x = (q : Int)) ∧
    FwdLinked (store fl (bl x) (fl x)) c (a :: t.erase x) ∧
    BwdLinked (if fl x ≠ -1 then store bl (fl x) (bl x) else bl) p (a :: t.erase x) := by
  induction t generalizing a p c with
  | nil => cases hx
  | cons y t' ih =>
    obtain ⟨hc, hf2⟩ := hf
    obtain ⟨hp, hb2⟩ := hb
    have hnd2 : (y :: t').Nodup := (List.nodup_cons.1 hnd).2
    have ha : a ∉ y :: t' := (List.nodup_cons.1 hnd).1
    by_cases hxy : x = y
    · subst hxy
      obtain ⟨hfa, hf3⟩ := hf2
      obtain ⟨hbx, hb3⟩ := hb2
      have hxt : x ∉ t' := (List.nodup_cons.1 hnd2).1
      have hax : a ≠ x := fun h => ha (h ▸ List.mem_cons_self _ _)
      rw [List.erase_cons_head]
      refine ⟨⟨a, by simp, hax, hbx⟩, ⟨hc, ?_⟩, ?_, ?_⟩
      · rw [hbx, store_same]
        refine FwdLinked_congr fl _ t' _ (fun b hb => ?_) hf3
        apply store_other
        intro h
        have : b = a := by exact_mod_cast h
        exact ha (this ▸ List.mem_cons_of_mem _ hb)
      · split
        · rename_i hne
          rw [store_other]
          · exact hp
          · intro h
            rcases FwdLinked_next fl (x :: t') _ ⟨hfa, hf3⟩ x (List.mem_cons_self _ _) with h1 | ⟨b, hb, h1⟩
            · exact hne h1
            · rw [h1] at h
              have : a = b := by exact_mod_cast h
              exact ha (this ▸ hb)
        · exact hp
      · cases t' with
        | nil => trivial
        | cons z t'' =>
          obtain ⟨hfx, hf4⟩ := hf3
          obtain ⟨hbz, hb4⟩ := hb3
          have hz : z ∉ t'' := (List.nodup_cons.1 (List.nodup_cons.1 hnd2).2).1
          have hne : fl x ≠ -1 := by rw [hfx]; omega
          rw [if_pos hne, hfx, hbx]
          refine ⟨store_same _ _ _, ?_⟩
          refine BwdLinked_congr bl _ t'' _ (fun b hb => ?_) hb4
          apply store_other
          intro h
          have : b = z := by exact_mod_cast h
          exact hz (this ▸ hb)
    · have hx' : x ∈ t' := by
        rcases List.mem_cons.1 hx with h | h
        · exact absurd h hxy
        · exact h
      obtain ⟨⟨q, hq, hqx, hbq⟩, ihf, ihb⟩ := ih y a (fl a) hf2 hb2 hnd2 hx'
      have hyx : y ≠ x := fun h => hxy h.symm
      rw [List.erase_cons_tail (by simpa using hyx)]
      refine ⟨⟨q, List.mem_cons_of_mem _ hq, hqx, hbq⟩, ⟨hc, ?_⟩, ?_, ?_⟩
      · rw [store_other]
        · exact ihf
        · rw [hbq]
          intro h
          have : a = q := by exact_mod_cast h
          exact ha (this ▸ hq)
      · split
        · rename_i hne
          rw [store_other]
          · exact hp
          · intro h
            rcases FwdLinked_next fl (y :: t') _ hf2 x hx with h1 | ⟨b, hb, h1⟩
            · exact hne h1
            · rw [h1] at h
              have : a = b := by exact_mod_cast h
              exact ha (this ▸ hb)
        · exact hp
      · exact ihb

/-- `_BitMatrixToSchedule_unlink` takes a listed row out of the list and
touches nothing but the links. -/
theorem unlink_spec (s : Sched) (L : List Nat) (x : Nat)
    (hf : FwdLinked s.flink s.top L) (hb : BwdLinked s.blink (-1) L) (hnd : L.Nodup)
    (hx : x ∈ L) :
    FwdLinked (_BitMatrixToSchedule_unlink s x).flink (_BitMatrixToSchedule_unlink s x).top
        (L.erase x) ∧
      BwdLinked (_BitMatrixToSchedule_unlink s x).blink (-1) (L.erase x) ∧
      (_BitMatrixToSchedule_unlink s x).diff = s.diff ∧
      (_BitMatrixToSchedule_unlink s x).frm = s.frm ∧
      (_BitMatrixToSchedule_unlink s x).operations = s.operations := by
  cases L with
  | nil => cases hx
  | cons a t =>
    by_cases hxa : x = a
    · subst hxa
      obtain ⟨htop, hf2⟩ := hf
      obtain ⟨hbx, hb2⟩ := hb
      have hxt : x ∉ t := (List.nodup_cons.1 hnd).1
      rw [List.erase_cons_head]
      unfold _BitMatrixToSchedule_unlink
      rw [load_natCast, if_pos hbx, load_natCast]
      cases t with
      | nil =>
        have h1 : s.flink x = -1 := hf2
        rw [if_neg (by rw [h1]; simp)]
        exact ⟨h1, trivial, rfl, rfl, rfl⟩
      | cons b t' =>
        obtain ⟨hfx, hf3⟩ := hf2
        obtain ⟨hbb, hb3⟩ := hb2
        have hne : s.flink x ≠ -1 := by rw [hfx]; omega
        rw [if_pos hne]
        refine ⟨⟨hfx, hf3⟩, ⟨?_, ?_⟩, rfl, rfl, rfl⟩
        · show store s.blink (s.flink x) (-1) b = -1
          rw [hfx, store_same]
        · have hbt : b ∉ t' := (List.nodup_cons.1 (List.nodup_cons.1 hnd).2).1
          refine BwdLinked_congr s.blink _ t' _ (fun c hc => ?_) hb3
          show store s.blink (s.flink x) (-1) c = s.blink c
          apply store_other
          rw [hfx]
          intro h
          have : c = b := by exact_mod_cast h
          exact hbt (this ▸ hc)
    · have hxt : x ∈ t := by
        rcases List.mem_cons.1 hx with h | h
        · exact absurd h hxa
        · exact h
      obtain ⟨⟨q, hq, hqx, hbq⟩, h2, h3⟩ := unlink_tail s.flink s.blink x t a (-1) s.top hf hb hnd hxt
      have hax : a ≠ x := fun h => hxa h.symm
      rw [List.erase_cons_tail (by simpa using hax)]
      unfold _BitMatrixToSchedule_unlink
      have hne : ¬ (load s.blink (x : Int) = -1) := by rw [load_natCast, hbq]; omega
      rw [if_neg hne]
      simp only [load_natCast]
      have hfl : store s.flink (s.blink x) (s.flink x) x = s.flink x := by
        apply store_other
        rw [hbq]
        intro h
        exact hqx (by exact_mod_cast h.symm)
      rw [hfl]
      by_cases h1 : s.flink x ≠ -1
      · rw [if_pos h1]
        rw [if_pos h1] at h3
        exact ⟨h2, h3, rfl, rfl, rfl⟩
      · rw [if_neg h1]
        rw [if_neg h1] at h3
        exact ⟨h2, h3, rfl, rfl, rfl⟩

/-! ## Re-rating the linked rows -/

theorem rate_flink (k : Nat) (B : Nat → Nat) (x i : Int) (s : Sched) :
    (_BitMatrixToSchedule_rate k B x i s).flink = s.flink ∧
    (_BitMatrixToSchedule_rate k B x i s).blink = s.blink ∧
    (_BitMatrixToSchedule_rate k B x i s).top = s.top ∧
    (_BitMatrixToSchedule_rate k B x i s).operations = s.operations := by
  unfold _BitMatrixToSchedule_rate
  dsimp only
  split <;> split <;> exact ⟨rfl, rfl, rfl, rfl⟩

/-- With enough fuel the loop over the links visits the listed rows in order. -/
theorem scan_eq_foldl (k : Nat) (B : Nat → Nat) (x : Int) (L : List Nat) (fuel : Nat) (i : Int)
    (s : Sched) (hf : FwdLinked s.flink i L) (hfuel : L.length ≤ fuel) :
    _BitMatrixToSchedule_scan k B x fuel i s
      = L.foldl (fun s (i : Nat) => _BitMatrixToSchedule_rate k B x i s) s := by
  induction L generalizing fuel i s with
  | nil =>
    have : i = -1 := hf
    subst this
    cases fuel <;> simp [_BitMatrixToSchedule_scan]
  | cons a t ih =>
    obtain ⟨hi, hf2⟩ := hf
    subst hi
    cases fuel with
    | zero => simp at hfuel
    | succ fuel =>
      have hne : (a : Int) ≠ -1 := by omega
      simp only [_BitMatrixToSchedule_scan, ne_eq, hne, not_false_eq_true, if_true,
        List.foldl_cons]
      apply ih
      · rw [(rate_flink k B x a s).1, load_natCast]; exact hf2
      · simpa using hfuel

theorem load_row (B : Nat → Nat) (x k j : Nat) :
    load B ((x : Int) * k * kWordBits + j) = B (x * k * kWordBits + j) := by
  have h : ((x : Int) * k * kWordBits + j) = ((x * k * kWordBits + j : Nat) : Int) := by
    push_cast; rfl
  rw [h, load_natCast]

/-- `_BitMatrixToSchedule_rate` in terms of the rating of the row. -/
theorem rate_eq (k : Nat) (B : Nat → Nat) (x i : Nat) (s : Sched) :
    _BitMatrixToSchedule_rate k B x i s =
      (if s.diff i ≤ rowRate k B x i then
        (if s.diff i < s.best_diff then
          { s with best_diff := s.diff i, best_row_index := i } else s)
      else
        (if rowRate k B x i < s.best_diff then
          { s with frm := store s.frm i x, diff := store s.diff i (rowRate k B x i),
                   best_diff := rowRate k B x i, best_row_index := i }
        else { s with frm := store s.frm i x, diff := store s.diff i (rowRate k B x i) })) := by
  unfold _BitMatrixToSchedule_rate rowRate
  simp only [load_row, load_natCast]
  by_cases h : s.diff i ≤ forLoop (k * kWordBits)
      (fun j c => c + ((B (x * k * kWordBits + j) ^^^ B (i * k * kWordBits + j) : Nat) : Int)) 1
  · rw [if_pos h, if_neg (not_lt.2 h)]
  · rw [if_neg h, if_pos (not_le.1 h)]
    simp only [store_same]

theorem rowOnes_le (k : Nat) (B : Nat → Nat) (i : Nat) :
    rowOnes k B i ≤ (k : Int) * kWordBits := by
  unfold rowOnes
  have := forLoop_inv (fun (i : Nat) (c : Int) => c ≤ i) (k * kWordBits)
    (fun j c => if B (i * (k * kWordBits) + j) = 1 then c + 1 else c) 0 (by simp)
    (fun j _ c hc => by
      show (if B (i * (k * kWordBits) + j) = 1 then c + 1 else c) ≤ ((j + 1 : Nat) : Int)
      split <;> push_cast <;> omega)
  simpa using this

theorem rate_step (k : Nat) (B : Nat → Nat) (L : List Nat) (done : List (Nat × Int))
    (x a : Nat) (s : Sched) (hx : x ∈ done.map Prod.fst) (ha : a ∈ L)
    (h : RateInv k B L done s) :
    RateInv k B L done (_BitMatrixToSchedule_rate k B x a s) ∧
      (_BitMatrixToSchedule_rate k B x a s).best_diff ≤ (k : Int) * kWordBits ∧
      ((_BitMatrixToSchedule_rate k B x a s).best_diff ≤ s.best_diff) := by
  have hda := h.diff_le a ha
  have hle := rowOnes_le k B a
  rw [load_natCast] at hda
  rw [rate_eq]
  by_cases h1 : s.diff a ≤ rowRate k B x a
  · rw [if_pos h1]
    by_cases h2 : s.diff a < s.best_diff
    · rw [if_pos h2]
      refine ⟨⟨h.diff_le, h.frm_ok, fun _ => ⟨a, ha, rfl⟩⟩, ?_, ?_⟩
      · show s.diff a ≤ _
        omega
      · show s.diff a ≤ _
        omega
    · rw [if_neg h2]
      refine ⟨h, ?_, le_refl _⟩
      omega
  · rw [if_neg h1]
    have hd : ∀ i, i ∈ L → load (store s.diff (a : Int) (rowRate k B x a)) i ≤ rowOnes k B i := by
      intro i hi
      rw [load_natCast]
      by_cases hia : i = a
      · subst hia; rw [store_same]; omega
      · rw [store_other _ _ _ _ (by exact_mod_cast hia)]
        have := h.diff_le i hi
        rwa [load_natCast] at this
    have hfr : ∀ i, i ∈ L → load (store s.frm (a : Int) (x : Int)) i = -1 ∨
        ∃ p, p ∈ done.map Prod.fst ∧ load (store s.frm (a : Int) (x : Int)) i = (p : Int)
          ∧ rowRate k B p i ≤ rowOnes k B i := by
      intro i hi
      rw [load_natCast]
      by_cases hia : i = a
      · subst hia
        right
        exact ⟨x, hx, store_same _ _ _, by omega⟩
      · rw [store_other _ _ _ _ (by exact_mod_cast hia)]
        have := h.frm_ok i hi
        rwa [load_natCast] at this
    by_cases h2 : rowRate k B x a < s.best_diff
    · rw [if_pos h2]
      refine ⟨⟨hd, hfr, fun _ => ⟨a, ha, rfl⟩⟩, ?_, ?_⟩
      · show rowRate k B x a ≤ _
        omega
      · show rowRate k B x a ≤ _
        omega
    · rw [if_neg h2]
      refine ⟨⟨hd, hfr, h.best⟩, ?_, le_refl _⟩
      show s.best_diff ≤ _
      omega

theorem rate_foldl (k : Nat) (B : Nat → Nat) (L : List Nat) (done : List (Nat × Int))
    (x : Nat) (hx : x ∈ done.map Prod.fst) (l : List Nat) (hl : ∀ a, a ∈ l → a ∈ L)
    (s : Sched) (h : RateInv k B L done s)
    (hne : l ≠ [] ∨ s.best_diff ≤ (k : Int) * kWordBits) :
    RateInv k B L done (l.foldl (fun s (i : Nat) => _BitMatrixToSchedule_rate k B x i s) s) ∧
      (l.foldl (fun s (i : Nat) => _BitMatrixToSchedule_rate k B x i s) s).best_diff
        ≤ (k : Int) * kWordBits := by
  induction l generalizing s with
  | nil =>
    rcases hne with h1 | h1
    · exact absurd rfl h1
    · exact ⟨h, h1⟩
  | cons a t ih =>
    obtain ⟨h1, h2, _⟩ := rate_step k B L done x a s hx (hl a (List.mem_cons_self _ _)) h
    exact ih (fun b hb => hl b (List.mem_cons_of_mem _ hb)) _ h1 (Or.inr h2)

theorem rate_foldl_frame (k : Nat) (B : Nat → Nat) (x : Int) (l : List Nat) (s : Sched) :
    (l.foldl (fun s (i : Nat) => _BitMatrixToSchedule_rate k B x i s) s).flink = s.flink ∧
    (l.foldl (fun s (i : Nat) => _BitMatrixToSchedule_rate k B x i s) s).blink = s.blink ∧
    (l.foldl (fun s (i : Nat) => _BitMatrixToSchedule_rate k B x i s) s).top = s.top ∧
    (l.foldl (fun s (i : Nat) => _BitMatrixToSchedule_rate k B x i s) s).operations
      = s.operations := by
  induction l generalizing s with
  | nil => exact ⟨rfl, rfl, rfl, rfl⟩
  | cons a t ih =>
    simp only [List.foldl_cons]
    obtain ⟨h1, h2, h3, h4⟩ := ih (_BitMatrixToSchedule_rate k B x a s)
    obtain ⟨g1, g2, g3, g4⟩ := rate_flink k B x a s
    exact ⟨h1.trans g1, h2.trans g2, h3.trans g3, h4.trans g4⟩

/-! ## The emitted tuples -/

theorem scratch_append (k : Nat) (B : Nat → Nat) (x : Int) (ops : List Tuple) :
    _BitMatrixToSchedule_scratch k B x ops = ops ++ _BitMatrixToSchedule_scratch k B x [] := by
  unfold _BitMatrixToSchedule_scratch
  dsimp only
  generalize (0 : Int) = o
  have key : ∀ n, forLoop n
      (fun j (s : List Tuple × Int) =>
        if load B (x * ↑k * ↑kWordBits + ↑j) ≠ 0 then
          (s.1 ++ [{ op := s.2, src_dev := (j : Int) / kWordBits, src_bit := (j : Int) % kWordBits,
                     dst_dev := k + x / kWordBits, dst_bit := x % kWordBits }], 1)
        else s) (ops, o)
      = (ops ++ (forLoop n
      (fun j (s : List Tuple × Int) =>
        if load B (x * ↑k * ↑kWordBits + ↑j) ≠ 0 then
          (s.1 ++ [{ op := s.2, src_dev := (j : Int) / kWordBits, src_bit := (j : Int) % kWordBits,
                     dst_dev := k + x / kWordBits, dst_bit := x % kWordBits }], 1)
        else s) ([], o)).1, (forLoop n
      (fun j (s : List Tuple × Int) =>
        if load B (x * ↑k * ↑kWordBits + ↑j) ≠ 0 then
          (s.1 ++ [{ op := s.2, src_dev := (j : Int) / kWordBits, src_bit := (j : Int) % kWordBits,
                     dst_dev := k + x / kWordBits, dst_bit := x % kWordBits }], 1)
        else s) ([], o)).2) := by
    intro n
    induction n with
    | zero => simp [forLoop_zero]
    | succ n ih =>
      rw [forLoop_succ, forLoop_succ, ih]
      split <;> simp
  rw [key]

theorem derive_append (k : Nat) (B : Nat → Nat) (x f : Int) (ops : List Tuple) :
    _BitMatrixToSchedule_derive k B x f ops = ops ++ _BitMatrixToSchedule_derive k B x f [] := by
  unfold _BitMatrixToSchedule_derive
  dsimp only
  generalize ({ op := 0, src_dev := (k : Int) + f / kWordBits, src_bit := f % kWordBits,
                dst_dev := (k : Int) + x / kWordBits, dst_bit := x % kWordBits } : Tuple) = t0
  have key : ∀ n (pre : List Tuple), forLoop n
      (fun j (operations : List Tuple) =>
        if load B (x * ↑k * ↑kWordBits + ↑j) ^^^ load B (f * ↑k * ↑kWordBits + ↑j) ≠ 0 then
          operations ++ [{ op := 1, src_dev := (j : Int) / kWordBits, src_bit := (j : Int) % kWordBits,
                           dst_dev := k + x / kWordBits, dst_bit := x % kWordBits }]
        else operations) (ops ++ pre)
      = ops ++ forLoop n
      (fun j (operations : List Tuple) =>
        if load B (x * ↑k * ↑kWordBits + ↑j) ^^^ load B (f * ↑k * ↑kWordBits + ↑j) ≠ 0 then
          operations ++ [{ op := 1, src_dev := (j : Int) / kWordBits, src_bit := (j : Int) % kWordBits,
                           dst_dev := k + x / kWordBits, dst_bit := x % kWordBits }]
        else operations) pre := by
    intro n pre
    induction n with
    | zero => simp [forLoop_zero]
    | succ n ih =>
      rw [forLoop_succ, forLoop_succ, ih]
      split <;> simp
  simpa using key (k * kWordBits) [t0]

end CauchyRSCoder

namespace CauchyRSCoder

/-! ## The first loop of `_BitMatrixToSchedule` -/

theorem FwdLinked_range (fl : Nat → Int) (len a : Nat)
    (h1 : ∀ j, a ≤ j → j < a + len → fl j = (j : Int) + 1) (h2 : fl (a + len) = -1) :
    FwdLinked fl (a : Int) (List.range' a (len + 1)) := by
  induction len generalizing a with
  | zero => exact ⟨rfl, by simpa using h2⟩
  | succ len ih =>
    refine ⟨rfl, ?_⟩
    rw [h1 a (le_refl _) (by omega)]
    have := ih (a + 1) (fun j hj1 hj2 => h1 j (by omega) (by omega))
      (by rw [← h2]; congr 1; omega)
    simpa using this

theorem BwdLinked_range (bl : Nat → Int) (len a : Nat)
    (h1 : ∀ j, a ≤ j → j < a + len → bl j = (j : Int) - 1) :
    BwdLinked bl ((a : Int) - 1) (List.range' a len) := by
  induction len generalizing a with
  | zero => trivial
  | succ len ih =>
    refine ⟨h1 a (le_refl _) (by omega), ?_⟩
    have := ih (a + 1) (fun j hj1 hj2 => h1 j (by omega) (by omega))
    simpa using this

/-- The state after the first loop of `_BitMatrixToSchedule`. -/
theorem init_loop (k : Nat) (B : Nat → Nat) (n : Nat) :
    let s := forLoop n
      (fun i (s : Sched) =>
        let num_ones : Int :=
          forLoop (k * kWordBits)
            (fun j c => if B (i * (k * kWordBits) + j) = 1 then c + 1 else c) 0
        let s : Sched :=
          { s with
            diff := store s.diff i num_ones
            frm := store s.frm i (-1)
            flink := store s.flink i ((i : Int) + 1)
            blink := store s.blink i ((i : Int) - 1) }
        if num_ones < s.best_diff then
          { s with best_diff := num_ones, best_row_index := i }
        else s)
      { diff := fun _ => 0, frm := fun _ => 0, flink := fun _ => 0, blink := fun _ => 0,
        best_diff := (k : Int) * kWordBits + 1, best_row_index := -1,
        top := 0, operations := [] }
    (∀ j, j < n → s.diff j = rowOnes k B j ∧ s.frm j = -1 ∧ s.flink j = (j : Int) + 1
        ∧ s.blink j = (j : Int) - 1) ∧
      s.top = 0 ∧ s.operations = [] ∧
      ((n = 0 ∧ s.best_diff = (k : Int) * kWordBits + 1) ∨ ∃ b, b < n ∧ s.best_row_index = (b : Int)) := by
  intro s
  refine forLoop_inv (fun (n : Nat) (s : Sched) =>
    (∀ j, j < n → s.diff j = rowOnes k B j ∧ s.frm j = -1 ∧ s.flink j = (j : Int) + 1
        ∧ s.blink j = (j : Int) - 1) ∧
      s.top = 0 ∧ s.operations = [] ∧
      ((n = 0 ∧ s.best_diff = (k : Int) * kWordBits + 1) ∨ ∃ b, b < n ∧ s.best_row_index = (b : Int)))
    n _ _ ⟨fun j hj => absurd hj (Nat.not_lt_zero j), rfl, rfl, Or.inl ⟨rfl, rfl⟩⟩ ?_
  intro i _ t ⟨h1, h2, h3, h4⟩
  have hcells : ∀ j, j < i + 1 →
      store t.diff (i : Int) (rowOnes k B i) j = rowOnes k B j ∧ store t.frm (i : Int) (-1) j = -1
        ∧ store t.flink (i : Int) ((i : Int) + 1) j = (j : Int) + 1
        ∧ store t.blink (i : Int) ((i : Int) - 1) j = (j : Int) - 1 := by
    intro j hj
    by_cases hji : j = i
    · subst hji
      exact ⟨store_same _ _ _, store_same _ _ _, store_same _ _ _, store_same _ _ _⟩
    · have hne : (j : Int) ≠ (i : Int) := by exact_mod_cast hji
      simp only [store_other _ _ _ _ hne]
      exact h1 j (by omega)
  have hle := rowOnes_le k B i
  show (∀ j, j < i + 1 → _) ∧ _
  dsimp only
  split
  · exact ⟨hcells, h2, h3, Or.inr ⟨i, by omega, rfl⟩⟩
  · rename_i hlt
    refine ⟨hcells, h2, h3, ?_⟩
    rcases h4 with ⟨h0, hb⟩ | ⟨b, hb, hbe⟩
    · exfalso
      apply hlt
      show rowOnes k B i < t.best_diff
      omega
    · exact Or.inr ⟨b, by omega, hbe⟩

/-- The first loop of `_BitMatrixToSchedule` establishes the invariant of the
second, with every row linked and none emitted. -/
theorem init_inv (k r : Nat) (B : Nat → Nat) (hr : 0 < r) :
    SchedInv k (r * kWordBits) B (_BitMatrixToSchedule_init k r B)
      (List.range (r * kWordBits)) [] := by
  obtain ⟨h1, h2, h3, h4⟩ := init_loop k B (r * kWordBits)
  have hn : 0 < r * kWordBits := by unfold kWordBits; omega
  obtain ⟨n', hn'⟩ : ∃ n', r * kWordBits = n' + 1 := ⟨r * kWordBits - 1, by omega⟩
  have hidx : ((r : Int) * (kWordBits : Int) - 1) = (n' : Int) := by
    have : ((r * kWordBits : Nat) : Int) = ((n' + 1 : Nat) : Int) := by rw [hn']
    push_cast at this
    omega
  unfold _BitMatrixToSchedule_init
  dsimp only
  rw [hidx]
  rw [hn'] at h1 h2 h3 h4 ⊢
  constructor
  · show FwdLinked _ _ (List.range (n' + 1))
    rw [h2, List.range_eq_range']
    have := FwdLinked_range
      (store (forLoop (n' + 1) _ _ : Sched).flink (n' : Int) (-1)) n' 0
      (fun j _ hj => by
        rw [store_other _ _ _ _ (by omega)]
        exact (h1 j (by omega)).2.2.1)
      (by simp [store_same])
    simpa using this
  · show BwdLinked _ _ (List.range (n' + 1))
    rw [List.range_eq_range']
    have := BwdLinked_range (forLoop (n' + 1) _ _ : Sched).blink (n' + 1) 0
      (fun j _ hj => (h1 j (by omega)).2.2.2)
    simpa using this
  · simp
  · exact h3
  · intro _
    rcases h4 with ⟨h0, _⟩ | ⟨b, hb, hbe⟩
    · omega
    · exact ⟨b, List.mem_range.2 hb, hbe⟩
  · intro i hi
    rw [load_natCast]
    show (forLoop (n' + 1) _ _ : Sched).diff i ≤ _
    rw [(h1 i (List.mem_range.1 hi)).1]
  · intro i hi
    left
    rw [load_natCast]
    exact (h1 i (List.mem_range.1 hi)).2.1
  · trivial

/-! ## The second loop of `_BitMatrixToSchedule` -/

theorem SchedInv.nodup {k n : Nat} {B : Nat → Nat} {s : Sched} {L : List Nat}
    {done : List (Nat × Int)} (h : SchedInv k n B s L done) :
    (done.map Prod.fst ++ L).Nodup :=
  h.perm.nodup_iff.2 (List.nodup_range n)

theorem SchedInv.length_le {k n : Nat} {B : Nat → Nat} {s : Sched} {L : List Nat}
    {done : List (Nat × Int)} (h : SchedInv k n B s L done) : L.length ≤ n := by
  have := h.perm.length_eq
  simp only [List.length_append, List.length_map, List.length_range] at this
  omega

/-- Re-rating a row keeps the entries `diff` exact. -/
theorem rate_diffExact (k : Nat) (B : Nat → Nat) (L : List Nat) (x a : Nat) (s : Sched)
    (h : DiffExact k B L s) : DiffExact k B L (_BitMatrixToSchedule_rate k B x a s) := by
  have hst : DiffExact k B L
      { s with frm := store s.frm a x, diff := store s.diff a (rowRate k B x a) } := by
    intro i hi
    by_cases hia : i = a
    · subst hia
      right
      exact ⟨x, by rw [load_natCast]; exact store_same _ _ _,
        by rw [load_natCast]; exact store_same _ _ _⟩
    · have hne : (i : Int) ≠ (a : Int) := by exact_mod_cast hia
      have := h i hi
      simp only [load_natCast] at this ⊢
      show (store s.frm (a : Int) (x : Int) i = -1 ∧ store s.diff (a : Int) _ i = _) ∨
        ∃ p : Nat, store s.frm (a : Int) (x : Int) i = (p : Int) ∧ store s.diff (a : Int) _ i = _
      rw [store_other _ _ _ _ hne, store_other _ _ _ _ hne]
      exact this
  rw [rate_eq]
  split
  · split
    · exact h
    · exact h
  · split
    · exact hst
    · exact hst

theorem rate_foldl_diffExact (k : Nat) (B : Nat → Nat) (L : List Nat) (x : Nat) (l : List Nat)
    (s : Sched) (h : DiffExact k B L s) :
    DiffExact k B L (l.foldl (fun s (i : Nat) => _BitMatrixToSchedule_rate k B x i s) s) := by
  induction l generalizing s with
  | nil => exact h
  | cons a t ih => exact ih _ (rate_diffExact k B L x a s h)

/-- One round of `while (top != -1)`: the best row leaves the list with the
`from` entry it has, its tuples are appended, and the entries `diff` stay
exact. -/
theorem round_step (k r : Nat) (B : Nat → Nat) (s : Sched) (L : List Nat)
    (done : List (Nat × Int)) (h : SchedInv k (r * kWordBits) B s L done) (hL : L ≠ []) :
    ∃ x, x ∈ L ∧ s.best_row_index = (x : Int) ∧
      SchedInv k (r * kWordBits) B (_BitMatrixToSchedule_round k r B s) (L.erase x)
        ((x, load s.frm (x : Int)) :: done) ∧
      (DiffExact k B L s →
        DiffExact k B (L.erase x) (_BitMatrixToSchedule_round k r B s)) := by
  obtain ⟨x, hxL, hbest⟩ := h.best hL
  have hnd := h.nodup
  have hLnd : L.Nodup := (List.nodup_append.1 hnd).2.1
  obtain ⟨u1, u2, u3, u4, u5⟩ := unlink_spec s L x h.fwd h.bwd hLnd hxL
  refine ⟨x, hxL, hbest, ?_⟩
  have hxdone : x ∈ ((x, load s.frm (x : Int)) :: done).map Prod.fst := by simp
  have hsub : ∀ a, a ∈ L.erase x → a ∈ L := fun a ha => List.mem_of_mem_erase ha
  -- the state before the re-rating loop
  have hops : (if load (_BitMatrixToSchedule_unlink s x).frm (x : Int) = -1 then
        _BitMatrixToSchedule_scratch k B x (_BitMatrixToSchedule_unlink s x).operations
      else _BitMatrixToSchedule_derive k B x (load (_BitMatrixToSchedule_unlink s x).frm (x : Int))
        (_BitMatrixToSchedule_unlink s x).operations)
      = planOps k B ((x, load s.frm (x : Int)) :: done) := by
    rw [u4, u5, h.ops]
    show _ = planOps k B done ++ rowGroup k B x (load s.frm (x : Int))
    unfold rowGroup
    split
    · rw [scratch_append]
    · rw [derive_append]
  have hlen : (L.erase x).length ≤ r * kWordBits := by
    have := h.length_le
    have := List.length_erase_of_mem hxL
    omega
  unfold _BitMatrixToSchedule_round
  dsimp only
  rw [hbest, hops]
  generalize hs2 : Sched.mk (_BitMatrixToSchedule_unlink s x).diff
    (_BitMatrixToSchedule_unlink s x).frm (_BitMatrixToSchedule_unlink s x).flink
    (_BitMatrixToSchedule_unlink s x).blink ((k : Int) * kWordBits + 1)
    (_BitMatrixToSchedule_unlink s x).best_row_index (_BitMatrixToSchedule_unlink s x).top
    (planOps k B ((x, load s.frm (x : Int)) :: done)) = s2
  have e1 : s2.diff = s.diff := by rw [← hs2]; exact u3
  have e2 : s2.frm = s.frm := by rw [← hs2]; exact u4
  have e3 : s2.flink = (_BitMatrixToSchedule_unlink s x).flink := by rw [← hs2]
  have e4 : s2.blink = (_BitMatrixToSchedule_unlink s x).blink := by rw [← hs2]
  have e5 : s2.top = (_BitMatrixToSchedule_unlink s x).top := by rw [← hs2]
  have e6 : s2.operations = planOps k B ((x, load s.frm (x : Int)) :: done) := by rw [← hs2]
  have e7 : s2.best_diff = (k : Int) * kWordBits + 1 := by rw [← hs2]
  rw [← e3, ← e5] at u1
  rw [← e4] at u2
  have hri : RateInv k B (L.erase x) ((x, load s.frm (x : Int)) :: done) s2 := by
    refine ⟨fun i hi => ?_, fun i hi => ?_, fun hb => ?_⟩
    · rw [e1]; exact h.diff_le i (hsub i hi)
    · rw [e2]
      rcases h.frm_ok i (hsub i hi) with h1 | ⟨p, hp, h1, h2⟩
      · exact Or.inl h1
      · exact Or.inr ⟨p, List.mem_cons_of_mem _ hp, h1, h2⟩
    · exfalso
      rw [e7] at hb
      omega
  rw [← e5, scan_eq_foldl k B x (L.erase x) _ _ s2 u1 hlen]
  obtain ⟨f1, f2, f3, f4⟩ := rate_foldl_frame k B x (L.erase x) s2
  refine ⟨?_, fun hD => rate_foldl_diffExact k B (L.erase x) x (L.erase x) s2 (fun i hi => by
    have := hD i (hsub i hi)
    rw [e1, e2]
    exact this)⟩
  by_cases hne : L.erase x = []
  · rw [hne] at u1 u2 ⊢
    refine ⟨u1, u2, ?_, e6, fun h => absurd rfl h, fun i hi => (by cases hi),
      fun i hi => (by cases hi), ?_⟩
    · have hp : (done.map Prod.fst ++ L).Perm (List.range (r * kWordBits)) := h.perm
      have : L = [x] := by
        cases L with
        | nil => cases hxL
        | cons a t =>
          by_cases hxa : x = a
          · subst hxa
            rw [List.erase_cons_head] at hne
            rw [hne]
          · have hax : a ≠ x := fun h => hxa h.symm
            rw [List.erase_cons_tail (by simpa using hax)] at hne
            cases hne
      rw [this] at hp
      simp only [List.map_cons, List.append_nil]
      exact (List.perm_append_singleton x _).symm.trans hp
    · refine ⟨?_, h.plan⟩
      rcases h.frm_ok x hxL with h1 | h1
      · exact Or.inl h1
      · exact Or.inr h1
  · obtain ⟨g1, g2⟩ := rate_foldl k B (L.erase x) _ x hxdone (L.erase x) (fun a ha => ha) _ hri
      (Or.inl hne)
    refine ⟨?_, ?_, ?_, ?_, fun _ => g1.best g2, g1.diff_le, g1.frm_ok, ?_⟩
    · rw [f1, f3]; exact u1
    · rw [f2]; exact u2
    · have hp : (done.map Prod.fst ++ L).Perm (List.range (r * kWordBits)) := h.perm
      refine List.Perm.trans ?_ hp
      simp only [List.map_cons, List.cons_append]
      refine List.Perm.trans ?_ (List.Perm.append_left _ (List.perm_cons_erase hxL).symm)
      exact List.perm_middle.symm
    · rw [f4]; exact e6
    · refine ⟨?_, h.plan⟩
      rcases h.frm_ok x hxL with h1 | h1
      · exact Or.inl h1
      · exact Or.inr h1

/-- One round of `while (top != -1)`: the best row leaves the list and its
tuples are appended. -/
theorem round_inv (k r : Nat) (B : Nat → Nat) (s : Sched) (L : List Nat)
    (done : List (Nat × Int)) (h : SchedInv k (r * kWordBits) B s L done) (hL : L ≠ []) :
    ∃ x f, x ∈ L ∧
      SchedInv k (r * kWordBits) B (_BitMatrixToSchedule_round k r B s) (L.erase x)
        ((x, f) :: done) := by
  obtain ⟨x, hx, _, h2, _⟩ := round_step k r B s L done h hL
  exact ⟨x, _, hx, h2⟩

/-- With one round of fuel per linked row the loop `while (top != -1)` ends
with an empty list. -/
theorem while_inv (k r : Nat) (B : Nat → Nat) (fuel : Nat) (s : Sched) (L : List Nat)
    (done : List (Nat × Int)) (h : SchedInv k (r * kWordBits) B s L done)
    (hfuel : L.length ≤ fuel) :
    ∃ done', SchedInv k (r * kWordBits) B (_BitMatrixToSchedule_while k r B fuel s) [] done' := by
  induction fuel generalizing s L done with
  | zero =>
    have : L = [] := List.length_eq_zero.1 (by omega)
    subst this
    exact ⟨done, h⟩
  | succ fuel ih =>
    cases L with
    | nil =>
      have htop : s.top = -1 := h.fwd
      refine ⟨done, ?_⟩
      simp only [_BitMatrixToSchedule_while, htop, ne_eq, not_true_eq_false, if_false]
      exact h
    | cons a t =>
      have htop : s.top ≠ -1 := by
        have : s.top = (a : Int) := h.fwd.1
        omega
      obtain ⟨x, f, hx, h2⟩ := round_inv k r B s (a :: t) done h (by simp)
      simp only [_BitMatrixToSchedule_while, htop, ne_eq, not_false_eq_true, if_true]
      refine ih _ _ _ h2 ?_
      have := List.length_erase_of_mem hx
      simp only [List.length_cons] at hfuel this ⊢
      omega

/-- The structure of every schedule: the rows are emitted one after the other,
each exactly once, each from scratch or from a row emitted before; the loop
`while (top != -1)` has ended when the fuel is used up. -/
theorem schedule_plan (k r : Nat) (B : Nat → Nat) (hr : 0 < r) :
    ∃ done : List (Nat × Int),
      _BitMatrixToSchedule k r B = planOps k B done ++ [sentinel] ∧
      (done.map Prod.fst).Perm (List.range (r * kWordBits)) ∧ PlanOK k B done ∧
      (_BitMatrixToSchedule_while k r B (r * kWordBits)
        (_BitMatrixToSchedule_init k r B)).top = -1 := by
  obtain ⟨done, h⟩ := while_inv k r B (r * kWordBits) _ _ _ (init_inv k r B hr) (by simp)
  refine ⟨done, ?_, by simpa using h.perm, h.plan, h.fwd⟩
  unfold _BitMatrixToSchedule
  dsimp only
  rw [h.ops]

end CauchyRSCoder

namespace CauchyRSCoder

/-! ## The tuples of one row -/

theorem copyThenXor_snoc (k x : Nat) (js : List Nat) (j : Nat) :
    copyThenXor k x (js ++ [j])
      = copyThenXor k x js ++ [srcTuple k x j (if js = [] then 0 else 1)] := by
  cases js with
  | nil => rfl
  | cons a t => simp [copyThenXor]

/-- The tuples of a row computed from scratch. -/
theorem rowGroup_scratch (k : Nat) (B : Nat → Nat) (x : Nat) :
    rowGroup k B x (-1) = copyThenXor k x (scratchSrcs k B x) := by
  unfold rowGroup _BitMatrixToSchedule_scratch scratchSrcs
  rw [if_pos rfl]
  dsimp only
  have key : ∀ n, forLoop n
      (fun j (s : List Tuple × Int) =>
        if load B ((x : Int) * ↑k * ↑kWordBits + ↑j) ≠ 0 then
          (s.1 ++ [{ op := s.2, src_dev := (j : Int) / kWordBits, src_bit := (j : Int) % kWordBits,
                     dst_dev := k + (x : Int) / kWordBits, dst_bit := (x : Int) % kWordBits }], 1)
        else s) ([], 0)
      = (copyThenXor k x ((List.range n).filter (fun j => decide (B (x * k * kWordBits + j) ≠ 0))),
         if (List.range n).filter (fun j => decide (B (x * k * kWordBits + j) ≠ 0)) = []
          then 0 else 1) := by
    intro n
    induction n with
    | zero => rfl
    | succ n ih =>
      rw [forLoop_succ, ih, List.range_succ, List.filter_append, load_row]
      by_cases hB : B (x * k * kWordBits + n) ≠ 0
      · rw [if_pos hB]
        have : List.filter (fun j => decide (B (x * k * kWordBits + j) ≠ 0)) [n] = [n] := by
          simp [hB]
        rw [this, copyThenXor_snoc]
        simp [srcTuple]
      · rw [if_neg hB]
        have : List.filter (fun j => decide (B (x * k * kWordBits + j) ≠ 0)) [n] = [] := by
          simp at hB; simp [hB]
        rw [this, List.append_nil]
  rw [key]

/-- The tuples of a row derived from the emitted row `p`. -/
theorem rowGroup_derive (k : Nat) (B : Nat → Nat) (x p : Nat) :
    rowGroup k B x (p : Int)
      = fromTuple k x p :: (deriveSrcs k B x p).map (fun j => srcTuple k x j 1) := by
  unfold rowGroup _BitMatrixToSchedule_derive deriveSrcs
  rw [if_neg (by omega)]
  dsimp only
  have key : ∀ n, forLoop n
      (fun j (operations : List Tuple) =>
        if load B ((x : Int) * ↑k * ↑kWordBits + ↑j) ^^^ load B ((p : Int) * ↑k * ↑kWordBits + ↑j) ≠ 0
        then
          operations ++ [{ op := 1, src_dev := (j : Int) / kWordBits, src_bit := (j : Int) % kWordBits,
                           dst_dev := k + (x : Int) / kWordBits, dst_bit := (x : Int) % kWordBits }]
        else operations) ([] ++ [fromTuple k x p])
      = fromTuple k x p :: ((List.range n).filter
          (fun j => decide (B (x * k * kWordBits + j) ^^^ B (p * k * kWordBits + j) ≠ 0))).map
            (fun j => srcTuple k x j 1) := by
    intro n
    induction n with
    | zero => rfl
    | succ n ih =>
      rw [forLoop_succ, ih, List.range_succ, List.filter_append, load_row, load_row]
      by_cases hB : B (x * k * kWordBits + n) ^^^ B (p * k * kWordBits + n) ≠ 0
      · rw [if_pos hB]
        have : List.filter
            (fun j => decide (B (x * k * kWordBits + j) ^^^ B (p * k * kWordBits + j) ≠ 0)) [n]
              = [n] := by
          simp only [List.filter, decide_eq_true hB]
        rw [this]
        simp [srcTuple]
      · rw [if_neg hB]
        have : List.filter
            (fun j => decide (B (x * k * kWordBits + j) ^^^ B (p * k * kWordBits + j) ≠ 0)) [n]
              = [] := by
          simp only [List.filter, decide_eq_false hB]
        rw [this, List.append_nil]
  exact key (k * kWordBits)

/-- Every tuple of a row targets the sub-packet of the row; the first one is a
copy and the others are xors. -/
theorem rowGroup_shape (k : Nat) (B : Nat → Nat) (x : Nat) (f : Int)
    (hf : f = -1 ∨ ∃ p : Nat, f = (p : Int)) :
    (∀ t, t ∈ rowGroup k B x f →
        t.dst = ((k : Int) + (x : Int) / kWordBits, (x : Int) % kWordBits)) ∧
      (∀ pre t post, rowGroup k B x f = pre ++ t :: post →
        (pre = [] → t.op = 0) ∧ (pre ≠ [] → t.op = 1)) := by
  have main : ∀ (t0 : Tuple) (js : List Nat), t0.op = 0 →
      t0.dst = ((k : Int) + (x : Int) / kWordBits, (x : Int) % kWordBits) →
      (∀ t, t ∈ t0 :: js.map (fun j => srcTuple k x j 1) →
        t.dst = ((k : Int) + (x : Int) / kWordBits, (x : Int) % kWordBits)) ∧
      (∀ pre t post, t0 :: js.map (fun j => srcTuple k x j 1) = pre ++ t :: post →
        (pre = [] → t.op = 0) ∧ (pre ≠ [] → t.op = 1)) := by
    intro t0 js h0 hd
    constructor
    · intro t ht
      rcases List.mem_cons.1 ht with rfl | ht
      · exact hd
      · obtain ⟨j, _, rfl⟩ := List.mem_map.1 ht
        rfl
    · intro pre t post heq
      cases pre with
      | nil =>
        simp only [List.nil_append, List.cons.injEq] at heq
        exact ⟨fun _ => heq.1 ▸ h0, fun h => absurd rfl h⟩
      | cons a pre' =>
        simp only [List.cons_append, List.cons.injEq] at heq
        refine ⟨fun h => (by cases h), fun _ => ?_⟩
        have : t ∈ js.map (fun j => srcTuple k x j 1) := by
          rw [heq.2]; simp
        obtain ⟨j, _, rfl⟩ := List.mem_map.1 this
        rfl
  rcases hf with rfl | ⟨p, rfl⟩
  · rw [rowGroup_scratch]
    cases hs : scratchSrcs k B x with
    | nil =>
      refine ⟨fun t ht => (by cases ht), fun pre t post heq => ?_⟩
      simp [copyThenXor] at heq
    | cons j js => exact main (srcTuple k x j 0) js rfl rfl
  · rw [rowGroup_derive]
    exact main (fromTuple k x p) _ rfl rfl

/-- The fields of the tuples of a row are device and bit numbers. -/
theorem rowGroup_range (k r : Nat) (B : Nat → Nat) (x : Nat) (f : Int)
    (hx : x < r * kWordBits)
    (hf : f = -1 ∨ ∃ p : Nat, p < r * kWordBits ∧ f = (p : Int)) :
    ∀ t, t ∈ rowGroup k B x f →
      0 ≤ t.src_dev ∧ t.src_dev < (k : Int) + r ∧ 0 ≤ t.src_bit ∧ t.src_bit < 8 ∧
      (k : Int) ≤ t.dst_dev ∧ t.dst_dev < (k : Int) + r ∧ 0 ≤ t.dst_bit ∧ t.dst_bit < 8 := by
  have hsrc : ∀ j op, j < k * kWordBits →
      0 ≤ (srcTuple k x j op).src_dev ∧ (srcTuple k x j op).src_dev < (k : Int) + r ∧
      0 ≤ (srcTuple k x j op).src_bit ∧ (srcTuple k x j op).src_bit < 8 ∧
      (k : Int) ≤ (srcTuple k x j op).dst_dev ∧ (srcTuple k x j op).dst_dev < (k : Int) + r ∧
      0 ≤ (srcTuple k x j op).dst_bit ∧ (srcTuple k x j op).dst_bit < 8 := by
    intro j op hj
    unfold kWordBits at hj hx
    simp only [srcTuple, kWordBits]
    push_cast
    omega
  rcases hf with rfl | ⟨p, hp, rfl⟩
  · rw [rowGroup_scratch]
    intro t ht
    have hmem : ∀ j, j ∈ scratchSrcs k B x → j < k * kWordBits := by
      intro j hj
      exact List.mem_range.1 (List.mem_filter.1 hj).1
    cases hs : scratchSrcs k B x with
    | nil => rw [hs] at ht; cases ht
    | cons j js =>
      rw [hs] at ht hmem
      rcases List.mem_cons.1 ht with rfl | ht
      · exact hsrc j 0 (hmem j (by simp))
      · obtain ⟨j', hj', rfl⟩ := List.mem_map.1 ht
        exact hsrc j' 1 (hmem j' (List.mem_cons_of_mem _ hj'))
  · rw [rowGroup_derive]
    intro t ht
    rcases List.mem_cons.1 ht with rfl | ht
    · unfold kWordBits at hp hx
      simp only [fromTuple, kWordBits]
      push_cast
      omega
    · obtain ⟨j', hj', rfl⟩ := List.mem_map.1 ht
      exact hsrc j' 1 (List.mem_range.1 (List.mem_filter.1 hj').1)

end CauchyRSCoder

namespace CauchyRSCoder

/-! ## Well-formedness of a schedule -/

theorem rowDst_inj (k x y : Nat) (h : rowDst k x = rowDst k y) : x = y := by
  unfold rowDst kWordBits at h
  simp only [Prod.mk.injEq] at h
  omega

theorem PlanOK_entry (k : Nat) (B : Nat → Nat) (done : List (Nat × Int)) (h : PlanOK k B done)
    (x : Nat) (f : Int) (hx : (x, f) ∈ done) :
    f = -1 ∨ ∃ p, p ∈ done.map Prod.fst ∧ f = (p : Int) ∧ rowRate k B p x ≤ rowOnes k B x := by
  induction done with
  | nil => cases hx
  | cons a older ih =>
    obtain ⟨y, g⟩ := a
    obtain ⟨h1, h2⟩ := h
    rcases List.mem_cons.1 hx with heq | hx
    · simp only [Prod.mk.injEq] at heq
      obtain ⟨rfl, rfl⟩ := heq
      rcases h1 with h1 | ⟨p, hp, h1, h3⟩
      · exact Or.inl h1
      · exact Or.inr ⟨p, List.mem_cons_of_mem _ hp, h1, h3⟩
    · rcases ih h2 hx with h1 | ⟨p, hp, h1, h3⟩
      · exact Or.inl h1
      · exact Or.inr ⟨p, List.mem_cons_of_mem _ hp, h1, h3⟩

/-- The tuples of a plan target the rows of the plan, and the first tuple for
every destination is a copy. -/
theorem planOps_firstCopy (k : Nat) (B : Nat → Nat) (done : List (Nat × Int))
    (hnd : (done.map Prod.fst).Nodup) (hok : PlanOK k B done) :
    FirstCopy (planOps k B done) ∧
      ∀ t, t ∈ planOps k B done → ∃ x f, (x, f) ∈ done ∧ t ∈ rowGroup k B x f
        ∧ t.dst = rowDst k x := by
  induction done with
  | nil => exact ⟨fun pre t post h => by simp [planOps] at h, fun t ht => by cases ht⟩
  | cons a older ih =>
    obtain ⟨x, f⟩ := a
    obtain ⟨hf, hok2⟩ := hok
    have hnd2 : (older.map Prod.fst).Nodup := (List.nodup_cons.1 hnd).2
    have hx : x ∉ older.map Prod.fst := (List.nodup_cons.1 hnd).1
    obtain ⟨ih1, ih2⟩ := ih hnd2 hok2
    have hf' : f = -1 ∨ ∃ p : Nat, f = (p : Int) := by
      rcases hf with h | ⟨p, _, h, _⟩
      · exact Or.inl h
      · exact Or.inr ⟨p, h⟩
    obtain ⟨g1, g2⟩ := rowGroup_shape k B x f hf'
    have hA : ∀ u, u ∈ planOps k B older → u.dst ≠ rowDst k x := by
      intro u hu heq
      obtain ⟨y, g, hy, _, hd⟩ := ih2 u hu
      rw [hd] at heq
      have := rowDst_inj k y x heq
      subst this
      exact hx (List.mem_map.2 ⟨(y, g), hy, rfl⟩)
    have inG : ∀ a' t post, rowGroup k B x f = a' ++ t :: post →
        ((∀ u, u ∈ planOps k B older ++ a' → u.dst ≠ t.dst) → t.op = 0) ∧
        ((∃ u, u ∈ planOps k B older ++ a' ∧ u.dst = t.dst) → t.op = 1) := by
      intro a' t post hg
      have htd : t.dst = rowDst k x := g1 t (by rw [hg]; simp)
      constructor
      · intro hall
        apply (g2 a' t post hg).1
        cases a' with
        | nil => rfl
        | cons v a'' =>
          exfalso
          apply hall v (by simp)
          rw [htd]
          exact g1 v (by rw [hg]; simp)
      · rintro ⟨u, hu, hud⟩
        apply (g2 a' t post hg).2
        rintro rfl
        rw [List.append_nil] at hu
        exact hA u hu (hud.trans htd)
    constructor
    · intro pre t post heq
      show ((∀ u, u ∈ pre → u.dst ≠ t.dst) → t.op = 0) ∧ _
      change planOps k B older ++ rowGroup k B x f = pre ++ t :: post at heq
      rcases List.append_eq_append_iff.1 heq with ⟨a', hpre, hg⟩ | ⟨c', hA', hc⟩
      · rw [hpre]
        exact inG a' t post hg
      · cases c' with
        | nil =>
          rw [List.append_nil] at hA'
          rw [List.nil_append] at hc
          have := inG [] t post hc.symm
          rw [List.append_nil] at this
          rw [← hA']
          exact this
        | cons v c'' =>
          simp only [List.cons_append, List.cons.injEq] at hc
          obtain ⟨rfl, _⟩ := hc
          exact ih1 pre t c'' hA'
    · intro t ht
      change t ∈ planOps k B older ++ rowGroup k B x f at ht
      rcases List.mem_append.1 ht with ht | ht
      · obtain ⟨y, g, hy, h1, h2⟩ := ih2 t ht
        exact ⟨y, g, List.mem_cons_of_mem _ hy, h1, h2⟩
      · exact ⟨x, f, List.mem_cons_self _ _, ht, g1 t ht⟩

/-- What `_BitMatrixToSchedule` returns for `r > 0` rows of parts: the tuples
of a plan that emits each of the `r * 8` rows once, then the sentinel; all
fields are device and bit numbers, destinations are code devices, and the
first tuple for every destination is a copy. -/
theorem schedule_wellformed (k r : Nat) (B : Nat → Nat) (hr : 0 < r) :
    ∃ done : List (Nat × Int),
      _BitMatrixToSchedule k r B = planOps k B done ++ [sentinel] ∧
      (done.map Prod.fst).Perm (List.range (r * kWordBits)) ∧ PlanOK k B done ∧
      FirstCopy (planOps k B done) ∧
      (∀ t, t ∈ planOps k B done →
        0 ≤ t.src_dev ∧ t.src_dev < (k : Int) + r ∧ 0 ≤ t.src_bit ∧ t.src_bit < 8 ∧
        (k : Int) ≤ t.dst_dev ∧ t.dst_dev < (k : Int) + r ∧ 0 ≤ t.dst_bit ∧ t.dst_bit < 8) := by
  obtain ⟨done, h1, h2, h3, _⟩ := schedule_plan k r B hr
  have hnd : (done.map Prod.fst).Nodup := h2.nodup_iff.2 (List.nodup_range _)
  obtain ⟨h4, h5⟩ := planOps_firstCopy k B done hnd h3
  refine ⟨done, h1, h2, h3, h4, fun t ht => ?_⟩
  obtain ⟨x, f, hxf, htg, _⟩ := h5 t ht
  have hx : x < r * kWordBits :=
    List.mem_range.1 (h2.subset (List.mem_map.2 ⟨(x, f), hxf, rfl⟩))
  refine rowGroup_range k r B x f hx ?_ t htg
  rcases PlanOK_entry k B done h3 x f hxf with h | ⟨p, hp, h, _⟩
  · exact Or.inl h
  · exact Or.inr ⟨p, List.mem_range.1 (h2.subset hp), h⟩

end CauchyRSCoder

namespace CauchyRSCoder

/-! ## Running the tuples of one stripe -/

/-- The tuples before the sentinel are run in order. -/
theorem stripe_append (ptrs : Nat → Ptr) (ops rest : List Tuple) (mem : Shards)
    (h : ∀ t, t ∈ ops → 0 ≤ t.src_dev) :
    _DoScheduleOperations_stripe ptrs (ops ++ rest) mem
      = _DoScheduleOperations_stripe ptrs rest
          (ops.foldl (fun m t => _DoScheduleOperations_op ptrs t m) mem) := by
  induction ops generalizing mem with
  | nil => rfl
  | cons t ops ih =>
    have ht : t.src_dev ≥ 0 := h t (List.mem_cons_self _ _)
    simp only [List.cons_append, _DoScheduleOperations_stripe, ht, if_true, List.foldl_cons]
    exact ih _ (fun u hu => h u (List.mem_cons_of_mem _ hu))

theorem stripe_sentinel (ptrs : Nat → Ptr) (ops : List Tuple) (mem : Shards)
    (h : ∀ t, t ∈ ops → 0 ≤ t.src_dev) :
    _DoScheduleOperations_stripe ptrs (ops ++ [sentinel]) mem
      = ops.foldl (fun m t => _DoScheduleOperations_op ptrs t m) mem := by
  rw [stripe_append ptrs ops _ mem h]
  simp [_DoScheduleOperations_stripe, sentinel]

/-- One tuple: the destination sub-packet receives the source sub-packet,
copied or xor-ed in; no other byte changes. -/
theorem op_apply (ptrs : Nat → Ptr) (t : Tuple) (mem : Shards) (sd sb dd db : Nat)
    (ps pd : Nat) (base : Int)
    (h1 : t.src_dev = (sd : Int)) (h2 : t.src_bit = (sb : Int)) (h3 : t.dst_dev = (dd : Int))
    (h4 : t.dst_bit = (db : Int)) (hs : ptrs sd = ⟨ps, base⟩) (hd : ptrs dd = ⟨pd, base⟩)
    (b : Nat) (o : Int) :
    _DoScheduleOperations_op ptrs t mem b o =
      if InPkt base pd db b o then
        (if t.op ≠ 0 then
          mem ps (o + ((sb : Int) - db) * kPacketSize) ^^^ mem pd o
        else mem ps (o + ((sb : Int) - db) * kPacketSize))
      else mem b o := by
  unfold _DoScheduleOperations_op InPkt
  rw [h1, h2, h3, h4, load_natCast, load_natCast, hs, hd]
  dsimp only
  have e1 : base + (sb : Int) * kPacketSize + (o - (base + (db : Int) * kPacketSize))
      = o + ((sb : Int) - db) * kPacketSize := by ring
  have e2 : base + (db : Int) * kPacketSize + (o - (base + (db : Int) * kPacketSize)) = o := by
    ring
  by_cases hop : t.op ≠ 0
  · rw [if_pos hop, if_pos hop]
    unfold MemXor
    dsimp only
    rw [e1, e2]
  · rw [if_neg hop, if_neg hop]
    unfold memcpy
    dsimp only
    rw [e1]

theorem xorSrcs_snoc (g : Nat → Nat) (js : List Nat) (j : Nat) :
    xorSrcs g (js ++ [j]) = xorSrcs g js ^^^ g j := by
  simp [xorSrcs, List.foldl_append]

theorem xorSrcs_nil (g : Nat → Nat) : xorSrcs g [] = 0 := rfl

theorem foldl_xor_start (g : Nat → Nat) (js : List Nat) (v : Nat) :
    js.foldl (fun acc j => acc ^^^ g j) v = v ^^^ xorSrcs g js := by
  induction js generalizing v with
  | nil => simp [xorSrcs]
  | cons j js ih =>
    simp only [List.foldl_cons, xorSrcs]
    rw [ih, ih (0 ^^^ g j), Nat.zero_xor, Nat.xor_assoc]

theorem xorSrcs_congr (g g' : Nat → Nat) (js : List Nat) (h : ∀ j, j ∈ js → g j = g' j) :
    xorSrcs g js = xorSrcs g' js := by
  induction js using List.reverseRecOn with
  | nil => rfl
  | append_singleton js j ih =>
    rw [xorSrcs_snoc, xorSrcs_snoc, ih (fun j' hj' => h j' (by simp [hj'])), h j (by simp)]

theorem src_lt_np (k x j np : Nat) (hj : j / kWordBits < k) (hx : k + x / kWordBits < np) :
    j / kWordBits < np := by
  unfold kWordBits at *
  omega

theorem src_ne_dst (k x j : Nat) (hj : j / kWordBits < k) : j / kWordBits ≠ k + x / kWordBits := by
  unfold kWordBits at *
  omega

/-- A run of xor tuples for row `x` from the data sources `js`. -/
theorem xor_run (k : Nat) (ptrs : Nat → Ptr) (part : Nat → Nat) (base : Int) (np : Nat)
    (hp : ∀ d, d < np → ptrs d = ⟨part d, base⟩)
    (hinj : ∀ d e, d < np → e < np → part d = part e → d = e)
    (x : Nat) (hx : k + x / kWordBits < np) (js : List Nat)
    (hjs : ∀ j, j ∈ js → j / kWordBits < k) (mem : Shards) (b : Nat) (o : Int) :
    (js.map (fun j => srcTuple k x j 1)).foldl (fun m t => _DoScheduleOperations_op ptrs t m) mem b o
      = if InPkt base (part (k + x / kWordBits)) (x % kWordBits) b o then
          mem b o ^^^ xorSrcs (fun j => mem (part (j / kWordBits))
            (o + (((j % kWordBits : Nat) : Int) - ((x % kWordBits : Nat) : Int)) * kPacketSize)) js
        else mem b o := by
  induction js generalizing mem b o with
  | nil => simp [xorSrcs]
  | cons j js ih =>
    simp only [List.map_cons, List.foldl_cons]
    rw [ih (fun j' hj' => hjs j' (List.mem_cons_of_mem _ hj'))]
    have hj := hjs j (List.mem_cons_self _ _)
    have hop : ∀ b' o', _DoScheduleOperations_op ptrs (srcTuple k x j 1) mem b' o' =
        if InPkt base (part (k + x / kWordBits)) (x % kWordBits) b' o' then
          mem (part (j / kWordBits))
            (o' + (((j % kWordBits : Nat) : Int) - ((x % kWordBits : Nat) : Int)) * kPacketSize)
            ^^^ mem (part (k + x / kWordBits)) o'
        else mem b' o' := by
      intro b' o'
      rw [op_apply ptrs (srcTuple k x j 1) mem (j / kWordBits) (j % kWordBits)
        (k + x / kWordBits) (x % kWordBits) (part (j / kWordBits)) (part (k + x / kWordBits)) base
        (by simp [srcTuple]) (by simp [srcTuple]) (by simp [srcTuple]) (by simp [srcTuple])
        (hp _ (src_lt_np k x j np hj hx)) (hp _ hx)]
      simp [srcTuple]
    have hsrc : ∀ j', j' / kWordBits < k → ∀ o',
        _DoScheduleOperations_op ptrs (srcTuple k x j 1) mem (part (j' / kWordBits)) o'
          = mem (part (j' / kWordBits)) o' := by
      intro j' hj' o'
      rw [hop, if_neg]
      rintro ⟨h, _⟩
      exact src_ne_dst k x j' hj' (hinj _ _ (src_lt_np k x j' np hj' hx) hx h)
    by_cases hin : InPkt base (part (k + x / kWordBits)) (x % kWordBits) b o
    · rw [if_pos hin, if_pos hin, hop, if_pos hin]
      have hb : b = part (k + x / kWordBits) := hin.1
      subst hb
      simp only [xorSrcs, List.foldl_cons, Nat.zero_xor]
      rw [foldl_xor_start _ _ (mem (part (j / kWordBits)) _)]
      have : ∀ (A C D E : Nat) (h : D = E), (A ^^^ C) ^^^ D = C ^^^ (A ^^^ E) := by
        intro A C D E h
        subst h
        rw [Nat.xor_comm A C, Nat.xor_assoc]
      apply this
      apply xorSrcs_congr
      intro j' hj'
      exact hsrc j' (hjs j' (List.mem_cons_of_mem _ hj')) _
    · rw [if_neg hin, if_neg hin, hop, if_neg hin]

end CauchyRSCoder

namespace CauchyRSCoder

/-! ## Running the tuples of one row -/

theorem xorSrcs_cons (g : Nat → Nat) (j : Nat) (js : List Nat) :
    xorSrcs g (j :: js) = g j ^^^ xorSrcs g js := by
  simp only [xorSrcs, List.foldl_cons, Nat.zero_xor]
  rw [foldl_xor_start]
  rfl

theorem not_inPkt_src (k x j np : Nat) (part : Nat → Nat) (base : Int)
    (hinj : ∀ d e, d < np → e < np → part d = part e → d = e)
    (hj : j / kWordBits < k) (hx : k + x / kWordBits < np) (bit : Nat) (o : Int) :
    ¬ InPkt base (part (k + x / kWordBits)) bit (part (j / kWordBits)) o := by
  rintro ⟨h, _⟩
  exact src_ne_dst k x j hj (hinj _ _ (src_lt_np k x j np hj hx) hx h)

/-- Running the tuples of one row: nothing outside the sub-packet of the row
changes; a row from scratch receives the xor of its sources, a derived row
the sub-packet of its `from` row xor-ed with the sources where they differ. -/
theorem rowGroup_exec (k : Nat) (B : Nat → Nat) (ptrs : Nat → Ptr) (part : Nat → Nat)
    (base : Int) (np : Nat)
    (hp : ∀ d, d < np → ptrs d = ⟨part d, base⟩)
    (hinj : ∀ d e, d < np → e < np → part d = part e → d = e)
    (x : Nat) (hx : k + x / kWordBits < np) (mem : Shards) :
    (∀ b o, (rowGroup k B x (-1)).foldl (fun m t => _DoScheduleOperations_op ptrs t m) mem b o
      = if scratchSrcs k B x ≠ [] ∧ InPkt base (part (k + x / kWordBits)) (x % kWordBits) b o then
          xorSrcs (fun j => mem (part (j / kWordBits))
            (o + (((j % kWordBits : Nat) : Int) - ((x % kWordBits : Nat) : Int)) * kPacketSize))
            (scratchSrcs k B x)
        else mem b o) ∧
    (∀ p : Nat, k + p / kWordBits < np → ∀ b o,
      (rowGroup k B x (p : Int)).foldl (fun m t => _DoScheduleOperations_op ptrs t m) mem b o
      = if InPkt base (part (k + x / kWordBits)) (x % kWordBits) b o then
          mem (part (k + p / kWordBits))
              (o + (((p % kWordBits : Nat) : Int) - ((x % kWordBits : Nat) : Int)) * kPacketSize)
            ^^^ xorSrcs (fun j => mem (part (j / kWordBits))
              (o + (((j % kWordBits : Nat) : Int) - ((x % kWordBits : Nat) : Int)) * kPacketSize))
              (deriveSrcs k B x p)
        else mem b o) := by
  have hsrcs : ∀ j, j ∈ List.range (k * kWordBits) → j / kWordBits < k := by
    intro j hj
    have := List.mem_range.1 hj
    unfold kWordBits at *
    omega
  constructor
  · intro b o
    rw [rowGroup_scratch]
    have hjs : ∀ j, j ∈ scratchSrcs k B x → j / kWordBits < k :=
      fun j hj => hsrcs j (List.mem_filter.1 hj).1
    cases hs : scratchSrcs k B x with
    | nil => simp [copyThenXor]
    | cons j0 js =>
      rw [hs] at hjs
      simp only [copyThenXor, List.foldl_cons]
      rw [xor_run k ptrs part base np hp hinj x hx js
        (fun j hj => hjs j (List.mem_cons_of_mem _ hj))]
      have hj0 := hjs j0 (List.mem_cons_self _ _)
      have hop : ∀ b' o', _DoScheduleOperations_op ptrs (srcTuple k x j0 0) mem b' o' =
          if InPkt base (part (k + x / kWordBits)) (x % kWordBits) b' o' then
            mem (part (j0 / kWordBits))
              (o' + (((j0 % kWordBits : Nat) : Int) - ((x % kWordBits : Nat) : Int)) * kPacketSize)
          else mem b' o' := by
        intro b' o'
        rw [op_apply ptrs (srcTuple k x j0 0) mem (j0 / kWordBits) (j0 % kWordBits)
          (k + x / kWordBits) (x % kWordBits) (part (j0 / kWordBits)) (part (k + x / kWordBits))
          base (by simp [srcTuple]) (by simp [srcTuple]) (by simp [srcTuple])
          (by simp [srcTuple]) (hp _ (src_lt_np k x j0 np hj0 hx)) (hp _ hx)]
        simp [srcTuple]
      by_cases hin : InPkt base (part (k + x / kWordBits)) (x % kWordBits) b o
      · rw [if_pos hin, if_pos ⟨by simp, hin⟩, hop, if_pos hin, xorSrcs_cons]
        congr 1
        apply xorSrcs_congr
        intro j hj
        rw [hop, if_neg (not_inPkt_src k x j np part base hinj
          (hjs j (List.mem_cons_of_mem _ hj)) hx _ _)]
      · rw [if_neg hin, if_neg (fun h => hin h.2), hop, if_neg hin]
  · intro p hpn b o
    rw [rowGroup_derive]
    have hjs : ∀ j, j ∈ deriveSrcs k B x p → j / kWordBits < k :=
      fun j hj => hsrcs j (List.mem_filter.1 hj).1
    simp only [List.foldl_cons]
    rw [xor_run k ptrs part base np hp hinj x hx _ hjs]
    have hop : ∀ b' o', _DoScheduleOperations_op ptrs (fromTuple k x p) mem b' o' =
        if InPkt base (part (k + x / kWordBits)) (x % kWordBits) b' o' then
          mem (part (k + p / kWordBits))
            (o' + (((p % kWordBits : Nat) : Int) - ((x % kWordBits : Nat) : Int)) * kPacketSize)
        else mem b' o' := by
      intro b' o'
      rw [op_apply ptrs (fromTuple k x p) mem (k + p / kWordBits) (p % kWordBits)
        (k + x / kWordBits) (x % kWordBits) (part (k + p / kWordBits)) (part (k + x / kWordBits))
        base (by simp [fromTuple]) (by simp [fromTuple]) (by simp [fromTuple])
        (by simp [fromTuple]) (hp _ hpn) (hp _ hx)]
      simp [fromTuple]
    by_cases hin : InPkt base (part (k + x / kWordBits)) (x % kWordBits) b o
    · rw [if_pos hin, if_pos hin, hop, if_pos hin]
      congr 1
      apply xorSrcs_congr
      intro j hj
      rw [hop, if_neg (not_inPkt_src k x j np part base hinj (hjs j hj) hx _ _)]
    · rw [if_neg hin, if_neg hin, hop, if_neg hin]

/-! ## The xor of two rows -/

/-- For rows of zeros and ones: the columns of row `a`, xor-ed with the
columns where `a` and `b` differ, are the columns of row `b`. -/
theorem xorSrcs_derive (g : Nat → Nat) (a b : Nat → Nat) (n : Nat)
    (ha : ∀ j, j < n → a j ≤ 1) (hb : ∀ j, j < n → b j ≤ 1) :
    xorSrcs g ((List.range n).filter (fun j => decide (a j ≠ 0)))
        ^^^ xorSrcs g ((List.range n).filter (fun j => decide (b j ^^^ a j ≠ 0)))
      = xorSrcs g ((List.range n).filter (fun j => decide (b j ≠ 0))) := by
  induction n with
  | zero => simp [xorSrcs]
  | succ n ih =>
    have ih := ih (fun j hj => ha j (by omega)) (fun j hj => hb j (by omega))
    simp only [List.range_succ, List.filter_append]
    have han := ha n (by omega)
    have hbn := hb n (by omega)
    have ha' : a n = 0 ∨ a n = 1 := by omega
    have hb' : b n = 0 ∨ b n = 1 := by omega
    rcases ha' with h1 | h1 <;> rcases hb' with h2 | h2
    · simp only [List.filter, h1, h2]
      simpa using ih
    · simp only [List.filter, h1, h2]
      simp only [ne_eq, not_true_eq_false, decide_False, Nat.xor_zero, one_ne_zero,
        not_false_eq_true, decide_True, List.append_nil, xorSrcs_snoc]
      rw [← ih, Nat.xor_assoc]
    · simp only [List.filter, h1, h2]
      simp only [ne_eq, one_ne_zero, not_false_eq_true, decide_True, Nat.zero_xor,
        not_true_eq_false, decide_False, List.append_nil, xorSrcs_snoc]
      rw [← ih]
      have : ∀ A D G : Nat, (A ^^^ G) ^^^ (D ^^^ G) = A ^^^ D := by
        intro A D G
        rw [Nat.xor_assoc, Nat.xor_comm D G, ← Nat.xor_assoc G, Nat.xor_self, Nat.zero_xor]
      exact this _ _ _
    · simp only [List.filter, h1, h2]
      simp only [ne_eq, one_ne_zero, not_false_eq_true, decide_True, Nat.xor_self,
        not_true_eq_false, decide_False, List.append_nil, xorSrcs_snoc]
      rw [← ih]
      have : ∀ A D G : Nat, (A ^^^ G) ^^^ D = (A ^^^ D) ^^^ G := by
        intro A D G
        rw [Nat.xor_assoc, Nat.xor_comm G D, ← Nat.xor_assoc]
      exact this _ _ _

end CauchyRSCoder

namespace CauchyRSCoder

/-! ## Rows that are zero are never used as a source -/

theorem rowRate_pos (k : Nat) (B : Nat → Nat) (p x : Nat) : 1 ≤ rowRate k B p x := by
  unfold rowRate
  refine forLoop_inv (fun _ (c : Int) => 1 ≤ c) _ _ _ (le_refl _) ?_
  intro j _ c hc
  show 1 ≤ c + _
  have : (0 : Int) ≤ ((B (p * k * kWordBits + j) ^^^ B (x * k * kWordBits + j) : Nat) : Int) :=
    Int.natCast_nonneg _
  omega

theorem rowOnes_eq_zero (k : Nat) (B : Nat → Nat) (x : Nat)
    (h : ∀ j, j < k * kWordBits → B (x * k * kWordBits + j) = 0) : rowOnes k B x = 0 := by
  unfold rowOnes
  refine forLoop_inv (fun _ (c : Int) => c = 0) _ _ _ rfl ?_
  intro j hj c hc
  have := h j hj
  rw [Nat.mul_assoc] at this
  show (if B (x * (k * kWordBits) + j) = 1 then c + 1 else c) = 0
  rw [this, if_neg (by omega)]
  exact hc

theorem rowOnes_lt_rowRate (k : Nat) (B : Nat → Nat) (p x : Nat)
    (h : ∀ j, j < k * kWordBits → B (p * k * kWordBits + j) = 0) :
    rowOnes k B x < rowRate k B p x := by
  unfold rowOnes rowRate
  simp only [← Nat.mul_assoc]
  have key : ∀ n, n ≤ k * kWordBits →
      forLoop n (fun j (c : Int) => if B (x * k * kWordBits + j) = 1 then c + 1 else c) 0
        < forLoop n (fun j (c : Int) =>
            c + ((B (p * k * kWordBits + j) ^^^ B (x * k * kWordBits + j) : Nat) : Int)) 1 := by
    intro n hn
    induction n with
    | zero => simp [forLoop_zero]
    | succ n ih =>
      rw [forLoop_succ, forLoop_succ]
      have ih := ih (by omega)
      rw [h n (by omega), Nat.zero_xor]
      split
      · rename_i h1
        rw [h1]
        push_cast
        omega
      · have : (0 : Int) ≤ ((B (x * k * kWordBits + n) : Nat) : Int) := Int.natCast_nonneg _
        omega
  exact key _ (le_refl _)

theorem scratchSrcs_eq_nil (k : Nat) (B : Nat → Nat) (x : Nat) (h : scratchSrcs k B x = []) :
    ∀ j, j < k * kWordBits → B (x * k * kWordBits + j) = 0 := by
  intro j hj
  unfold scratchSrcs at h
  rw [List.filter_eq_nil_iff] at h
  have := h j (List.mem_range.2 hj)
  simpa using this

/-- A row that is rated below its count of ones against row `p` is not zero,
and neither is row `p`. -/
theorem rated_rows_nonzero (k : Nat) (B : Nat → Nat) (p x : Nat)
    (h : rowRate k B p x ≤ rowOnes k B x) :
    scratchSrcs k B x ≠ [] ∧ scratchSrcs k B p ≠ [] := by
  constructor
  · intro hx
    have h1 := rowOnes_eq_zero k B x (scratchSrcs_eq_nil k B x hx)
    have h2 := rowRate_pos k B p x
    omega
  · intro hp
    have := rowOnes_lt_rowRate k B p x (scratchSrcs_eq_nil k B p hp)
    omega

/-! ## Running the tuples of a plan -/

theorem row_lt_np (k r x np : Nat) (hx : x < r * kWordBits) (hnp : k + r ≤ np) :
    k + x / kWordBits < np := by
  unfold kWordBits at *
  omega

theorem inPkt_self (base : Int) (p bit : Nat) (rel : Int) (h0 : 0 ≤ rel)
    (h1 : rel < kPacketSize) :
    InPkt base p bit p (base + (bit : Int) * kPacketSize + rel) :=
  ⟨rfl, by omega, by omega⟩

/-- The sub-packets of two different rows do not overlap. -/
theorem pkt_disjoint (k x y np : Nat) (part : Nat → Nat) (base : Int)
    (hinj : ∀ d e, d < np → e < np → part d = part e → d = e)
    (hx : k + x / kWordBits < np) (hy : k + y / kWordBits < np) (hxy : x ≠ y)
    (rel : Int) (h0 : 0 ≤ rel) (h1 : rel < kPacketSize) :
    ¬ InPkt base (part (k + x / kWordBits)) (x % kWordBits) (part (k + y / kWordBits))
        (base + ((y % kWordBits : Nat) : Int) * kPacketSize + rel) := by
  rintro ⟨h, h2, h3⟩
  have := hinj _ _ hy hx h
  unfold kWordBits kPacketSize at *
  push_cast at h2 h3 h1
  omega

/-- Running the tuples of the emitted rows `done` of a matrix of zeros and
ones: every row that is not zero holds its value afterwards. -/
theorem exec_plan (k r : Nat) (B : Nat → Nat) (ptrs : Nat → Ptr) (part : Nat → Nat)
    (base : Int) (np : Nat)
    (hp : ∀ d, d < np → ptrs d = ⟨part d, base⟩)
    (hinj : ∀ d e, d < np → e < np → part d = part e → d = e)
    (hnp : k + r ≤ np)
    (done : List (Nat × Int)) (hnd : (done.map Prod.fst).Nodup)
    (hlt : ∀ x, x ∈ done.map Prod.fst → x < r * kWordBits) (hok : PlanOK k B done)
    (mem : Shards) :
    PlanPost k r B part base mem
      ((planOps k B done).foldl (fun m t => _DoScheduleOperations_op ptrs t m) mem) done := by
  induction done with
  | nil =>
    exact ⟨fun b o _ => rfl, fun _ x hx => by cases hx⟩
  | cons a older ih =>
    obtain ⟨x, f⟩ := a
    obtain ⟨hf, hok2⟩ := hok
    have hnd2 : (older.map Prod.fst).Nodup := (List.nodup_cons.1 hnd).2
    have hxo : x ∉ older.map Prod.fst := (List.nodup_cons.1 hnd).1
    have hlt2 : ∀ y, y ∈ older.map Prod.fst → y < r * kWordBits :=
      fun y hy => hlt y (List.mem_cons_of_mem _ hy)
    have hxr : x < r * kWordBits := hlt x (List.mem_cons_self _ _)
    have hx : k + x / kWordBits < np := row_lt_np k r x np hxr hnp
    have ih := ih hnd2 hlt2 hok2
    show PlanPost k r B part base mem
      ((planOps k B older ++ rowGroup k B x f).foldl _ mem) _
    rw [List.foldl_append]
    generalize (planOps k B older).foldl (fun m t => _DoScheduleOperations_op ptrs t m) mem
      = m'' at ih ⊢
    obtain ⟨gS, gD⟩ := rowGroup_exec k B ptrs part base np hp hinj x hx m''
    -- bytes outside the sub-packet of row `x` keep their value
    have hout : ∀ b o, ¬ InPkt base (part (k + x / kWordBits)) (x % kWordBits) b o →
        (rowGroup k B x f).foldl (fun m t => _DoScheduleOperations_op ptrs t m) m'' b o
          = m'' b o := by
      intro b o hno
      rcases hf with rfl | ⟨p, hpo, rfl, _⟩
      · rw [gS, if_neg (fun h => hno h.2)]
      · rw [gD p (row_lt_np k r p np (hlt2 p hpo) hnp), if_neg hno]
    -- the data bytes are those of the start
    have hdata : ∀ j, j / kWordBits < k → ∀ o, m'' (part (j / kWordBits)) o
        = mem (part (j / kWordBits)) o := by
      intro j hj o
      apply ih.frame
      intro y hy
      exact not_inPkt_src k y j np part base hinj hj (row_lt_np k r y np (hlt2 y hy) hnp) _ _
    have hsrcs : ∀ j, j ∈ List.range (k * kWordBits) → j / kWordBits < k := by
      intro j hj
      have := List.mem_range.1 hj
      unfold kWordBits at *
      omega
    constructor
    · intro b o hno
      rw [hout b o (hno x (List.mem_cons_self _ _))]
      exact ih.frame b o (fun y hy => hno y (List.mem_cons_of_mem _ hy))
    · intro hB y hy hne rel h0 h1
      rcases List.mem_cons.1 hy with rfl | hy
      · -- the row emitted last
        have hin := inPkt_self base (part (k + y / kWordBits)) (y % kWordBits) rel h0 h1
        have haddr : ∀ q : Nat, base + ((y % kWordBits : Nat) : Int) * kPacketSize + rel
            + (((q : Nat) : Int) - ((y % kWordBits : Nat) : Int)) * kPacketSize
              = base + (q : Int) * kPacketSize + rel := by
          intro q; ring
        rcases hf with rfl | ⟨p, hpo, rfl, hrate⟩
        · rw [gS, if_pos ⟨hne, hin⟩]
          unfold rowValue
          apply xorSrcs_congr
          intro j hj
          rw [haddr, hdata j (hsrcs j (List.mem_filter.1 hj).1)]
        · obtain ⟨_, hpne⟩ := rated_rows_nonzero k B p y hrate
          rw [gD p (row_lt_np k r p np (hlt2 p hpo) hnp), if_pos hin, haddr,
            ih.value hB p hpo hpne rel h0 h1]
          have e : xorSrcs (fun j => m'' (part (j / kWordBits))
              (base + ((y % kWordBits : Nat) : Int) * kPacketSize + rel
                + (((j % kWordBits : Nat) : Int) - ((y % kWordBits : Nat) : Int)) * kPacketSize))
              (deriveSrcs k B y p)
              = xorSrcs (fun j => mem (part (j / kWordBits))
                  (base + ((j % kWordBits : Nat) : Int) * kPacketSize + rel))
                  (deriveSrcs k B y p) := by
            apply xorSrcs_congr
            intro j hj
            rw [haddr, hdata j (hsrcs j (List.mem_filter.1 hj).1)]
          rw [e]
          unfold rowValue scratchSrcs deriveSrcs
          exact xorSrcs_derive _ (fun j => B (p * k * kWordBits + j))
            (fun j => B (y * k * kWordBits + j)) (k * kWordBits)
            (fun j hj => hB p j (hlt2 p hpo) hj) (fun j hj => hB y j hxr hj)
      · -- a row emitted before
        have hyx : x ≠ y := fun h => hxo (h ▸ hy)
        rw [hout _ _ (pkt_disjoint k x y np part base hinj hx
          (row_lt_np k r y np (hlt2 y hy) hnp) hyx rel h0 h1)]
        exact ih.value hB y hy hne rel h0 h1

end CauchyRSCoder

namespace CauchyRSCoder

/-! ## The loop over the stripes -/

/-- The inner loop of `_DoScheduleOperations` that advances every pointer. -/
theorem advance_ptrs (np : Nat) (ptrs : Nat → Ptr) (u : Int) :
    forLoop np (fun i (ptrs : Nat → Ptr) =>
        store ptrs i ⟨(load ptrs i).part, (load ptrs i).off + u⟩) ptrs
      = fun d => if d < np then ⟨(ptrs d).part, (ptrs d).off + u⟩ else ptrs d := by
  induction np with
  | zero => funext d; simp [forLoop_zero]
  | succ n ih =>
    rw [forLoop_succ, ih]
    funext d
    rw [store_apply, load_natCast]
    by_cases hd : d = n
    · subst hd; simp
    · have h1 : (d : Int) ≠ (n : Int) := by exact_mod_cast hd
      rw [if_neg h1]
      by_cases h2 : d < n
      · rw [if_pos h2, if_pos (by omega)]
      · rw [if_neg h2, if_neg (by omega)]

theorem stripePtrs_succ (np : Nat) (ptrs : Nat → Ptr) (s : Nat) :
    (fun d => if d < np then
        (⟨(stripePtrs np ptrs s d).part, (stripePtrs np ptrs s d).off + 32768⟩ : Ptr)
      else stripePtrs np ptrs s d) = stripePtrs np ptrs (s + 1) := by
  funext d
  unfold stripePtrs
  by_cases h : d < np
  · simp only [h, if_true]
    congr 1
    push_cast
    ring
  · simp only [h, if_false]

theorem stripePtrs_zero (np : Nat) (ptrs : Nat → Ptr) : stripePtrs np ptrs 0 = ptrs := by
  funext d
  unfold stripePtrs
  split <;> simp

theorem lt_numStripes (size : Int) (s : Nat) : (s : Int) * 32768 < size ↔ s < numStripes size := by
  unfold numStripes
  omega

/-- The loop over `count` runs the schedule once for every stripe. -/
theorem loop_eq (np : Nat) (schedule : List Tuple) (size : Int) (ptrs : Nat → Ptr) (fuel s : Nat)
    (mem : Shards) (hfuel : numStripes size ≤ fuel + s) :
    _DoScheduleOperations_loop np schedule size fuel ((s : Int) * 32768) (stripePtrs np ptrs s) mem
      = (List.range' s (numStripes size - s)).foldl
          (fun m s => _DoScheduleOperations_stripe (stripePtrs np ptrs s) schedule m) mem := by
  induction fuel generalizing s mem with
  | zero =>
    have : numStripes size - s = 0 := by omega
    rw [this]
    rfl
  | succ fuel ih =>
    unfold _DoScheduleOperations_loop
    by_cases h : (s : Int) * 32768 < size
    · have hs := (lt_numStripes size s).1 h
      rw [if_pos h]
      dsimp only
      have hu : ((kPacketSize : Nat) : Int) * ((kWordBits : Nat) : Int) = 32768 := by
        simp [kPacketSize, kWordBits]
      rw [hu, advance_ptrs, stripePtrs_succ]
      have hc : (s : Int) * 32768 + 32768 = ((s + 1 : Nat) : Int) * 32768 := by
        push_cast; ring
      rw [hc, ih (s + 1) _ (by omega)]
      have : numStripes size - s = (numStripes size - (s + 1)) + 1 := by omega
      rw [this, List.range'_succ]
      rfl
    · have hs : ¬ s < numStripes size := fun h' => h ((lt_numStripes size s).2 h')
      rw [if_neg h]
      have : numStripes size - s = 0 := by omega
      rw [this]
      rfl

/-- `_DoScheduleOperations` runs the schedule on stripe `0`, then on stripe
`1`, and so on for `numStripes size` stripes; the fuel of the loop is enough. -/
theorem DoScheduleOperations_eq (c : CauchyRSCoder) (schedule : List Tuple) (ptrs : Nat → Ptr)
    (size : Int) (mem : Shards) :
    _DoScheduleOperations c schedule ptrs size mem
      = forLoop (numStripes size)
          (fun s m => _DoScheduleOperations_stripe
            (stripePtrs (c.m_num_data_parts + c.m_num_code_parts) ptrs s) schedule m) mem := by
  unfold _DoScheduleOperations
  have h := loop_eq (c.m_num_data_parts + c.m_num_code_parts) schedule size ptrs size.toNat 0 mem
    (by unfold numStripes; omega)
  rw [stripePtrs_zero] at h
  simp only [Nat.cast_zero, zero_mul, Nat.sub_zero] at h
  rw [h, forLoop, List.range_eq_range']

end CauchyRSCoder

namespace CauchyRSCoder

/-! ## Running a schedule over all stripes -/

theorem stripePtrs_apply (np k r : Nat) (ptrs : Nat → Ptr) (part : Nat → Nat) (s : Nat)
    (hnp : k + r ≤ np) (hp : ∀ d, d < k + r → ptrs d = ⟨part d, 0⟩) :
    ∀ d, d < k + r → stripePtrs np ptrs s d = ⟨part d, (s : Int) * 32768⟩ := by
  intro d hd
  unfold stripePtrs
  rw [if_pos (by omega), hp d hd]
  simp

/-- A byte of a stripe is not in a sub-packet of a later stripe. -/
theorem pkt_stripe_disjoint (s n x y p q : Nat) (hs : s < n) (rel : Int) (h0 : 0 ≤ rel)
    (h1 : rel < kPacketSize) :
    ¬ InPkt ((n : Int) * 32768) p (y % kWordBits) q
      ((s : Int) * 32768 + ((x % kWordBits : Nat) : Int) * kPacketSize + rel) := by
  rintro ⟨_, h2, _⟩
  unfold kWordBits kPacketSize at *
  push_cast at h2 h1
  omega

/-- The effect of `_DoScheduleOperations` with the schedule of a bit matrix
`B` for `r` parts: only the sub-packets of the rows change, and, for a matrix
of zeros and ones, each sub-packet of a row that is not zero ends as the value
of the row on the stripe as it was before the call. -/
theorem DoScheduleOperations_spec (c : CauchyRSCoder) (k r : Nat) (B : Nat → Nat)
    (ptrs : Nat → Ptr) (part : Nat → Nat) (size : Int) (mem : Shards) (hr : 0 < r)
    (hnp : k + r ≤ c.m_num_data_parts + c.m_num_code_parts)
    (hp : ∀ d, d < k + r → ptrs d = ⟨part d, 0⟩)
    (hinj : ∀ d e, d < k + r → e < k + r → part d = part e → d = e) :
    (∀ b o, (∀ s x, s < numStripes size → x < r * kWordBits →
        ¬ InPkt ((s : Int) * 32768) (part (k + x / kWordBits)) (x % kWordBits) b o) →
      _DoScheduleOperations c (_BitMatrixToSchedule k r B) ptrs size mem b o = mem b o) ∧
    ((∀ x j, x < r * kWordBits → j < k * kWordBits → B (x * k * kWordBits + j) ≤ 1) →
      ∀ s x, s < numStripes size → x < r * kWordBits → scratchSrcs k B x ≠ [] →
      ∀ rel : Int, 0 ≤ rel → rel < kPacketSize →
      _DoScheduleOperations c (_BitMatrixToSchedule k r B) ptrs size mem
          (part (k + x / kWordBits))
          ((s : Int) * 32768 + ((x % kWordBits : Nat) : Int) * kPacketSize + rel)
        = rowValue k B part ((s : Int) * 32768) mem x rel) := by
  obtain ⟨done, hsched, hperm, hok, _, hrange⟩ := schedule_wellformed k r B hr
  have hnd : (done.map Prod.fst).Nodup := hperm.nodup_iff.2 (List.nodup_range _)
  have hlt : ∀ x, x ∈ done.map Prod.fst → x < r * kWordBits :=
    fun x hx => List.mem_range.1 (hperm.subset hx)
  have hall : ∀ x, x < r * kWordBits → x ∈ done.map Prod.fst :=
    fun x hx => hperm.symm.subset (List.mem_range.2 hx)
  rw [DoScheduleOperations_eq, hsched]
  have hsrcs : ∀ j, j ∈ List.range (k * kWordBits) → j / kWordBits < k := by
    intro j hj
    have := List.mem_range.1 hj
    unfold kWordBits at *
    omega
  have main := forLoop_inv
    (fun (n : Nat) (m : Shards) =>
      (∀ b o, (∀ s x, s < n → x < r * kWordBits →
          ¬ InPkt ((s : Int) * 32768) (part (k + x / kWordBits)) (x % kWordBits) b o) →
        m b o = mem b o) ∧
      ((∀ x j, x < r * kWordBits → j < k * kWordBits → B (x * k * kWordBits + j) ≤ 1) →
        ∀ s x, s < n → x < r * kWordBits → scratchSrcs k B x ≠ [] →
        ∀ rel : Int, 0 ≤ rel → rel < kPacketSize →
        m (part (k + x / kWordBits))
            ((s : Int) * 32768 + ((x % kWordBits : Nat) : Int) * kPacketSize + rel)
          = rowValue k B part ((s : Int) * 32768) mem x rel))
    (numStripes size)
    (fun s m => _DoScheduleOperations_stripe
      (stripePtrs (c.m_num_data_parts + c.m_num_code_parts) ptrs s)
      (planOps k B done ++ [sentinel]) m) mem
    ⟨fun b o _ => rfl, fun _ s x hs => absurd hs (Nat.not_lt_zero s)⟩ ?_
  · exact main
  · intro n _ m ⟨J1, J2⟩
    beta_reduce
    rw [stripe_sentinel _ _ _ (fun t ht => (hrange t ht).1)]
    have P := exec_plan k r B (stripePtrs (c.m_num_data_parts + c.m_num_code_parts) ptrs n) part
      ((n : Int) * 32768) (k + r)
      (stripePtrs_apply _ k r ptrs part n hnp hp) hinj (le_refl _) done hnd hlt hok m
    have hdata : ∀ j, j / kWordBits < k → ∀ o, m (part (j / kWordBits)) o
        = mem (part (j / kWordBits)) o := by
      intro j hj o
      apply J1
      intro s x _ hx
      exact not_inPkt_src k x j (k + r) part _ hinj hj (row_lt_np k r x _ hx (le_refl _)) _ _
    constructor
    · intro b o hno
      rw [P.frame b o (fun x hx => hno n x (Nat.lt_succ_self n) (hlt x hx))]
      exact J1 b o (fun s x hs hx => hno s x (Nat.lt_succ_of_lt hs) hx)
    · intro hB s x hs hx hne rel h0 h1
      by_cases hsn : s = n
      · subst hsn
        rw [P.value hB x (hall x hx) hne rel h0 h1]
        unfold rowValue
        apply xorSrcs_congr
        intro j hj
        exact hdata j (hsrcs j (List.mem_filter.1 hj).1) _
      · have hs' : s < n := by omega
        rw [P.frame _ _ (fun y _ => pkt_stripe_disjoint s n x y _ _ hs' rel h0 h1)]
        exact J2 hB s x hs' hx hne rel h0 h1

end CauchyRSCoder

namespace CauchyRSCoder

/-! ## `Encode` -/

/-- The array `ptrs` that `Encode` passes to `_DoScheduleOperations`. -/
theorem Encode_ptrs (k m : Nat) :
    ∀ d, d < k + m →
      forLoop m (fun i (ptrs : Nat → Ptr) => store ptrs ((i : Int) + k) (coding_ptrs k i))
        (forLoop k (fun i (ptrs : Nat → Ptr) => store ptrs i (data_ptrs i)) (fun _ => ⟨0, 0⟩)) d
        = ⟨d, 0⟩ := by
  have h1 : ∀ n d, d < n →
      forLoop n (fun i (ptrs : Nat → Ptr) => store ptrs i (data_ptrs i)) (fun _ => ⟨0, 0⟩) d
        = ⟨d, 0⟩ := by
    intro n
    induction n with
    | zero => intro d hd; omega
    | succ n ih =>
      intro d hd
      rw [forLoop_succ, store_apply]
      by_cases h : d = n
      · subst h; simp [data_ptrs]
      · rw [if_neg (by exact_mod_cast h)]
        exact ih d (by omega)
  have h2 : ∀ n d, d < k + n →
      forLoop n (fun i (ptrs : Nat → Ptr) => store ptrs ((i : Int) + k) (coding_ptrs k i))
        (forLoop k (fun i (ptrs : Nat → Ptr) => store ptrs i (data_ptrs i)) (fun _ => ⟨0, 0⟩)) d
        = ⟨d, 0⟩ := by
    intro n
    induction n with
    | zero => intro d hd; exact h1 k d (by omega)
    | succ n ih =>
      intro d hd
      rw [forLoop_succ, store_apply]
      by_cases h : d = k + n
      · subst h
        rw [if_pos (by push_cast; ring)]
        simp [coding_ptrs]
      · rw [if_neg (by omega)]
        exact ih d (by omega)
  exact h2 m

theorem Encode_unfold (c : CauchyRSCoder) (size : Int) (mem : Shards) (hs : 0 < size) :
    Encode c size mem = (Outcome.returned,
      _DoScheduleOperations c c.m_encoding_schedule
        (forLoop c.m_num_code_parts
          (fun i (ptrs : Nat → Ptr) =>
            store ptrs ((i : Int) + c.m_num_data_parts) (coding_ptrs c.m_num_data_parts i))
          (forLoop c.m_num_data_parts (fun i (ptrs : Nat → Ptr) => store ptrs i (data_ptrs i))
            (fun _ => ⟨0, 0⟩))) size mem) := by
  unfold Encode
  rw [if_neg (by omega)]

theorem Encode_assert (c : CauchyRSCoder) (size : Int) (mem : Shards) (hs : size ≤ 0) :
    Encode c size mem = (Outcome.assertFailed, mem) := by
  unfold Encode
  rw [if_pos (by omega)]

/-- A sub-packet of a row of a schedule for `r` code parts lies in the first
`numStripes size` stripes of a code part. -/
theorem inPkt_bounds (k r s x n b : Nat) (o : Int) (hs : s < n) (hx : x < r * kWordBits)
    (h : InPkt ((s : Int) * 32768) (k + x / kWordBits) (x % kWordBits) b o) :
    k ≤ b ∧ b < k + r ∧ 0 ≤ o ∧ o < (n : Int) * 32768 := by
  obtain ⟨h1, h2, h3⟩ := h
  unfold kWordBits kPacketSize at *
  push_cast at h2 h3
  omega

theorem numStripes_mul (n : Nat) : numStripes ((n : Int) * 32768) = n := by
  unfold numStripes
  omega

/-- The effect of `Encode` for a coder whose schedule is the schedule of its
bit matrix. -/
theorem Encode_spec (c : CauchyRSCoder) (size : Int) (mem : Shards) (hs : 0 < size)
    (hm : 0 < c.m_num_code_parts)
    (hsched : c.m_encoding_schedule
      = _BitMatrixToSchedule c.m_num_data_parts c.m_num_code_parts c.m_encoding_bit_matrix) :
    (Encode c size mem).1 = Outcome.returned ∧
    (∀ b o, (∀ s x, s < numStripes size → x < c.m_num_code_parts * kWordBits →
        ¬ InPkt ((s : Int) * 32768) (c.m_num_data_parts + x / kWordBits) (x % kWordBits) b o) →
      (Encode c size mem).2 b o = mem b o) ∧
    ((∀ x j, x < c.m_num_code_parts * kWordBits → j < c.m_num_data_parts * kWordBits →
        c.m_encoding_bit_matrix (x * c.m_num_data_parts * kWordBits + j) ≤ 1) →
      ∀ s x, s < numStripes size → x < c.m_num_code_parts * kWordBits →
      scratchSrcs c.m_num_data_parts c.m_encoding_bit_matrix x ≠ [] →
      ∀ rel : Int, 0 ≤ rel → rel < kPacketSize →
      (Encode c size mem).2 (c.m_num_data_parts + x / kWordBits)
          ((s : Int) * 32768 + ((x % kWordBits : Nat) : Int) * kPacketSize + rel)
        = rowValue c.m_num_data_parts c.m_encoding_bit_matrix (fun d => d) ((s : Int) * 32768)
            mem x rel) := by
  rw [Encode_unfold c size mem hs, hsched]
  obtain ⟨h1, h2⟩ := DoScheduleOperations_spec c c.m_num_data_parts c.m_num_code_parts
    c.m_encoding_bit_matrix _ (fun d => d) size mem hm (le_refl _)
    (Encode_ptrs c.m_num_data_parts c.m_num_code_parts) (fun d e _ _ h => h)
  exact ⟨rfl, h1, h2⟩

/-- `Encode` changes bytes of the code parts only, and only in the stripes it
runs over. -/
theorem Encode_frame (c : CauchyRSCoder) (size : Int) (mem : Shards) (hs : 0 < size)
    (hm : 0 < c.m_num_code_parts)
    (hsched : c.m_encoding_schedule
      = _BitMatrixToSchedule c.m_num_data_parts c.m_num_code_parts c.m_encoding_bit_matrix)
    (b : Nat) (o : Int) (hne : (Encode c size mem).2 b o ≠ mem b o) :
    c.m_num_data_parts ≤ b ∧ b < c.m_num_data_parts + c.m_num_code_parts ∧ 0 ≤ o ∧
      o < (numStripes size : Int) * 32768 := by
  obtain ⟨_, h2, _⟩ := Encode_spec c size mem hs hm hsched
  by_contra hcon
  apply hne
  apply h2
  intro s x hs' hx hin
  exact hcon (inPkt_bounds _ _ s x _ b o hs' hx hin)

end CauchyRSCoder

namespace GaloisOperator

open CauchyRSCoder

/-! ## The field tables -/

set_option maxRecDepth 100000 in
/-- The tables that `_CreateLogTable` builds, cell by cell. -/
theorem tables_spec : ∀ e : Nat, e < 256 →
    _CreateLogTable.anti_log_table e = antiLogList.getD e 0 ∧
    _CreateLogTable.log_table e = logList.getD e 0 := by
  decide!

set_option maxRecDepth 100000 in
theorem antiLogList_range : ∀ e : Nat, e < 256 →
    1 ≤ antiLogList.getD e 0 ∧ antiLogList.getD e 0 ≤ 255 := by
  decide!

set_option maxRecDepth 100000 in
theorem logList_range : ∀ x : Nat, x < 256 → x ≠ 0 →
    0 ≤ logList.getD x 0 ∧ logList.getD x 0 ≤ 254 := by
  decide!

set_option maxRecDepth 100000 in
theorem logList_antiLogList : ∀ e : Nat, e < 255 →
    logList.getD (antiLogList.getD e 0).toNat 0 = (e : Int) := by
  decide!

set_option maxRecDepth 100000 in
theorem antiLogList_logList : ∀ x : Nat, x < 256 → x ≠ 0 →
    antiLogList.getD (logList.getD x 0).toNat 0 = (x : Int) := by
  decide!

set_option maxRecDepth 100000 in
theorem xtime_antiLogList : ∀ e : Nat, e < 255 →
    xtime (antiLogList.getD e 0).toNat = (antiLogList.getD ((e + 1) % 255) 0).toNat := by
  decide!

set_option maxRecDepth 100000 in
theorem logList_two_pow : ∀ i : Nat, i < 8 → logList.getD (2 ^ i) 0 = (i : Int) := by
  decide!

/-- The anti-log table holds field elements other than zero. -/
theorem anti_log_table_range (e : Nat) (he : e < 256) :
    1 ≤ _CreateLogTable.anti_log_table e ∧ _CreateLogTable.anti_log_table e ≤ 255 := by
  rw [(tables_spec e he).1]
  exact antiLogList_range e he

/-- The log table holds exponents below 255 at every element other than zero. -/
theorem log_table_range (x : Nat) (hx : x < 256) (h0 : x ≠ 0) :
    0 ≤ _CreateLogTable.log_table x ∧ _CreateLogTable.log_table x ≤ 254 := by
  rw [(tables_spec x hx).2]
  exact logList_range x hx h0

/-- The log table undoes the anti-log table. -/
theorem log_antilog (e : Nat) (he : e < 255) :
    _CreateLogTable.log_table (_CreateLogTable.anti_log_table e).toNat = (e : Int) := by
  have h1 := antiLogList_range e (by omega)
  rw [(tables_spec e (by omega)).1, (tables_spec _ (show (antiLogList.getD e 0).toNat < 256 by omega)).2]
  exact logList_antiLogList e he

/-- The anti-log table undoes the log table. -/
theorem antilog_log (x : Nat) (hx : x < 256) (h0 : x ≠ 0) :
    _CreateLogTable.anti_log_table (_CreateLogTable.log_table x).toNat = (x : Int) := by
  have h1 := logList_range x hx h0
  rw [(tables_spec x hx).2, (tables_spec _ (show (logList.getD x 0).toNat < 256 by omega)).1]
  exact antiLogList_logList x hx h0

theorem table_ends : _CreateLogTable.anti_log_table 255 = 1 ∧ _CreateLogTable.anti_log_table 0 = 1 ∧
    _CreateLogTable.log_table 1 = 0 ∧ _CreateLogTable.log_table 2 = 1 := by
  refine ⟨?_, ?_, ?_, ?_⟩
  · rw [(tables_spec 255 (by decide)).1]
    rfl
  · rw [(tables_spec 0 (by decide)).1]
    rfl
  · rw [(tables_spec 1 (by decide)).2]
    rfl
  · rw [(tables_spec 2 (by decide)).2]
    rfl

/-- The index `(x << 8) | y` into the tables. -/
theorem table_index (a b : Nat) (hb : b < 256) :
    Int.lor ((a : Int) <<< word_size) (b : Int) = ((a * 256 + b : Nat) : Int) := by
  have h1 : (a : Int) <<< word_size = ((a * 256 : Nat) : Int) := by
    have := Int.shiftLeft_eq_mul_pow (a : Int) 8
    unfold word_size
    rw [show ((8 : Int)) = ((8 : Nat) : Int) from rfl, this]
    norm_num
  rw [h1]
  show ((((a * 256) ||| b : Nat)) : Int) = _
  congr 1
  have := Nat.mul_add_lt_is_or (i := 8) (b := b) (by simpa using hb) a
  simp only [Nat.reducePow] at this
  rw [Nat.mul_comm a 256, this]

theorem table_index_div (a b : Nat) (hb : b < 256) :
    ((a * 256 + b : Nat) : Int) / gf_size = a ∧ ((a * 256 + b : Nat) : Int) % gf_size = b := by
  unfold gf_size
  push_cast
  omega

/-- `Multiply` on field elements: the anti-log of the sum of the logs. -/
theorem Multiply_eq (a b : Nat) (ha : a < 256) (hb : b < 256) (ha0 : a ≠ 0) (hb0 : b ≠ 0) :
    Multiply a b = load _CreateLogTable.anti_log_table
      (if _CreateLogTable.log_table a + _CreateLogTable.log_table b > 255 then
        _CreateLogTable.log_table a + _CreateLogTable.log_table b - 255
      else _CreateLogTable.log_table a + _CreateLogTable.log_table b) := by
  unfold Multiply
  rw [if_neg (by omega), table_index a b hb]
  unfold m_mul_table
  have hidx : ¬ (((a * 256 + b : Nat) : Int) < 0 ∨ ((a * 256 + b : Nat) : Int) ≥ gf_size * gf_size) := by
    unfold gf_size; push_cast; omega
  rw [if_neg hidx]
  obtain ⟨h1, h2⟩ := table_index_div a b hb
  simp only [h1, h2, load_natCast]
  rw [if_neg (by omega)]
  rfl

/-- `Divide` on field elements: the anti-log of the difference of the logs. -/
theorem Divide_eq (a b : Nat) (ha : a < 256) (hb : b < 256) (ha0 : a ≠ 0) (hb0 : b ≠ 0) :
    Divide a b = load _CreateLogTable.anti_log_table
      (if _CreateLogTable.log_table a - _CreateLogTable.log_table b < 0 then
        _CreateLogTable.log_table a - _CreateLogTable.log_table b + 255
      else _CreateLogTable.log_table a - _CreateLogTable.log_table b) := by
  unfold Divide
  rw [if_neg (by omega), if_neg (by omega), table_index a b hb]
  unfold m_div_table
  have hidx : ¬ (((a * 256 + b : Nat) : Int) < 0 ∨ ((a * 256 + b : Nat) : Int) ≥ gf_size * gf_size) := by
    unfold gf_size; push_cast; omega
  rw [if_neg hidx]
  obtain ⟨h1, h2⟩ := table_index_div a b hb
  simp only [h1, h2, load_natCast]
  rw [if_neg (by omega), if_neg (by omega)]
  rfl

theorem IsUnit256.exists_nat {x : Int} (h : IsUnit256 x) :
    ∃ a : Nat, x = a ∧ a < 256 ∧ a ≠ 0 := by
  obtain ⟨h1, h2⟩ := h
  exact ⟨x.toNat, by omega, by omega, by omega⟩

theorem anti_log_unit (e : Int) (h0 : 0 ≤ e) (h1 : e ≤ 255) :
    IsUnit256 (load _CreateLogTable.anti_log_table e) := by
  have := anti_log_table_range e.toNat (by omega)
  exact this

theorem Multiply_unit (x y : Int) (hx : IsUnit256 x) (hy : IsUnit256 y) :
    IsUnit256 (Multiply x y) := by
  obtain ⟨a, rfl, ha, ha0⟩ := hx.exists_nat
  obtain ⟨b, rfl, hb, hb0⟩ := hy.exists_nat
  rw [Multiply_eq a b ha hb ha0 hb0]
  have h1 := log_table_range a ha ha0
  have h2 := log_table_range b hb hb0
  apply anti_log_unit <;> split <;> omega

theorem Divide_unit (x y : Int) (hx : IsUnit256 x) (hy : IsUnit256 y) :
    IsUnit256 (Divide x y) := by
  obtain ⟨a, rfl, ha, ha0⟩ := hx.exists_nat
  obtain ⟨b, rfl, hb, hb0⟩ := hy.exists_nat
  rw [Divide_eq a b ha hb ha0 hb0]
  have h1 := log_table_range a ha ha0
  have h2 := log_table_range b hb hb0
  apply anti_log_unit <;> split <;> omega

theorem one_unit : IsUnit256 1 := ⟨le_refl _, by omega⟩

/-- The argument of the division in the Cauchy matrix is a field element
other than zero. -/
theorem xor_unit (i j m : Nat) (hi : i < m) (hm : m + j < 256) :
    IsUnit256 (Int.xor (i : Int) ((m : Int) + (j : Int))) := by
  have e : Int.xor (i : Int) ((m : Int) + (j : Int)) = ((i ^^^ (m + j) : Nat) : Int) := by
    rw [show (m : Int) + (j : Int) = ((m + j : Nat) : Int) by push_cast; rfl]
    rfl
  rw [e]
  have h1 : i ^^^ (m + j) < 256 := by
    have : i ^^^ (m + j) < 2 ^ 8 := Nat.xor_lt_two_pow (by omega) (by omega)
    simpa using this
  have h2 : i ^^^ (m + j) ≠ 0 := by
    intro h
    have := Nat.xor_eq_zero.1 h
    omega
  constructor
  · have : 1 ≤ i ^^^ (m + j) := by omega
    exact_mod_cast this
  · have : i ^^^ (m + j) ≤ 255 := by omega
    exact_mod_cast this

theorem alog_range (e : Nat) : 1 ≤ alog e ∧ alog e ≤ 255 := by
  have := anti_log_table_range (e % 255) (by omega)
  unfold alog
  omega

theorem alog_cast (e : Nat) : ((alog e : Nat) : Int) = _CreateLogTable.anti_log_table (e % 255) := by
  have := anti_log_table_range (e % 255) (by omega)
  unfold alog
  omega

theorem lg_lt (x : Nat) (hx : x < 256) (h0 : x ≠ 0) : lg x < 255 := by
  have := log_table_range x hx h0
  unfold lg
  omega

theorem lg_cast (x : Nat) (hx : x < 256) (h0 : x ≠ 0) :
    ((lg x : Nat) : Int) = _CreateLogTable.log_table x := by
  have := log_table_range x hx h0
  unfold lg
  omega

theorem alog_mod (e : Nat) : alog (e % 255) = alog e := by
  unfold alog
  rw [Nat.mod_mod]

theorem alog_congr (e f : Nat) (h : e % 255 = f % 255) : alog e = alog f := by
  unfold alog
  rw [h]

theorem lg_alog (e : Nat) : lg (alog e) = e % 255 := by
  have h := log_antilog (e % 255) (Nat.mod_lt _ (by decide))
  unfold lg alog
  rw [h]
  rfl

theorem alog_lg (x : Nat) (hx : x < 256) (h0 : x ≠ 0) : alog (lg x) = x := by
  have h := antilog_log x hx h0
  have h1 := lg_lt x hx h0
  unfold alog
  rw [Nat.mod_eq_of_lt h1]
  unfold lg at h1 ⊢
  rw [h]
  rfl

theorem lg_one : lg 1 = 0 := by
  unfold lg
  rw [table_ends.2.2.1]
  rfl

theorem lg_two : lg 2 = 1 := by
  unfold lg
  rw [table_ends.2.2.2]
  rfl

/-- `Multiply` adds the logs. -/
theorem Multiply_alog (a b : Nat) (ha : a < 256) (hb : b < 256) (ha0 : a ≠ 0) (hb0 : b ≠ 0) :
    Multiply a b = ((alog (lg a + lg b) : Nat) : Int) := by
  rw [Multiply_eq a b ha hb ha0 hb0, alog_cast, ← lg_cast a ha ha0, ← lg_cast b hb hb0]
  have h1 := lg_lt a ha ha0
  have h2 := lg_lt b hb hb0
  by_cases h : ((lg a : Nat) : Int) + ((lg b : Nat) : Int) > 255
  · rw [if_pos h]
    have e : ((lg a : Nat) : Int) + ((lg b : Nat) : Int) - 255 = (((lg a + lg b) % 255 : Nat) : Int) := by
      omega
    rw [e, load_natCast]
  · rw [if_neg h]
    by_cases h' : lg a + lg b = 255
    · have e : ((lg a : Nat) : Int) + ((lg b : Nat) : Int) = ((255 : Nat) : Int) := by omega
      rw [e, load_natCast, h', table_ends.1]
      exact table_ends.2.1.symm
    · have e : ((lg a : Nat) : Int) + ((lg b : Nat) : Int) = (((lg a + lg b) % 255 : Nat) : Int) := by
        omega
      rw [e, load_natCast]

/-- `Divide` subtracts the logs. -/
theorem Divide_alog (a b : Nat) (ha : a < 256) (hb : b < 256) (ha0 : a ≠ 0) (hb0 : b ≠ 0) :
    Divide a b = ((alog (lg a + (255 - lg b)) : Nat) : Int) := by
  rw [Divide_eq a b ha hb ha0 hb0, alog_cast, ← lg_cast a ha ha0, ← lg_cast b hb hb0]
  have h1 := lg_lt a ha ha0
  have h2 := lg_lt b hb hb0
  by_cases h : ((lg a : Nat) : Int) - ((lg b : Nat) : Int) < 0
  · rw [if_pos h]
    have e : ((lg a : Nat) : Int) - ((lg b : Nat) : Int) + 255
        = (((lg a + (255 - lg b)) % 255 : Nat) : Int) := by
      omega
    rw [e, load_natCast]
  · rw [if_neg h]
    have e : ((lg a : Nat) : Int) - ((lg b : Nat) : Int)
        = (((lg a + (255 - lg b)) % 255 : Nat) : Int) := by
      omega
    rw [e, load_natCast]

/-- Multiplying by two adds one to the log. -/
theorem xtime_alog (f : Nat) : xtime (alog f) = alog (f + 1) := by
  have h := xtime_antiLogList (f % 255) (Nat.mod_lt _ (by decide))
  have h1 := tables_spec (f % 255) (by omega)
  have h2 := tables_spec ((f + 1) % 255) (by omega)
  unfold alog
  rw [h1.1, h2.1, h]
  congr 2
  omega

theorem lg_two_pow (i : Nat) (hi : i < 8) : lg (2 ^ i) = i := by
  have h2 : 2 ^ i < 256 := by
    calc 2 ^ i < 2 ^ 8 := Nat.pow_lt_pow_right (by norm_num) hi
      _ = 256 := by norm_num
  unfold lg
  rw [(tables_spec _ h2).2, logList_two_pow i hi]
  rfl

/-- `Multiply(e, 2)` shifts `e` and reduces it by the primitive polynomial. -/
theorem Multiply_two (e : Nat) (he : e < 256) : Multiply (e : Int) 2 = (xtime e : Int) := by
  by_cases h0 : e = 0
  · subst h0
    have h : Multiply ((0 : Nat) : Int) 2 = 0 := by
      unfold Multiply
      exact if_pos (Or.inl rfl)
    rw [h]
    rfl
  · rw [show (2 : Int) = ((2 : Nat) : Int) from rfl,
      Multiply_alog e 2 he (by decide) h0 (by decide), lg_two, ← xtime_alog, alog_lg e he h0]

end GaloisOperator

namespace CauchyRSCoder

open GaloisOperator

/-! ## The coding matrix -/

theorem idx_lt (i j k m : Nat) (hi : i < m) (hj : j < k) : i * k + j < m * k := by
  have : (i + 1) * k ≤ m * k := Nat.mul_le_mul_right k hi
  have : (i + 1) * k = i * k + k := by ring
  omega

/-- The Cauchy matrix has only field elements other than zero. -/
theorem cauchy_unit (k m : Nat) (hkm : k + m ≤ 256) :
    ∀ idx, idx < m * k → IsUnit256 (_GenerateEncodeMatrix_cauchy k m idx) := by
  unfold _GenerateEncodeMatrix_cauchy
  have outer := forLoop_inv
    (fun (I : Nat) (M : Nat → Int) => ∀ idx, idx < I * k → IsUnit256 (M idx)) m
    (fun i matrix =>
      forLoop k
        (fun j matrix =>
          let index := i * k + j
          store matrix index (Divide 1 (Int.xor (i : Int) ((m : Int) + (j : Int)))))
        matrix)
    (fun _ => 0) (by intro idx h; simp at h) ?_
  · exact outer
  · intro i hi M hM
    have inner := forLoop_inv
      (fun (J : Nat) (M : Nat → Int) => ∀ idx, idx < i * k + J → IsUnit256 (M idx)) k
      (fun j matrix =>
          let index := i * k + j
          store matrix index (Divide 1 (Int.xor (i : Int) ((m : Int) + (j : Int)))))
      M (by simpa using hM) ?_
    · intro idx hidx
      exact inner idx (by rw [Nat.add_mul] at hidx; omega)
    · intro j hj M' hM' idx hidx
      show IsUnit256 (store M' ((i * k + j : Nat) : Int) _ idx)
      rw [store_apply]
      by_cases h : idx = i * k + j
      · rw [if_pos (by exact_mod_cast h)]
        exact Divide_unit _ _ one_unit (xor_unit i j m hi (by omega))
      · rw [if_neg (by exact_mod_cast h)]
        exact hM' idx (by omega)

/-- Making the first row all one keeps the elements other than zero. -/
theorem firstRow_unit (k m : Nat) (M : Nat → Int)
    (hM : ∀ idx, idx < m * k → IsUnit256 (M idx)) :
    ∀ idx, idx < m * k → IsUnit256 (_GenerateEncodeMatrix_firstRow k m M idx) := by
  rcases Nat.eq_zero_or_pos m with h | hm
  · subst h
    intro idx hidx
    simp at hidx
  unfold _GenerateEncodeMatrix_firstRow
  refine forLoop_inv (fun _ (M : Nat → Int) => ∀ idx, idx < m * k → IsUnit256 (M idx)) k _ M hM ?_
  intro i hi M' hM'
  dsimp only
  split
  · have htmp : IsUnit256 (Divide 1 (load M' (i : Int))) := by
      rw [load_natCast]
      exact Divide_unit _ _ one_unit (hM' i (by
        have := idx_lt 0 i k m hm hi
        simpa using this))
    have inner := forLoop_inv
      (fun (J : Nat) (s : (Nat → Int) × Int) =>
        (∀ idx, idx < m * k → IsUnit256 (s.1 idx)) ∧ s.2 = ((J * k + i : Nat) : Int)) m
      (fun _ (s : (Nat → Int) × Int) =>
        (store s.1 s.2 (Multiply (load s.1 s.2) (Divide 1 (load M' (i : Int)))), s.2 + k))
      (M', (i : Int)) ⟨hM', by simp⟩ ?_
    · exact inner.1
    · intro j hj s ⟨h1, h2⟩
      refine ⟨?_, ?_⟩
      · intro idx hidx
        show IsUnit256 (store s.1 s.2 _ idx)
        rw [store_apply]
        split
        · rw [h2, load_natCast]
          exact Multiply_unit _ _ (h1 _ (idx_lt j i k m hj hi)) htmp
        · exact h1 idx hidx
      · show s.2 + (k : Int) = _
        rw [h2]; push_cast; ring
  · exact hM'

/-- The column that the row improvement picks is `-1` or a column. -/
theorem best_range (k : Nat) (M : Nat → Int) (index min_ones_count : Int) :
    (_GenerateEncodeMatrix_best k M index min_ones_count).2 = -1 ∨
      ∃ j, j < k ∧ (_GenerateEncodeMatrix_best k M index min_ones_count).2 = (j : Int) := by
  unfold _GenerateEncodeMatrix_best
  refine forLoop_inv (fun (J : Nat) (s : Int × Int) => s.2 = -1 ∨ ∃ j, j < J ∧ s.2 = (j : Int)) k
    _ _ (Or.inl rfl) ?_
  intro j hj s hs
  have hs' : s.2 = -1 ∨ ∃ j', j' < j + 1 ∧ s.2 = (j' : Int) := by
    rcases hs with h | ⟨j', h1, h2⟩
    · exact Or.inl h
    · exact Or.inr ⟨j', by omega, h2⟩
  dsimp only
  split
  · split
    · exact Or.inr ⟨j, by omega, rfl⟩
    · exact hs'
  · exact hs'

/-- Improving the other rows keeps the elements other than zero. -/
theorem otherRows_unit (k m : Nat) (M : Nat → Int)
    (hM : ∀ idx, idx < m * k → IsUnit256 (M idx)) :
    ∀ idx, idx < m * k → IsUnit256 (_GenerateEncodeMatrix_otherRows k m M idx) := by
  unfold _GenerateEncodeMatrix_otherRows
  refine forLoop_inv (fun _ (M : Nat → Int) => ∀ idx, idx < m * k → IsUnit256 (M idx)) (m - 1) _ M
    hM ?_
  intro i' hi' M' hM'
  dsimp only
  split
  · rename_i hbest
    rcases best_range k M' (((i' + 1 : Nat) : Int) * k)
      (forLoop k (fun j c => c + _CountCauchyOnes (load M' (((i' + 1 : Nat) : Int) * k + j))) 0)
      with h | ⟨b, hb, h⟩
    · exact absurd h hbest
    · rw [h]
      have hidx : ∀ j : Nat, (((i' + 1 : Nat) : Int) * k + j) = (((i' + 1) * k + j : Nat) : Int) := by
        intro j; push_cast; ring
      have htmp : IsUnit256 (Divide 1 (load M' (((i' + 1 : Nat) : Int) * k + b))) := by
        rw [hidx, load_natCast]
        exact Divide_unit _ _ one_unit (hM' _ (idx_lt (i' + 1) b k m (by omega) hb))
      refine forLoop_inv (fun _ (M : Nat → Int) => ∀ idx, idx < m * k → IsUnit256 (M idx)) k _ M'
        hM' ?_
      intro j hj M'' hM'' idx hidx'
      show IsUnit256 (store M'' _ _ idx)
      rw [store_apply]
      split
      · rw [hidx, load_natCast]
        exact Multiply_unit _ _ (hM'' _ (idx_lt (i' + 1) j k m (by omega) hj)) htmp
      · exact hM'' idx hidx'
  · exact hM'

/-- Every entry of the coding matrix is a field element other than zero. -/
theorem GenerateEncodeMatrix_unit (k m : Nat) (hkm : k + m ≤ 256) :
    ∀ idx, idx < m * k → IsUnit256 (_GenerateEncodeMatrix k m idx) := by
  unfold _GenerateEncodeMatrix
  exact otherRows_unit k m _ (firstRow_unit k m _ (cauchy_unit k m hkm))

end CauchyRSCoder

namespace CauchyRSCoder

open GaloisOperator

/-! ## The bit matrix -/

theorem writes_forLoop {α : Type} (T : Nat) (body : Nat → (Nat → α) → (Nat → α))
    (A : Nat → Nat → Prop) (final : Nat → α)
    (h : ∀ t, t < T → Writes (body t) (A t) final) :
    Writes (forLoop T body) (fun idx => ∃ t, t < T ∧ A t idx) final := by
  induction T with
  | zero =>
    intro bm
    exact ⟨fun idx ⟨t, ht, _⟩ => absurd ht (Nat.not_lt_zero t), fun idx _ => rfl⟩
  | succ T ih =>
    have ih := ih (fun t ht => h t (Nat.lt_succ_of_lt ht))
    intro bm
    have hT := h T (Nat.lt_succ_self T) (forLoop T body bm)
    constructor
    · rintro idx ⟨t, ht, hA⟩
      rw [forLoop_succ]
      by_cases hAT : A T idx
      · exact hT.1 idx hAT
      · rw [hT.2 idx hAT]
        have : t < T := by
          rcases Nat.lt_succ_iff_lt_or_eq.1 ht with h1 | h1
          · exact h1
          · subst h1; exact absurd hA hAT
        exact (ih bm).1 idx ⟨t, this, hA⟩
    · intro idx hno
      rw [forLoop_succ, hT.2 idx (fun hA => hno ⟨T, Nat.lt_succ_self T, hA⟩)]
      exact (ih bm).2 idx (fun ⟨t, ht, hA⟩ => hno ⟨t, Nat.lt_succ_of_lt ht, hA⟩)

theorem writes_store {α : Type} (a : Nat) (v : α) (final : Nat → α) (hv : v = final a) :
    Writes (fun bm => store bm (a : Int) v) (fun idx => idx = a) final := by
  intro bm
  constructor
  · intro idx h
    subst h
    show store bm (idx : Int) v idx = _
    rw [store_same, hv]
  · intro idx h
    show store bm (a : Int) v idx = _
    exact store_other _ _ _ _ (by exact_mod_cast h)

theorem forLoop_pair {β γ : Type} (T : Nat) (F : Nat → γ → β → β) (G : γ → γ) (b : β) (e : γ) :
    forLoop T (fun t (s : β × γ) => (F t s.2 s.1, G s.2)) (b, e)
      = (forLoop T (fun t b => F t (G^[t] e) b) b, G^[T] e) := by
  induction T with
  | zero => rfl
  | succ T ih =>
    rw [forLoop_succ, ih, forLoop_succ, Function.iterate_succ_apply']

theorem div_mod_of_lt (a b K : Nat) (hb : b < K) : (a * K + b) / K = a ∧ (a * K + b) % K = b := by
  have hK : 0 < K := by omega
  constructor
  · rw [Nat.add_comm, Nat.add_mul_div_right _ _ hK, Nat.div_eq_of_lt hb, Nat.zero_add]
  · rw [Nat.add_comm, Nat.add_mul_mod_self_right, Nat.mod_eq_of_lt hb]

/-- The cell that the innermost loop of `_MatrixToBitMatrix` writes. -/
theorem cell_index (k i j c n : Nat) (hj : j < k) (hc : c < 8) (hn : n < 8) :
    let idx := i * (k * kWordBits * kWordBits) + j * kWordBits + c + n * (k * kWordBits)
    idx / (k * kWordBits) / kWordBits = i ∧ idx / (k * kWordBits) % kWordBits = n ∧
      idx % (k * kWordBits) / kWordBits = j ∧ idx % (k * kWordBits) % kWordBits = c := by
  intro idx
  have e : idx = (i * kWordBits + n) * (k * kWordBits) + (j * kWordBits + c) := by
    show i * (k * kWordBits * kWordBits) + j * kWordBits + c + n * (k * kWordBits) = _
    ring
  have hlt : j * kWordBits + c < k * kWordBits := by
    unfold kWordBits; omega
  obtain ⟨h1, h2⟩ := div_mod_of_lt (i * kWordBits + n) (j * kWordBits + c) (k * kWordBits) hlt
  rw [e, h1, h2]
  unfold kWordBits
  omega

/-- `_MatrixToBitMatrix` writes the cells of the `m * 8` rows and `k * 8`
columns with the bits of the matrix elements and no other cell. -/
theorem MatrixToBitMatrix_writes (k m : Nat) (M : Nat → Int) :
    ∀ idx, (∀ i j c n, i < m → j < k → c < 8 → n < 8 →
          idx = i * (k * kWordBits * kWordBits) + j * kWordBits + c + n * (k * kWordBits) →
        _MatrixToBitMatrix k m M idx = bitMatrixCell k M idx) ∧
      ((∀ i j c n, i < m → j < k → c < 8 → n < 8 →
          idx ≠ i * (k * kWordBits * kWordBits) + j * kWordBits + c + n * (k * kWordBits)) →
        _MatrixToBitMatrix k m M idx = 0) := by
  -- the innermost two loops: one column of one block
  have hcol : ∀ i j c (e : Int), i < m → j < k → c < 8 →
      e = mulPow c (M (i * k + j)) →
      Writes (fun bm => forLoop kWordBits
          (fun n bit_matrix =>
            store bit_matrix
              ((i * (k * kWordBits * kWordBits) + j * kWordBits + c + n * (k * kWordBits) : Nat) : Int)
              (if Int.land e ((1 : Int) <<< (n : Int)) ≠ 0 then 1 else 0)) bm)
        (fun idx => ∃ n, n < kWordBits ∧
          idx = i * (k * kWordBits * kWordBits) + j * kWordBits + c + n * (k * kWordBits))
        (bitMatrixCell k M) := by
    intro i j c e hi hj hc he
    apply writes_forLoop
    intro n hn
    apply writes_store
    obtain ⟨h1, h2, h3, h4⟩ := cell_index k i j c n hj hc hn
    unfold bitMatrixCell
    rw [h1, h2, h3, h4, he]
    rfl
  -- one block
  have hblock : ∀ i j, i < m → j < k →
      Writes (fun bm => (forLoop kWordBits
          (_MatrixToBitMatrix_column (k * kWordBits)
            (i * (k * kWordBits * kWordBits) + j * kWordBits))
          (bm, M (i * k + j))).1)
        (fun idx => ∃ c, c < kWordBits ∧ ∃ n, n < kWordBits ∧
          idx = i * (k * kWordBits * kWordBits) + j * kWordBits + c + n * (k * kWordBits))
        (bitMatrixCell k M) := by
    intro i j hi hj
    have hp : ∀ bm, forLoop kWordBits
          (_MatrixToBitMatrix_column (k * kWordBits)
            (i * (k * kWordBits * kWordBits) + j * kWordBits)) (bm, M (i * k + j))
        = (forLoop kWordBits (fun c bm => forLoop kWordBits
            (fun n bit_matrix =>
              store bit_matrix
                ((i * (k * kWordBits * kWordBits) + j * kWordBits + c + n * (k * kWordBits) : Nat)
                  : Int)
                (if Int.land (mulPow c (M (i * k + j))) ((1 : Int) <<< (n : Int)) ≠ 0 then 1
                  else 0)) bm) bm,
           mulPow kWordBits (M (i * k + j))) := by
      intro bm
      exact forLoop_pair kWordBits
        (fun c e bm => forLoop kWordBits
            (fun n bit_matrix =>
              store bit_matrix
                ((i * (k * kWordBits * kWordBits) + j * kWordBits + c + n * (k * kWordBits) : Nat)
                  : Int)
                (if Int.land e ((1 : Int) <<< (n : Int)) ≠ 0 then 1 else 0)) bm)
        (fun e => Multiply e 2) bm (M (i * k + j))
    simp only [hp]
    apply writes_forLoop
    intro c hc
    exact hcol i j c _ hi hj hc rfl
  -- one row of blocks
  have hrow : ∀ i, i < m →
      Writes (fun bm => (forLoop k
          (fun j (t : (Nat → Nat) × Nat) =>
            let matrix_element := load M ((i * k + j : Nat) : Int)
            let bit_matrix :=
              (forLoop kWordBits (_MatrixToBitMatrix_column (k * kWordBits) t.2)
                (t.1, matrix_element)).1
            (bit_matrix, t.2 + kWordBits))
          (bm, i * (k * kWordBits * kWordBits))).1)
        (fun idx => ∃ j, j < k ∧ ∃ c, c < kWordBits ∧ ∃ n, n < kWordBits ∧
          idx = i * (k * kWordBits * kWordBits) + j * kWordBits + c + n * (k * kWordBits))
        (bitMatrixCell k M) := by
    intro i hi
    have hp : ∀ bm, forLoop k
          (fun j (t : (Nat → Nat) × Nat) =>
            let matrix_element := load M ((i * k + j : Nat) : Int)
            let bit_matrix :=
              (forLoop kWordBits (_MatrixToBitMatrix_column (k * kWordBits) t.2)
                (t.1, matrix_element)).1
            (bit_matrix, t.2 + kWordBits))
          (bm, i * (k * kWordBits * kWordBits))
        = (forLoop k (fun j bm => (forLoop kWordBits
            (_MatrixToBitMatrix_column (k * kWordBits)
              ((fun col => col + kWordBits)^[j] (i * (k * kWordBits * kWordBits))))
            (bm, M (i * k + j))).1) bm,
           (fun col => col + kWordBits)^[k] (i * (k * kWordBits * kWordBits))) := by
      intro bm
      have := forLoop_pair k
        (fun j col bm => (forLoop kWordBits
            (_MatrixToBitMatrix_column (k * kWordBits) col) (bm, M (i * k + j))).1)
        (fun col => col + kWordBits) bm (i * (k * kWordBits * kWordBits))
      simpa only [load_natCast] using this
    have hiter : ∀ j a, (fun col => col + kWordBits)^[j] a = a + j * kWordBits := by
      intro j a
      induction j with
      | zero => simp
      | succ j ih => rw [Function.iterate_succ_apply', ih]; ring
    simp only [hp, hiter]
    apply writes_forLoop
    intro j hj
    exact hblock i j hi hj
  -- all rows
  have hall : Writes (fun bm => (forLoop m
        (fun i (s : (Nat → Nat) × Nat) =>
          let bit_matrix_row := s.2
          let bit_matrix_col := bit_matrix_row
          let t :=
            forLoop k
              (fun j (t : (Nat → Nat) × Nat) =>
                let matrix_element := load M ((i * k + j : Nat) : Int)
                let bit_matrix :=
                  (forLoop kWordBits (_MatrixToBitMatrix_column (k * kWordBits) t.2)
                    (t.1, matrix_element)).1
                (bit_matrix, t.2 + kWordBits))
              (s.1, bit_matrix_col)
          (t.1, bit_matrix_row + k * kWordBits * kWordBits))
        (bm, 0)).1)
      (fun idx => ∃ i, i < m ∧ ∃ j, j < k ∧ ∃ c, c < kWordBits ∧ ∃ n, n < kWordBits ∧
        idx = i * (k * kWordBits * kWordBits) + j * kWordBits + c + n * (k * kWordBits))
      (bitMatrixCell k M) := by
    have hp : ∀ bm, forLoop m
        (fun i (s : (Nat → Nat) × Nat) =>
          let bit_matrix_row := s.2
          let bit_matrix_col := bit_matrix_row
          let t :=
            forLoop k
              (fun j (t : (Nat → Nat) × Nat) =>
                let matrix_element := load M ((i * k + j : Nat) : Int)
                let bit_matrix :=
                  (forLoop kWordBits (_MatrixToBitMatrix_column (k * kWordBits) t.2)
                    (t.1, matrix_element)).1
                (bit_matrix, t.2 + kWordBits))
              (s.1, bit_matrix_col)
          (t.1, bit_matrix_row + k * kWordBits * kWordBits))
        (bm, 0)
        = (forLoop m (fun i bm => (forLoop k
              (fun j (t : (Nat → Nat) × Nat) =>
                let matrix_element := load M ((i * k + j : Nat) : Int)
                let bit_matrix :=
                  (forLoop kWordBits (_MatrixToBitMatrix_column (k * kWordBits) t.2)
                    (t.1, matrix_element)).1
                (bit_matrix, t.2 + kWordBits))
              (bm, (fun row => row + k * kWordBits * kWordBits)^[i] 0)).1) bm,
           (fun row => row + k * kWordBits * kWordBits)^[m] 0) := by
      intro bm
      exact forLoop_pair m
        (fun i row bm => (forLoop k
              (fun j (t : (Nat → Nat) × Nat) =>
                let matrix_element := load M ((i * k + j : Nat) : Int)
                let bit_matrix :=
                  (forLoop kWordBits (_MatrixToBitMatrix_column (k * kWordBits) t.2)
                    (t.1, matrix_element)).1
                (bit_matrix, t.2 + kWordBits))
              (bm, row)).1)
        (fun row => row + k * kWordBits * kWordBits) bm 0
    have hiter : ∀ i, (fun row => row + k * kWordBits * kWordBits)^[i] 0
        = i * (k * kWordBits * kWordBits) := by
      intro i
      induction i with
      | zero => simp
      | succ i ih => rw [Function.iterate_succ_apply', ih]; ring
    simp only [hp, hiter]
    apply writes_forLoop
    intro i hi
    exact hrow i hi
  intro idx
  have h := hall (fun _ => 0)
  constructor
  · intro i j c n hi hj hc hn he
    exact h.1 idx ⟨i, hi, j, hj, c, hc, n, hn, he⟩
  · intro hno
    exact h.2 idx (fun ⟨i, hi, j, hj, c, hc, n, hn, he⟩ => hno i j c n hi hj hc hn he)

end CauchyRSCoder

namespace CauchyRSCoder

open GaloisOperator

theorem bitOf_le (e : Int) (n : Nat) : bitOf e n ≤ 1 := by
  unfold bitOf
  split <;> omega

/-- The cell in row `row` and column `col` of the bit matrix. -/
theorem MatrixToBitMatrix_cell (k m : Nat) (M : Nat → Int) (row col : Nat)
    (hrow : row < m * kWordBits) (hcol : col < k * kWordBits) :
    _MatrixToBitMatrix k m M (row * (k * kWordBits) + col)
      = bitOf (mulPow (col % kWordBits) (M (row / kWordBits * k + col / kWordBits)))
          (row % kWordBits) := by
  have hi : row / kWordBits < m := by unfold kWordBits at *; omega
  have hj : col / kWordBits < k := by unfold kWordBits at *; omega
  have hc : col % kWordBits < 8 := by unfold kWordBits; omega
  have hn : row % kWordBits < 8 := by unfold kWordBits; omega
  have e : row * (k * kWordBits) + col
      = row / kWordBits * (k * kWordBits * kWordBits) + col / kWordBits * kWordBits
        + col % kWordBits + row % kWordBits * (k * kWordBits) := by
    have h1 : row = row / kWordBits * kWordBits + row % kWordBits := by
      unfold kWordBits; omega
    have h2 : col = col / kWordBits * kWordBits + col % kWordBits := by
      unfold kWordBits; omega
    generalize row / kWordBits = i at h1 ⊢
    generalize row % kWordBits = n at h1 ⊢
    generalize col / kWordBits = j at h2 ⊢
    generalize col % kWordBits = c at h2 ⊢
    subst h1 h2
    ring
  rw [(MatrixToBitMatrix_writes k m M _).1 _ _ _ _ hi hj hc hn e]
  obtain ⟨h1, h2, h3, h4⟩ := cell_index k _ _ _ _ hj hc hn
  unfold bitMatrixCell
  rw [e, h1, h2, h3, h4]

/-- The bit matrix holds zeros and ones. -/
theorem MatrixToBitMatrix_le_one (k m : Nat) (M : Nat → Int) (idx : Nat) :
    _MatrixToBitMatrix k m M idx ≤ 1 := by
  by_cases h : ∃ i j c n, i < m ∧ j < k ∧ c < 8 ∧ n < 8 ∧
      idx = i * (k * kWordBits * kWordBits) + j * kWordBits + c + n * (k * kWordBits)
  · obtain ⟨i, j, c, n, hi, hj, hc, hn, he⟩ := h
    rw [(MatrixToBitMatrix_writes k m M idx).1 i j c n hi hj hc hn he]
    exact bitOf_le _ _
  · rw [(MatrixToBitMatrix_writes k m M idx).2
      (fun i j c n hi hj hc hn he => h ⟨i, j, c, n, hi, hj, hc, hn, he⟩)]
    omega

/-! ## Multiplication by two -/

theorem xtime_lt : ∀ e, e < 256 → xtime e < 256 := by
  decide!

theorem mulPow_nat (c a : Nat) (ha : a < 256) :
    mulPow c (a : Int) = ((xtime^[c] a : Nat) : Int) ∧ xtime^[c] a < 256 := by
  induction c with
  | zero => exact ⟨rfl, ha⟩
  | succ c ih =>
    obtain ⟨h1, h2⟩ := ih
    unfold mulPow at h1 ⊢
    rw [Function.iterate_succ_apply', Function.iterate_succ_apply', h1, Multiply_two _ h2]
    exact ⟨rfl, xtime_lt _ h2⟩

theorem bitOf_nat (x n : Nat) : bitOf (x : Int) n = if x &&& 2 ^ n ≠ 0 then 1 else 0 := by
  unfold bitOf
  rw [Int.one_shiftLeft]
  have : Int.land (x : Int) ((2 ^ n : Nat) : Int) = ((x &&& 2 ^ n : Nat) : Int) := rfl
  rw [this]
  by_cases h : x &&& 2 ^ n = 0
  · rw [h]; simp
  · rw [if_pos (by exact_mod_cast h), if_pos h]

/-- Every row of the bit block of a field element other than zero has a one. -/
theorem block_rows_nonzero_bool : (List.range 256).all (fun a => a == 0 ||
    (List.range 8).all (fun n => (List.range 8).any (fun c =>
      (xtime^[c] a) &&& 2 ^ n != 0))) = true := by
  decide!

theorem block_rows_nonzero (a n : Nat) (ha : a < 256) (ha0 : a ≠ 0) (hn : n < 8) :
    ∃ c, c < 8 ∧ bitOf (mulPow c (a : Int)) n = 1 := by
  have h := block_rows_nonzero_bool
  rw [List.all_eq_true] at h
  have h1 := h a (List.mem_range.2 ha)
  simp only [Bool.or_eq_true, beq_iff_eq, ha0, false_or, List.all_eq_true] at h1
  have h2 := h1 n (List.mem_range.2 hn)
  rw [List.any_eq_true] at h2
  obtain ⟨c, hc, h3⟩ := h2
  refine ⟨c, List.mem_range.1 hc, ?_⟩
  rw [(mulPow_nat c a ha).1, bitOf_nat]
  simp only [bne_iff_ne, ne_eq] at h3
  rw [if_pos h3]

/-! ## The encoding bit matrix -/

/-- Every row of the encoding bit matrix has a one. -/
theorem encoding_rows_nonzero (k m : Nat) (hk : 0 < k) (hkm : k + m ≤ 256) (x : Nat)
    (hx : x < m * kWordBits) :
    scratchSrcs k (_MatrixToBitMatrix k m (_GenerateEncodeMatrix k m)) x ≠ [] := by
  have hi : x / kWordBits < m := by unfold kWordBits at *; omega
  have hu := GenerateEncodeMatrix_unit k m hkm (x / kWordBits * k + 0)
    (idx_lt _ 0 k m hi hk)
  obtain ⟨a, ha, ha1, ha0⟩ := hu.exists_nat
  obtain ⟨c, hc, hbit⟩ := block_rows_nonzero a (x % kWordBits) ha1 ha0
    (by unfold kWordBits; omega)
  have hck : c < k * kWordBits := by unfold kWordBits; omega
  have hcell := MatrixToBitMatrix_cell k m (_GenerateEncodeMatrix k m) x c hx hck
  have hc8 : c % kWordBits = c := by unfold kWordBits; omega
  have hc0 : c / kWordBits = 0 := by unfold kWordBits; omega
  rw [hc8, hc0, ha, hbit] at hcell
  intro hnil
  have := scratchSrcs_eq_nil k _ x hnil c hck
  rw [Nat.mul_assoc] at this
  omega

theorem Init_fields (k m : Nat) :
    (_Init k m).m_num_data_parts = k ∧ (_Init k m).m_num_code_parts = m ∧
    (_Init k m).m_encoding_bit_matrix = _MatrixToBitMatrix k m (_GenerateEncodeMatrix k m) ∧
    (_Init k m).m_encoding_schedule
      = _BitMatrixToSchedule k m (_MatrixToBitMatrix k m (_GenerateEncodeMatrix k m)) :=
  ⟨rfl, rfl, rfl, rfl⟩

/-- For a matrix of zeros and ones the columns that are not zero are the
columns that are one. -/
theorem scratchSrcs_eq_ones (k : Nat) (B : Nat → Nat) (x : Nat)
    (hB : ∀ j, j < k * kWordBits → B (x * k * kWordBits + j) ≤ 1) :
    scratchSrcs k B x
      = (List.range (k * kWordBits)).filter (fun j => decide (B (x * (k * kWordBits) + j) = 1)) := by
  unfold scratchSrcs
  apply List.filter_congr
  intro j hj
  have := hB j (List.mem_range.1 hj)
  rw [← Nat.mul_assoc]
  by_cases h : B (x * k * kWordBits + j) = 0
  · rw [h]; rfl
  · have h1 : B (x * k * kWordBits + j) = 1 := by omega
    rw [h1]; rfl

/-- `Encode` computes the product of the encoding bit matrix with the data:
after the call the byte `rel` of sub-packet `x mod 8` of stripe `s` of code
part `x div 8` is the value of row `x` on the data of the stripe. -/
theorem Encode_product (k m : Nat) (hk : 0 < k) (hm : 0 < m) (hkm : k + m ≤ 256)
    (size : Int) (hs : 0 < size) (mem : Shards) (s x : Nat) (hsn : s < numStripes size)
    (hx : x < m * kWordBits) (rel : Int) (h0 : 0 ≤ rel) (h1 : rel < kPacketSize) :
    (Encode (_Init k m) size mem).2 (k + x / kWordBits)
        ((s : Int) * 32768 + ((x % kWordBits : Nat) : Int) * kPacketSize + rel)
      = rowValue k (_MatrixToBitMatrix k m (_GenerateEncodeMatrix k m)) (fun d => d)
          ((s : Int) * 32768) mem x rel := by
  obtain ⟨_, _, h3⟩ := Encode_spec (_Init k m) size mem hs hm rfl
  exact h3 (fun x j _ _ => MatrixToBitMatrix_le_one k m _ _) s x hsn hx
    (encoding_rows_nonzero k m hk hkm x hx) rel h0 h1

end CauchyRSCoder

namespace CauchyRSCoder

/-! ## The pointer set-up of `Decode` -/

theorem erasedCount_succ (erased : Nat → Bool) (n : Nat) :
    erasedCount erased (n + 1) = erasedCount erased n + (if erased n = true then 1 else 0) := by
  unfold erasedCount
  rw [List.range_succ, List.filter_append, List.length_append]
  by_cases h : erased n = true <;> simp [h]

theorem erasedCount_mono (erased : Nat → Bool) (a b : Nat) (h : a ≤ b) :
    erasedCount erased a ≤ erasedCount erased b := by
  induction b with
  | zero =>
    have : a = 0 := by omega
    subst this; exact le_refl _
  | succ b ih =>
    rcases Nat.lt_or_ge a (b + 1) with h1 | h1
    · have := ih (by omega)
      rw [erasedCount_succ]
      omega
    · have : a = b + 1 := by omega
      subst this; exact le_refl _

theorem goodCodeCount_succ (k : Nat) (erased : Nat → Bool) (n : Nat) :
    goodCodeCount k erased (n + 1)
      = goodCodeCount k erased n + (if k ≤ n ∧ erased n = false then 1 else 0) := by
  unfold goodCodeCount
  rw [List.range_succ, List.filter_append, List.length_append]
  by_cases h1 : k ≤ n <;> by_cases h2 : erased n = true <;> simp [h1, h2]

theorem goodCodeCount_mono (k : Nat) (erased : Nat → Bool) (a b : Nat) (h : a ≤ b) :
    goodCodeCount k erased a ≤ goodCodeCount k erased b := by
  induction b with
  | zero =>
    have : a = 0 := by omega
    subst this; exact le_refl _
  | succ b ih =>
    rcases Nat.lt_or_ge a (b + 1) with h1 | h1
    · have := ih (by omega)
      rw [goodCodeCount_succ]
      omega
    · have : a = b + 1 := by omega
      subst this; exact le_refl _

theorem goodCodeCount_data (k : Nat) (erased : Nat → Bool) (n : Nat) (h : n ≤ k) :
    goodCodeCount k erased n = 0 := by
  induction n with
  | zero => rfl
  | succ n ih =>
    rw [goodCodeCount_succ, ih (by omega), if_neg (by omega)]

/-- Among the code parts below `k + j`, those erased and those not add up to `j`. -/
theorem goodCodeCount_add (k : Nat) (erased : Nat → Bool) (j : Nat) :
    goodCodeCount k erased (k + j) + erasedCount erased (k + j) = j + erasedCount erased k := by
  induction j with
  | zero => simp [goodCodeCount_data k erased k (le_refl _)]
  | succ j ih =>
    rw [← Nat.add_assoc, goodCodeCount_succ, erasedCount_succ]
    by_cases h : erased (k + j) = true
    · rw [if_neg (by simp [h]), if_pos h]; omega
    · have h' : erased (k + j) = false := by simpa using h
      rw [if_pos ⟨by omega, h'⟩, if_neg h]; omega

/-- The search for the next code part that is not erased finds one when one
is left, and does not read `erased` outside its range. -/
theorem skip_spec (k : Nat) (erased : Nat → Bool) (total fuel g : Nat)
    (hfuel : total < g + fuel) (hg : k ≤ g)
    (hleft : goodCodeCount k erased g < goodCodeCount k erased total) :
    ∃ cp, Decode_skip erased total fuel g = some cp ∧ g ≤ cp ∧ cp < total ∧ erased cp = false ∧
      goodCodeCount k erased (cp + 1) = goodCodeCount k erased g + 1 := by
  induction fuel generalizing g with
  | zero =>
    have := goodCodeCount_mono k erased total g (by omega)
    omega
  | succ fuel ih =>
    have hlt : g < total := by
      by_contra h
      have := goodCodeCount_mono k erased total g (by omega)
      omega
    unfold Decode_skip
    rw [if_pos hlt]
    by_cases he : erased g = true
    · rw [if_pos he]
      have hs : goodCodeCount k erased (g + 1) = goodCodeCount k erased g := by
        rw [goodCodeCount_succ, if_neg (by simp [he])]; rfl
      obtain ⟨cp, h1, h2, h3, h4, h5⟩ := ih (g + 1) (by omega) (by omega) (by omega)
      exact ⟨cp, h1, by omega, h3, h4, by omega⟩
    · have he' : erased g = false := by simpa using he
      rw [if_neg he]
      refine ⟨g, rfl, le_refl _, hlt, he', ?_⟩
      rw [goodCodeCount_succ, if_pos ⟨hg, he'⟩]

theorem data_ptrs_nat (i : Nat) : data_ptrs (i : Int) = ⟨i, 0⟩ := by
  simp [data_ptrs]

theorem coding_ptrs_nat (k cp : Nat) (h : k ≤ cp) : coding_ptrs k ((cp : Int) - k) = ⟨cp, 0⟩ := by
  unfold coding_ptrs
  congr 1
  omega

/-- One round of the first set-up loop. -/
theorem setup_data_step (c : CauchyRSCoder) (erased : Nat → Bool) (i : Nat) (s : DecodeSetup)
    (hi : i < c.m_num_data_parts)
    (hcount : erasedCount erased (c.m_num_data_parts + c.m_num_code_parts) ≤ c.m_num_code_parts)
    (h : SetupInv c.m_num_data_parts c.m_num_code_parts erased i 0 s) :
    ∃ s', Decode_setup_data c erased i s = some s' ∧
      SetupInv c.m_num_data_parts c.m_num_code_parts erased (i + 1) 0 s' := by
  have hnec : s.num_erased_code_parts = 0 := by
    have := h.nec
    simp only [Nat.add_zero] at this
    omega
  have hepi := h.epi
  unfold Decode_setup_data
  dsimp only
  by_cases he : erased i = true
  · -- the part is erased: a code part stands in for it
    rw [if_neg (by simp [he])]
    have hleft : goodCodeCount c.m_num_data_parts erased s.good_code_part_index
        < goodCodeCount c.m_num_data_parts erased (c.m_num_data_parts + c.m_num_code_parts) := by
      have h1 := goodCodeCount_add c.m_num_data_parts erased c.m_num_code_parts
      have h2 := erasedCount_mono erased (i + 1) c.m_num_data_parts (by omega)
      have h3 := erasedCount_succ erased i
      rw [if_pos he] at h3
      have h4 := h.good_count
      have h5 := h.ned
      omega
    obtain ⟨cp, hskip, hcp1, hcp2, hcp3, hcp4⟩ := skip_spec c.m_num_data_parts erased
      (c.m_num_data_parts + c.m_num_code_parts) (c.m_num_data_parts + c.m_num_code_parts + 1)
      s.good_code_part_index (by omega) h.good_ge hleft
    rw [hskip]
    refine ⟨_, rfl, ?_⟩
    have hgk := h.good_ge
    have hik : (i : Int) ≠ (s.erased_part_index : Int) := by omega
    constructor
    · show s.num_erased_data_parts + 1 = _
      rw [erasedCount_succ, if_pos he, h.ned]
    · exact h.nec
    · show s.erased_part_index + 1
        = c.m_num_data_parts + (s.num_erased_data_parts + 1) + s.num_erased_code_parts
      omega
    · show c.m_num_data_parts ≤ cp + 1
      omega
    · show cp + 1 ≤ c.m_num_data_parts + c.m_num_code_parts
      omega
    · show goodCodeCount _ erased (cp + 1) = s.num_erased_data_parts + 1
      rw [hcp4, h.good_count]
    · intro d hd hde
      have hdi : d ≠ i := by
        intro h'; subst h'; rw [he] at hde; cases hde
      obtain ⟨h1, h2⟩ := h.intact d (by omega) hde
      refine ⟨?_, ?_⟩
      · show store (store s.ptrs _ _) _ _ d = _
        rw [store_other _ _ _ _ (by omega), store_other _ _ _ _ (by omega)]
        exact h1
      · show store (store s.rowid_to_partidx _ _) _ _ d = _
        rw [store_other _ _ _ _ (by omega), store_other _ _ _ _ (by omega)]
        exact h2
    · intro d hd hde
      by_cases hdi : d = i
      · subst hdi
        refine ⟨cp, by omega, Nat.lt_succ_self _, hcp3, ?_, ?_⟩
        · show store (store s.ptrs _ _) _ _ d = _
          rw [store_other _ _ _ _ hik, store_same, coding_ptrs_nat _ _ (by omega)]
        · show store (store s.rowid_to_partidx _ _) _ _ d = _
          rw [store_other _ _ _ _ hik, store_same]
      · obtain ⟨cp', h1, h2, h3, h4, h5⟩ := h.subst d (by omega) hde
        refine ⟨cp', h1, ?_, h3, ?_, ?_⟩
        · show cp' < cp + 1
          omega
        · show store (store s.ptrs _ _) _ _ d = _
          rw [store_other _ _ _ _ (by omega), store_other _ _ _ _ (by omega)]
          exact h4
        · show store (store s.rowid_to_partidx _ _) _ _ d = _
          rw [store_other _ _ _ _ (by omega), store_other _ _ _ _ (by omega)]
          exact h5
    · intro d d' hdd' hd' hde hde'
      show store (store s.rowid_to_partidx _ _) _ _ d < store (store s.rowid_to_partidx _ _) _ _ d'
      rw [store_other _ _ _ _ (by omega), store_other _ _ _ _ (by omega),
        store_other _ _ _ _ (by omega)]
      by_cases hdi : d' = i
      · subst hdi
        rw [store_same]
        obtain ⟨cp', _, h2, _, _, h5⟩ := h.subst d (by omega) hde
        rw [h5]
        omega
      · rw [store_other _ _ _ _ (by omega)]
        exact h.subst_mono d d' hdd' (by omega) hde hde'
    · intro e he1 he2
      have he2' : e < c.m_num_data_parts + (s.num_erased_data_parts + 1) := he2
      by_cases hee : e = s.erased_part_index
      · subst hee
        refine ⟨i, Nat.lt_succ_self _, he, ?_, ?_, ?_⟩
        · show store (store s.ptrs _ _) _ _ _ = _
          rw [store_same, data_ptrs_nat]
        · show store (store s.rowid_to_partidx _ _) _ _ _ = _
          rw [store_same]
        · show store (store s.partidx_to_rowid _ _) _ _ _ = _
          rw [store_same]
      · obtain ⟨d, h1, h2, h3, h4, h5⟩ := h.out_data e he1 (by omega)
        refine ⟨d, by omega, h2, ?_, ?_, ?_⟩
        · show store (store s.ptrs _ _) _ _ e = _
          rw [store_other _ _ _ _ (by omega), store_other _ _ _ _ (by omega)]
          exact h3
        · show store (store s.rowid_to_partidx _ _) _ _ e = _
          rw [store_other _ _ _ _ (by omega), store_other _ _ _ _ (by omega)]
          exact h4
        · show store (store s.partidx_to_rowid _ _) _ _ d = _
          rw [store_other _ _ _ _ (by omega), store_other _ _ _ _ (by omega)]
          exact h5
    · intro e he1 he2
      exfalso
      have he1' : c.m_num_data_parts + (s.num_erased_data_parts + 1) ≤ e := he1
      have he2' : e < s.erased_part_index + 1 := he2
      omega
    · intro e e' he1 hee' he2
      have he2' : e' < s.erased_part_index + 1 := he2
      show store (store s.rowid_to_partidx _ _) _ _ e < store (store s.rowid_to_partidx _ _) _ _ e'
      rw [store_other _ _ _ _ (by omega), store_other _ _ _ _ (by omega)]
      by_cases hee : e' = s.erased_part_index
      · subst hee
        rw [store_same]
        obtain ⟨d, h1, _, _, h4, _⟩ := h.out_data e he1 (by omega)
        rw [h4]
        omega
      · rw [store_other _ _ _ _ (by omega), store_other _ _ _ _ (by omega)]
        exact h.out_mono e e' he1 hee' (by omega)
    · intro d hd hde
      by_cases hdi : d = i
      · subst hdi
        refine ⟨s.erased_part_index, by omega, ?_, ?_⟩
        · show s.erased_part_index < _ + (s.num_erased_data_parts + 1)
          omega
        · show store (store s.rowid_to_partidx _ _) _ _ _ = _
          rw [store_same]
      · obtain ⟨e, h1, h2, h3⟩ := h.all_data d (by omega) hde
        refine ⟨e, h1, ?_, ?_⟩
        · show e < _ + (s.num_erased_data_parts + 1)
          omega
        · show store (store s.rowid_to_partidx _ _) _ _ e = _
          rw [store_other _ _ _ _ (by omega), store_other _ _ _ _ (by omega)]
          exact h3
    · intro cp' h1 h2 _
      omega
  · -- the part is intact
    have he' : erased i = false := by simpa using he
    rw [if_pos (by simp [he'])]
    refine ⟨_, rfl, ?_⟩
    constructor
    · show s.num_erased_data_parts = _
      rw [erasedCount_succ, if_neg he, h.ned]; rfl
    · exact h.nec
    · exact h.epi
    · exact h.good_ge
    · exact h.good_le
    · exact h.good_count
    · intro d hd hde
      by_cases hdi : d = i
      · subst hdi
        exact ⟨by show store s.ptrs _ _ d = _; rw [store_same, data_ptrs_nat],
          by show store s.rowid_to_partidx _ _ d = _; rw [store_same]⟩
      · obtain ⟨h1, h2⟩ := h.intact d (by omega) hde
        exact ⟨by show store s.ptrs _ _ d = _; rw [store_other _ _ _ _ (by omega)]; exact h1,
          by show store s.rowid_to_partidx _ _ d = _; rw [store_other _ _ _ _ (by omega)]; exact h2⟩
    · intro d hd hde
      have hdi : d ≠ i := by
        intro h'; subst h'; rw [he'] at hde; cases hde
      obtain ⟨cp', h1, h2, h3, h4, h5⟩ := h.subst d (by omega) hde
      exact ⟨cp', h1, h2, h3,
        by show store s.ptrs _ _ d = _; rw [store_other _ _ _ _ (by omega)]; exact h4,
        by show store s.rowid_to_partidx _ _ d = _; rw [store_other _ _ _ _ (by omega)]; exact h5⟩
    · intro d d' hdd' hd' hde hde'
      have hdi : d' ≠ i := by
        intro h'; subst h'; rw [he'] at hde'; cases hde'
      show store s.rowid_to_partidx _ _ d < store s.rowid_to_partidx _ _ d'
      rw [store_other _ _ _ _ (by omega), store_other _ _ _ _ (by omega)]
      exact h.subst_mono d d' hdd' (by omega) hde hde'
    · intro e he1 he2
      obtain ⟨d, h1, h2, h3, h4, h5⟩ := h.out_data e he1 he2
      have hdi : d ≠ i := by omega
      exact ⟨d, by omega, h2,
        by show store s.ptrs _ _ e = _; rw [store_other _ _ _ _ (by omega)]; exact h3,
        by show store s.rowid_to_partidx _ _ e = _; rw [store_other _ _ _ _ (by omega)]; exact h4,
        by show store s.partidx_to_rowid _ _ d = _; rw [store_other _ _ _ _ (by omega)]; exact h5⟩
    · intro e he1 he2
      exfalso
      have : e < s.erased_part_index := he2
      have : c.m_num_data_parts + s.num_erased_data_parts ≤ e := he1
      omega
    · intro e e' he1 hee' he2
      show store s.rowid_to_partidx _ _ e < store s.rowid_to_partidx _ _ e'
      rw [store_other _ _ _ _ (by omega), store_other _ _ _ _ (by omega)]
      exact h.out_mono e e' he1 hee' he2
    · intro d hd hde
      have hdi : d ≠ i := by
        intro h'; subst h'; rw [he'] at hde; cases hde
      obtain ⟨e, h1, h2, h3⟩ := h.all_data d (by omega) hde
      exact ⟨e, h1, h2,
        by show store s.rowid_to_partidx _ _ e = _; rw [store_other _ _ _ _ (by omega)]; exact h3⟩
    · intro cp' h1 h2 _
      omega

end CauchyRSCoder

namespace CauchyRSCoder

/-- One round of the second set-up loop. -/
theorem setup_code_step (c : CauchyRSCoder) (erased : Nat → Bool) (i2 : Nat) (s : DecodeSetup)
    (h : SetupInv c.m_num_data_parts c.m_num_code_parts erased c.m_num_data_parts i2 s) :
    SetupInv c.m_num_data_parts c.m_num_code_parts erased c.m_num_data_parts (i2 + 1)
      (Decode_setup_code c erased (c.m_num_data_parts + i2) s) := by
  have hepi := h.epi
  unfold Decode_setup_code
  dsimp only
  by_cases he : erased (c.m_num_data_parts + i2) = true
  · rw [if_pos he]
    constructor
    · exact h.ned
    · show s.num_erased_code_parts + 1 + _ = _
      rw [← Nat.add_assoc, erasedCount_succ, if_pos he]
      have := h.nec
      omega
    · show s.erased_part_index + 1
        = c.m_num_data_parts + s.num_erased_data_parts + (s.num_erased_code_parts + 1)
      omega
    · exact h.good_ge
    · exact h.good_le
    · exact h.good_count
    · intro d hd hde
      obtain ⟨h1, h2⟩ := h.intact d hd hde
      exact ⟨by show store s.ptrs _ _ d = _; rw [store_other _ _ _ _ (by omega)]; exact h1,
        by show store s.rowid_to_partidx _ _ d = _; rw [store_other _ _ _ _ (by omega)]; exact h2⟩
    · intro d hd hde
      obtain ⟨cp', h1, h2, h3, h4, h5⟩ := h.subst d hd hde
      exact ⟨cp', h1, h2, h3,
        by show store s.ptrs _ _ d = _; rw [store_other _ _ _ _ (by omega)]; exact h4,
        by show store s.rowid_to_partidx _ _ d = _; rw [store_other _ _ _ _ (by omega)]; exact h5⟩
    · intro d d' hdd' hd' hde hde'
      show store s.rowid_to_partidx _ _ d < store s.rowid_to_partidx _ _ d'
      rw [store_other _ _ _ _ (by omega), store_other _ _ _ _ (by omega)]
      exact h.subst_mono d d' hdd' hd' hde hde'
    · intro e he1 he2
      have he2' : e < c.m_num_data_parts + s.num_erased_data_parts := he2
      obtain ⟨d, h1, h2, h3, h4, h5⟩ := h.out_data e he1 he2'
      exact ⟨d, h1, h2,
        by show store s.ptrs _ _ e = _; rw [store_other _ _ _ _ (by omega)]; exact h3,
        by show store s.rowid_to_partidx _ _ e = _; rw [store_other _ _ _ _ (by omega)]; exact h4,
        by show store s.partidx_to_rowid _ _ d = _; rw [store_other _ _ _ _ (by omega)]; exact h5⟩
    · intro e he1 he2
      have he1' : c.m_num_data_parts + s.num_erased_data_parts ≤ e := he1
      have he2' : e < s.erased_part_index + 1 := he2
      by_cases hee : e = s.erased_part_index
      · subst hee
        refine ⟨c.m_num_data_parts + i2, by omega, by omega, he, ?_, ?_⟩
        · show store s.ptrs _ _ _ = _
          rw [store_same]
          exact coding_ptrs_nat _ _ (by omega)
        · show store s.rowid_to_partidx _ _ _ = _
          rw [store_same]
      · obtain ⟨cp', h1, h2, h3, h4, h5⟩ := h.out_code e he1' (by omega)
        exact ⟨cp', h1, by omega, h3,
          by show store s.ptrs _ _ e = _; rw [store_other _ _ _ _ (by omega)]; exact h4,
          by show store s.rowid_to_partidx _ _ e = _; rw [store_other _ _ _ _ (by omega)]; exact h5⟩
    · intro e e' he1 hee' he2
      have he2' : e' < s.erased_part_index + 1 := he2
      show store s.rowid_to_partidx _ _ e < store s.rowid_to_partidx _ _ e'
      rw [store_other _ _ _ _ (by omega)]
      by_cases hee : e' = s.erased_part_index
      · subst hee
        rw [store_same]
        by_cases hreg : e < c.m_num_data_parts + s.num_erased_data_parts
        · obtain ⟨d, h1, _, _, h4, _⟩ := h.out_data e he1 hreg
          rw [h4]; push_cast; omega
        · obtain ⟨cp', _, h2, _, _, h5⟩ := h.out_code e (by omega) hee'
          rw [h5]; push_cast; omega
      · rw [store_other _ _ _ _ (by omega)]
        exact h.out_mono e e' he1 hee' (by omega)
    · intro d hd hde
      obtain ⟨e, h1, h2, h3⟩ := h.all_data d hd hde
      have h2' : e < c.m_num_data_parts + s.num_erased_data_parts := h2
      exact ⟨e, h1, h2,
        by show store s.rowid_to_partidx _ _ e = _; rw [store_other _ _ _ _ (by omega)]; exact h3⟩
    · intro cp' h1 h2 h3
      by_cases hcp : cp' = c.m_num_data_parts + i2
      · subst hcp
        refine ⟨s.erased_part_index, ?_, ?_, ?_⟩
        · show c.m_num_data_parts + s.num_erased_data_parts ≤ s.erased_part_index
          omega
        · show s.erased_part_index < s.erased_part_index + 1
          omega
        · show store s.rowid_to_partidx _ _ _ = _
          rw [store_same]
      · obtain ⟨e, g1, g2, g3⟩ := h.all_code cp' h1 (by omega) h3
        have g1' : c.m_num_data_parts + s.num_erased_data_parts ≤ e := g1
        refine ⟨e, g1, ?_, ?_⟩
        · show e < s.erased_part_index + 1
          omega
        · show store s.rowid_to_partidx _ _ e = _
          rw [store_other _ _ _ _ (by omega)]
          exact g3
  · have he' : erased (c.m_num_data_parts + i2) = false := by simpa using he
    rw [if_neg he]
    refine { h with nec := ?_, out_code := ?_, all_code := ?_ }
    · rw [← Nat.add_assoc, erasedCount_succ, if_neg he]
      exact h.nec
    · intro e he1 he2
      obtain ⟨cp', h1, h2, h3, h4, h5⟩ := h.out_code e he1 he2
      exact ⟨cp', h1, by omega, h3, h4, h5⟩
    · intro cp' h1 h2 h3
      have : cp' ≠ c.m_num_data_parts + i2 := by
        intro h'; subst h'; rw [he'] at h3; cases h3
      exact h.all_code cp' h1 (by omega) h3

/-- The pointer set-up of `Decode` succeeds when at most `m` parts are erased,
and establishes the invariant for all parts. -/
theorem Decode_setup_spec (c : CauchyRSCoder) (erased : Nat → Bool)
    (hcount : erasedCount erased (c.m_num_data_parts + c.m_num_code_parts) ≤ c.m_num_code_parts) :
    ∃ s, Decode_setup c erased = some s ∧
      SetupInv c.m_num_data_parts c.m_num_code_parts erased c.m_num_data_parts c.m_num_code_parts s := by
  unfold Decode_setup
  dsimp only
  have h1 := forLoop_inv
    (fun (i : Nat) (so : Option DecodeSetup) =>
      ∃ s, so = some s ∧ SetupInv c.m_num_data_parts c.m_num_code_parts erased i 0 s)
    c.m_num_data_parts
    (fun i (s : Option DecodeSetup) => s.bind (Decode_setup_data c erased i))
    (some
        { ptrs := fun _ => ⟨0, 0⟩, rowid_to_partidx := fun _ => 0, partidx_to_rowid := fun _ => 0,
          good_code_part_index := c.m_num_data_parts, erased_part_index := c.m_num_data_parts,
          num_erased_data_parts := 0, num_erased_code_parts := 0 })
    ⟨_, rfl, ?_⟩ ?_
  · obtain ⟨s, hs, hinv⟩ := h1
    rw [hs]
    refine ⟨_, rfl, ?_⟩
    have h2 := forLoop_inv
      (fun (i2 : Nat) (s : DecodeSetup) =>
        SetupInv c.m_num_data_parts c.m_num_code_parts erased c.m_num_data_parts i2 s)
      c.m_num_code_parts
      (fun i' (s : DecodeSetup) => Decode_setup_code c erased (c.m_num_data_parts + i') s)
      s hinv (fun i2 _ t ht => setup_code_step c erased i2 t ht)
    simpa using h2
  · constructor
    · rfl
    · show 0 + _ = _
      simp
    · rfl
    · exact le_refl _
    · show c.m_num_data_parts ≤ _
      omega
    · exact goodCodeCount_data _ _ _ (le_refl _)
    · intro d hd; omega
    · intro d hd; omega
    · intro d d' _ hd'; omega
    · intro e h1 h2
      have : e < c.m_num_data_parts + 0 := h2
      omega
    · intro e h1 h2
      have : c.m_num_data_parts + 0 ≤ e := h1
      have : e < c.m_num_data_parts := h2
      omega
    · intro e e' h1 h2 h3
      have : e' < c.m_num_data_parts := h3
      omega
    · intro d hd; omega
    · intro cp h1 h2; omega
  · intro i hi so ⟨s, hs, hinv⟩
    rw [hs]
    exact setup_data_step c erased i s hi hcount hinv

theorem SetupInv.counts {k m : Nat} {erased : Nat → Bool} {s : DecodeSetup}
    (h : SetupInv k m erased k m s) :
    s.num_erased_data_parts = erasedCount erased k ∧
      s.num_erased_data_parts + s.num_erased_code_parts = erasedCount erased (k + m) := by
  have := h.ned
  have := h.nec
  omega

/-- After the set-up every row id `d` below `k + num_erased` has its part `p`. -/
theorem SetupInv.part_of {k m : Nat} {erased : Nat → Bool} {s : DecodeSetup}
    (h : SetupInv k m erased k m s) (d : Nat)
    (hd : d < k + (s.num_erased_data_parts + s.num_erased_code_parts)) :
    ∃ p : Nat, s.rowid_to_partidx d = (p : Int) ∧ s.ptrs d = ⟨p, 0⟩ ∧ p < k + m ∧
      erased p = decide (k ≤ d) ∧
      (d < k → erased d = false → p = d) ∧ (d < k → erased d = true → k ≤ p) ∧
      (k ≤ d → d < k + s.num_erased_data_parts → p < k) ∧
      (k + s.num_erased_data_parts ≤ d → k ≤ p) := by
  have hepi := h.epi
  have hgl := h.good_le
  by_cases hdk : d < k
  · have hdec : decide (k ≤ d) = false := by simp; omega
    by_cases he : erased d = true
    · obtain ⟨cp, h1, h2, h3, h4, h5⟩ := h.subst d hdk he
      refine ⟨cp, h5, h4, by omega, by rw [h3, hdec], ?_, fun _ _ => h1, ?_, ?_⟩
      · intro _ h'
        rw [he] at h'
        cases h'
      · intro h'; omega
      · intro h'; omega
    · have he' : erased d = false := by simpa using he
      obtain ⟨h1, h2⟩ := h.intact d hdk he'
      refine ⟨d, h2, h1, by omega, by rw [he', hdec], fun _ _ => rfl, ?_, ?_, ?_⟩
      · intro _ h'
        rw [he'] at h'
        cases h'
      · intro h'; omega
      · intro h'; omega
  · have hdec : decide (k ≤ d) = true := by simp; omega
    by_cases hreg : d < k + s.num_erased_data_parts
    · obtain ⟨p, h1, h2, h3, h4, _⟩ := h.out_data d (by omega) hreg
      refine ⟨p, h4, h3, by omega, by rw [h2, hdec], ?_, ?_, fun _ _ => h1, ?_⟩
      · intro h'; omega
      · intro h'; omega
      · intro h'; omega
    · obtain ⟨cp, h1, h2, h3, h4, h5⟩ := h.out_code d (by omega) (by omega)
      refine ⟨cp, h5, h4, h2, by rw [h3, hdec], ?_, ?_, ?_, fun _ => h1⟩
      · intro h'; omega
      · intro h'; omega
      · intro _ h'; omega

/-- After the set-up the parts of different row ids differ. -/
theorem SetupInv.part_inj {k m : Nat} {erased : Nat → Bool} {s : DecodeSetup}
    (h : SetupInv k m erased k m s) (d e : Nat)
    (hd : d < k + (s.num_erased_data_parts + s.num_erased_code_parts))
    (he : e < k + (s.num_erased_data_parts + s.num_erased_code_parts))
    (hde : (s.rowid_to_partidx d).toNat = (s.rowid_to_partidx e).toNat) : d = e := by
  have hepi := h.epi
  obtain ⟨p, hp1, _, _, hp4, hp5, hp6, _, _⟩ := h.part_of d hd
  obtain ⟨q, hq1, _, _, hq4, hq5, hq6, _, _⟩ := h.part_of e he
  rw [hp1, hq1] at hde
  have hpq : p = q := by simpa using hde
  subst hpq
  have hlt : ∀ a b, a < b → s.rowid_to_partidx a = (p : Int) → s.rowid_to_partidx b = (p : Int) →
      a < k + (s.num_erased_data_parts + s.num_erased_code_parts) →
      b < k + (s.num_erased_data_parts + s.num_erased_code_parts) →
      erased p = decide (k ≤ a) → erased p = decide (k ≤ b) →
      (a < k → erased a = false → p = a) → (a < k → erased a = true → k ≤ p) →
      (b < k → erased b = false → p = b) → (b < k → erased b = true → k ≤ p) → False := by
    intro a b hab ha hb ha' hb' ea eb a5 a6 b5 b6
    by_cases hak : a < k
    · by_cases hbk : b < k
      · cases hea : erased a <;> cases heb : erased b
        · have := a5 hak hea
          have := b5 hbk heb
          omega
        · have := a5 hak hea
          have := b6 hbk heb
          omega
        · have := a6 hak hea
          have := b5 hbk heb
          omega
        · have := h.subst_mono a b hab hbk hea heb
          rw [ha, hb] at this
          omega
      · have h1 : decide (k ≤ a) = false := by simp; omega
        have h2 : decide (k ≤ b) = true := by simp; omega
        rw [h1] at ea
        rw [h2] at eb
        rw [ea] at eb
        cases eb
    · have := h.out_mono a b (by omega) hab (by omega)
      rw [ha, hb] at this
      omega
  rcases Nat.lt_trichotomy d e with h1 | h1 | h1
  · exact (hlt d e h1 hp1 hq1 hd he hp4 hq4 hp5 hp6 hq5 hq6).elim
  · exact h1
  · exact (hlt e d h1 hq1 hp1 he hd hq4 hp4 hq5 hq6 hp5 hp6).elim

end CauchyRSCoder

namespace CauchyRSCoder

open GaloisOperator

/-- A byte inside one of the sub-packets that a run over `n` stripes works on
lies in the first `n` stripes. -/
theorem inPkt_offset (s x n p b : Nat) (o : Int) (hs : s < n)
    (h : InPkt ((s : Int) * 32768) p (x % kWordBits) b o) :
    b = p ∧ 0 ≤ o ∧ o < (n : Int) * 32768 := by
  unfold InPkt at h
  unfold kWordBits kPacketSize at h
  obtain ⟨h1, h2, h3⟩ := h
  have hx : x % 8 < 8 := Nat.mod_lt _ (by norm_num)
  refine ⟨h1, ?_, ?_⟩
  · push_cast at h2
    omega
  · push_cast at h3
    omega

/-- `Decode` changes bytes of erased parts only, and only in the stripes it
runs over. -/
theorem Decode_frame (c : CauchyRSCoder) (erased : Nat → Bool) (size : Int) (mem : Shards)
    (b : Nat) (o : Int) (hne : (Decode c erased size mem).2 b o ≠ mem b o) :
    b < c.m_num_data_parts + c.m_num_code_parts ∧ erased b = true ∧ 0 ≤ o ∧
      o < (numStripes size : Int) * 32768 := by
  rw [Decode_unfold] at hne
  by_cases h1 : ¬ (size > 0)
  · rw [if_pos h1] at hne
    exact absurd rfl hne
  rw [if_neg h1] at hne
  by_cases h2 : c.m_num_code_parts < erasedCount erased (c.m_num_data_parts + c.m_num_code_parts)
  · rw [if_pos h2] at hne
    exact absurd rfl hne
  rw [if_neg h2] at hne
  by_cases h3 : erasedCount erased (c.m_num_data_parts + c.m_num_code_parts) = 0
  · rw [if_pos h3] at hne
    exact absurd rfl hne
  rw [if_neg h3] at hne
  obtain ⟨s, hs, hinv⟩ := Decode_setup_spec c erased (by omega)
  rw [hs] at hne
  dsimp only at hne
  cases hD : Decode_decoding_bit_matrix c s with
  | none =>
    rw [hD] at hne
    exact absurd rfl hne
  | some D =>
    rw [hD] at hne
    obtain ⟨hc1, hc2⟩ := hinv.counts
    have hp : ∀ d, d < c.m_num_data_parts + (s.num_erased_data_parts + s.num_erased_code_parts) →
        s.ptrs d = ⟨(s.rowid_to_partidx d).toNat, 0⟩ := by
      intro d hd
      obtain ⟨p, hp1, hp2, _⟩ := hinv.part_of d hd
      rw [hp2, hp1]
      rfl
    have hspec := (DoScheduleOperations_spec c c.m_num_data_parts
      (s.num_erased_data_parts + s.num_erased_code_parts) D s.ptrs
      (fun d => (s.rowid_to_partidx d).toNat) size mem (by omega) (by omega) hp
      (fun d e hd he h => hinv.part_inj d e hd he h)).1
    by_contra hcon
    apply hne
    apply hspec
    intro st x hst hx hin
    apply hcon
    obtain ⟨hb, ho1, ho2⟩ := inPkt_offset st x _ _ b o hst hin
    have hd : c.m_num_data_parts + x / kWordBits
        < c.m_num_data_parts + (s.num_erased_data_parts + s.num_erased_code_parts) := by
      unfold kWordBits at *
      omega
    obtain ⟨p, hp1, _, hp3, hp4, _⟩ := hinv.part_of _ hd
    have hbp : b = p := by
      rw [hb]
      show (s.rowid_to_partidx _).toNat = p
      rw [hp1]
      rfl
    rw [hbp]
    refine ⟨hp3, ?_, ho1, ho2⟩
    rw [hp4]
    simp

/-- A loop whose rounds change nothing changes nothing. -/
theorem forLoop_id {σ : Type} (n : Nat) (body : Nat → σ → σ) (s : σ)
    (h : ∀ i, i < n → ∀ t, body i t = t) : forLoop n body s = s :=
  forLoop_inv (fun _ t => t = s) n body s rfl (fun i hi t ht => by rw [h i hi t, ht])

/-- A part range never holds more erased parts than parts. -/
theorem erasedCount_add_le (erased : Nat → Bool) (k j : Nat) :
    erasedCount erased (k + j) ≤ erasedCount erased k + j := by
  induction j with
  | zero => exact le_refl _
  | succ j ih =>
    rw [← Nat.add_assoc, erasedCount_succ]
    split_ifs <;> omega

/-- With every data part intact a round of the loop over the erased code parts
only copies the block-row of the code part. -/
theorem Decode_code_rows_intact (c : CauchyRSCoder) (s : DecodeSetup) (k' : Nat) (d : Nat → Nat)
    (h : ∀ i, i < c.m_num_data_parts → load s.rowid_to_partidx i = (i : Int)) :
    Decode_code_rows c s k' d
      = memcpyArr d (c.m_num_data_parts * kWordBits * kWordBits * (s.num_erased_data_parts + k'))
          c.m_encoding_bit_matrix
          ((load s.rowid_to_partidx ((k' : Int) + s.num_erased_data_parts + c.m_num_data_parts)
              - c.m_num_data_parts) * c.m_num_data_parts * kWordBits * kWordBits).toNat
          (c.m_num_data_parts * kWordBits * kWordBits) := by
  unfold Decode_code_rows
  simp only
  rw [forLoop_id c.m_num_data_parts _ _ (fun i hi t => by rw [if_neg (not_not.mpr (h i hi))])]
  rw [forLoop_id c.m_num_data_parts _ _ (fun i hi t => by rw [if_neg (not_not.mpr (h i hi))])]

end CauchyRSCoder

namespace CauchyRSCoder

open GaloisOperator

/-- The cell `j` of row `x` of a matrix with `k * 8` columns, by block-row. -/
theorem row_cell_index (k x j : Nat) :
    x * k * kWordBits + j
      = k * kWordBits * kWordBits * (x / kWordBits) + (x % kWordBits * (k * kWordBits) + j) := by
  have h := Nat.div_add_mod x kWordBits
  generalize x / kWordBits = q at h ⊢
  generalize x % kWordBits = r at h ⊢
  subst h
  ring

theorem row_cell_lt (k x j : Nat) (hj : j < k * kWordBits) :
    x % kWordBits * (k * kWordBits) + j < k * kWordBits * kWordBits := by
  have h : x % kWordBits < kWordBits := Nat.mod_lt _ (by unfold kWordBits; norm_num)
  have h2 : (x % kWordBits + 1) * (k * kWordBits) ≤ kWordBits * (k * kWordBits) :=
    Nat.mul_le_mul_right _ h
  have h3 : kWordBits * (k * kWordBits) = k * kWordBits * kWordBits := by ring
  rw [Nat.add_mul, Nat.one_mul, h3] at h2
  omega

/-- With no data part erased the decoding bit matrix is made of the block-rows
of the encoding bit matrix of the erased code parts. -/
theorem Decode_matrix_code_only (c : CauchyRSCoder) (s : DecodeSetup)
    (hned : s.num_erased_data_parts = 0)
    (hint : ∀ i, i < c.m_num_data_parts → load s.rowid_to_partidx i = (i : Int)) :
    ∃ D, Decode_decoding_bit_matrix c s = some D ∧
      ∀ e idx, e < s.num_erased_code_parts → idx < c.m_num_data_parts * kWordBits * kWordBits →
        D (c.m_num_data_parts * kWordBits * kWordBits * e + idx)
          = c.m_encoding_bit_matrix
              (((s.rowid_to_partidx (c.m_num_data_parts + e) - c.m_num_data_parts)
                  * c.m_num_data_parts * kWordBits * kWordBits).toNat + idx) := by
  unfold Decode_decoding_bit_matrix
  simp only [hned, gt_iff_lt, lt_self_iff_false, if_false, Option.map_some']
  refine ⟨_, rfl, ?_⟩
  refine forLoop_inv (fun t (D : Nat → Nat) => ∀ e idx, e < t →
      idx < c.m_num_data_parts * kWordBits * kWordBits →
      D (c.m_num_data_parts * kWordBits * kWordBits * e + idx)
        = c.m_encoding_bit_matrix
            (((s.rowid_to_partidx (c.m_num_data_parts + e) - c.m_num_data_parts)
                * c.m_num_data_parts * kWordBits * kWordBits).toNat + idx))
    s.num_erased_code_parts _ _ ?_ ?_
  · intro e idx he
    omega
  · intro t _ D hD e idx he hidx
    rw [Decode_code_rows_intact c s t D hint, hned]
    unfold memcpyArr
    rcases Nat.lt_or_ge e t with h | h
    · have h1 : c.m_num_data_parts * kWordBits * kWordBits * (e + 1)
          ≤ c.m_num_data_parts * kWordBits * kWordBits * (0 + t) :=
        Nat.mul_le_mul_left _ (by omega)
      rw [Nat.mul_succ] at h1
      rw [if_neg (by omega)]
      exact hD e idx h hidx
    · have h1 : e = t := by omega
      subst h1
      rw [Nat.zero_add, if_pos ⟨by omega, by omega⟩]
      have h2 : ((e : Int) + ((0 : Nat) : Int) + (c.m_num_data_parts : Int))
          = ((c.m_num_data_parts + e : Nat) : Int) := by
        push_cast
        ring
      rw [h2, load_natCast, Nat.add_sub_cancel_left]

/-- The set-up of `Decode` when no data part is erased. -/
theorem Decode_setup_code_only (c : CauchyRSCoder) (erased : Nat → Bool)
    (hdata : ∀ i, i < c.m_num_data_parts → erased i = false) :
    ∃ s, Decode_setup c erased = some s ∧
      SetupInv c.m_num_data_parts c.m_num_code_parts erased c.m_num_data_parts
        c.m_num_code_parts s ∧
      s.num_erased_data_parts = 0 ∧
      s.num_erased_code_parts = erasedCount erased (c.m_num_data_parts + c.m_num_code_parts) ∧
      (∀ i, i < c.m_num_data_parts → load s.rowid_to_partidx i = (i : Int)) := by
  have h0 := erasedCount_eq_zero erased c.m_num_data_parts hdata
  have hle := erasedCount_add_le erased c.m_num_data_parts c.m_num_code_parts
  obtain ⟨s, hs, hinv⟩ := Decode_setup_spec c erased (by omega)
  obtain ⟨hc1, hc2⟩ := hinv.counts
  refine ⟨s, hs, hinv, by omega, by omega, ?_⟩
  intro i hi
  rw [load_natCast]
  exact (hinv.intact i hi (hdata i hi)).2

/-- A byte offset in the first `n` stripes, by stripe, sub-packet and byte. -/
theorem offset_split (o : Int) (n : Nat) (h0 : 0 ≤ o) (h1 : o < (n : Int) * 32768) :
    ∃ st bit : Nat, ∃ rel : Int, st < n ∧ bit < kWordBits ∧ 0 ≤ rel ∧ rel < kPacketSize ∧
      o = (st : Int) * 32768 + (bit : Int) * kPacketSize + rel := by
  unfold kWordBits kPacketSize
  refine ⟨(o / 32768).toNat, (o % 32768 / 4096).toNat, o % 4096, ?_, ?_, ?_, ?_, ?_⟩
  · omega
  · omega
  · omega
  · omega
  · push_cast
    omega

theorem block_row_index (q bit : Nat) (hbit : bit < kWordBits) :
    (q * kWordBits + bit) / kWordBits = q ∧ (q * kWordBits + bit) % kWordBits = bit := by
  unfold kWordBits at *
  omega

theorem block_div_lt (x r : Nat) (h : x < r * kWordBits) : x / kWordBits < r := by
  unfold kWordBits at *
  omega

/-- With no data part erased `Decode` writes into an erased code part the
bytes of the bit-matrix product that `Encode` writes there. -/
theorem Decode_reencode (c : CauchyRSCoder) (erased : Nat → Bool)
    (hm : 0 < c.m_num_code_parts)
    (hsched : c.m_encoding_schedule
      = _BitMatrixToSchedule c.m_num_data_parts c.m_num_code_parts c.m_encoding_bit_matrix)
    (hB : ∀ idx, c.m_encoding_bit_matrix idx ≤ 1)
    (hnz : ∀ x, x < c.m_num_code_parts * kWordBits →
      scratchSrcs c.m_num_data_parts c.m_encoding_bit_matrix x ≠ [])
    (hdata : ∀ i, i < c.m_num_data_parts → erased i = false)
    (hne : erasedCount erased (c.m_num_data_parts + c.m_num_code_parts) ≠ 0)
    (size : Int) (hs : 0 < size) (mem0 mem : Shards)
    (hagree : ∀ i o, i < c.m_num_data_parts → mem i o = mem0 i o) :
    (Decode c erased size mem).1 = Outcome.returned ∧
    ∀ b o, c.m_num_data_parts ≤ b → b < c.m_num_data_parts + c.m_num_code_parts →
      erased b = true → 0 ≤ o → o < (numStripes size : Int) * 32768 →
      (Decode c erased size mem).2 b o = (Encode c size mem0).2 b o := by
  obtain ⟨s, hset, hinv, hned, hnec, hint⟩ := Decode_setup_code_only c erased hdata
  obtain ⟨D, hD, hDv⟩ := Decode_matrix_code_only c s hned hint
  have hle := erasedCount_add_le erased c.m_num_data_parts c.m_num_code_parts
  have h0 := erasedCount_eq_zero erased c.m_num_data_parts hdata
  have hdec : Decode c erased size mem = (Outcome.returned,
      _DoScheduleOperations c
        (_BitMatrixToSchedule c.m_num_data_parts
          (s.num_erased_data_parts + s.num_erased_code_parts) D) s.ptrs size mem) := by
    rw [Decode_unfold, if_neg (not_not.mpr hs), if_neg (by omega), if_neg hne, hset]
    dsimp only
    rw [hD]
  rw [hdec]
  refine ⟨rfl, ?_⟩
  have hepi := hinv.epi
  have hp : ∀ d, d < c.m_num_data_parts + (s.num_erased_data_parts + s.num_erased_code_parts) →
      s.ptrs d = ⟨(s.rowid_to_partidx d).toNat, 0⟩ := by
    intro d hd
    obtain ⟨p, hp1, hp2, _⟩ := hinv.part_of d hd
    rw [hp2, hp1]
    rfl
  have hspec := (DoScheduleOperations_spec c c.m_num_data_parts
    (s.num_erased_data_parts + s.num_erased_code_parts) D s.ptrs
    (fun d => (s.rowid_to_partidx d).toNat) size mem (by omega) (by omega) hp
    (fun d e hd he h => hinv.part_inj d e hd he h)).2
  -- the rows of the decoding matrix, cell by cell
  have hrow : ∀ e bit cp j, e < s.num_erased_code_parts → bit < kWordBits →
      s.rowid_to_partidx (c.m_num_data_parts + e) = ((cp : Nat) : Int) →
      c.m_num_data_parts ≤ cp → j < c.m_num_data_parts * kWordBits →
      D ((e * kWordBits + bit) * c.m_num_data_parts * kWordBits + j)
        = c.m_encoding_bit_matrix
            (((cp - c.m_num_data_parts) * kWordBits + bit) * c.m_num_data_parts * kWordBits + j) := by
    intro e bit cp j he hbit hcp hkcp hj
    obtain ⟨hq1, hq2⟩ := block_row_index e bit hbit
    obtain ⟨hq3, hq4⟩ := block_row_index (cp - c.m_num_data_parts) bit hbit
    have hlt := row_cell_lt c.m_num_data_parts (e * kWordBits + bit) j hj
    rw [row_cell_index, hDv _ _ (by rw [hq1]; exact he) hlt, hq1, hq2, hcp,
      row_cell_index c.m_num_data_parts ((cp - c.m_num_data_parts) * kWordBits + bit) j, hq3, hq4]
    have h1 : ((cp : Int) - (c.m_num_data_parts : Int)) * (c.m_num_data_parts : Int)
        * (kWordBits : Int) * (kWordBits : Int)
        = ((c.m_num_data_parts * kWordBits * kWordBits * (cp - c.m_num_data_parts) : Nat) : Int) := by
      push_cast [Nat.cast_sub hkcp]
      ring
    rw [h1, Int.toNat_natCast]
  intro b o hb1 hb2 hbe ho1 ho2
  obtain ⟨e, he1, he2, he3⟩ := hinv.all_code b hb1 hb2 hbe
  obtain ⟨st, bit, rel, hst, hbit, hr0, hr1, rfl⟩ := offset_split o _ ho1 ho2
  have hee : c.m_num_data_parts + (e - c.m_num_data_parts) = e := by omega
  have hecp : s.rowid_to_partidx (c.m_num_data_parts + (e - c.m_num_data_parts)) = ((b : Nat) : Int) := by
    rw [hee]
    exact he3
  have helt : e - c.m_num_data_parts < s.num_erased_code_parts := by omega
  obtain ⟨hq1, hq2⟩ := block_row_index (e - c.m_num_data_parts) bit hbit
  obtain ⟨hq3, hq4⟩ := block_row_index (b - c.m_num_data_parts) bit hbit
  have hxlt : (e - c.m_num_data_parts) * kWordBits + bit
      < (s.num_erased_data_parts + s.num_erased_code_parts) * kWordBits := by
    unfold kWordBits at *
    omega
  have hx2lt : (b - c.m_num_data_parts) * kWordBits + bit < c.m_num_code_parts * kWordBits := by
    unfold kWordBits at *
    omega
  -- the two rows have the same sources
  have hsrc : scratchSrcs c.m_num_data_parts D ((e - c.m_num_data_parts) * kWordBits + bit)
      = scratchSrcs c.m_num_data_parts c.m_encoding_bit_matrix
          ((b - c.m_num_data_parts) * kWordBits + bit) := by
    unfold scratchSrcs
    apply List.filter_congr
    intro j hj
    rw [List.mem_range] at hj
    rw [hrow _ bit b j helt hbit hecp hb1 hj]
  have hD1 : ∀ x j, x < (s.num_erased_data_parts + s.num_erased_code_parts) * kWordBits →
      j < c.m_num_data_parts * kWordBits → D (x * c.m_num_data_parts * kWordBits + j) ≤ 1 := by
    intro x j hx hj
    have hx8 : x % kWordBits < kWordBits := Nat.mod_lt _ (by unfold kWordBits; norm_num)
    have hxe : x / kWordBits < s.num_erased_code_parts := by
      have := block_div_lt x _ hx
      omega
    obtain ⟨cp, hc1, _, _, _, hc5⟩ := hinv.out_code (c.m_num_data_parts + x / kWordBits)
      (by generalize x / kWordBits = q at hxe ⊢; omega)
      (by generalize x / kWordBits = q at hxe ⊢; omega)
    have := hrow (x / kWordBits) (x % kWordBits) cp j hxe hx8 hc5 hc1 hj
    rw [Nat.div_add_mod' x kWordBits] at this
    rw [this]
    exact hB _
  have hdv := hspec hD1 st _ hst hxlt (by rw [hsrc]; exact hnz _ hx2lt) rel hr0 hr1
  have hev := (Encode_spec c size mem0 hs hm hsched).2.2 (fun x j _ _ => hB _) st _ hst hx2lt
    (hnz _ hx2lt) rel hr0 hr1
  rw [hq1, hq2] at hdv
  rw [hq3, hq4] at hev
  have hpb : (s.rowid_to_partidx (c.m_num_data_parts + (e - c.m_num_data_parts))).toNat = b := by
    rw [hecp]
    rfl
  have hbb : c.m_num_data_parts + (b - c.m_num_data_parts) = b := by omega
  simp only [hpb] at hdv
  rw [hbb] at hev
  refine hdv.trans (Eq.trans ?_ hev.symm)
  unfold rowValue
  rw [hsrc]
  apply xorSrcs_congr
  intro j hj
  unfold scratchSrcs at hj
  rw [List.mem_filter, List.mem_range] at hj
  have hj8 : j / kWordBits < c.m_num_data_parts := by
    have := hj.1
    unfold kWordBits at *
    omega
  have := hint _ hj8
  rw [load_natCast] at this
  show mem (s.rowid_to_partidx (j / kWordBits)).toNat _ = _
  rw [this]
  exact hagree _ _ hj8

end CauchyRSCoder

namespace CauchyRSCoder

open GaloisOperator

theorem xorSrcs_zero (js : List Nat) : xorSrcs (fun _ => 0) js = 0 := by
  unfold xorSrcs
  induction js with
  | nil => rfl
  | cons j t ih =>
    rw [List.foldl_cons]
    have h : (0 : Nat) ^^^ (fun _ : Nat => (0 : Nat)) j = 0 := by simp
    rw [h]
    exact ih

/-- The bit-matrix product of buffers of zeros is zero. -/
theorem rowValue_zero (k : Nat) (B : Nat → Nat) (part : Nat → Nat) (base : Int) (mem : Shards)
    (x : Nat) (rel : Int) (h : ∀ d o, d < k → mem (part d) o = 0) :
    rowValue k B part base mem x rel = 0 := by
  unfold rowValue
  rw [xorSrcs_congr _ (fun _ => 0) _ ?_, xorSrcs_zero]
  intro j hj
  unfold scratchSrcs at hj
  rw [List.mem_filter, List.mem_range] at hj
  apply h
  have := hj.1
  unfold kWordBits at *
  omega

/-- With no data part erased, the set-up of `Decode` lists the erased code
parts in rising order and the decoding bit matrix holds their block-rows of the
encoding bit matrix. -/
theorem Decode_code_only (c : CauchyRSCoder) (erased : Nat → Bool)
    (hdata : ∀ i, i < c.m_num_data_parts → erased i = false) :
    ∃ s D, Decode_setup c erased = some s ∧ Decode_decoding_bit_matrix c s = some D ∧
      s.num_erased_data_parts = 0 ∧
      s.num_erased_code_parts = erasedCount erased (c.m_num_data_parts + c.m_num_code_parts) ∧
      (∀ e, e < s.num_erased_code_parts → ∃ cp : Nat, c.m_num_data_parts ≤ cp ∧
        cp < c.m_num_data_parts + c.m_num_code_parts ∧ erased cp = true ∧
        s.rowid_to_partidx (c.m_num_data_parts + e) = (cp : Int) ∧
        ∀ idx, idx < c.m_num_data_parts * kWordBits * kWordBits →
          D (c.m_num_data_parts * kWordBits * kWordBits * e + idx)
            = c.m_encoding_bit_matrix
                (c.m_num_data_parts * kWordBits * kWordBits * (cp - c.m_num_data_parts) + idx)) ∧
      (∀ e e', e < e' → e' < s.num_erased_code_parts →
        s.rowid_to_partidx (c.m_num_data_parts + e) < s.rowid_to_partidx (c.m_num_data_parts + e')) ∧
      (∀ cp, c.m_num_data_parts ≤ cp → cp < c.m_num_data_parts + c.m_num_code_parts →
        erased cp = true →
        ∃ e, e < s.num_erased_code_parts ∧ s.rowid_to_partidx (c.m_num_data_parts + e) = (cp : Int)) := by
  obtain ⟨s, hset, hinv, hned, hnec, hint⟩ := Decode_setup_code_only c erased hdata
  obtain ⟨D, hD, hDv⟩ := Decode_matrix_code_only c s hned hint
  have hepi := hinv.epi
  refine ⟨s, D, hset, hD, hned, hnec, ?_, ?_, ?_⟩
  · intro e he
    obtain ⟨cp, hc1, hc2, hc3, _, hc5⟩ := hinv.out_code (c.m_num_data_parts + e) (by omega)
      (by omega)
    refine ⟨cp, hc1, hc2, hc3, hc5, ?_⟩
    intro idx hidx
    rw [hDv e idx he hidx, hc5]
    have h1 : ((cp : Int) - (c.m_num_data_parts : Int)) * (c.m_num_data_parts : Int)
        * (kWordBits : Int) * (kWordBits : Int)
        = ((c.m_num_data_parts * kWordBits * kWordBits * (cp - c.m_num_data_parts) : Nat) : Int) := by
      push_cast [Nat.cast_sub hc1]
      ring
    rw [h1, Int.toNat_natCast]
  · intro e e' h1 h2
    exact hinv.out_mono _ _ (by omega) (by omega) (by omega)
  · intro cp h1 h2 h3
    obtain ⟨e, he1, he2, he3⟩ := hinv.all_code cp h1 h2 h3
    refine ⟨e - c.m_num_data_parts, by omega, ?_⟩
    have : c.m_num_data_parts + (e - c.m_num_data_parts) = e := by omega
    rw [this]
    exact he3

end CauchyRSCoder

namespace CauchyRSCoder

open GaloisOperator

/-! ## The claims -/

/-- C2. `Encode` computes the bit-matrix product.  For `k, m > 0` with
`k + m ≤ 256`, a size of `n > 0` stripes, a stripe `s < n` and an output row
`r < m * 8`, `Encode` returns, and byte `rel` of sub-packet `r mod 8` of stripe
`s` of code shard `r div 8` is afterwards the xor of the bytes `rel` of the
sub-packets `j mod 8` of stripe `s` of the data shards `j div 8` over exactly the
columns `j < k * 8` with `encoding_bit_matrix[r][j] = 1`, whatever the buffers
held before. -/
theorem Encode_bit_matrix_product (k m : Nat) (hk : 0 < k) (hm : 0 < m) (hkm : k + m ≤ 256)
    (n : Nat) (hn : 0 < n) (mem : Shards) (s r : Nat) (hs : s < n) (hr : r < m * kWordBits)
    (rel : Int) (h0 : 0 ≤ rel) (h1 : rel < kPacketSize) :
    (Encode (_Init k m) ((n : Int) * 32768) mem).1 = Outcome.returned ∧
    (Encode (_Init k m) ((n : Int) * 32768) mem).2 (k + r / kWordBits)
        ((s : Int) * 32768 + ((r % kWordBits : Nat) : Int) * kPacketSize + rel)
      = xorSrcs
          (fun j => mem (j / kWordBits)
            ((s : Int) * 32768 + ((j % kWordBits : Nat) : Int) * kPacketSize + rel))
          ((List.range (k * kWordBits)).filter
            (fun j => decide ((_Init k m).m_encoding_bit_matrix (r * (k * kWordBits) + j) = 1))) := by
  have hsz : (0 : Int) < (n : Int) * 32768 := by omega
  refine ⟨(Encode_spec (_Init k m) _ mem hsz hm rfl).1, ?_⟩
  rw [Encode_product k m hk hm hkm _ hsz mem s r (by rw [numStripes_mul]; exact hs) hr rel h0 h1]
  unfold rowValue
  rw [scratchSrcs_eq_ones k _ r (fun j _ => MatrixToBitMatrix_le_one k m _ _)]
  rfl

theorem Encode_bit_matrix_product_witness :
    (Encode (_Init 1 1) (((1 : Nat) : Int) * 32768) (fun _ _ => 0)).1 = Outcome.returned ∧
    (Encode (_Init 1 1) (((1 : Nat) : Int) * 32768) (fun _ _ => 0)).2 (1 + 0 / kWordBits)
        (((0 : Nat) : Int) * 32768 + ((0 % kWordBits : Nat) : Int) * kPacketSize + 0)
      = xorSrcs
          (fun j => (fun _ _ => 0 : Shards) (j / kWordBits)
            (((0 : Nat) : Int) * 32768 + ((j % kWordBits : Nat) : Int) * kPacketSize + 0))
          ((List.range (1 * kWordBits)).filter
            (fun j => decide ((_Init 1 1).m_encoding_bit_matrix (0 * (1 * kWordBits) + j) = 1))) :=
  Encode_bit_matrix_product 1 1 (by decide) (by decide) (by decide) 1 (by decide) (fun _ _ => 0)
    0 0 (by decide) (by decide) 0 (by decide) (by decide)

/-- C4. `Decode` with no erasure changes nothing: for every coder, every
`size > 0` and every content of the buffers, when no shard below `k + m` is
erased `Decode` returns with every byte of every shard as it was. -/
theorem Decode_no_erasure_noop (c : CauchyRSCoder) (erased : Nat → Bool) (size : Int)
    (mem : Shards) (hs : 0 < size)
    (he : ∀ i, i < c.m_num_data_parts + c.m_num_code_parts → erased i = false) :
    Decode c erased size mem = (Outcome.returned, mem) := by
  rw [Decode_unfold, if_neg (not_not.mpr hs), erasedCount_eq_zero erased _ he,
    if_neg (Nat.not_lt_zero _), if_pos rfl]

theorem Decode_no_erasure_noop_witness :
    Decode (_Init 2 1) (fun _ => false) 32768 (fun b o => b + o.toNat)
      = (Outcome.returned, fun b o => b + o.toNat) :=
  Decode_no_erasure_noop (_Init 2 1) (fun _ => false) 32768 (fun b o => b + o.toNat) (by decide)
    (fun _ _ => rfl)

/-- C5. `Decode` refuses exactly the requests with too many erasures: when
more than `m` of the `k + m` shards are erased the assertion fails and no byte
of any buffer changes; when `size > 0` and at most `m` shards are erased no
assertion fails. -/
theorem Decode_refuses_too_many_erased (c : CauchyRSCoder) (erased : Nat → Bool) (size : Int)
    (mem : Shards) :
    (c.m_num_code_parts < erasedCount erased (c.m_num_data_parts + c.m_num_code_parts) →
      Decode c erased size mem = (Outcome.assertFailed, mem)) ∧
    (0 < size →
      erasedCount erased (c.m_num_data_parts + c.m_num_code_parts) ≤ c.m_num_code_parts →
      (Decode c erased size mem).1 ≠ Outcome.assertFailed) := by
  constructor
  · intro h
    have h1 := (Decode_assert_iff c erased size mem).mpr (Or.inr h)
    exact Prod.ext h1 (Decode_assert_mem c erased size mem h1)
  · intro hs hle h
    rcases (Decode_assert_iff c erased size mem).mp h with h1 | h1
    · omega
    · omega

theorem Decode_refuses_too_many_erased_witness :
    Decode ⟨1, 1, fun _ => 0, []⟩ (fun _ => true) 32768 (fun _ _ => 0)
        = (Outcome.assertFailed, fun _ _ => 0) ∧
      (Decode ⟨1, 1, fun _ => 0, []⟩ (fun i => decide (i = 0)) 32768 (fun _ _ => 0)).1
        ≠ Outcome.assertFailed :=
  ⟨(Decode_refuses_too_many_erased ⟨1, 1, fun _ => 0, []⟩ (fun _ => true) 32768
      (fun _ _ => 0)).1 (by decide),
   (Decode_refuses_too_many_erased ⟨1, 1, fun _ => 0, []⟩ (fun i => decide (i = 0)) 32768
      (fun _ _ => 0)).2 (by decide) (by decide)⟩

/-- C6, the failing input.  The size `1` is positive and no multiple of the
stripe size 32768.  `Encode` of the coder with one data and one code shard
does not report a violated precondition: it returns, and it has worked on a
whole stripe of the code shard.  Byte 0 of the code shard, which held `7`, now
holds the product `0` of the zero data, and so does byte 32767, which lies
past the `size` bytes of the buffer. -/
theorem Encode_size_one_accepted :
    (0 : Int) < 1 ∧ (1 : Int) % 32768 ≠ 0 ∧
    (Encode (_Init 1 1) 1 (fun b _ => if b = 1 then 7 else 0)).1 = Outcome.returned ∧
    (Encode (_Init 1 1) 1 (fun b _ => if b = 1 then 7 else 0)).2 1 0 = 0 ∧
    (fun (b : Nat) (_ : Int) => if b = 1 then 7 else 0) 1 0 = 7 ∧
    (Encode (_Init 1 1) 1 (fun b _ => if b = 1 then 7 else 0)).2 1 32767 = 0 ∧
    (fun (b : Nat) (_ : Int) => if b = 1 then 7 else 0) 1 32767 = 7 := by
  refine ⟨by decide, by decide, ?_, ?_, rfl, ?_, rfl⟩
  · exact (Encode_spec (_Init 1 1) 1 _ (by decide) (by decide) rfl).1
  · have h := Encode_product 1 1 (by decide) (by decide) (by decide) 1 (by decide)
      (fun b _ => if b = 1 then 7 else 0) 0 0 (by decide) (by decide) 0 (by decide) (by decide)
    rw [rowValue_zero 1 _ (fun d => d) _ _ 0 0 (fun d o hd => by
      show (if d = 1 then 7 else 0) = 0
      rw [if_neg (by omega)])] at h
    exact h
  · have h := Encode_product 1 1 (by decide) (by decide) (by decide) 1 (by decide)
      (fun b _ => if b = 1 then 7 else 0) 0 7 (by decide) (by decide) 4095 (by decide)
      (by decide)
    rw [rowValue_zero 1 _ (fun d => d) _ _ 7 4095 (fun d o hd => by
      show (if d = 1 then 7 else 0) = 0
      rw [if_neg (by omega)])] at h
    exact h

/-- C7. `Encode` writes into the code shards only.  For every `k`, `m > 0` and a
size of `n > 0` stripes, `Encode` leaves every byte of the `k` data shards as it
was, and every byte it changes lies in the first `size` bytes of one of the `m`
code shards. -/
theorem Encode_writes_code_only (k m : Nat) (hm : 0 < m) (n : Nat) (hn : 0 < n)
    (mem : Shards) :
    (∀ i o, i < k → (Encode (_Init k m) ((n : Int) * 32768) mem).2 i o = mem i o) ∧
    (∀ b o, (Encode (_Init k m) ((n : Int) * 32768) mem).2 b o ≠ mem b o →
      k ≤ b ∧ b < k + m ∧ 0 ≤ o ∧ o < (n : Int) * 32768) := by
  have hsz : (0 : Int) < (n : Int) * 32768 := by omega
  have key : ∀ b o, (Encode (_Init k m) ((n : Int) * 32768) mem).2 b o ≠ mem b o →
      k ≤ b ∧ b < k + m ∧ 0 ≤ o ∧ o < (n : Int) * 32768 := by
    intro b o h
    have := Encode_frame (_Init k m) _ mem hsz hm rfl b o h
    rw [numStripes_mul] at this
    exact this
  refine ⟨?_, key⟩
  intro i o hi
  by_contra h
  have := (key i o h).1
  omega

theorem Encode_writes_code_only_witness :
    (∀ i o, i < 2 → (Encode (_Init 2 1) (((1 : Nat) : Int) * 32768) (fun _ _ => 1)).2 i o
        = (fun _ _ => 1 : Shards) i o) ∧
    (∀ b o, (Encode (_Init 2 1) (((1 : Nat) : Int) * 32768) (fun _ _ => 1)).2 b o
        ≠ (fun _ _ => 1 : Shards) b o →
      2 ≤ b ∧ b < 2 + 1 ∧ 0 ≤ o ∧ o < ((1 : Nat) : Int) * 32768) :=
  Encode_writes_code_only 2 1 (by decide) 1 (by decide) (fun _ _ => 1)

/-- C8. `Decode` writes into the erased shards only.  For every coder and
every erasure vector (with between `1` and `m` erased shards, or any other
number), every byte of every shard that is not erased (data or code, the
stand-in code shards among them) is afterwards as it was, and every byte that
changed lies in an erased shard, in the stripes the call runs over.  This holds
however the call ends. -/
theorem Decode_writes_erased_only (c : CauchyRSCoder) (erased : Nat → Bool) (size : Int)
    (mem : Shards) :
    (∀ i o, erased i = false → (Decode c erased size mem).2 i o = mem i o) ∧
    (∀ b o, (Decode c erased size mem).2 b o ≠ mem b o →
      b < c.m_num_data_parts + c.m_num_code_parts ∧ erased b = true ∧ 0 ≤ o ∧
        o < (numStripes size : Int) * 32768) := by
  refine ⟨?_, fun b o h => Decode_frame c erased size mem b o h⟩
  intro i o hi
  by_contra h
  have := (Decode_frame c erased size mem i o h).2.1
  rw [hi] at this
  cases this

/-- C9. `Decode` re-encodes lost parity.  For `k, m > 0` with `k + m ≤ 256`
and an erasure vector that erases no data shard and at least one code shard
(hence at most `m`), the set-up lists the erased code shards in rising order,
the decoding bit matrix holds for the `e`-th of them the block-row of the
encoding bit matrix of that code shard, `Decode` returns, and every byte of
every erased code shard in the stripes of the call is afterwards the byte that
`Encode` writes for the same data, whatever the code buffers held. -/
theorem Decode_reencodes_lost_parity (k m : Nat) (hk : 0 < k) (hm : 0 < m) (hkm : k + m ≤ 256)
    (erased : Nat → Bool) (hdata : ∀ i, i < k → erased i = false)
    (h1 : 1 ≤ erasedCount erased (k + m)) (size : Int) (hs : 0 < size) (mem0 mem : Shards)
    (hagree : ∀ i o, i < k → mem i o = mem0 i o) :
    (∃ s D, Decode_setup (_Init k m) erased = some s ∧
      Decode_decoding_bit_matrix (_Init k m) s = some D ∧
      s.num_erased_data_parts = 0 ∧ s.num_erased_code_parts = erasedCount erased (k + m) ∧
      s.num_erased_code_parts ≤ m ∧
      (∀ e, e < s.num_erased_code_parts → ∃ cp : Nat, k ≤ cp ∧ cp < k + m ∧ erased cp = true ∧
        s.rowid_to_partidx (k + e) = (cp : Int) ∧
        ∀ idx, idx < k * kWordBits * kWordBits →
          D (k * kWordBits * kWordBits * e + idx)
            = (_Init k m).m_encoding_bit_matrix (k * kWordBits * kWordBits * (cp - k) + idx)) ∧
      (∀ e e', e < e' → e' < s.num_erased_code_parts →
        s.rowid_to_partidx (k + e) < s.rowid_to_partidx (k + e')) ∧
      (∀ cp, k ≤ cp → cp < k + m → erased cp = true →
        ∃ e, e < s.num_erased_code_parts ∧ s.rowid_to_partidx (k + e) = (cp : Int))) ∧
    (Decode (_Init k m) erased size mem).1 = Outcome.returned ∧
    (∀ b o, k ≤ b → b < k + m → erased b = true → 0 ≤ o → o < (numStripes size : Int) * 32768 →
      (Decode (_Init k m) erased size mem).2 b o = (Encode (_Init k m) size mem0).2 b o) := by
  constructor
  · obtain ⟨s, D, h3, h4, h5, h6, h7, h8, h9⟩ := Decode_code_only (_Init k m) erased hdata
    have hle := erasedCount_add_le erased k m
    have h0 := erasedCount_eq_zero erased k hdata
    have h6' : s.num_erased_code_parts = erasedCount erased (k + m) := h6
    exact ⟨s, D, h3, h4, h5, h6, by omega, h7, h8, h9⟩
  · exact Decode_reencode (_Init k m) erased hm rfl
      (fun idx => MatrixToBitMatrix_le_one k m _ idx)
      (fun x hx => encoding_rows_nonzero k m hk hkm x hx) hdata (by
        show erasedCount erased (k + m) ≠ 0
        omega) size hs mem0 mem hagree

theorem Decode_reencodes_lost_parity_witness :
    (Decode (_Init 1 1) (fun i => decide (i = 1)) 32768 (fun _ _ => 0)).1 = Outcome.returned :=
  (Decode_reencodes_lost_parity 1 1 (by decide) (by decide) (by decide) (fun i => decide (i = 1))
    (by decide) (by decide) 32768 (by decide) (fun _ _ => 0) (fun _ _ => 0)
    (fun _ _ _ => rfl)).2.1

/-- C10. The schedule is well formed.  For every `k`, every `r > 0` and
every matrix `B`, the list that `_BitMatrixToSchedule k r B` returns is a list
`ops` followed by exactly one sentinel, whose first field is `-1`; in `ops` the
first tuple that targets a destination `(dst_dev, dst_bit)` has opcode `0`
(copy) and every later tuple that targets it has opcode `1` (xor); every tuple
of `ops` has `src_dev` in `[0, k + r)`, `dst_dev` in `[k, k + r)` and both bit
fields in `[0, 8)`, so no tuple before the sentinel has a negative first
field. -/
theorem BitMatrixToSchedule_wellformed (k r : Nat) (B : Nat → Nat) (hr : 0 < r) :
    ∃ ops : List Tuple, _BitMatrixToSchedule k r B = ops ++ [sentinel] ∧ sentinel.src_dev = -1 ∧
      FirstCopy ops ∧
      (∀ t, t ∈ ops →
        0 ≤ t.src_dev ∧ t.src_dev < (k : Int) + r ∧ 0 ≤ t.src_bit ∧ t.src_bit < 8 ∧
        (k : Int) ≤ t.dst_dev ∧ t.dst_dev < (k : Int) + r ∧ 0 ≤ t.dst_bit ∧ t.dst_bit < 8) := by
  obtain ⟨done, h1, _, _, h4, h5⟩ := schedule_wellformed k r B hr
  exact ⟨_, h1, rfl, h4, h5⟩

theorem BitMatrixToSchedule_wellformed_witness :
    ∃ ops : List Tuple, _BitMatrixToSchedule 1 1 (fun i => if i % 9 = 0 then 1 else 0)
        = ops ++ [sentinel] ∧ sentinel.src_dev = -1 ∧ FirstCopy ops ∧
      (∀ t, t ∈ ops →
        0 ≤ t.src_dev ∧ t.src_dev < ((1 : Nat) : Int) + (1 : Nat) ∧ 0 ≤ t.src_bit ∧ t.src_bit < 8 ∧
        ((1 : Nat) : Int) ≤ t.dst_dev ∧ t.dst_dev < ((1 : Nat) : Int) + (1 : Nat) ∧
        0 ≤ t.dst_bit ∧ t.dst_bit < 8) :=
  BitMatrixToSchedule_wellformed 1 1 (fun i => if i % 9 = 0 then 1 else 0) (by decide)

end CauchyRSCoder

namespace GaloisOperator

open CauchyRSCoder

/-! ## The field of 256 elements -/

theorem GF256.ext_val {a b : GF256} (h : a.val = b.val) : a = b := by
  cases a
  cases b
  cases h
  rfl

theorem GF256.ne_zero_val {a : GF256} (h : a ≠ GF256.zero) : a.val ≠ 0 := by
  intro h0
  exact h (GF256.ext_val h0)

/-- The product of two field elements, by logs. -/
theorem GF256.mul_val (a b : GF256) :
    (GF256.mul a b).val = if a.val = 0 ∨ b.val = 0 then 0 else alog (lg a.val + lg b.val) := by
  unfold GF256.mul
  show (Multiply a.val b.val).toNat % 256 = _
  by_cases h : a.val = 0 ∨ b.val = 0
  · rw [if_pos h]
    unfold Multiply
    rw [if_pos (by rcases h with h | h <;> [left; right] <;> exact_mod_cast h)]
    rfl
  · rw [if_neg h]
    push_neg at h
    rw [Multiply_alog a.val b.val a.lt b.lt h.1 h.2, Int.toNat_natCast]
    have := alog_range (lg a.val + lg b.val)
    omega

/-- `Multiply` on bytes is the product in the field. -/
theorem GF256.mul_cast (a b : GF256) : Multiply a.val b.val = ((GF256.mul a b).val : Int) := by
  rw [GF256.mul_val]
  by_cases h : a.val = 0 ∨ b.val = 0
  · rw [if_pos h]
    unfold Multiply
    rw [if_pos (by rcases h with h | h <;> [left; right] <;> exact_mod_cast h)]
    rfl
  · rw [if_neg h]
    push_neg at h
    rw [Multiply_alog a.val b.val a.lt b.lt h.1 h.2]

/-- The inverse of a field element, by logs. -/
theorem GF256.inv_val (a : GF256) :
    (GF256.inv a).val = if a.val = 0 then 0 else alog (255 - lg a.val) := by
  unfold GF256.inv
  show (Divide 1 a.val).toNat % 256 = _
  by_cases h : a.val = 0
  · rw [if_pos h, h]
    rfl
  · rw [if_neg h]
    have := Divide_alog 1 a.val (by decide) a.lt (by decide) h
    rw [show ((1 : Nat) : Int) = 1 from rfl] at this
    rw [this, Int.toNat_natCast, lg_one, Nat.zero_add]
    have := alog_range (255 - lg a.val)
    omega

/-- `Divide(1, a)` on a byte other than zero is the inverse in the field. -/
theorem GF256.inv_cast (a : GF256) (h : a.val ≠ 0) : Divide 1 a.val = ((GF256.inv a).val : Int) := by
  rw [GF256.inv_val, if_neg h]
  have := Divide_alog 1 a.val (by decide) a.lt (by decide) h
  rw [show ((1 : Nat) : Int) = 1 from rfl] at this
  rw [this, lg_one, Nat.zero_add]

theorem GF256.mul_comm (a b : GF256) : GF256.mul a b = GF256.mul b a := by
  apply GF256.ext_val
  rw [GF256.mul_val, GF256.mul_val, Nat.add_comm (lg a.val)]
  by_cases h : a.val = 0 ∨ b.val = 0
  · rw [if_pos h, if_pos h.symm]
  · rw [if_neg h, if_neg (fun h' => h h'.symm)]

theorem GF256.mul_assoc (a b c : GF256) :
    GF256.mul (GF256.mul a b) c = GF256.mul a (GF256.mul b c) := by
  apply GF256.ext_val
  rw [GF256.mul_val (GF256.mul a b) c, GF256.mul_val a (GF256.mul b c), GF256.mul_val a b,
    GF256.mul_val b c]
  by_cases ha : a.val = 0
  · simp [ha]
  by_cases hb : b.val = 0
  · simp [hb]
  by_cases hc : c.val = 0
  · simp [hc]
  have h1 := alog_range (lg a.val + lg b.val)
  have h2 := alog_range (lg b.val + lg c.val)
  have h1' : alog (lg a.val + lg b.val) ≠ 0 := by omega
  have h2' : alog (lg b.val + lg c.val) ≠ 0 := by omega
  simp only [ha, hb, hc, h1', h2', or_self, if_false]
  rw [lg_alog, lg_alog]
  apply alog_congr
  omega

theorem GF256.one_mul (a : GF256) : GF256.mul GF256.one a = a := by
  apply GF256.ext_val
  rw [GF256.mul_val]
  show (if 1 = 0 ∨ a.val = 0 then 0 else alog (lg 1 + lg a.val)) = a.val
  by_cases ha : a.val = 0
  · simp [ha]
  · rw [if_neg (by simp [ha]), lg_one, Nat.zero_add, alog_lg a.val a.lt ha]

theorem GF256.mul_inv_cancel (a : GF256) (h : a ≠ GF256.zero) :
    GF256.mul a (GF256.inv a) = GF256.one := by
  have ha := GF256.ne_zero_val h
  apply GF256.ext_val
  rw [GF256.mul_val, GF256.inv_val, if_neg ha]
  have h1 := alog_range (255 - lg a.val)
  have h2 := lg_lt a.val a.lt ha
  rw [if_neg (by omega), lg_alog]
  have e : alog (lg a.val + (255 - lg a.val) % 255) = alog 0 := by
    apply alog_congr
    omega
  rw [e]
  unfold alog
  rw [table_ends.2.1]
  rfl

theorem GF256.inv_zero : GF256.inv GF256.zero = GF256.zero := by
  apply GF256.ext_val
  rw [GF256.inv_val]
  rfl

end GaloisOperator

namespace GaloisOperator

open CauchyRSCoder

set_option maxRecDepth 100000 in
/-- The bits of a byte multiplied by two in the field. -/
theorem xtime_testBit : ∀ e : Nat, e < 256 → ∀ i : Nat, i < 8 →
    (xtime e).testBit i
      = ((decide (1 ≤ i) && e.testBit (i - 1)) ^^ (e.testBit 7 && Nat.testBit 29 i)) := by
  decide!

theorem xor_lt_256 (a b : Nat) (ha : a < 256) (hb : b < 256) : a ^^^ b < 256 :=
  Nat.xor_lt_two_pow (n := 8) ha hb

/-- Multiplication by two in the field is linear over xor. -/
theorem xtime_xor (a b : Nat) (ha : a < 256) (hb : b < 256) :
    xtime (a ^^^ b) = xtime a ^^^ xtime b := by
  have hab := xor_lt_256 a b ha hb
  apply Nat.eq_of_testBit_eq
  intro i
  rcases Nat.lt_or_ge i 8 with hi | hi
  · rw [Nat.testBit_xor, xtime_testBit _ hab i hi, xtime_testBit a ha i hi,
      xtime_testBit b hb i hi, Nat.testBit_xor, Nat.testBit_xor]
    generalize decide (1 ≤ i) = p
    generalize a.testBit (i - 1) = a1
    generalize b.testBit (i - 1) = b1
    generalize a.testBit 7 = a7
    generalize b.testBit 7 = b7
    generalize Nat.testBit 29 i = q
    cases p <;> cases a1 <;> cases b1 <;> cases a7 <;> cases b7 <;> cases q <;> rfl
  · have h256 : (256 : Nat) ≤ 2 ^ i := by
      calc (256 : Nat) = 2 ^ 8 := by norm_num
        _ ≤ 2 ^ i := Nat.pow_le_pow_right (by norm_num) hi
    have h1 := xtime_lt _ hab
    have h2 := xor_lt_256 _ _ (xtime_lt a ha) (xtime_lt b hb)
    rw [Nat.testBit_lt_two_pow (by omega), Nat.testBit_lt_two_pow (by omega)]

theorem xtime_iter_lt (e a : Nat) (ha : a < 256) : xtime^[e] a < 256 := (mulPow_nat e a ha).2

theorem xtime_iter_xor (e a b : Nat) (ha : a < 256) (hb : b < 256) :
    xtime^[e] (a ^^^ b) = xtime^[e] a ^^^ xtime^[e] b := by
  induction e with
  | zero => rfl
  | succ e ih =>
    rw [Function.iterate_succ_apply', Function.iterate_succ_apply', Function.iterate_succ_apply',
      ih, xtime_xor _ _ (xtime_iter_lt e a ha) (xtime_iter_lt e b hb)]

theorem xtime_iter_zero (e : Nat) : xtime^[e] 0 = 0 := by
  induction e with
  | zero => rfl
  | succ e ih =>
    rw [Function.iterate_succ_apply', ih]
    rfl

/-- Multiplying by the anti-log of `e` is multiplying `e` times by two. -/
theorem alog_iter (e y : Nat) (hy : y < 256) (h0 : y ≠ 0) : alog (e + lg y) = xtime^[e] y := by
  induction e with
  | zero => rw [Nat.zero_add, alog_lg y hy h0]; rfl
  | succ e ih =>
    rw [Function.iterate_succ_apply', ← ih, xtime_alog]
    apply alog_congr
    omega

/-- The product in the field as an iterated multiplication by two. -/
theorem GF256.mul_iter (a b : GF256) (ha : a.val ≠ 0) :
    (GF256.mul a b).val = xtime^[lg a.val] b.val := by
  rw [GF256.mul_val]
  by_cases hb : b.val = 0
  · rw [if_pos (Or.inr hb), hb, xtime_iter_zero]
  · rw [if_neg (by simp [ha, hb]), alog_iter _ _ b.lt hb]

theorem GF256.mul_zero_val (a b : GF256) (ha : a.val = 0) : (GF256.mul a b).val = 0 := by
  rw [GF256.mul_val, if_pos (Or.inl ha)]

theorem GF256.left_distrib (a b c : GF256) :
    GF256.mul a (GF256.add b c) = GF256.add (GF256.mul a b) (GF256.mul a c) := by
  apply GF256.ext_val
  show (GF256.mul a (GF256.add b c)).val = (GF256.mul a b).val ^^^ (GF256.mul a c).val
  by_cases ha : a.val = 0
  · rw [GF256.mul_zero_val _ _ ha, GF256.mul_zero_val _ _ ha, GF256.mul_zero_val _ _ ha]
    rfl
  · rw [GF256.mul_iter _ _ ha, GF256.mul_iter _ _ ha, GF256.mul_iter _ _ ha]
    exact xtime_iter_xor _ _ _ b.lt c.lt

theorem GF256.add_assoc (a b c : GF256) :
    GF256.add (GF256.add a b) c = GF256.add a (GF256.add b c) :=
  GF256.ext_val (Nat.xor_assoc _ _ _)

theorem GF256.add_comm (a b : GF256) : GF256.add a b = GF256.add b a :=
  GF256.ext_val (Nat.xor_comm _ _)

theorem GF256.zero_add (a : GF256) : GF256.add GF256.zero a = a :=
  GF256.ext_val (Nat.zero_xor _)

theorem GF256.add_self (a : GF256) : GF256.add a a = GF256.zero :=
  GF256.ext_val (Nat.xor_self _)

/-- The bytes with xor, `Multiply` and `Divide(1, ·)` are a field. -/
theorem GF256.field : ∃ inst : Field GF256,
    (∀ a b : GF256, a + b = GF256.add a b) ∧ (∀ a b : GF256, a * b = GF256.mul a b) ∧
    (0 : GF256) = GF256.zero ∧ (1 : GF256) = GF256.one ∧ (∀ a : GF256, a⁻¹ = GF256.inv a) ∧
    (∀ a : GF256, -a = a) := by
  letI : Add GF256 := ⟨GF256.add⟩
  letI : Mul GF256 := ⟨GF256.mul⟩
  letI : Zero GF256 := ⟨GF256.zero⟩
  letI : One GF256 := ⟨GF256.one⟩
  letI : Neg GF256 := ⟨id⟩
  letI : Inv GF256 := ⟨GF256.inv⟩
  refine ⟨Field.ofMinimalAxioms GF256 GF256.add_assoc GF256.zero_add GF256.add_self
    GF256.mul_assoc GF256.mul_comm GF256.one_mul GF256.mul_inv_cancel GF256.inv_zero
    GF256.left_distrib ⟨GF256.zero, GF256.one, by decide⟩, fun _ _ => rfl, fun _ _ => rfl, rfl, rfl,
    fun _ => rfl, fun _ => rfl⟩

end GaloisOperator

namespace GaloisOperator

open CauchyRSCoder

/-! ## Division and multiplication -/

theorem Divide_zero_right (x : Int) : Divide x 0 = -1 := by
  unfold Divide
  rw [if_pos rfl]

theorem Divide_zero_left (y : Int) (hy : y ≠ 0) : Divide 0 y = 0 := by
  unfold Divide
  rw [if_neg hy, if_pos rfl]

theorem Multiply_zero_left (y : Int) : Multiply 0 y = 0 := by
  unfold Multiply
  rw [if_pos (Or.inl rfl)]

theorem Multiply_zero_right (x : Int) : Multiply x 0 = 0 := by
  unfold Multiply
  rw [if_pos (Or.inr rfl)]

/-- Dividing and then multiplying by the same element gives the element back. -/
theorem Multiply_Divide_nat (x y : Nat) (hx : x < 256) (hy : y < 256) (hy0 : y ≠ 0) :
    Multiply (Divide x y) y = x := by
  by_cases hx0 : x = 0
  · subst hx0
    rw [show ((0 : Nat) : Int) = 0 from rfl, Divide_zero_left _ (by exact_mod_cast hy0),
      Multiply_zero_left]
  · have h1 := lg_lt x hx hx0
    have h2 := lg_lt y hy hy0
    have h3 := alog_range (lg x + (255 - lg y))
    rw [Divide_alog x y hx hy hx0 hy0, Multiply_alog _ y (by omega) hy (by omega) hy0, lg_alog]
    have e : alog ((lg x + (255 - lg y)) % 255 + lg y) = alog (lg x) := by
      apply alog_congr
      omega
    rw [e, alog_lg x hx hx0]

/-- Multiplying and then dividing by the same element gives the element back. -/
theorem Divide_Multiply_nat (x y : Nat) (hx : x < 256) (hy : y < 256) (hy0 : y ≠ 0) :
    Divide (Multiply x y) y = x := by
  by_cases hx0 : x = 0
  · subst hx0
    rw [show ((0 : Nat) : Int) = 0 from rfl, Multiply_zero_left,
      Divide_zero_left _ (by exact_mod_cast hy0)]
  · have h1 := lg_lt x hx hx0
    have h2 := lg_lt y hy hy0
    have h3 := alog_range (lg x + lg y)
    rw [Multiply_alog x y hx hy hx0 hy0, Divide_alog _ y (by omega) hy (by omega) hy0, lg_alog]
    have e : alog ((lg x + lg y) % 255 + (255 - lg y)) = alog (lg x) := by
      apply alog_congr
      omega
    rw [e, alog_lg x hx hx0]

/-! ## Multiplication as a polynomial product -/

/-- A map that is linear over xor goes through a conditional xor-fold. -/
theorem fold_linear (f : Nat → Nat) (P : Nat → Prop)
    (hP : ∀ u v, P u → P v → P (u ^^^ v))
    (hf : ∀ u v, P u → P v → f (u ^^^ v) = f u ^^^ f v)
    (c : Nat → Bool) (g : Nat → Nat) (l : List Nat) (hg : ∀ i, i ∈ l → P (g i))
    (a : Nat) (ha : P a) :
    f (l.foldl (fun acc i => if c i then acc ^^^ g i else acc) a)
      = l.foldl (fun acc i => if c i then acc ^^^ f (g i) else acc) (f a) := by
  induction l generalizing a with
  | nil => rfl
  | cons i t ih =>
    rw [List.foldl_cons, List.foldl_cons]
    have hgt : ∀ j, j ∈ t → P (g j) := fun j hj => hg j (List.mem_cons_of_mem _ hj)
    cases hc : c i
    · simp only [Bool.false_eq_true, if_false]
      exact ih hgt a ha
    · simp only [if_true]
      have hi := hg i (List.mem_cons_self _ _)
      rw [ih hgt _ (hP _ _ ha hi), hf _ _ ha hi]

/-- The folds agree when the terms agree on the list. -/
theorem fold_congr (c : Nat → Bool) (g g' : Nat → Nat) (l : List Nat)
    (h : ∀ i, i ∈ l → g i = g' i) (a : Nat) :
    l.foldl (fun acc i => if c i then acc ^^^ g i else acc) a
      = l.foldl (fun acc i => if c i then acc ^^^ g' i else acc) a := by
  induction l generalizing a with
  | nil => rfl
  | cons i t ih =>
    rw [List.foldl_cons, List.foldl_cons, h i (List.mem_cons_self _ _)]
    exact ih (fun j hj => h j (List.mem_cons_of_mem _ hj)) _

/-- One step of the reduction is linear over xor. -/
theorem polyMod_step_xor (i m a b : Nat) :
    (if (a ^^^ b).testBit i then (a ^^^ b) ^^^ m else a ^^^ b)
      = (if a.testBit i then a ^^^ m else a) ^^^ (if b.testBit i then b ^^^ m else b) := by
  rw [Nat.testBit_xor]
  cases ha : a.testBit i <;> cases hb : b.testBit i
  · rfl
  · simp only [Bool.false_xor, if_true, Bool.false_eq_true, if_false]
    rw [Nat.xor_assoc]
  · simp only [Bool.xor_false, if_true, Bool.false_eq_true, if_false]
    rw [Nat.xor_assoc, Nat.xor_assoc, Nat.xor_comm b m]
  · simp only [Bool.xor_self, Bool.false_eq_true, if_false, if_true]
    rw [Nat.xor_assoc, ← Nat.xor_assoc m b m, Nat.xor_comm m b, Nat.xor_assoc b m m,
      Nat.xor_self, Nat.xor_zero]

theorem polyMod_fold_xor (l : List Nat) (a b : Nat) :
    l.foldl (fun p t => if p.testBit (14 - t) then p ^^^ (285 <<< (6 - t)) else p) (a ^^^ b)
      = l.foldl (fun p t => if p.testBit (14 - t) then p ^^^ (285 <<< (6 - t)) else p) a
        ^^^ l.foldl (fun p t => if p.testBit (14 - t) then p ^^^ (285 <<< (6 - t)) else p) b := by
  induction l generalizing a b with
  | nil => rfl
  | cons t l ih =>
    rw [List.foldl_cons, List.foldl_cons, List.foldl_cons, polyMod_step_xor, ih]

/-- The reduction modulo the primitive polynomial is linear over xor. -/
theorem polyMod_xor (a b : Nat) : polyMod (a ^^^ b) = polyMod a ^^^ polyMod b :=
  polyMod_fold_xor _ a b

set_option maxRecDepth 100000 in
/-- Reducing `x` times the `i`-th power of the indeterminate is multiplying `x`
by two `i` times. -/
theorem polyMod_shift : ∀ x : Nat, x < 256 → ∀ i : Nat, i < 8 →
    polyMod (x <<< i) = xtime^[i] x := by
  decide!

set_option maxRecDepth 100000 in
/-- A byte is the xor of the powers of two at its one bits. -/
theorem byte_bits : ∀ y : Nat, y < 256 →
    (List.range 8).foldl (fun acc i => if y.testBit i then acc ^^^ 2 ^ i else acc) 0 = y := by
  decide!

/-- Multiplying by the `i`-th power of two. -/
theorem Multiply_two_pow (x i : Nat) (hx : x < 256) (hi : i < 8) :
    (GF256.mul ⟨x, hx⟩ (GF256.byte (2 ^ i))).val = xtime^[i] x := by
  have h2 : 2 ^ i < 256 := by
    calc 2 ^ i < 2 ^ 8 := Nat.pow_lt_pow_right (by norm_num) hi
      _ = 256 := by norm_num
  have h0 : 2 ^ i ≠ 0 := by positivity
  have hb : (GF256.byte (2 ^ i)).val = 2 ^ i := Nat.mod_eq_of_lt h2
  rw [GF256.mul_comm, GF256.mul_iter _ _ (by rw [hb]; exact h0), hb, lg_two_pow i hi]

/-- `Multiply` as the xor of the shifted and reduced copies of `x` at the one
bits of `y`. -/
theorem Multiply_fold (x y : Nat) (hx : x < 256) (hy : y < 256) :
    Multiply x y
      = (((List.range 8).foldl (fun acc i => if y.testBit i then acc ^^^ xtime^[i] x else acc) 0
          : Nat) : Int) := by
  have h1 := GF256.mul_cast ⟨x, hx⟩ ⟨y, hy⟩
  rw [show (GF256.mk x hx).val = x from rfl, show (GF256.mk y hy).val = y from rfl] at h1
  rw [h1]
  congr 1
  have e := fold_linear (fun v => (GF256.mul ⟨x, hx⟩ (GF256.byte v)).val) (fun v => v < 256)
    xor_lt_256
    (fun u v hu hv => by
      have := congrArg GF256.val (GF256.left_distrib ⟨x, hx⟩ ⟨u, hu⟩ ⟨v, hv⟩)
      have e1 : GF256.byte (u ^^^ v) = GF256.add ⟨u, hu⟩ ⟨v, hv⟩ :=
        GF256.ext_val (Nat.mod_eq_of_lt (xor_lt_256 u v hu hv))
      have e2 : GF256.byte u = ⟨u, hu⟩ := GF256.ext_val (Nat.mod_eq_of_lt hu)
      have e3 : GF256.byte v = ⟨v, hv⟩ := GF256.ext_val (Nat.mod_eq_of_lt hv)
      show (GF256.mul ⟨x, hx⟩ (GF256.byte (u ^^^ v))).val
        = (GF256.mul ⟨x, hx⟩ (GF256.byte u)).val ^^^ (GF256.mul ⟨x, hx⟩ (GF256.byte v)).val
      rw [e1, e2, e3]
      exact this)
    (fun i => y.testBit i) (fun i => 2 ^ i) (List.range 8)
    (fun i hi => by
      rw [List.mem_range] at hi
      calc 2 ^ i < 2 ^ 8 := Nat.pow_lt_pow_right (by norm_num) hi
        _ = 256 := by norm_num)
    0 (by decide)
  rw [byte_bits y hy] at e
  have e0 : GF256.byte y = ⟨y, hy⟩ := GF256.ext_val (Nat.mod_eq_of_lt hy)
  have e4 : (GF256.mul ⟨x, hx⟩ (GF256.byte 0)).val = 0 := by
    rw [GF256.mul_comm]
    exact GF256.mul_zero_val _ _ rfl
  simp only [e0, e4] at e
  rw [e]
  exact fold_congr _ _ _ _ (fun i hi => Multiply_two_pow x i hx (List.mem_range.1 hi)) 0

/-- `Multiply` is the carry-less product reduced modulo the primitive
polynomial. -/
theorem Multiply_spec_nat (x y : Nat) (hx : x < 256) (hy : y < 256) :
    Multiply x y = ((specMultiply x y : Nat) : Int) := by
  rw [Multiply_fold x y hx hy]
  congr 1
  unfold specMultiply clmul
  have e := fold_linear polyMod (fun _ => True) (fun _ _ _ _ => trivial)
    (fun u v _ _ => polyMod_xor u v) (fun i => y.testBit i) (fun i => x <<< i) (List.range 8)
    (fun _ _ => trivial) 0 trivial
  rw [e, show polyMod 0 = 0 from rfl]
  exact fold_congr _ _ _ _ (fun i hi => (polyMod_shift x hx i (List.mem_range.1 hi)).symm) 0

end GaloisOperator

namespace CauchyRSCoder

open GaloisOperator

/-! ## The bits of a product -/

theorem and_two_pow_ne_zero (v n : Nat) : v &&& 2 ^ n ≠ 0 ↔ v.testBit n = true := by
  constructor
  · intro h
    by_contra hb
    apply h
    apply Nat.eq_of_testBit_eq
    intro i
    rw [Nat.testBit_and, Nat.testBit_two_pow, Nat.zero_testBit]
    by_cases hi : n = i
    · subst hi
      simp only [Bool.not_eq_true] at hb
      rw [hb]
      rfl
    · simp [hi]
  · intro h h0
    have := congrArg (fun w => Nat.testBit w n) h0
    simp only [Nat.testBit_and, Nat.testBit_two_pow, Nat.zero_testBit, h, decide_True,
      Bool.and_self] at this
    cases this

/-- Bit `n` of a byte, as the bit matrix stores it. -/
theorem bitOf_testBit (v n : Nat) : bitOf (v : Int) n = if v.testBit n = true then 1 else 0 := by
  rw [bitOf_nat]
  by_cases h : v.testBit n = true
  · rw [if_pos ((and_two_pow_ne_zero v n).2 h), if_pos h]
  · rw [if_neg (fun h' => h ((and_two_pow_ne_zero v n).1 h')), if_neg h]

theorem bitOf_xor (u v n : Nat) :
    bitOf ((u ^^^ v : Nat) : Int) n = bitOf (u : Int) n ^^^ bitOf (v : Int) n := by
  rw [bitOf_testBit, bitOf_testBit, bitOf_testBit, Nat.testBit_xor]
  cases u.testBit n <;> cases v.testBit n <;> rfl

/-- Bit `n` of a conditional xor-fold is the xor of the bits of the terms. -/
theorem bitOf_fold (n : Nat) (x : Nat) (g : Nat → Nat) (l : List Nat) (a : Nat) :
    bitOf ((l.foldl (fun acc i => if x.testBit i then acc ^^^ g i else acc) a : Nat) : Int) n
      = l.foldl (fun acc i => acc ^^^ (bitOf (g i : Int) n &&& bitOf (x : Int) i))
          (bitOf (a : Int) n) := by
  induction l generalizing a with
  | nil => rfl
  | cons i t ih =>
    rw [List.foldl_cons, List.foldl_cons]
    cases hx : x.testBit i
    · simp only [Bool.false_eq_true, if_false]
      rw [ih, bitOf_testBit x i, hx]
      simp
    · simp only [if_true]
      rw [ih, bitOf_xor, bitOf_testBit x i, hx]
      have h1 : bitOf (g i : Int) n &&& (if true = true then 1 else 0) = bitOf (g i : Int) n := by
        have := bitOf_le (g i : Int) n
        rcases Nat.le_one_iff_eq_zero_or_eq_one.1 this with h | h <;> rw [h] <;> rfl
      rw [h1]

/-- Bit `n` of the product `a * x` is the xor over `c` of bit `n` of
`a * 2^c` and bit `c` of `x`. -/
theorem Multiply_bits (a x : Nat) (ha : a < 256) (hx : x < 256) (n : Nat) :
    bitOf (Multiply a x) n
      = xorSrcs (fun c => bitOf (mulPow c (a : Int)) n &&& bitOf (x : Int) c) (List.range 8) := by
  rw [Multiply_fold a x ha hx, bitOf_fold]
  unfold xorSrcs
  have h0 : bitOf ((0 : Nat) : Int) n = 0 := by
    rw [bitOf_testBit, Nat.zero_testBit]
    rfl
  rw [h0]
  apply List.foldl_ext
  intro acc c _
  show _ = acc ^^^ (bitOf (mulPow c (a : Int)) n &&& bitOf (x : Int) c)
  rw [(mulPow_nat c a ha).1]

/-- The `c`-th power of two times `a`, by `Multiply` and by repeated doubling. -/
theorem mulPow_eq_Multiply (a c : Nat) (ha : a < 256) (hc : c < 8) :
    mulPow c (a : Int) = Multiply a ((2 ^ c : Nat) : Int) := by
  have h2 : 2 ^ c < 256 := by
    calc 2 ^ c < 2 ^ 8 := Nat.pow_lt_pow_right (by norm_num) hc
      _ = 256 := by norm_num
  have h := GF256.mul_cast ⟨a, ha⟩ (GF256.byte (2 ^ c))
  have hb : (GF256.byte (2 ^ c)).val = 2 ^ c := Nat.mod_eq_of_lt h2
  rw [show (GF256.mk a ha).val = a from rfl, hb, Multiply_two_pow a c ha hc] at h
  rw [h, (mulPow_nat c a ha).1]

/-! ## The count of ones -/

theorem CountCauchyOnes_with (num : Int) :
    _CountCauchyOnes num = countOnesWith (Multiply ((1 : Int) <<< ((kWordBits : Int) - 1)) 2) num :=
  rfl

/-- The cached reduction value is `29`. -/
theorem PPs_eq : Multiply ((1 : Int) <<< ((kWordBits : Int) - 1)) 2 = 29 := by
  have h : (1 : Int) <<< ((kWordBits : Int) - 1) = ((128 : Nat) : Int) := by decide
  rw [h, Multiply_two 128 (by decide)]
  rfl

set_option maxRecDepth 1000000 in
theorem countOnesWith_block : ∀ a : Nat, a < 256 →
    countOnesWith 29 (a : Int)
      = (((List.range 8).foldl (fun s c => s + onesOf ((xtime^[c] a : Nat) : Int)) 0 : Nat) : Int) := by
  decide!

/-- `_CountCauchyOnes` counts the ones of the block of the bit matrix. -/
theorem CountCauchyOnes_block (a : Nat) (ha : a < 256) :
    _CountCauchyOnes (a : Int) = (blockOnes (a : Int) : Int) := by
  rw [CountCauchyOnes_with, PPs_eq, countOnesWith_block a ha]
  congr 1
  unfold blockOnes
  apply List.foldl_ext
  intro s c _
  rw [(mulPow_nat c a ha).1]

end CauchyRSCoder

namespace CauchyRSCoder

open GaloisOperator

/-! ## The first row of the coding matrix -/

/-- An element other than zero times its inverse is one. -/
theorem Multiply_inverse (x : Int) (hx : IsUnit256 x) : Multiply x (Divide 1 x) = 1 := by
  obtain ⟨a, rfl, ha, ha0⟩ := hx.exists_nat
  have h1 := GF256.inv_cast ⟨a, ha⟩ ha0
  have h2 := GF256.mul_cast ⟨a, ha⟩ (GF256.inv ⟨a, ha⟩)
  have h3 := congrArg GF256.val (GF256.mul_inv_cancel ⟨a, ha⟩ (fun h => ha0 (congrArg GF256.val h)))
  rw [show (GF256.mk a ha).val = a from rfl] at h1 h2
  rw [h1, h2, h3]
  rfl

/-- Making the first row all one makes it all one. -/
theorem firstRow_ones (k m : Nat) (hm : 0 < m) (M : Nat → Int)
    (hM : ∀ idx, idx < m * k → IsUnit256 (M idx)) :
    ∀ j, j < k → _GenerateEncodeMatrix_firstRow k m M j = 1 := by
  unfold _GenerateEncodeMatrix_firstRow
  have key := forLoop_inv
    (fun (I : Nat) (M' : Nat → Int) => (∀ idx, idx < m * k → IsUnit256 (M' idx)) ∧
      ∀ j, j < I → M' j = 1) k
    (fun i matrix =>
      if load matrix i ≠ 1 then
        let tmp := Divide 1 (load matrix i)
        (forLoop m
          (fun _ s =>
            let matrix := s.1
            let index := s.2
            (store matrix index (Multiply (load matrix index) tmp), index + k))
          (matrix, (i : Int))).1
      else matrix)
    M ⟨hM, fun j hj => absurd hj (Nat.not_lt_zero _)⟩ ?_
  · exact key.2
  · intro i hi M' ⟨hu, hone⟩
    have hik : i < m * k := by
      have := idx_lt 0 i k m hm hi
      simpa using this
    dsimp only
    split
    · have htmp : IsUnit256 (Divide 1 (load M' (i : Int))) := by
        rw [load_natCast]
        exact Divide_unit _ _ one_unit (hu i hik)
      have inner := forLoop_inv
        (fun (J : Nat) (s : (Nat → Int) × Int) =>
          (∀ idx, idx < m * k → IsUnit256 (s.1 idx)) ∧ s.2 = ((J * k + i : Nat) : Int) ∧
          (∀ idx, idx < k → idx ≠ i → s.1 idx = M' idx) ∧
          (J = 0 → s.1 i = M' i) ∧
          (1 ≤ J → s.1 i = Multiply (M' i) (Divide 1 (load M' (i : Int))))) m
        (fun _ (s : (Nat → Int) × Int) =>
          (store s.1 s.2 (Multiply (load s.1 s.2) (Divide 1 (load M' (i : Int)))), s.2 + k))
        (M', (i : Int)) ⟨hu, by simp, fun _ _ _ => rfl, fun _ => rfl, fun h => absurd h (by omega)⟩ ?_
      · obtain ⟨h1, _, h3, _, h5⟩ := inner
        refine ⟨h1, ?_⟩
        intro j hj
        by_cases hji : j = i
        · subst hji
          rw [h5 hm, load_natCast]
          exact Multiply_inverse _ (hu j hik)
        · rw [h3 j (by omega) hji]
          exact hone j (by omega)
      · intro J hJ s ⟨h1, h2, h3, h4, h5⟩
        have hJk : (J = 0 ∧ J * k = 0) ∨ k ≤ J * k := by
          rcases Nat.eq_zero_or_pos J with h | h
          · exact Or.inl ⟨h, by rw [h, Nat.zero_mul]⟩
          · exact Or.inr (Nat.le_mul_of_pos_left k h)
        refine ⟨?_, ?_, ?_, ?_, ?_⟩
        · intro idx hidx
          show IsUnit256 (store s.1 s.2 _ idx)
          rw [store_apply]
          split
          · rw [h2, load_natCast]
            exact Multiply_unit _ _ (h1 _ (idx_lt J i k m hJ hi)) htmp
          · exact h1 idx hidx
        · show s.2 + (k : Int) = _
          rw [h2]
          push_cast
          ring
        · intro idx hidx hne
          show store s.1 s.2 _ idx = _
          have hne2 : ((idx : Nat) : Int) ≠ s.2 := by
            rw [h2]
            intro h
            have h' : idx = J * k + i := by exact_mod_cast h
            omega
          rw [store_other _ _ _ _ hne2]
          exact h3 idx hidx hne
        · intro h
          omega
        · intro _
          show store s.1 s.2 _ i = _
          rcases hJk with ⟨h, _⟩ | h
          · subst h
            have e : s.2 = ((i : Nat) : Int) := by rw [h2]; simp
            rw [e, store_same, load_natCast, h4 rfl]
          · have hne2 : ((i : Nat) : Int) ≠ s.2 := by
              rw [h2]
              intro h'
              have h'' : i = J * k + i := by exact_mod_cast h'
              omega
            rw [store_other _ _ _ _ hne2]
            exact h5 (by
              rcases Nat.eq_zero_or_pos J with h0 | h0
              · subst h0
                omega
              · exact h0)
    · rename_i hone'
      refine ⟨hu, ?_⟩
      intro j hj
      by_cases hji : j = i
      · subst hji
        have := not_not.mp hone'
        rw [load_natCast] at this
        exact this
      · exact hone j (by omega)

/-- Improving the other rows leaves the first row alone. -/
theorem otherRows_first (k m : Nat) (M : Nat → Int) :
    ∀ idx, idx < k → _GenerateEncodeMatrix_otherRows k m M idx = M idx := by
  unfold _GenerateEncodeMatrix_otherRows
  refine forLoop_inv (fun _ (M' : Nat → Int) => ∀ idx, idx < k → M' idx = M idx) (m - 1) _ M
    (fun _ _ => rfl) ?_
  intro i' _ M' hM'
  dsimp only
  split
  · refine forLoop_inv (fun _ (M'' : Nat → Int) => ∀ idx, idx < k → M'' idx = M idx) k _ M' hM' ?_
    intro j _ M'' hM'' idx hidx
    show store M'' _ _ idx = _
    rw [store_other]
    · exact hM'' idx hidx
    · intro h
      have h1 : k ≤ (i' + 1) * k := Nat.le_mul_of_pos_left k (by omega)
      have h2 : ((idx : Nat) : Int) = (((i' + 1) * k + j : Nat) : Int) := by
        rw [h]
        push_cast
        ring
      have h3 : idx = (i' + 1) * k + j := by exact_mod_cast h2
      omega
  · exact hM'

/-- Row 0 of the coding matrix is all ones. -/
theorem GenerateEncodeMatrix_first_row (k m : Nat) (hm : 0 < m) (hkm : k + m ≤ 256) :
    ∀ j, j < k → _GenerateEncodeMatrix k m j = 1 := by
  intro j hj
  unfold _GenerateEncodeMatrix
  rw [otherRows_first k m _ j hj]
  exact firstRow_ones k m hm _ (cauchy_unit k m hkm) j hj

end CauchyRSCoder

namespace CauchyRSCoder

open GaloisOperator

/-! ## Rows without a one -/

/-- Running the tuples of the emitted rows changes bytes only in the
sub-packets of the rows that have a one. -/
theorem exec_plan_frame (k r : Nat) (B : Nat → Nat) (ptrs : Nat → Ptr) (part : Nat → Nat)
    (base : Int) (np : Nat)
    (hp : ∀ d, d < np → ptrs d = ⟨part d, base⟩)
    (hinj : ∀ d e, d < np → e < np → part d = part e → d = e)
    (hnp : k + r ≤ np)
    (done : List (Nat × Int))
    (hlt : ∀ x, x ∈ done.map Prod.fst → x < r * kWordBits) (hok : PlanOK k B done)
    (mem : Shards) (b : Nat) (o : Int)
    (hno : ∀ x, x ∈ done.map Prod.fst → scratchSrcs k B x ≠ [] →
      ¬ InPkt base (part (k + x / kWordBits)) (x % kWordBits) b o) :
    (planOps k B done).foldl (fun m t => _DoScheduleOperations_op ptrs t m) mem b o = mem b o := by
  induction done with
  | nil => rfl
  | cons a older ih =>
    obtain ⟨x, f⟩ := a
    obtain ⟨hf, hok2⟩ := hok
    have hlt2 : ∀ y, y ∈ older.map Prod.fst → y < r * kWordBits :=
      fun y hy => hlt y (List.mem_cons_of_mem _ hy)
    have hxr : x < r * kWordBits := hlt x (List.mem_cons_self _ _)
    have hx : k + x / kWordBits < np := row_lt_np k r x np hxr hnp
    have ih := ih hlt2 hok2 (fun y hy hne => hno y (List.mem_cons_of_mem _ hy) hne)
    show (planOps k B older ++ rowGroup k B x f).foldl _ mem b o = _
    rw [List.foldl_append]
    generalize (planOps k B older).foldl (fun m t => _DoScheduleOperations_op ptrs t m) mem
      = m'' at ih ⊢
    obtain ⟨gS, gD⟩ := rowGroup_exec k B ptrs part base np hp hinj x hx m''
    rw [← ih]
    rcases hf with rfl | ⟨p, hpo, rfl, hrate⟩
    · rw [gS, if_neg (fun h => hno x (List.mem_cons_self _ _) h.1 h.2)]
    · rw [gD p (row_lt_np k r p np (hlt2 p hpo) hnp),
        if_neg (hno x (List.mem_cons_self _ _) (rated_rows_nonzero k B p x hrate).1)]

/-- One run of the schedule of a bit matrix `B`, the pointers at offset
`base`: a sub-packet of a row with a one ends as the value of the row, and
every byte outside these sub-packets keeps its value. -/
theorem schedule_stripe (k r : Nat) (B : Nat → Nat) (hr : 0 < r) (ptrs : Nat → Ptr)
    (part : Nat → Nat) (base : Int)
    (hp : ∀ d, d < k + r → ptrs d = ⟨part d, base⟩)
    (hinj : ∀ d e, d < k + r → e < k + r → part d = part e → d = e) (mem : Shards) :
    (∀ b o, (∀ x, x < r * kWordBits → scratchSrcs k B x ≠ [] →
        ¬ InPkt base (part (k + x / kWordBits)) (x % kWordBits) b o) →
      _DoScheduleOperations_stripe ptrs (_BitMatrixToSchedule k r B) mem b o = mem b o) ∧
    ((∀ x j, x < r * kWordBits → j < k * kWordBits → B (x * k * kWordBits + j) ≤ 1) →
      ∀ x, x < r * kWordBits → scratchSrcs k B x ≠ [] → ∀ rel : Int, 0 ≤ rel → rel < kPacketSize →
      _DoScheduleOperations_stripe ptrs (_BitMatrixToSchedule k r B) mem
          (part (k + x / kWordBits)) (base + ((x % kWordBits : Nat) : Int) * kPacketSize + rel)
        = rowValue k B part base mem x rel) := by
  obtain ⟨done, hsched, hperm, hok, _, hrange⟩ := schedule_wellformed k r B hr
  have hnd : (done.map Prod.fst).Nodup := hperm.nodup_iff.2 (List.nodup_range _)
  have hlt : ∀ x, x ∈ done.map Prod.fst → x < r * kWordBits :=
    fun x hx => List.mem_range.1 (hperm.subset hx)
  have hall : ∀ x, x < r * kWordBits → x ∈ done.map Prod.fst :=
    fun x hx => hperm.symm.subset (List.mem_range.2 hx)
  rw [hsched, stripe_sentinel _ _ _ (fun t ht => (hrange t ht).1)]
  constructor
  · intro b o hno
    exact exec_plan_frame k r B ptrs part base (k + r) hp hinj (le_refl _) done hlt hok mem b o
      (fun x hx hne => hno x (hlt x hx) hne)
  · intro hB x hx hne rel h0 h1
    exact (exec_plan k r B ptrs part base (k + r) hp hinj (le_refl _) done hnd hlt hok mem).value
      hB x (hall x hx) hne rel h0 h1

/-- A run of `_DoScheduleOperations` with the schedule of a bit matrix changes
bytes only in the sub-packets of the rows that have a one. -/
theorem DoScheduleOperations_frame (c : CauchyRSCoder) (k r : Nat) (B : Nat → Nat)
    (ptrs : Nat → Ptr) (part : Nat → Nat) (size : Int) (mem : Shards) (hr : 0 < r)
    (hnp : k + r ≤ c.m_num_data_parts + c.m_num_code_parts)
    (hp : ∀ d, d < k + r → ptrs d = ⟨part d, 0⟩)
    (hinj : ∀ d e, d < k + r → e < k + r → part d = part e → d = e) (b : Nat) (o : Int)
    (hno : ∀ s x, s < numStripes size → x < r * kWordBits → scratchSrcs k B x ≠ [] →
        ¬ InPkt ((s : Int) * 32768) (part (k + x / kWordBits)) (x % kWordBits) b o) :
    _DoScheduleOperations c (_BitMatrixToSchedule k r B) ptrs size mem b o = mem b o := by
  rw [DoScheduleOperations_eq]
  have main := forLoop_inv
    (fun (n : Nat) (m : Shards) => n ≤ numStripes size → m b o = mem b o)
    (numStripes size)
    (fun s m => _DoScheduleOperations_stripe
      (stripePtrs (c.m_num_data_parts + c.m_num_code_parts) ptrs s)
      (_BitMatrixToSchedule k r B) m) mem (fun _ => rfl) ?_
  · exact main (le_refl _)
  · intro n hn m J hle
    beta_reduce
    rw [(schedule_stripe k r B hr _ part ((n : Int) * 32768)
      (stripePtrs_apply _ k r ptrs part n hnp hp) hinj m).1 b o
      (fun x hx hne => hno n x hn hx hne)]
    exact J (by omega)

end CauchyRSCoder

namespace CauchyRSCoder

open GaloisOperator

/-! ## Stripes are coded one by one -/

theorem numStripes_one : numStripes 32768 = 1 := by
  unfold numStripes
  omega

/-- A sub-packet of stripe `s'` holds a byte of stripe `s` only when `s' = s`. -/
theorem inPkt_stripe (s' s p x b : Nat) (o : Int) (h0 : 0 ≤ o) (h1 : o < 32768)
    (h : InPkt ((s' : Int) * 32768) p (x % kWordBits) b ((s : Int) * 32768 + o)) :
    s' = s ∧ InPkt 0 p (x % kWordBits) b o := by
  obtain ⟨hb, h2, h3⟩ := h
  have hx : x % kWordBits < 8 := Nat.mod_lt _ (by decide)
  unfold kPacketSize at *
  generalize x % kWordBits = bit at *
  push_cast at h2 h3
  have hs : s' = s := by omega
  subst hs
  refine ⟨rfl, hb, ?_, ?_⟩
  · unfold kPacketSize
    push_cast
    omega
  · unfold kPacketSize
    push_cast
    omega

/-- The value of a row on stripe `s` is its value on buffers that hold the
stripe. -/
theorem rowValue_stripe (k : Nat) (B : Nat → Nat) (part : Nat → Nat) (mem mem2 : Shards) (s x : Nat)
    (hagree : ∀ b o, 0 ≤ o → o < 32768 → mem2 b o = mem b ((s : Int) * 32768 + o))
    (rel : Int) (h0 : 0 ≤ rel) (h1 : rel < kPacketSize) :
    rowValue k B part ((s : Int) * 32768) mem x rel
      = rowValue k B part (((0 : Nat) : Int) * 32768) mem2 x rel := by
  unfold rowValue
  apply xorSrcs_congr
  intro j _
  have hj : j % kWordBits < 8 := Nat.mod_lt _ (by decide)
  have e : (s : Int) * 32768 + ((j % kWordBits : Nat) : Int) * kPacketSize + rel
      = (s : Int) * 32768
        + (((0 : Nat) : Int) * 32768 + ((j % kWordBits : Nat) : Int) * kPacketSize + rel) := by
    push_cast
    ring
  rw [e]
  symm
  apply hagree
  · unfold kPacketSize at *
    push_cast
    omega
  · unfold kPacketSize at *
    push_cast
    omega

/-- `Encode` on `n` stripes does on stripe `s` what `Encode` does on buffers
that hold that stripe alone. -/
theorem Encode_stripe (c : CauchyRSCoder) (hm : 0 < c.m_num_code_parts)
    (hsched : c.m_encoding_schedule
      = _BitMatrixToSchedule c.m_num_data_parts c.m_num_code_parts c.m_encoding_bit_matrix)
    (hB : ∀ idx, c.m_encoding_bit_matrix idx ≤ 1)
    (n s : Nat) (hs : s < n) (mem mem2 : Shards)
    (hagree : ∀ b o, 0 ≤ o → o < 32768 → mem2 b o = mem b ((s : Int) * 32768 + o))
    (b : Nat) (o : Int) (h0 : 0 ≤ o) (h1 : o < 32768) :
    (Encode c ((n : Int) * 32768) mem).2 b ((s : Int) * 32768 + o)
      = (Encode c 32768 mem2).2 b o := by
  have hn : (0 : Int) < (n : Int) * 32768 := by omega
  rw [Encode_unfold c _ mem hn, Encode_unfold c 32768 _ (by decide), hsched]
  have hp := Encode_ptrs c.m_num_data_parts c.m_num_code_parts
  have hinj : ∀ d e, d < c.m_num_data_parts + c.m_num_code_parts →
      e < c.m_num_data_parts + c.m_num_code_parts → (fun d : Nat => d) d = (fun d : Nat => d) e →
      d = e := fun d e _ _ h => h
  by_cases h : ∃ x, x < c.m_num_code_parts * kWordBits ∧
      scratchSrcs c.m_num_data_parts c.m_encoding_bit_matrix x ≠ [] ∧
      InPkt 0 (c.m_num_data_parts + x / kWordBits) (x % kWordBits) b o
  · obtain ⟨x, hx, hne, hb, h2, h3⟩ := h
    have hrel : o = ((x % kWordBits : Nat) : Int) * kPacketSize
        + (o - ((x % kWordBits : Nat) : Int) * kPacketSize) := by ring
    generalize o - ((x % kWordBits : Nat) : Int) * kPacketSize = rel at hrel
    subst hrel
    subst hb
    have hr0 : 0 ≤ rel := by omega
    have hr1 : rel < kPacketSize := by omega
    have L := (DoScheduleOperations_spec c c.m_num_data_parts c.m_num_code_parts
      c.m_encoding_bit_matrix _ (fun d => d) ((n : Int) * 32768) mem hm (le_refl _) hp hinj).2
      (fun x j _ _ => hB _) s x (by rw [numStripes_mul]; exact hs) hx hne rel hr0 hr1
    have R := (DoScheduleOperations_spec c c.m_num_data_parts c.m_num_code_parts
      c.m_encoding_bit_matrix _ (fun d => d) 32768 mem2 hm (le_refl _) hp hinj).2
      (fun x j _ _ => hB _) 0 x (by rw [numStripes_one]; decide) hx hne rel hr0 hr1
    have e1 : (s : Int) * 32768 + (((x % kWordBits : Nat) : Int) * kPacketSize + rel)
        = (s : Int) * 32768 + ((x % kWordBits : Nat) : Int) * kPacketSize + rel := by ring
    have e2 : ((x % kWordBits : Nat) : Int) * kPacketSize + rel
        = ((0 : Nat) : Int) * 32768 + ((x % kWordBits : Nat) : Int) * kPacketSize + rel := by
      push_cast
      ring
    show _DoScheduleOperations c _ _ _ mem _ _ = _DoScheduleOperations c _ _ _ _ _ _
    rw [e1, L, e2, R]
    exact rowValue_stripe _ _ _ mem mem2 s x hagree rel hr0 hr1
  · have L := DoScheduleOperations_frame c c.m_num_data_parts c.m_num_code_parts
      c.m_encoding_bit_matrix _ (fun d => d) ((n : Int) * 32768) mem hm (le_refl _) hp hinj b
      ((s : Int) * 32768 + o)
      (fun s' x _ hx hne hin => h ⟨x, hx, hne, (inPkt_stripe s' s _ x b o h0 h1 hin).2⟩)
    have R := DoScheduleOperations_frame c c.m_num_data_parts c.m_num_code_parts
      c.m_encoding_bit_matrix _ (fun d => d) 32768 mem2 hm (le_refl _) hp hinj b o
      (fun s' x hs' hx hne hin => h ⟨x, hx, hne, by
        rw [numStripes_one] at hs'
        have : s' = 0 := by omega
        subst this
        simpa using hin⟩)
    show _DoScheduleOperations c _ _ _ mem _ _ = _DoScheduleOperations c _ _ _ _ _ _
    rw [L, R]
    exact (hagree b o h0 h1).symm

end CauchyRSCoder

namespace CauchyRSCoder

/-! ## The row operations of `_InvertBitMatrix` -/

/-- A cell number determines its row and its column. -/
theorem cell_inj (n r c r' c' : Nat) (hc : c < n) (hc' : c' < n) (h : r * n + c = r' * n + c') :
    r = r' ∧ c = c' := by
  have h1 := div_mod_of_lt r c n hc
  have h2 := div_mod_of_lt r' c' n hc'
  rw [h] at h1
  exact ⟨h1.1.symm.trans h2.1, h1.2.symm.trans h2.2⟩

/-- The statement `row_j ^= row_i`, cell by cell. -/
theorem addRow_spec (n i j : Nat) (hij : i ≠ j) (s : (Nat → Nat) × (Nat → Nat)) :
    ∀ r c, c < n →
      (_InvertBitMatrix_addRow n i j s).1 (r * n + c)
        = (if r = j then s.1 (j * n + c) ^^^ s.1 (i * n + c) else s.1 (r * n + c)) ∧
      (_InvertBitMatrix_addRow n i j s).2 (r * n + c)
        = (if r = j then s.2 (j * n + c) ^^^ s.2 (i * n + c) else s.2 (r * n + c)) := by
  unfold _InvertBitMatrix_addRow
  have key := forLoop_inv
    (fun (K : Nat) (t : (Nat → Nat) × (Nat → Nat)) => ∀ r c, c < n →
      t.1 (r * n + c)
        = (if r = j ∧ c < K then s.1 (j * n + c) ^^^ s.1 (i * n + c) else s.1 (r * n + c)) ∧
      t.2 (r * n + c)
        = (if r = j ∧ c < K then s.2 (j * n + c) ^^^ s.2 (i * n + c) else s.2 (r * n + c))) n
    (fun k (s : (Nat → Nat) × (Nat → Nat)) =>
      (store s.1 ((j * n + k : Nat) : Int) (s.1 (j * n + k) ^^^ s.1 (i * n + k)),
       store s.2 ((j * n + k : Nat) : Int) (s.2 (j * n + k) ^^^ s.2 (i * n + k))))
    s (fun r c _ => by simp) ?_
  · intro r c hc
    have := key r c hc
    by_cases hr : r = j
    · simpa [hr, hc] using this
    · simpa [hr] using this
  · intro K hK t ht r c hc
    have hjK := ht j K hK
    have hiK := ht i K hK
    simp only [Nat.lt_irrefl, and_false, if_false] at hjK hiK
    have hcell : ((r * n + c : Nat) : Int) = ((j * n + K : Nat) : Int) ↔ (r = j ∧ c = K) := by
      constructor
      · intro h
        exact cell_inj n r c j K hc hK (by exact_mod_cast h)
      · rintro ⟨rfl, rfl⟩
        rfl
    constructor
    · show store t.1 _ _ (r * n + c) = _
      rw [store_apply]
      by_cases h : r = j ∧ c = K
      · rw [if_pos (hcell.2 h), hjK.1, hiK.1]
        obtain ⟨rfl, rfl⟩ := h
        rw [if_pos ⟨rfl, Nat.lt_succ_self _⟩]
      · rw [if_neg (fun h' => h (hcell.1 h')), (ht r c hc).1]
        by_cases h2 : r = j ∧ c < K
        · rw [if_pos h2, if_pos ⟨h2.1, by omega⟩]
        · rw [if_neg h2, if_neg (fun h3 => by
            rcases Nat.lt_succ_iff_lt_or_eq.1 h3.2 with h4 | h4
            · exact h2 ⟨h3.1, h4⟩
            · exact h ⟨h3.1, h4⟩)]
    · show store t.2 _ _ (r * n + c) = _
      rw [store_apply]
      by_cases h : r = j ∧ c = K
      · rw [if_pos (hcell.2 h), hjK.2, hiK.2]
        obtain ⟨rfl, rfl⟩ := h
        rw [if_pos ⟨rfl, Nat.lt_succ_self _⟩]
      · rw [if_neg (fun h' => h (hcell.1 h')), (ht r c hc).2]
        by_cases h2 : r = j ∧ c < K
        · rw [if_pos h2, if_pos ⟨h2.1, by omega⟩]
        · rw [if_neg h2, if_neg (fun h3 => by
            rcases Nat.lt_succ_iff_lt_or_eq.1 h3.2 with h4 | h4
            · exact h2 ⟨h3.1, h4⟩
            · exact h ⟨h3.1, h4⟩)]

/-- The exchange of the rows `i` and `j`, cell by cell. -/
theorem swap_spec (n i j : Nat) (hij : i ≠ j) (s : (Nat → Nat) × (Nat → Nat)) :
    ∀ r c, c < n →
      (_InvertBitMatrix_swap n i j s).1 (r * n + c)
        = (if r = i then s.1 (j * n + c) else if r = j then s.1 (i * n + c) else s.1 (r * n + c)) ∧
      (_InvertBitMatrix_swap n i j s).2 (r * n + c)
        = (if r = i then s.2 (j * n + c) else if r = j then s.2 (i * n + c)
            else s.2 (r * n + c)) := by
  unfold _InvertBitMatrix_swap
  have key := forLoop_inv
    (fun (K : Nat) (t : (Nat → Nat) × (Nat → Nat)) => ∀ r c, c < n →
      t.1 (r * n + c)
        = (if c < K then
            (if r = i then s.1 (j * n + c) else if r = j then s.1 (i * n + c) else s.1 (r * n + c))
          else s.1 (r * n + c)) ∧
      t.2 (r * n + c)
        = (if c < K then
            (if r = i then s.2 (j * n + c) else if r = j then s.2 (i * n + c) else s.2 (r * n + c))
          else s.2 (r * n + c))) n
    (fun k (s : (Nat → Nat) × (Nat → Nat)) =>
      let tmp := s.1 (i * n + k)
      let matrix := store s.1 ((i * n + k : Nat) : Int) (s.1 (j * n + k))
      let matrix := store matrix ((j * n + k : Nat) : Int) tmp
      let tmp := s.2 (i * n + k)
      let inverse := store s.2 ((i * n + k : Nat) : Int) (s.2 (j * n + k))
      let inverse := store inverse ((j * n + k : Nat) : Int) tmp
      (matrix, inverse))
    s (fun r c _ => by simp) ?_
  · intro r c hc
    have := key r c hc
    simpa [hc] using this
  · intro K hK t ht r c hc
    have hjK := ht j K hK
    have hiK := ht i K hK
    simp only [Nat.lt_irrefl, if_false] at hjK hiK
    have hcell : ∀ q, ((r * n + c : Nat) : Int) = ((q * n + K : Nat) : Int) ↔ (r = q ∧ c = K) := by
      intro q
      constructor
      · intro h
        exact cell_inj n r c q K hc hK (by exact_mod_cast h)
      · rintro ⟨rfl, rfl⟩
        rfl
    have hji : j ≠ i := fun h => hij h.symm
    constructor
    · show store (store t.1 _ _) _ _ (r * n + c) = _
      rw [store_apply, store_apply]
      by_cases hcK : c = K
      · subst hcK
        rw [if_pos (Nat.lt_succ_self _)]
        by_cases hrj : r = j
        · subst hrj
          rw [if_pos ((hcell r).2 ⟨rfl, rfl⟩), if_neg hji, if_pos rfl, hiK.1]
        · rw [if_neg (fun h => hrj ((hcell j).1 h).1)]
          by_cases hri : r = i
          · subst hri
            rw [if_pos ((hcell r).2 ⟨rfl, rfl⟩), if_pos rfl, hjK.1]
          · rw [if_neg (fun h => hri ((hcell i).1 h).1), if_neg hri, if_neg hrj, (ht r c hc).1,
              if_neg (show ¬ c < c by omega)]
      · rw [if_neg (fun h => hcK ((hcell j).1 h).2), if_neg (fun h => hcK ((hcell i).1 h).2),
          (ht r c hc).1]
        by_cases h2 : c < K
        · rw [if_pos h2, if_pos (show c < K + 1 by omega)]
        · rw [if_neg h2, if_neg (show ¬ c < K + 1 by omega)]
    · show store (store t.2 _ _) _ _ (r * n + c) = _
      rw [store_apply, store_apply]
      by_cases hcK : c = K
      · subst hcK
        rw [if_pos (Nat.lt_succ_self _)]
        by_cases hrj : r = j
        · subst hrj
          rw [if_pos ((hcell r).2 ⟨rfl, rfl⟩), if_neg hji, if_pos rfl, hiK.2]
        · rw [if_neg (fun h => hrj ((hcell j).1 h).1)]
          by_cases hri : r = i
          · subst hri
            rw [if_pos ((hcell r).2 ⟨rfl, rfl⟩), if_pos rfl, hjK.2]
          · rw [if_neg (fun h => hri ((hcell i).1 h).1), if_neg hri, if_neg hrj, (ht r c hc).2,
              if_neg (show ¬ c < c by omega)]
      · rw [if_neg (fun h => hcK ((hcell j).1 h).2), if_neg (fun h => hcK ((hcell i).1 h).2),
          (ht r c hc).2]
        by_cases h2 : c < K
        · rw [if_pos h2, if_pos (show c < K + 1 by omega)]
        · rw [if_neg h2, if_neg (show ¬ c < K + 1 by omega)]

/-- The row search stops at the first row from `j` on with a one in column
`i`, or at `n`. -/
theorem search_spec (M : Nat → Nat) (n i : Nat) (fuel j : Nat) (hfuel : n ≤ fuel + j) :
    j ≤ _InvertBitMatrix_search M n i fuel j ∧
    (∀ t, j ≤ t → t < _InvertBitMatrix_search M n i fuel j → t < n ∧ M (t * n + i) = 0) ∧
    (_InvertBitMatrix_search M n i fuel j < n → M (_InvertBitMatrix_search M n i fuel j * n + i) ≠ 0) := by
  induction fuel generalizing j with
  | zero =>
    unfold _InvertBitMatrix_search
    exact ⟨le_refl _, fun t h1 h2 => absurd h2 (by omega), fun h => absurd h (by omega)⟩
  | succ fuel ih =>
    unfold _InvertBitMatrix_search
    by_cases h : j < n ∧ M (j * n + i) = 0
    · rw [if_pos h]
      obtain ⟨h1, h2, h3⟩ := ih (j + 1) (by omega)
      refine ⟨by omega, ?_, h3⟩
      intro t ht1 ht2
      rcases Nat.eq_or_lt_of_le ht1 with h4 | h4
      · subst h4
        exact h
      · exact h2 t h4 ht2
    · rw [if_neg h]
      refine ⟨le_refl _, fun t h1 h2 => absurd h2 (by omega), ?_⟩
      intro hj h0
      exact h ⟨hj, h0⟩

end CauchyRSCoder

namespace CauchyRSCoder

/-! ## The row operations on the matrices over GF(2) -/

theorem bitMatrix_apply (n : Nat) (A : Nat → Nat) (i j : Fin n) :
    bitMatrix n A i j = ((A (i.val * n + j.val) : Nat) : ZMod 2) := rfl

theorem cast_xor (a b : Nat) (ha : a ≤ 1) (hb : b ≤ 1) :
    ((a ^^^ b : Nat) : ZMod 2) = (a : ZMod 2) + (b : ZMod 2) := by
  rcases Nat.le_one_iff_eq_zero_or_eq_one.1 ha with h | h <;>
    rcases Nat.le_one_iff_eq_zero_or_eq_one.1 hb with h' | h' <;> subst h <;> subst h' <;> decide

theorem xor_le_one (a b : Nat) (ha : a ≤ 1) (hb : b ≤ 1) : a ^^^ b ≤ 1 := by
  rcases Nat.le_one_iff_eq_zero_or_eq_one.1 ha with h | h <;>
    rcases Nat.le_one_iff_eq_zero_or_eq_one.1 hb with h' | h' <;> subst h <;> subst h' <;> decide

/-- A cell that is zero or one is zero in GF(2) exactly when it is zero. -/
theorem cast_eq_zero (a : Nat) (ha : a ≤ 1) : ((a : Nat) : ZMod 2) = 0 ↔ a = 0 := by
  rcases Nat.le_one_iff_eq_zero_or_eq_one.1 ha with h | h <;> subst h <;> decide

theorem updateRow_add_mul {n : Nat} (V A : Matrix (Fin n) (Fin n) (ZMod 2)) (i j : Fin n) :
    Matrix.updateRow V j (V j + V i) * A
      = Matrix.updateRow (V * A) j ((V * A) j + (V * A) i) := by
  ext r c
  by_cases h : r = j
  · subst h
    simp only [Matrix.mul_apply, Matrix.updateRow_self, Pi.add_apply, add_mul,
      Finset.sum_add_distrib]
  · simp only [Matrix.mul_apply, Matrix.updateRow_ne h]

theorem sign_cast_two {n : Nat} (σ : Equiv.Perm (Fin n)) :
    (((Equiv.Perm.sign σ : ℤˣ) : ℤ) : ZMod 2) = 1 := by
  rcases Int.units_eq_one_or (Equiv.Perm.sign σ) with h | h <;> rw [h] <;> decide

/-- Adding row `i` to row `j` keeps the invariant. -/
theorem GaussInv.addRow {n : Nat} {A : Nat → Nat} {s : (Nat → Nat) × (Nat → Nat)}
    (h : GaussInv n A s) (i j : Nat) (hi : i < n) (hj : j < n) (hij : i ≠ j) :
    GaussInv n A (_InvertBitMatrix_addRow n i j s) := by
  have spec := addRow_spec n i j hij s
  have hfij : (⟨j, hj⟩ : Fin n) ≠ ⟨i, hi⟩ := fun h' => hij (Fin.mk.inj_iff.1 h').symm
  have e1 : bitMatrix n (_InvertBitMatrix_addRow n i j s).1
      = Matrix.updateRow (bitMatrix n s.1) ⟨j, hj⟩
          (bitMatrix n s.1 ⟨j, hj⟩ + bitMatrix n s.1 ⟨i, hi⟩) := by
    ext r c
    rw [bitMatrix_apply, (spec r.val c.val c.isLt).1]
    by_cases hr : r = ⟨j, hj⟩
    · subst hr
      rw [if_pos rfl, Matrix.updateRow_self, cast_xor _ _ (h.bits1 j c hj c.isLt)
        (h.bits1 i c hi c.isLt)]
      rfl
    · rw [if_neg (fun h' => hr (Fin.ext h')), Matrix.updateRow_ne hr]
      rfl
  have e2 : bitMatrix n (_InvertBitMatrix_addRow n i j s).2
      = Matrix.updateRow (bitMatrix n s.2) ⟨j, hj⟩
          (bitMatrix n s.2 ⟨j, hj⟩ + bitMatrix n s.2 ⟨i, hi⟩) := by
    ext r c
    rw [bitMatrix_apply, (spec r.val c.val c.isLt).2]
    by_cases hr : r = ⟨j, hj⟩
    · subst hr
      rw [if_pos rfl, Matrix.updateRow_self, cast_xor _ _ (h.bits2 j c hj c.isLt)
        (h.bits2 i c hi c.isLt)]
      rfl
    · rw [if_neg (fun h' => hr (Fin.ext h')), Matrix.updateRow_ne hr]
      rfl
  refine ⟨?_, ?_, ?_, ?_⟩
  · intro r c hr hc
    rw [(spec r c hc).1]
    split
    · exact xor_le_one _ _ (h.bits1 j c hj hc) (h.bits1 i c hi hc)
    · exact h.bits1 r c hr hc
  · intro r c hr hc
    rw [(spec r c hc).2]
    split
    · exact xor_le_one _ _ (h.bits2 j c hj hc) (h.bits2 i c hi hc)
    · exact h.bits2 r c hr hc
  · rw [e1, e2, updateRow_add_mul, h.prod]
  · rw [e1, Matrix.det_updateRow_add_self _ hfij, h.det]

/-- Exchanging two rows keeps the invariant. -/
theorem GaussInv.swap {n : Nat} {A : Nat → Nat} {s : (Nat → Nat) × (Nat → Nat)}
    (h : GaussInv n A s) (i j : Nat) (hi : i < n) (hj : j < n) (hij : i ≠ j) :
    GaussInv n A (_InvertBitMatrix_swap n i j s) := by
  have spec := swap_spec n i j hij s
  have hval : ∀ r : Fin n, (Equiv.swap (⟨i, hi⟩ : Fin n) ⟨j, hj⟩ r).val
      = if r.val = i then j else if r.val = j then i else r.val := by
    intro r
    by_cases h1 : r = ⟨i, hi⟩
    · subst h1
      rw [Equiv.swap_apply_left, if_pos rfl]
    · by_cases h2 : r = ⟨j, hj⟩
      · subst h2
        rw [Equiv.swap_apply_right, if_neg (fun h' => hij h'.symm), if_pos rfl]
      · rw [Equiv.swap_apply_of_ne_of_ne h1 h2, if_neg (fun h' => h1 (Fin.ext h')),
          if_neg (fun h' => h2 (Fin.ext h'))]
  have e1 : bitMatrix n (_InvertBitMatrix_swap n i j s).1
      = (bitMatrix n s.1).submatrix (Equiv.swap (⟨i, hi⟩ : Fin n) ⟨j, hj⟩) id := by
    ext r c
    rw [bitMatrix_apply, (spec r.val c.val c.isLt).1, Matrix.submatrix_apply, bitMatrix_apply, hval]
    split
    · rfl
    · split <;> rfl
  have e2 : bitMatrix n (_InvertBitMatrix_swap n i j s).2
      = (bitMatrix n s.2).submatrix (Equiv.swap (⟨i, hi⟩ : Fin n) ⟨j, hj⟩) id := by
    ext r c
    rw [bitMatrix_apply, (spec r.val c.val c.isLt).2, Matrix.submatrix_apply, bitMatrix_apply, hval]
    split
    · rfl
    · split <;> rfl
  refine ⟨?_, ?_, ?_, ?_⟩
  · intro r c hr hc
    rw [(spec r c hc).1]
    split
    · exact h.bits1 j c hj hc
    · split
      · exact h.bits1 i c hi hc
      · exact h.bits1 r c hr hc
  · intro r c hr hc
    rw [(spec r c hc).2]
    split
    · exact h.bits2 j c hj hc
    · split
      · exact h.bits2 i c hi hc
      · exact h.bits2 r c hr hc
  · rw [e1, e2, ← h.prod]
    ext r c
    simp only [Matrix.mul_apply, Matrix.submatrix_apply, id]
  · rw [e1, Matrix.det_permute, sign_cast_two, one_mul, h.det]

/-- A matrix whose first `i` columns are upper triangular with ones on the
diagonal and whose column `i` is zero from row `t` on is singular. -/
theorem det_eq_zero_of_tri {n : Nat} (i : Fin n) (t : Nat) :
    ∀ (N : Matrix (Fin n) (Fin n) (ZMod 2)), t ≤ i.val →
      (∀ c : Fin n, c < i → N c c = 1) → (∀ c r : Fin n, c < i → c < r → N r c = 0) →
      (∀ r : Fin n, t ≤ r.val → N r i = 0) → N.det = 0 := by
  induction t with
  | zero =>
    intro N _ _ _ hcol
    exact Matrix.det_eq_zero_of_column_eq_zero i (fun r => hcol r (Nat.zero_le _))
  | succ t ih =>
    intro N ht hdiag hlow hcol
    have htn : t < n := by omega
    have hti : (⟨t, htn⟩ : Fin n) < i := by
      rw [Fin.lt_def]
      exact ht
    have hne : i ≠ ⟨t, htn⟩ := fun h => by
      rw [h] at hti
      exact lt_irrefl _ hti
    rw [← Matrix.det_updateColumn_add_smul_self N hne (N ⟨t, htn⟩ i)]
    apply ih _ (by omega)
    · intro c hc
      rw [Matrix.updateColumn_ne (fun h => by rw [h] at hc; exact lt_irrefl _ hc)]
      exact hdiag c hc
    · intro c r hc hcr
      rw [Matrix.updateColumn_ne (fun h => by rw [h] at hc; exact lt_irrefl _ hc)]
      exact hlow c r hc hcr
    · intro r hr
      rw [Matrix.updateColumn_self]
      rcases Nat.eq_or_lt_of_le hr with h | h
      · have hrt : r = ⟨t, htn⟩ := Fin.ext h.symm
        subst hrt
        rw [hdiag _ hti, smul_eq_mul, mul_one]
        exact CharTwo.add_self_eq_zero _
      · have hrt : (⟨t, htn⟩ : Fin n) < r := by
          rw [Fin.lt_def]
          exact h
        rw [hcol r h, hlow _ r hti hrt, smul_zero, add_zero]

end CauchyRSCoder

namespace CauchyRSCoder

/-! ## The first phase of `_InvertBitMatrix` -/

theorem eq_one_of_ne_zero (a : Nat) (ha : a ≤ 1) (h : a ≠ 0) : a = 1 := by omega

/-- With column `i` zero from the diagonal down, the working copy is singular. -/
theorem det_eq_zero_of_no_pivot (n i : Nat) (hi : i < n) (M : Nat → Nat) (ht : Tri n i M)
    (hcol : ∀ r, i ≤ r → r < n → M (r * n + i) = 0) : (bitMatrix n M).det = 0 := by
  apply det_eq_zero_of_tri (⟨i, hi⟩ : Fin n) i (bitMatrix n M) (le_refl _)
  · intro c hc
    rw [bitMatrix_apply, (ht c.val hc).1]
    rfl
  · intro c r hc hcr
    rw [bitMatrix_apply, (ht c.val hc).2 r.val hcr r.isLt]
    rfl
  · intro r hr
    rw [bitMatrix_apply]
    show ((M (r.val * n + i) : Nat) : ZMod 2) = 0
    rw [hcol r.val hr r.isLt]
    rfl

/-- The elimination below a pivot: every row below row `i` with a one in
column `i` gets row `i` added. -/
theorem eliminate_spec (n i : Nat) (hi : i < n) (A : Nat → Nat) (s : (Nat → Nat) × (Nat → Nat))
    (h : GaussInv n A s) (ht : Tri n i s.1) (hp : s.1 (i * n + i) = 1) :
    GaussInv n A
        (forLoop (n - (i + 1))
          (fun j' (s : (Nat → Nat) × (Nat → Nat)) =>
            let j := i + 1 + j'
            if s.1 (j * n + i) ≠ 0 then _InvertBitMatrix_addRow n i j s else s) s) ∧
      Tri n (i + 1)
        (forLoop (n - (i + 1))
          (fun j' (s : (Nat → Nat) × (Nat → Nat)) =>
            let j := i + 1 + j'
            if s.1 (j * n + i) ≠ 0 then _InvertBitMatrix_addRow n i j s else s) s).1 := by
  have key := forLoop_inv
    (fun (J : Nat) (t : (Nat → Nat) × (Nat → Nat)) =>
      GaussInv n A t ∧ Tri n i t.1 ∧ t.1 (i * n + i) = 1 ∧
      ∀ r, i < r → r < i + 1 + J → t.1 (r * n + i) = 0)
    (n - (i + 1))
    (fun j' (s : (Nat → Nat) × (Nat → Nat)) =>
      let j := i + 1 + j'
      if s.1 (j * n + i) ≠ 0 then _InvertBitMatrix_addRow n i j s else s)
    s ⟨h, ht, hp, fun r h1 h2 => absurd h2 (by omega)⟩ ?_
  · obtain ⟨g, t1, t2, t3⟩ := key
    refine ⟨g, ?_⟩
    intro c hc
    rcases Nat.lt_succ_iff_lt_or_eq.1 hc with h1 | h1
    · exact t1 c h1
    · subst h1
      exact ⟨t2, fun r hr hrn => t3 r hr (by omega)⟩
  · intro J hJ t ⟨g, t1, t2, t3⟩
    have hj : i + 1 + J < n := by omega
    dsimp only
    by_cases hz : t.1 ((i + 1 + J) * n + i) ≠ 0
    · rw [if_pos hz]
      have hone := eq_one_of_ne_zero _ (g.bits1 _ _ hj hi) hz
      have hij : i ≠ i + 1 + J := by omega
      have spec := addRow_spec n i (i + 1 + J) hij t
      refine ⟨g.addRow i (i + 1 + J) hi hj hij, ?_, ?_, ?_⟩
      · intro c hc
        have hcn : c < n := by omega
        constructor
        · rw [(spec c c hcn).1, if_neg (by omega)]
          exact (t1 c hc).1
        · intro r hr hrn
          rw [(spec r c hcn).1]
          split
          · rw [(t1 c hc).2 _ (by omega) hj, (t1 c hc).2 i hc hi]
            rfl
          · exact (t1 c hc).2 r hr hrn
      · rw [(spec i i hi).1, if_neg hij]
        exact t2
      · intro r hr1 hr2
        rw [(spec r i hi).1]
        split
        · rw [hone, t2]
          rfl
        · rename_i hne
          exact t3 r hr1 (by omega)
    · rw [if_neg hz]
      refine ⟨g, t1, t2, ?_⟩
      intro r hr1 hr2
      rcases Nat.lt_succ_iff_lt_or_eq.1 (show r < (i + 1 + J) + 1 by omega) with h1 | h1
      · exact t3 r hr1 h1
      · rw [h1]
        exact not_not.mp hz

/-- One round of the first phase: when it finds a pivot the invariant holds
afterwards and one more column is triangular; for a matrix that is not
singular it finds one. -/
theorem column_spec (n i : Nat) (hi : i < n) (A : Nat → Nat) (s : (Nat → Nat) × (Nat → Nat))
    (h : GaussInv n A s) (ht : Tri n i s.1) :
    (∀ s', _InvertBitMatrix_column n i s = some s' → GaussInv n A s' ∧ Tri n (i + 1) s'.1) ∧
    ((bitMatrix n A).det ≠ 0 → ∃ s', _InvertBitMatrix_column n i s = some s') := by
  unfold _InvertBitMatrix_column
  dsimp only
  by_cases hz : s.1 (i * n + i) = 0
  · rw [if_pos hz]
    obtain ⟨f1, f2, f3⟩ := search_spec s.1 n i n (i + 1) (by omega)
    generalize _InvertBitMatrix_search s.1 n i n (i + 1) = j at f1 f2 f3
    by_cases hj : j < n
    · rw [if_pos hj]
      have hij : i ≠ j := by omega
      have spec := swap_spec n i j hij s
      have g := h.swap i j hi hj hij
      have t1 : Tri n i (_InvertBitMatrix_swap n i j s).1 := by
        intro c hc
        have hcn : c < n := by omega
        constructor
        · rw [(spec c c hcn).1, if_neg (by omega), if_neg (by omega)]
          exact (ht c hc).1
        · intro r hr hrn
          rw [(spec r c hcn).1]
          split
          · exact (ht c hc).2 j (by omega) hj
          · split
            · exact (ht c hc).2 i hc hi
            · exact (ht c hc).2 r hr hrn
      have t2 : (_InvertBitMatrix_swap n i j s).1 (i * n + i) = 1 := by
        rw [(spec i i hi).1, if_pos rfl]
        exact eq_one_of_ne_zero _ (h.bits1 j i hj hi) (f3 hj)
      have e := eliminate_spec n i hi A _ g t1 t2
      constructor
      · intro s' hs'
        simp only [Option.map_some', Option.some.injEq] at hs'
        rw [← hs']
        exact e
      · intro _
        exact ⟨_, rfl⟩
    · rw [if_neg hj]
      constructor
      · intro s' hs'
        simp at hs'
      · intro hdet
        exfalso
        apply hdet
        rw [← h.det]
        apply det_eq_zero_of_no_pivot n i hi s.1 ht
        intro r hr hrn
        rcases Nat.eq_or_lt_of_le hr with h1 | h1
        · rw [← h1]
          exact hz
        · exact (f2 r h1 (by omega)).2
  · rw [if_neg hz]
    have e := eliminate_spec n i hi A s h ht (eq_one_of_ne_zero _ (h.bits1 i i hi hi) hz)
    constructor
    · intro s' hs'
      simp only [Option.map_some', Option.some.injEq] at hs'
      rw [← hs']
      exact e
    · intro _
      exact ⟨_, rfl⟩

/-- The first phase: when it ends the working copy is upper triangular with
ones on the diagonal; for a matrix that is not singular it ends. -/
theorem upper_spec (n : Nat) (A : Nat → Nat) (s : (Nat → Nat) × (Nat → Nat))
    (h : GaussInv n A s) :
    (∀ s', forLoop n (fun i (s : Option ((Nat → Nat) × (Nat → Nat))) =>
        s.bind (_InvertBitMatrix_column n i)) (some s) = some s' →
      GaussInv n A s' ∧ Tri n n s'.1) ∧
    ((bitMatrix n A).det ≠ 0 → ∃ s', forLoop n (fun i (s : Option ((Nat → Nat) × (Nat → Nat))) =>
        s.bind (_InvertBitMatrix_column n i)) (some s) = some s') := by
  refine forLoop_inv
    (fun (I : Nat) (os : Option ((Nat → Nat) × (Nat → Nat))) =>
      (∀ s', os = some s' → GaussInv n A s' ∧ Tri n I s'.1) ∧
      ((bitMatrix n A).det ≠ 0 → ∃ s', os = some s')) n _ _ ?_ ?_
  · refine ⟨?_, fun _ => ⟨s, rfl⟩⟩
    intro s' hs'
    simp only [Option.some.injEq] at hs'
    rw [← hs']
    exact ⟨h, fun c hc => absurd hc (Nat.not_lt_zero _)⟩
  · intro I hI os ⟨h1, h2⟩
    cases os with
    | none =>
      refine ⟨fun s' hs' => by simp at hs', fun hdet => ?_⟩
      obtain ⟨s', hs'⟩ := h2 hdet
      simp at hs'
    | some t =>
      obtain ⟨g, tr⟩ := h1 t rfl
      exact column_spec n I hI A t g tr

end CauchyRSCoder

namespace CauchyRSCoder

/-! ## The companion at the start, the second phase, and the result -/

/-- The first loop nest of `_InvertBitMatrix` writes the identity. -/
theorem init_identity (n : Nat) (inverse : Nat → Nat) :
    ∀ r c, r < n → c < n →
      forLoop n
        (fun i inverse =>
          forLoop n
            (fun j inverse => store inverse ((i * n + j : Nat) : Int) (if i = j then 1 else 0))
            inverse)
        inverse (r * n + c) = if r = c then 1 else 0 := by
  have key := forLoop_inv
    (fun (I : Nat) (v : Nat → Nat) => ∀ r c, r < I → c < n →
      v (r * n + c) = if r = c then 1 else 0) n
    (fun i inverse =>
      forLoop n
        (fun j inverse => store inverse ((i * n + j : Nat) : Int) (if i = j then 1 else 0))
        inverse)
    inverse (fun r c hr _ => absurd hr (Nat.not_lt_zero _)) ?_
  · intro r c hr hc
    exact key r c hr hc
  · intro I hI v hv
    have inner := forLoop_inv
      (fun (J : Nat) (w : Nat → Nat) => ∀ r c, c < n → (r < I ∨ (r = I ∧ c < J)) →
        w (r * n + c) = if r = c then 1 else 0) n
      (fun j inverse => store inverse ((I * n + j : Nat) : Int) (if I = j then 1 else 0))
      v (fun r c hc h => by
        rcases h with h | ⟨_, h⟩
        · exact hv r c h hc
        · exact absurd h (Nat.not_lt_zero _)) ?_
    · intro r c hr hc
      apply inner r c hc
      rcases Nat.lt_succ_iff_lt_or_eq.1 hr with h | h
      · exact Or.inl h
      · exact Or.inr ⟨h, hc⟩
    · intro J hJ w hw r c hc hrc
      show store w _ _ (r * n + c) = _
      rw [store_apply]
      by_cases h : r = I ∧ c = J
      · obtain ⟨rfl, rfl⟩ := h
        rw [if_pos rfl]
      · rw [if_neg (fun h' => h (cell_inj n r c I J hc hJ (by exact_mod_cast h')))]
        apply hw r c hc
        rcases hrc with h1 | ⟨h1, h2⟩
        · exact Or.inl h1
        · refine Or.inr ⟨h1, ?_⟩
          rcases Nat.lt_succ_iff_lt_or_eq.1 h2 with h3 | h3
          · exact h3
          · exact absurd ⟨h1, h3⟩ h

/-- An array that holds the identity is the identity matrix. -/
theorem bitMatrix_one (n : Nat) (M : Nat → Nat)
    (h : ∀ r c, r < n → c < n → M (r * n + c) = if r = c then 1 else 0) : bitMatrix n M = 1 := by
  ext r c
  rw [bitMatrix_apply, h r.val c.val r.isLt c.isLt, Matrix.one_apply]
  by_cases hrc : r = c
  · subst hrc
    simp
  · rw [if_neg (fun h' => hrc (Fin.ext h')), if_neg hrc]
    rfl

/-- The invariant holds at the start. -/
theorem GaussInv.init (n : Nat) (A inverse : Nat → Nat)
    (hA : ∀ r c, r < n → c < n → A (r * n + c) ≤ 1) :
    GaussInv n A (A,
      forLoop n
        (fun i inverse =>
          forLoop n
            (fun j inverse => store inverse ((i * n + j : Nat) : Int) (if i = j then 1 else 0))
            inverse)
        inverse) := by
  have hid := init_identity n inverse
  refine ⟨hA, ?_, ?_, rfl⟩
  · intro r c hr hc
    show forLoop n _ inverse (r * n + c) ≤ 1
    rw [hid r c hr hc]
    split <;> omega
  · show bitMatrix n (forLoop n _ inverse) * bitMatrix n A = bitMatrix n A
    rw [bitMatrix_one n _ hid, one_mul]

/-- The second phase turns an upper triangular working copy into the
identity. -/
theorem back_spec (n : Nat) (A : Nat → Nat) (s : (Nat → Nat) × (Nat → Nat))
    (h : GaussInv n A s) (ht : Tri n n s.1) :
    GaussInv n A (_InvertBitMatrix_back n s) ∧
      ∀ r c, r < n → c < n → (_InvertBitMatrix_back n s).1 (r * n + c) = if r = c then 1 else 0 := by
  unfold _InvertBitMatrix_back
  dsimp only
  have key := forLoop_inv
    (fun (I : Nat) (t : (Nat → Nat) × (Nat → Nat)) =>
      GaussInv n A t ∧ Tri n n t.1 ∧
      ∀ c, n - I ≤ c → c < n → ∀ r, r < n → r ≠ c → t.1 (r * n + c) = 0) n
    (fun i' (s : (Nat → Nat) × (Nat → Nat)) =>
      forLoop (n - 1 - i')
        (fun j (s : (Nat → Nat) × (Nat → Nat)) =>
          if s.1 (j * n + (n - 1 - i')) ≠ 0 then _InvertBitMatrix_addRow n (n - 1 - i') j s else s)
        s)
    s ⟨h, ht, fun c h1 h2 => absurd h2 (by omega)⟩ ?_
  · obtain ⟨g, tr, dn⟩ := key
    refine ⟨g, ?_⟩
    intro r c hr hc
    by_cases hrc : r = c
    · subst hrc
      rw [if_pos rfl]
      exact (tr r hr).1
    · rw [if_neg hrc]
      exact dn c (by omega) hc r hr hrc
  · intro I hI t ⟨g, tr, dn⟩
    have hi : n - 1 - I < n := by omega
    beta_reduce
    generalize hidef : n - 1 - I = i at hi ⊢
    have hIi : n - I = i + 1 := by omega
    rw [hIi] at dn
    have inner := forLoop_inv
      (fun (J : Nat) (u : (Nat → Nat) × (Nat → Nat)) =>
        GaussInv n A u ∧ Tri n n u.1 ∧
        (∀ c, i + 1 ≤ c → c < n → ∀ r, r < n → r ≠ c → u.1 (r * n + c) = 0) ∧
        ∀ r, r < J → u.1 (r * n + i) = 0) i
      (fun j (s : (Nat → Nat) × (Nat → Nat)) =>
        if s.1 (j * n + i) ≠ 0 then _InvertBitMatrix_addRow n i j s else s)
      t ⟨g, tr, dn, fun r hr => absurd hr (Nat.not_lt_zero _)⟩ ?_
    · obtain ⟨g', tr', dn', z⟩ := inner
      refine ⟨g', tr', ?_⟩
      intro c hc1 hc2 r hr hrc
      have hc1' : i ≤ c := by omega
      rcases Nat.eq_or_lt_of_le hc1' with h1 | h1
      · subst h1
        rcases Nat.lt_or_gt_of_ne hrc with h2 | h2
        · exact z r h2
        · exact (tr' i hi).2 r h2 hr
      · exact dn' c h1 hc2 r hr hrc
    · intro J hJ u ⟨g', tr', dn', z⟩
      have hJn : J < n := by omega
      beta_reduce
      by_cases hz : u.1 (J * n + i) ≠ 0
      · rw [if_pos hz]
        have hone := eq_one_of_ne_zero _ (g'.bits1 _ _ hJn hi) hz
        have hij : i ≠ J := by omega
        have spec := addRow_spec n i J hij u
        -- row `i` is the unit row
        have rowi : ∀ c, c < n → c ≠ i → u.1 (i * n + c) = 0 := by
          intro c hc hci
          rcases Nat.lt_or_gt_of_ne hci with h1 | h1
          · exact (tr' c hc).2 i h1 hi
          · exact dn' c h1 hc i hi (by omega)
        refine ⟨g'.addRow i J hi hJn hij, ?_, ?_, ?_⟩
        · intro c hc
          constructor
          · rw [(spec c c hc).1]
            split
            · rename_i hcJ
              subst hcJ
              rw [(tr' c hc).1, rowi c hc (by omega)]
              rfl
            · exact (tr' c hc).1
          · intro r hr hrn
            rw [(spec r c hc).1]
            split
            · rename_i hrJ
              subst hrJ
              rw [(tr' c hc).2 r hr hrn, rowi c hc (by omega)]
              rfl
            · exact (tr' c hc).2 r hr hrn
        · intro c hc1 hc2 r hr hrc
          rw [(spec r c hc2).1]
          split
          · rename_i hrJ
            subst hrJ
            rw [dn' c hc1 hc2 r hr hrc, rowi c hc2 (by omega)]
            rfl
          · exact dn' c hc1 hc2 r hr hrc
        · intro r hr
          rw [(spec r i hi).1]
          split
          · rw [hone, (tr' i hi).1]
            rfl
          · rename_i hrJ
            exact z r (by omega)
      · rw [if_neg hz]
        refine ⟨g', tr', dn', ?_⟩
        intro r hr
        rcases Nat.lt_succ_iff_lt_or_eq.1 hr with h1 | h1
        · exact z r h1
        · rw [h1]
          exact not_not.mp hz

/-- The result of `_InvertBitMatrix` on a matrix `A` of zeros and ones: when
the call ends without reading row `n`, the working copy is the identity and the
companion is the inverse of `A` over GF(2); it ends so exactly when `A` is not
singular. -/
theorem InvertBitMatrix_spec (n : Nat) (A inverse : Nat → Nat)
    (hA : ∀ r c, r < n → c < n → A (r * n + c) ≤ 1) :
    (∀ res, _InvertBitMatrix A inverse n = some res →
      (∀ r c, r < n → c < n → res.1 (r * n + c) = if r = c then 1 else 0) ∧
      (∀ r c, r < n → c < n → res.2 (r * n + c) ≤ 1) ∧
      bitMatrix n res.2 * bitMatrix n A = 1 ∧ bitMatrix n A * bitMatrix n res.2 = 1) ∧
    ((bitMatrix n A).det ≠ 0 → ∃ res, _InvertBitMatrix A inverse n = some res) ∧
    ((bitMatrix n A).det = 0 → _InvertBitMatrix A inverse n = none) := by
  have g0 := GaussInv.init n A inverse hA
  obtain ⟨u1, u2⟩ := upper_spec n A _ g0
  have part1 : ∀ res, _InvertBitMatrix A inverse n = some res →
      (∀ r c, r < n → c < n → res.1 (r * n + c) = if r = c then 1 else 0) ∧
      (∀ r c, r < n → c < n → res.2 (r * n + c) ≤ 1) ∧
      bitMatrix n res.2 * bitMatrix n A = 1 ∧ bitMatrix n A * bitMatrix n res.2 = 1 := by
    intro res hres
    unfold _InvertBitMatrix at hres
    dsimp only at hres
    rw [Option.map_eq_some'] at hres
    obtain ⟨t, ht, hback⟩ := hres
    obtain ⟨g, tr⟩ := u1 t ht
    obtain ⟨g', hid⟩ := back_spec n A t g tr
    rw [hback] at g' hid
    have hprod : bitMatrix n res.2 * bitMatrix n A = 1 := by
      rw [g'.prod, bitMatrix_one n _ hid]
    exact ⟨hid, g'.bits2, hprod, Matrix.mul_eq_one_comm.1 hprod⟩
  refine ⟨part1, ?_, ?_⟩
  · intro hdet
    obtain ⟨t, ht⟩ := u2 hdet
    refine ⟨_InvertBitMatrix_back n t, ?_⟩
    unfold _InvertBitMatrix
    dsimp only
    rw [ht]
    rfl
  · intro hdet
    cases hres : _InvertBitMatrix A inverse n with
    | none => rfl
    | some res =>
      exfalso
      have hp := (part1 res hres).2.2.1
      have := congrArg Matrix.det hp
      rw [Matrix.det_mul, hdet, mul_zero, Matrix.det_one] at this
      exact zero_ne_one this

end CauchyRSCoder

namespace CauchyRSCoder

open GaloisOperator

/-! ## Cauchy matrices -/

/-- A square Cauchy matrix has no kernel: if the nodes `x` are distinct on `S`,
the nodes `y` are distinct on `S` and no `x i` is a `y j`, the equations
`∑ j ∈ S, (x i - y j)⁻¹ * v j = 0` for all `i ∈ S` force `v = 0` on `S`. -/
theorem cauchy_kernel {F : Type} [Field F] {ι : Type} [DecidableEq ι] (S : Finset ι)
    (x y : ι → F) (hx : Set.InjOn x S) (hy : Set.InjOn y S)
    (hxy : ∀ i ∈ S, ∀ j ∈ S, x i ≠ y j) (v : ι → F)
    (h : ∀ i ∈ S, ∑ j ∈ S, (x i - y j)⁻¹ * v j = 0) : ∀ j ∈ S, v j = 0 := by
  classical
  have hdeg : (∑ j ∈ S, Polynomial.C (v j) * Lagrange.nodal (S.erase j) y).degree
      < (S.card : WithBot ℕ) := by
    rw [← Polynomial.mem_degreeLT]
    apply Submodule.sum_mem
    intro j hj
    rw [Polynomial.mem_degreeLT]
    calc (Polynomial.C (v j) * Lagrange.nodal (S.erase j) y).degree
        ≤ (Polynomial.C (v j)).degree + (Lagrange.nodal (S.erase j) y).degree :=
          Polynomial.degree_mul_le _ _
      _ ≤ 0 + ((S.erase j).card : WithBot ℕ) :=
          add_le_add Polynomial.degree_C_le (le_of_eq Lagrange.degree_nodal)
      _ < (S.card : WithBot ℕ) := by
          rw [zero_add]
          exact_mod_cast Finset.card_erase_lt_of_mem hj
  have heval : ∀ i ∈ S,
      (∑ j ∈ S, Polynomial.C (v j) * Lagrange.nodal (S.erase j) y).eval (x i) = 0 := by
    intro i hi
    simp only [Polynomial.eval_finset_sum, Polynomial.eval_mul, Polynomial.eval_C,
      Lagrange.eval_nodal]
    have e : ∀ j ∈ S, v j * ∏ l ∈ S.erase j, (x i - y l)
        = (∏ l ∈ S, (x i - y l)) * ((x i - y j)⁻¹ * v j) := by
      intro j hj
      rw [← Finset.mul_prod_erase S _ hj]
      have hne : x i - y j ≠ 0 := sub_ne_zero.2 (hxy i hi j hj)
      field_simp
      ring
    rw [Finset.sum_congr rfl e, ← Finset.mul_sum, h i hi, mul_zero]
  have hP := Polynomial.eq_zero_of_degree_lt_of_eval_index_eq_zero S hx hdeg heval
  intro j hjS
  have hj := congrArg (Polynomial.eval (y j)) hP
  simp only [Polynomial.eval_finset_sum, Polynomial.eval_mul, Polynomial.eval_C,
    Lagrange.eval_nodal, Polynomial.eval_zero] at hj
  rw [Finset.sum_eq_single j] at hj
  · rcases mul_eq_zero.1 hj with h1 | h1
    · exact h1
    · exfalso
      rw [Finset.prod_eq_zero_iff] at h1
      obtain ⟨l, hl, h2⟩ := h1
      exact (Finset.ne_of_mem_erase hl)
        (hy (Finset.mem_of_mem_erase hl) hjS (sub_eq_zero.1 h2).symm)
  · intro j' _ hj'
    apply mul_eq_zero_of_right
    exact Finset.prod_eq_zero (Finset.mem_erase.2 ⟨fun h' => hj' h'.symm, hjS⟩) (sub_self _)
  · intro h'
    exact absurd hjS h'

end CauchyRSCoder

namespace CauchyRSCoder

open GaloisOperator

/-! ## The shape of the coding matrix -/

theorem Multiply_one_unit (x : Int) (hx : IsUnit256 x) : Multiply x 1 = x := by
  obtain ⟨a, rfl, ha, ha0⟩ := hx.exists_nat
  have h := GF256.mul_cast ⟨a, ha⟩ GF256.one
  rw [GF256.mul_comm, GF256.one_mul] at h
  exact h

theorem Multiply_assoc_unit (x y z : Int) (hx : IsUnit256 x) (hy : IsUnit256 y)
    (hz : IsUnit256 z) : Multiply (Multiply x y) z = Multiply x (Multiply y z) := by
  obtain ⟨a, rfl, ha, ha0⟩ := hx.exists_nat
  obtain ⟨b, rfl, hb, hb0⟩ := hy.exists_nat
  obtain ⟨c, rfl, hc, hc0⟩ := hz.exists_nat
  have h1 := GF256.mul_cast ⟨a, ha⟩ ⟨b, hb⟩
  have h2 := GF256.mul_cast (GF256.mul ⟨a, ha⟩ ⟨b, hb⟩) ⟨c, hc⟩
  have h3 := GF256.mul_cast ⟨b, hb⟩ ⟨c, hc⟩
  have h4 := GF256.mul_cast ⟨a, ha⟩ (GF256.mul ⟨b, hb⟩ ⟨c, hc⟩)
  rw [show (GF256.mk a ha).val = a from rfl] at h1 h4
  rw [show (GF256.mk b hb).val = b from rfl] at h1 h3
  rw [show (GF256.mk c hc).val = c from rfl] at h2 h3
  rw [h1, h2, h3, h4, GF256.mul_assoc]

/-- The entries of the Cauchy matrix. -/
theorem cauchy_cell (k m : Nat) :
    ∀ i j, i < m → j < k →
      _GenerateEncodeMatrix_cauchy k m (i * k + j)
        = Divide 1 (Int.xor (i : Int) ((m : Int) + (j : Int))) := by
  unfold _GenerateEncodeMatrix_cauchy
  refine forLoop_inv
    (fun (I : Nat) (M : Nat → Int) => ∀ i j, i < I → j < k →
      M (i * k + j) = Divide 1 (Int.xor (i : Int) ((m : Int) + (j : Int)))) m _ _
    (fun i j h => absurd h (Nat.not_lt_zero _)) ?_
  intro I _ M hM
  have inner := forLoop_inv
    (fun (J : Nat) (M' : Nat → Int) =>
      (∀ i j, i < I → j < k →
        M' (i * k + j) = Divide 1 (Int.xor (i : Int) ((m : Int) + (j : Int)))) ∧
      ∀ j, j < J → j < k →
        M' (I * k + j) = Divide 1 (Int.xor (I : Int) ((m : Int) + (j : Int)))) k
    (fun j matrix =>
        let index := I * k + j
        store matrix index (Divide 1 (Int.xor (I : Int) ((m : Int) + (j : Int)))))
    M ⟨hM, fun j h => absurd h (Nat.not_lt_zero _)⟩ ?_
  · intro i j hi hj
    rcases Nat.lt_or_ge i I with h | h
    · exact inner.1 i j h hj
    · have e : i = I := by omega
      subst e
      exact inner.2 j hj hj
  · intro J hJ M' ⟨h1, h2⟩
    refine ⟨?_, ?_⟩
    · intro i j hi hj
      show store M' ((I * k + J : Nat) : Int) _ (i * k + j) = _
      rw [store_other]
      · exact h1 i j hi hj
      · intro h
        have h' : i * k + j = I * k + J := by exact_mod_cast h
        have := (cell_inj k i j I J hj hJ h').1
        omega
    · intro j hj hjk
      show store M' ((I * k + J : Nat) : Int) _ (I * k + j) = _
      rcases Nat.lt_or_ge j J with h | h
      · rw [store_other]
        · exact h2 j h hjk
        · intro h'
          have h'' : I * k + j = I * k + J := by exact_mod_cast h'
          omega
      · have e : j = J := by omega
        subst e
        rw [store_same]

/-- Making the first row all one multiplies every column by a field element
other than zero. -/
theorem firstRow_scaled (k m : Nat) (M : Nat → Int)
    (hM : ∀ idx, idx < m * k → IsUnit256 (M idx)) :
    ∀ j, j < k → ∃ γ, IsUnit256 γ ∧ ∀ i, i < m →
      _GenerateEncodeMatrix_firstRow k m M (i * k + j) = Multiply (M (i * k + j)) γ := by
  rcases Nat.eq_zero_or_pos m with h | hm
  · subst h
    intro j _
    exact ⟨1, one_unit, fun i hi => absurd hi (Nat.not_lt_zero _)⟩
  unfold _GenerateEncodeMatrix_firstRow
  refine forLoop_inv (fun _ (M' : Nat → Int) => ∀ j, j < k → ∃ γ, IsUnit256 γ ∧ ∀ i, i < m →
      M' (i * k + j) = Multiply (M (i * k + j)) γ) k _ M ?_ ?_
  · intro j hj
    exact ⟨1, one_unit, fun i hi => (Multiply_one_unit _ (hM _ (idx_lt i j k m hi hj))).symm⟩
  intro c hc M' hM'
  have hunit : ∀ i j, i < m → j < k → IsUnit256 (M' (i * k + j)) := by
    intro i j hi hj
    obtain ⟨γ, hγ, h⟩ := hM' j hj
    rw [h i hi]
    exact Multiply_unit _ _ (hM _ (idx_lt i j k m hi hj)) hγ
  dsimp only
  split
  · have htmp : IsUnit256 (Divide 1 (load M' (c : Int))) := by
      rw [load_natCast]
      have := hunit 0 c hm hc
      rw [Nat.zero_mul, Nat.zero_add] at this
      exact Divide_unit _ _ one_unit this
    have inner := forLoop_inv
      (fun (J : Nat) (s : (Nat → Int) × Int) =>
        s.2 = ((J * k + c : Nat) : Int) ∧
        ∀ i j, i < m → j < k → s.1 (i * k + j)
          = if j = c ∧ i < J then Multiply (M' (i * k + j)) (Divide 1 (load M' (c : Int)))
            else M' (i * k + j)) m
      (fun _ (s : (Nat → Int) × Int) =>
        (store s.1 s.2 (Multiply (load s.1 s.2) (Divide 1 (load M' (c : Int)))), s.2 + k))
      (M', (c : Int)) ⟨by simp, fun i j _ _ => by
        rw [if_neg (fun h => absurd h.2 (Nat.not_lt_zero _))]⟩ ?_
    · intro j hj
      obtain ⟨γ, hγ, h⟩ := hM' j hj
      by_cases hjc : j = c
      · refine ⟨Multiply γ (Divide 1 (load M' (c : Int))), Multiply_unit _ _ hγ htmp, ?_⟩
        intro i hi
        rw [inner.2 i j hi hj, if_pos ⟨hjc, hi⟩, h i hi]
        exact Multiply_assoc_unit _ _ _ (hM _ (idx_lt i j k m hi hj)) hγ htmp
      · refine ⟨γ, hγ, ?_⟩
        intro i hi
        rw [inner.2 i j hi hj, if_neg (fun h' => hjc h'.1)]
        exact h i hi
    · intro J hJ s ⟨h1, h2⟩
      refine ⟨?_, ?_⟩
      · show s.2 + (k : Int) = _
        rw [h1]
        push_cast
        ring
      · intro i j hi hj
        show store s.1 s.2 _ (i * k + j) = _
        rw [h1]
        by_cases he : i = J ∧ j = c
        · obtain ⟨e1, e2⟩ := he
          subst e1
          subst e2
          rw [store_same, load_natCast, h2 i j hi hj, if_neg (fun h' => absurd h'.2 (Nat.lt_irrefl _)),
            if_pos ⟨rfl, Nat.lt_succ_self _⟩]
        · rw [store_other]
          · rw [h2 i j hi hj]
            by_cases hjc : j = c
            · have hiJ : i ≠ J := fun h' => he ⟨h', hjc⟩
              by_cases hlt : i < J
              · rw [if_pos ⟨hjc, hlt⟩, if_pos ⟨hjc, by omega⟩]
              · rw [if_neg (fun h' => hlt h'.2), if_neg (fun h' => hlt (by omega))]
            · rw [if_neg (fun h' => hjc h'.1), if_neg (fun h' => hjc h'.1)]
          · intro h'
            have h'' : i * k + j = J * k + c := by exact_mod_cast h'
            exact he (cell_inj k i j J c hj hc h'')
  · exact hM'

/-- Improving the other rows multiplies every row by a field element other
than zero. -/
theorem otherRows_scaled (k m : Nat) (M : Nat → Int)
    (hM : ∀ idx, idx < m * k → IsUnit256 (M idx)) :
    ∀ i, i < m → ∃ ρ, IsUnit256 ρ ∧ ∀ j, j < k →
      _GenerateEncodeMatrix_otherRows k m M (i * k + j) = Multiply (M (i * k + j)) ρ := by
  unfold _GenerateEncodeMatrix_otherRows
  refine forLoop_inv (fun _ (M' : Nat → Int) => ∀ i, i < m → ∃ ρ, IsUnit256 ρ ∧ ∀ j, j < k →
      M' (i * k + j) = Multiply (M (i * k + j)) ρ) (m - 1) _ M ?_ ?_
  · intro i hi
    exact ⟨1, one_unit, fun j hj => (Multiply_one_unit _ (hM _ (idx_lt i j k m hi hj))).symm⟩
  intro r' hr' M' hM'
  have hunit : ∀ i j, i < m → j < k → IsUnit256 (M' (i * k + j)) := by
    intro i j hi hj
    obtain ⟨ρ, hρ, h⟩ := hM' i hi
    rw [h j hj]
    exact Multiply_unit _ _ (hM _ (idx_lt i j k m hi hj)) hρ
  dsimp only
  split
  · rename_i hbest
    rcases best_range k M' (((r' + 1 : Nat) : Int) * k)
      (forLoop k (fun j c => c + _CountCauchyOnes (load M' (((r' + 1 : Nat) : Int) * k + j))) 0)
      with h | ⟨b, hb, h⟩
    · exact absurd h hbest
    · rw [h]
      have hidx : ∀ j : Nat, (((r' + 1 : Nat) : Int) * k + j) = (((r' + 1) * k + j : Nat) : Int) := by
        intro j; push_cast; ring
      have htmp : IsUnit256 (Divide 1 (load M' (((r' + 1 : Nat) : Int) * k + b))) := by
        rw [hidx, load_natCast]
        exact Divide_unit _ _ one_unit (hunit _ _ (by omega) hb)
      have inner := forLoop_inv
        (fun (J : Nat) (M'' : Nat → Int) =>
          ∀ i j, i < m → j < k → M'' (i * k + j)
            = if i = r' + 1 ∧ j < J then
                Multiply (M' (i * k + j)) (Divide 1 (load M' (((r' + 1 : Nat) : Int) * k + b)))
              else M' (i * k + j)) k
        (fun j matrix => store matrix (((r' + 1 : Nat) : Int) * k + j)
          (Multiply (load matrix (((r' + 1 : Nat) : Int) * k + j))
            (Divide 1 (load M' (((r' + 1 : Nat) : Int) * k + b)))))
        M' (fun i j _ _ => by rw [if_neg (fun h => absurd h.2 (Nat.not_lt_zero _))]) ?_
      · intro i hi
        obtain ⟨ρ, hρ, h'⟩ := hM' i hi
        by_cases hir : i = r' + 1
        · refine ⟨Multiply ρ (Divide 1 (load M' (((r' + 1 : Nat) : Int) * k + b))),
            Multiply_unit _ _ hρ htmp, ?_⟩
          intro j hj
          rw [inner i j hi hj, if_pos ⟨hir, hj⟩, h' j hj]
          exact Multiply_assoc_unit _ _ _ (hM _ (idx_lt i j k m hi hj)) hρ htmp
        · refine ⟨ρ, hρ, ?_⟩
          intro j hj
          rw [inner i j hi hj, if_neg (fun h'' => hir h''.1)]
          exact h' j hj
      · intro J hJ M'' h2 i j hi hj
        show store M'' _ _ (i * k + j) = _
        rw [hidx]
        by_cases he : i = r' + 1 ∧ j = J
        · obtain ⟨e1, e2⟩ := he
          subst e1
          subst e2
          rw [store_same, load_natCast, h2 _ j hi hj,
            if_neg (fun h' => absurd h'.2 (Nat.lt_irrefl _)),
            if_pos ⟨rfl, Nat.lt_succ_self _⟩]
        · rw [store_other]
          · rw [h2 i j hi hj]
            by_cases hir : i = r' + 1
            · have hjJ : j ≠ J := fun h' => he ⟨hir, h'⟩
              by_cases hlt : j < J
              · rw [if_pos ⟨hir, hlt⟩, if_pos ⟨hir, by omega⟩]
              · rw [if_neg (fun h' => hlt h'.2), if_neg (fun h' => hlt (by omega))]
            · rw [if_neg (fun h' => hir h'.1), if_neg (fun h' => hir h'.1)]
          · intro h'
            have h'' : i * k + j = (r' + 1) * k + J := by exact_mod_cast h'
            exact he (cell_inj k i j (r' + 1) J hj hJ h'')
  · exact hM'

/-- The coding matrix is the Cauchy matrix with every column and every row
multiplied by a field element other than zero. -/
theorem GenerateEncodeMatrix_scaled (k m : Nat) (hkm : k + m ≤ 256) :
    ∃ ρ γ : Nat → Int, (∀ i, i < m → IsUnit256 (ρ i)) ∧ (∀ j, j < k → IsUnit256 (γ j)) ∧
      ∀ i j, i < m → j < k →
        _GenerateEncodeMatrix k m (i * k + j)
          = Multiply (Multiply (Divide 1 (Int.xor (i : Int) ((m : Int) + (j : Int)))) (γ j))
              (ρ i) := by
  have h1 := firstRow_scaled k m _ (cauchy_unit k m hkm)
  have h2 := otherRows_scaled k m _ (firstRow_unit k m _ (cauchy_unit k m hkm))
  have h1' : ∀ j, ∃ γ, j < k → IsUnit256 γ ∧ ∀ i, i < m →
      _GenerateEncodeMatrix_firstRow k m (_GenerateEncodeMatrix_cauchy k m) (i * k + j)
        = Multiply (_GenerateEncodeMatrix_cauchy k m (i * k + j)) γ := by
    intro j
    by_cases hj : j < k
    · obtain ⟨γ, h⟩ := h1 j hj
      exact ⟨γ, fun _ => h⟩
    · exact ⟨0, fun h => absurd h hj⟩
  have h2' : ∀ i, ∃ ρ, i < m → IsUnit256 ρ ∧ ∀ j, j < k →
      _GenerateEncodeMatrix_otherRows k m
          (_GenerateEncodeMatrix_firstRow k m (_GenerateEncodeMatrix_cauchy k m)) (i * k + j)
        = Multiply (_GenerateEncodeMatrix_firstRow k m (_GenerateEncodeMatrix_cauchy k m)
            (i * k + j)) ρ := by
    intro i
    by_cases hi : i < m
    · obtain ⟨ρ, h⟩ := h2 i hi
      exact ⟨ρ, fun _ => h⟩
    · exact ⟨0, fun h => absurd h hi⟩
  choose γ hγ using h1'
  choose ρ hρ using h2'
  refine ⟨ρ, γ, fun i hi => (hρ i hi).1, fun j hj => (hγ j hj).1, ?_⟩
  intro i j hi hj
  unfold _GenerateEncodeMatrix
  rw [(hρ i hi).2 j hj, (hγ j hj).2 i hi, cauchy_cell k m i j hi hj]

end CauchyRSCoder

namespace CauchyRSCoder

open GaloisOperator

/-! ## The matrix that `Decode` inverts -/

theorem cell_in_block (n a col : Nat) (ha : a < 8) (hcol : col < n) : a * n + col < n * 8 := by
  have h : (a + 1) * n ≤ 8 * n := Nat.mul_le_mul_right n ha
  rw [Nat.add_mul, Nat.one_mul] at h
  omega

theorem block_before (W i I r : Nat) (hi : i < I) (hr : r < W) : i * W + r < I * W := by
  have h : (i + 1) * W ≤ I * W := Nat.mul_le_mul_right W hi
  rw [Nat.add_mul, Nat.one_mul] at h
  omega

/-- The identity block-row that `Decode` writes for a data part that is not
erased. -/
theorem identity_block (k i iter : Nat) (hi : i < k) (tmp : Nat → Nat) :
    (∀ idx, idx < iter ∨ iter + k * 8 * 8 ≤ idx →
      forLoop kWordBits
        (fun j tmp => store tmp ((iter + (j + i * kWordBits + j * k * kWordBits) : Nat) : Int) 1)
        (bzeroArr tmp iter (k * kWordBits * kWordBits)) idx = tmp idx) ∧
    ∀ a col, a < 8 → col < k * 8 →
      forLoop kWordBits
        (fun j tmp => store tmp ((iter + (j + i * kWordBits + j * k * kWordBits) : Nat) : Int) 1)
        (bzeroArr tmp iter (k * kWordBits * kWordBits)) (iter + (a * (k * 8) + col))
        = if col = i * 8 + a then 1 else 0 := by
  have key := forLoop_inv
    (fun (J : Nat) (t : Nat → Nat) =>
      (∀ idx, idx < iter ∨ iter + k * 8 * 8 ≤ idx → t idx = tmp idx) ∧
      ∀ a col, a < 8 → col < k * 8 →
        t (iter + (a * (k * 8) + col)) = if a < J ∧ col = i * 8 + a then 1 else 0) kWordBits
    (fun j tmp => store tmp ((iter + (j + i * kWordBits + j * k * kWordBits) : Nat) : Int) 1)
    (bzeroArr tmp iter (k * kWordBits * kWordBits)) ⟨?_, ?_⟩ ?_
  · refine ⟨key.1, ?_⟩
    intro a col ha hcol
    rw [key.2 a col ha hcol]
    by_cases h : col = i * 8 + a
    · rw [if_pos ⟨ha, h⟩, if_pos h]
    · rw [if_neg (fun h' => h h'.2), if_neg h]
  · intro idx hidx
    unfold bzeroArr kWordBits
    rw [if_neg (by omega)]
  · intro a col ha hcol
    have := cell_in_block (k * 8) a col ha hcol
    unfold bzeroArr kWordBits
    rw [if_pos (by omega), if_neg (fun h => absurd h.1 (Nat.not_lt_zero _))]
  · intro J hJ t ⟨h1, h2⟩
    have hJ8 : J < 8 := hJ
    have e : iter + (J + i * kWordBits + J * k * kWordBits)
        = iter + (J * (k * 8) + (i * 8 + J)) := by
      unfold kWordBits
      ring
    have hcolJ : i * 8 + J < k * 8 := by omega
    have hin := cell_in_block (k * 8) J (i * 8 + J) hJ8 hcolJ
    refine ⟨?_, ?_⟩
    · intro idx hidx
      show store t _ 1 idx = _
      rw [e, store_other]
      · exact h1 idx hidx
      · intro h
        have h' : idx = iter + (J * (k * 8) + (i * 8 + J)) := by exact_mod_cast h
        omega
    · intro a col ha hcol
      show store t _ 1 (iter + (a * (k * 8) + col)) = _
      rw [e]
      by_cases he : a = J ∧ col = i * 8 + J
      · obtain ⟨e1, e2⟩ := he
        subst e1
        subst e2
        rw [store_same, if_pos ⟨Nat.lt_succ_self _, rfl⟩]
      · rw [store_other]
        · rw [h2 a col ha hcol]
          by_cases hc : col = i * 8 + a
          · have haJ : a ≠ J := fun h' => he ⟨h', by rw [hc, h']⟩
            by_cases hlt : a < J
            · rw [if_pos ⟨hlt, hc⟩, if_pos ⟨by omega, hc⟩]
            · rw [if_neg (fun h' => hlt h'.1), if_neg (fun h' => hlt (by omega))]
          · rw [if_neg (fun h' => hc h'.2), if_neg (fun h' => hc h'.2)]
        · intro h
          have h' : iter + (a * (k * 8) + col) = iter + (J * (k * 8) + (i * 8 + J)) := by
            exact_mod_cast h
          exact he (cell_inj (k * 8) a col J (i * 8 + J) hcol hcolJ (by omega))

/-- The cells of the matrix that `Decode` inverts, block-row by block-row: an
identity block-row for a row id that is its own part, otherwise a block-row of
the encoding bit matrix. -/
theorem Decode_tmp_blocks (c : CauchyRSCoder) (rtp : Nat → Int) :
    ∀ i, i < c.m_num_data_parts →
      (rtp i = (i : Int) → ∀ a col, a < 8 → col < c.m_num_data_parts * 8 →
        Decode_tmp_bit_matrix c rtp
            (i * (c.m_num_data_parts * 8 * 8) + (a * (c.m_num_data_parts * 8) + col))
          = if col = i * 8 + a then 1 else 0) ∧
      (rtp i ≠ (i : Int) → ∀ r, r < c.m_num_data_parts * 8 * 8 →
        Decode_tmp_bit_matrix c rtp (i * (c.m_num_data_parts * 8 * 8) + r)
          = c.m_encoding_bit_matrix
              (((c.m_num_data_parts : Int) * kWordBits * kWordBits
                  * (rtp i - c.m_num_data_parts)).toNat + r)) := by
  unfold Decode_tmp_bit_matrix
  dsimp only
  have key := forLoop_inv
    (fun (I : Nat) (s : (Nat → Nat) × Nat) =>
      s.2 = I * (c.m_num_data_parts * 8 * 8) ∧
      ∀ i, i < I →
        (rtp i = (i : Int) → ∀ a col, a < 8 → col < c.m_num_data_parts * 8 →
          s.1 (i * (c.m_num_data_parts * 8 * 8) + (a * (c.m_num_data_parts * 8) + col))
            = if col = i * 8 + a then 1 else 0) ∧
        (rtp i ≠ (i : Int) → ∀ r, r < c.m_num_data_parts * 8 * 8 →
          s.1 (i * (c.m_num_data_parts * 8 * 8) + r)
            = c.m_encoding_bit_matrix
                (((c.m_num_data_parts : Int) * kWordBits * kWordBits
                    * (rtp i - c.m_num_data_parts)).toNat + r))) c.m_num_data_parts
    (fun i (s : (Nat → Nat) × Nat) =>
      (if load rtp i = i then
          forLoop kWordBits
            (fun j tmp => store tmp
              ((s.2 + (j + i * kWordBits + j * c.m_num_data_parts * kWordBits) : Nat) : Int) 1)
            (bzeroArr s.1 s.2 (c.m_num_data_parts * kWordBits * kWordBits))
        else
          memcpyArr s.1 s.2 c.m_encoding_bit_matrix
            ((c.m_num_data_parts : Int) * kWordBits * kWordBits
              * (load rtp i - c.m_num_data_parts)).toNat
            (c.m_num_data_parts * kWordBits * kWordBits),
       s.2 + c.m_num_data_parts * kWordBits * kWordBits))
    (fun _ => 0, 0) ⟨by simp, fun i h => absurd h (Nat.not_lt_zero _)⟩ ?_
  · exact key.2
  · intro I hI s ⟨h1, h2⟩
    refine ⟨?_, ?_⟩
    · show s.2 + c.m_num_data_parts * kWordBits * kWordBits = _
      rw [h1]
      unfold kWordBits
      ring
    · intro i hi
      have hW : c.m_num_data_parts * kWordBits * kWordBits = c.m_num_data_parts * 8 * 8 := rfl
      rcases Nat.lt_or_ge i I with hlt | hge
      · -- an earlier block-row: not written in this round
        have hsame : ∀ r, r < c.m_num_data_parts * 8 * 8 →
            (if load rtp I = I then
              forLoop kWordBits
                (fun j tmp => store tmp
                  ((s.2 + (j + I * kWordBits + j * c.m_num_data_parts * kWordBits) : Nat) : Int) 1)
                (bzeroArr s.1 s.2 (c.m_num_data_parts * kWordBits * kWordBits))
            else
              memcpyArr s.1 s.2 c.m_encoding_bit_matrix
                ((c.m_num_data_parts : Int) * kWordBits * kWordBits
                  * (load rtp I - c.m_num_data_parts)).toNat
                (c.m_num_data_parts * kWordBits * kWordBits))
              (i * (c.m_num_data_parts * 8 * 8) + r)
            = s.1 (i * (c.m_num_data_parts * 8 * 8) + r) := by
          intro r hr
          have hb := block_before (c.m_num_data_parts * 8 * 8) i I r hlt hr
          split
          · exact (identity_block c.m_num_data_parts I s.2 hI s.1).1 _ (Or.inl (by omega))
          · unfold memcpyArr
            rw [if_neg (by omega)]
        refine ⟨?_, ?_⟩
        · intro hrtp a col ha hcol
          have hr := cell_in_block (c.m_num_data_parts * 8) a col ha hcol
          show (if load rtp (I : Int) = (I : Int) then _ else _ : Nat → Nat) _ = _
          rw [hsame _ hr]
          exact (h2 i hlt).1 hrtp a col ha hcol
        · intro hrtp r hr
          show (if load rtp (I : Int) = (I : Int) then _ else _ : Nat → Nat) _ = _
          rw [hsame _ hr]
          exact (h2 i hlt).2 hrtp r hr
      · have e : i = I := by omega
        subst e
        refine ⟨?_, ?_⟩
        · intro hrtp a col ha hcol
          show (if load rtp (i : Int) = (i : Int) then _ else _ : Nat → Nat) _ = _
          rw [if_pos (by rw [load_natCast]; exact hrtp), ← h1]
          exact (identity_block c.m_num_data_parts i s.2 hI s.1).2 a col ha hcol
        · intro hrtp r hr
          show (if load rtp (i : Int) = (i : Int) then _ else _ : Nat → Nat) _ = _
          rw [if_neg (by rw [load_natCast]; exact hrtp), load_natCast]
          unfold memcpyArr
          rw [hW, if_pos (by omega)]
          congr 1
          omega

/-- The cells of the matrix that `Decode` inverts, for a coder with `k` data
parts. -/
theorem Decode_tmp_blocks_of (c : CauchyRSCoder) (k : Nat) (hk : c.m_num_data_parts = k)
    (rtp : Nat → Int) :
    ∀ i, i < k →
      (rtp i = (i : Int) → ∀ a col, a < 8 → col < k * 8 →
        Decode_tmp_bit_matrix c rtp (i * (k * 8 * 8) + (a * (k * 8) + col))
          = if col = i * 8 + a then 1 else 0) ∧
      (rtp i ≠ (i : Int) → ∀ r, r < k * 8 * 8 →
        Decode_tmp_bit_matrix c rtp (i * (k * 8 * 8) + r)
          = c.m_encoding_bit_matrix
              (((k : Int) * kWordBits * kWordBits * (rtp i - k)).toNat + r)) := by
  subst hk
  exact Decode_tmp_blocks c rtp

end CauchyRSCoder

namespace CauchyRSCoder

open GaloisOperator

/-! ## Bits and bytes over GF(2) -/

/-- The cell of the block of the element in row `i` and column `j` of the
coding matrix. -/
theorem block_cell (k m : Nat) (M : Nat → Int) (i j : Nat) (hi : i < m) (hj : j < k)
    (n c : Nat) (hn : n < 8) (hc : c < 8) :
    _MatrixToBitMatrix k m M ((i * 8 + n) * (k * 8) + (j * 8 + c))
      = bitOf (mulPow c (M (i * k + j))) n := by
  have h := MatrixToBitMatrix_cell k m M (i * 8 + n) (j * 8 + c)
    (by unfold kWordBits; omega) (by unfold kWordBits; omega)
  have e1 : (i * 8 + n) / kWordBits = i := by unfold kWordBits; omega
  have e2 : (i * 8 + n) % kWordBits = n := by unfold kWordBits; omega
  have e3 : (j * 8 + c) / kWordBits = j := by unfold kWordBits; omega
  have e4 : (j * 8 + c) % kWordBits = c := by unfold kWordBits; omega
  rw [e1, e2, e3, e4] at h
  exact h


theorem sum_range_blocks {R : Type} [AddCommMonoid R] (f : Nat → R) (k : Nat) :
    ∑ col ∈ Finset.range (k * 8), f col
      = ∑ j ∈ Finset.range k, ∑ c ∈ Finset.range 8, f (j * 8 + c) := by
  induction k with
  | zero => simp
  | succ k ih =>
    rw [Finset.sum_range_succ, ← ih, Nat.add_mul, Nat.one_mul, Finset.sum_range_add]

theorem cast_and (a b : Nat) (ha : a ≤ 1) (hb : b ≤ 1) :
    ((a &&& b : Nat) : ZMod 2) = (a : ZMod 2) * (b : ZMod 2) := by
  rcases Nat.le_one_iff_eq_zero_or_eq_one.1 ha with h | h <;>
    rcases Nat.le_one_iff_eq_zero_or_eq_one.1 hb with h' | h' <;> subst h <;> subst h' <;> decide

theorem and_le_one (a b : Nat) (ha : a ≤ 1) (hb : b ≤ 1) : a &&& b ≤ 1 := by
  rcases Nat.le_one_iff_eq_zero_or_eq_one.1 ha with h | h <;>
    rcases Nat.le_one_iff_eq_zero_or_eq_one.1 hb with h' | h' <;> subst h <;> subst h' <;> decide

/-- The xor of cells that are zero or one is their sum over GF(2). -/
theorem xorSrcs_cast (g : Nat → Nat) (hg : ∀ c, g c ≤ 1) (n : Nat) :
    xorSrcs g (List.range n) ≤ 1 ∧
      ((xorSrcs g (List.range n) : Nat) : ZMod 2) = ∑ c ∈ Finset.range n, ((g c : Nat) : ZMod 2) := by
  induction n with
  | zero => exact ⟨Nat.zero_le _, by simp [xorSrcs]⟩
  | succ n ih =>
    rw [List.range_succ, xorSrcs_snoc, Finset.sum_range_succ, ← ih.2]
    exact ⟨xor_le_one _ _ ih.1 (hg n), cast_xor _ _ ih.1 (hg n)⟩

/-- Bit `n` of the product `a * x`, as a sum over GF(2). -/
theorem Multiply_bits_cast (a x : Nat) (ha : a < 256) (hx : x < 256) (n : Nat) :
    ((bitOf (Multiply a x) n : Nat) : ZMod 2)
      = ∑ c ∈ Finset.range 8,
          ((bitOf (mulPow c (a : Int)) n : Nat) : ZMod 2) * ((bitOf (x : Int) c : Nat) : ZMod 2) := by
  rw [Multiply_bits a x ha hx n,
    (xorSrcs_cast _ (fun c => and_le_one _ _ (bitOf_le _ _) (bitOf_le _ _)) 8).2]
  apply Finset.sum_congr rfl
  intro c _
  exact cast_and _ _ (bitOf_le _ _) (bitOf_le _ _)

set_option maxRecDepth 100000 in
/-- A byte whose eight bits are zero is zero. -/
theorem byte_zero_of_bits : ∀ w : Nat, w < 256 → (∀ c : Nat, c < 8 → bitOf (w : Int) c = 0) →
    w = 0 := by
  decide!

set_option maxRecDepth 100000 in
theorem bits_byte_bool : ∀ b0 b1 b2 b3 b4 b5 b6 b7 : Bool,
    bitOf ((b0.toNat + 2 * b1.toNat + 4 * b2.toNat + 8 * b3.toNat + 16 * b4.toNat
        + 32 * b5.toNat + 64 * b6.toNat + 128 * b7.toNat : Nat) : Int) 0 = b0.toNat ∧
    bitOf ((b0.toNat + 2 * b1.toNat + 4 * b2.toNat + 8 * b3.toNat + 16 * b4.toNat
        + 32 * b5.toNat + 64 * b6.toNat + 128 * b7.toNat : Nat) : Int) 1 = b1.toNat ∧
    bitOf ((b0.toNat + 2 * b1.toNat + 4 * b2.toNat + 8 * b3.toNat + 16 * b4.toNat
        + 32 * b5.toNat + 64 * b6.toNat + 128 * b7.toNat : Nat) : Int) 2 = b2.toNat ∧
    bitOf ((b0.toNat + 2 * b1.toNat + 4 * b2.toNat + 8 * b3.toNat + 16 * b4.toNat
        + 32 * b5.toNat + 64 * b6.toNat + 128 * b7.toNat : Nat) : Int) 3 = b3.toNat ∧
    bitOf ((b0.toNat + 2 * b1.toNat + 4 * b2.toNat + 8 * b3.toNat + 16 * b4.toNat
        + 32 * b5.toNat + 64 * b6.toNat + 128 * b7.toNat : Nat) : Int) 4 = b4.toNat ∧
    bitOf ((b0.toNat + 2 * b1.toNat + 4 * b2.toNat + 8 * b3.toNat + 16 * b4.toNat
        + 32 * b5.toNat + 64 * b6.toNat + 128 * b7.toNat : Nat) : Int) 5 = b5.toNat ∧
    bitOf ((b0.toNat + 2 * b1.toNat + 4 * b2.toNat + 8 * b3.toNat + 16 * b4.toNat
        + 32 * b5.toNat + 64 * b6.toNat + 128 * b7.toNat : Nat) : Int) 6 = b6.toNat ∧
    bitOf ((b0.toNat + 2 * b1.toNat + 4 * b2.toNat + 8 * b3.toNat + 16 * b4.toNat
        + 32 * b5.toNat + 64 * b6.toNat + 128 * b7.toNat : Nat) : Int) 7 = b7.toNat := by
  decide!

/-- Eight cells that are zero or one are the bits of a byte. -/
theorem exists_byte_of_bits (g : Nat → Nat) (hg : ∀ c, c < 8 → g c ≤ 1) :
    ∃ w : Nat, w < 256 ∧ ∀ c, c < 8 → bitOf (w : Int) c = g c := by
  have hb : ∀ c, c < 8 → ∃ b : Bool, g c = b.toNat := by
    intro c hc
    rcases Nat.le_one_iff_eq_zero_or_eq_one.1 (hg c hc) with h | h
    · exact ⟨false, h⟩
    · exact ⟨true, h⟩
  obtain ⟨b0, h0⟩ := hb 0 (by decide)
  obtain ⟨b1, h1⟩ := hb 1 (by decide)
  obtain ⟨b2, h2⟩ := hb 2 (by decide)
  obtain ⟨b3, h3⟩ := hb 3 (by decide)
  obtain ⟨b4, h4⟩ := hb 4 (by decide)
  obtain ⟨b5, h5⟩ := hb 5 (by decide)
  obtain ⟨b6, h6⟩ := hb 6 (by decide)
  obtain ⟨b7, h7⟩ := hb 7 (by decide)
  have hbits := bits_byte_bool b0 b1 b2 b3 b4 b5 b6 b7
  refine ⟨b0.toNat + 2 * b1.toNat + 4 * b2.toNat + 8 * b3.toNat + 16 * b4.toNat
        + 32 * b5.toNat + 64 * b6.toNat + 128 * b7.toNat, ?_, ?_⟩
  · have hle : ∀ b : Bool, b.toNat ≤ 1 := fun b => by cases b <;> decide
    have := hle b0
    have := hle b1
    have := hle b2
    have := hle b3
    have := hle b4
    have := hle b5
    have := hle b6
    have := hle b7
    omega
  · intro c hc
    obtain ⟨e0, e1, e2, e3, e4, e5, e6, e7⟩ := hbits
    have hcases : c = 0 ∨ c = 1 ∨ c = 2 ∨ c = 3 ∨ c = 4 ∨ c = 5 ∨ c = 6 ∨ c = 7 := by omega
    rcases hcases with h | h | h | h | h | h | h | h <;> subst h
    · rw [e0, h0]
    · rw [e1, h1]
    · rw [e2, h2]
    · rw [e3, h3]
    · rw [e4, h4]
    · rw [e5, h5]
    · rw [e6, h6]
    · rw [e7, h7]

end CauchyRSCoder

namespace CauchyRSCoder

open GaloisOperator

/-! ## The coding matrix over the field -/

theorem GF256.byte_val (n : Nat) (h : n < 256) : (GF256.byte n).val = n := Nat.mod_eq_of_lt h

theorem GF256.byte_unit (x : Int) (hx : IsUnit256 x) :
    (((GF256.byte x.toNat).val : Nat) : Int) = x ∧ GF256.byte x.toNat ≠ GF256.zero := by
  obtain ⟨h1, h2⟩ := hx
  have hv : (GF256.byte x.toNat).val = x.toNat := GF256.byte_val _ (by omega)
  refine ⟨by rw [hv]; omega, ?_⟩
  intro h
  have h' := congrArg GF256.val h
  rw [hv] at h'
  have : x.toNat = 0 := h'
  omega

/-- The entries of the coding matrix as field elements: the Cauchy entry
`(i + (m + j))⁻¹` times a column factor and a row factor that are not zero. -/
theorem GenerateEncodeMatrix_field (k m : Nat) (hkm : k + m ≤ 256) :
    ∃ R G : Nat → GF256, (∀ i, i < m → R i ≠ GF256.zero) ∧ (∀ j, j < k → G j ≠ GF256.zero) ∧
      ∀ i j, i < m → j < k →
        _GenerateEncodeMatrix k m (i * k + j)
          = (((GF256.mul (GF256.mul
              (GF256.inv (GF256.add (GF256.byte i) (GF256.byte (m + j)))) (G j)) (R i)).val
              : Nat) : Int) := by
  obtain ⟨ρ, γ, hρ, hγ, h⟩ := GenerateEncodeMatrix_scaled k m hkm
  refine ⟨fun i => GF256.byte (ρ i).toNat, fun j => GF256.byte (γ j).toNat,
    fun i hi => (GF256.byte_unit _ (hρ i hi)).2, fun j hj => (GF256.byte_unit _ (hγ j hj)).2, ?_⟩
  intro i j hi hj
  rw [h i j hi hj]
  have hu := xor_unit i j m hi (by omega)
  have e : Int.xor (i : Int) ((m : Int) + (j : Int))
      = (((GF256.add (GF256.byte i) (GF256.byte (m + j))).val : Nat) : Int) := by
    rw [show (m : Int) + (j : Int) = ((m + j : Nat) : Int) by push_cast; rfl]
    show ((i ^^^ (m + j) : Nat) : Int) = (((GF256.byte i).val ^^^ (GF256.byte (m + j)).val : Nat) : Int)
    rw [GF256.byte_val i (by omega), GF256.byte_val (m + j) (by omega)]
  rw [e] at hu ⊢
  have hne : (GF256.add (GF256.byte i) (GF256.byte (m + j))).val ≠ 0 := by
    intro h0
    rw [h0] at hu
    exact absurd hu.1 (by decide)
  rw [GF256.inv_cast _ hne]
  dsimp only
  rw [← (GF256.byte_unit _ (hγ j hj)).1, GF256.mul_cast, ← (GF256.byte_unit _ (hρ i hi)).1,
    GF256.mul_cast, (GF256.byte_unit _ (hρ i hi)).1, (GF256.byte_unit _ (hγ j hj)).1]

/-- Bit `a` of a sum in the field is the sum over GF(2) of the bits of the
terms. -/
theorem bitOf_field_sum [inst : Field GF256] (hadd : ∀ u w : GF256, u + w = GF256.add u w)
    (h0 : (0 : GF256) = GF256.zero) (f : Nat → GF256) (a n : Nat) :
    ((bitOf (((∑ j ∈ Finset.range n, f j).val : Nat) : Int) a : Nat) : ZMod 2)
      = ∑ j ∈ Finset.range n, ((bitOf (((f j).val : Nat) : Int) a : Nat) : ZMod 2) := by
  induction n with
  | zero =>
    rw [Finset.sum_range_zero, Finset.sum_range_zero, h0]
    show ((bitOf ((0 : Nat) : Int) a : Nat) : ZMod 2) = 0
    rw [bitOf_testBit, Nat.zero_testBit]
    rfl
  | succ n ih =>
    rw [Finset.sum_range_succ, Finset.sum_range_succ, ← ih, hadd]
    show ((bitOf (((_ ^^^ _ : Nat)) : Int) a : Nat) : ZMod 2) = _
    rw [bitOf_xor]
    exact cast_xor _ _ (bitOf_le _ _) (bitOf_le _ _)

/-- A block-row of the bit matrix times a vector of bits: bit `a` of code
word `p` is bit `a` of the sum over the data words `w j` of `M[p][j] * w j`
in the field. -/
theorem block_row_product [inst : Field GF256] (hadd : ∀ u w : GF256, u + w = GF256.add u w)
    (hmul : ∀ u w : GF256, u * w = GF256.mul u w) (h0 : (0 : GF256) = GF256.zero)
    (k m : Nat) (M : Nat → Int) (E : Nat → Nat → GF256)
    (hE : ∀ p j, p < m → j < k → M (p * k + j) = (((E p j).val : Nat) : Int))
    (v : Nat → Nat) (w : Nat → GF256)
    (hw : ∀ j c, j < k → c < 8 → bitOf (((w j).val : Nat) : Int) c = v (j * 8 + c))
    (p a : Nat) (hp : p < m) (ha : a < 8) :
    ∑ col ∈ Finset.range (k * 8),
        ((_MatrixToBitMatrix k m M ((p * 8 + a) * (k * 8) + col) : Nat) : ZMod 2)
          * ((v col : Nat) : ZMod 2)
      = ((bitOf (((∑ j ∈ Finset.range k, E p j * w j).val : Nat) : Int) a : Nat) : ZMod 2) := by
  rw [sum_range_blocks, bitOf_field_sum hadd h0]
  apply Finset.sum_congr rfl
  intro j hj
  have hjk : j < k := Finset.mem_range.1 hj
  rw [hmul, ← GF256.mul_cast, Multiply_bits_cast _ _ (E p j).lt (w j).lt]
  apply Finset.sum_congr rfl
  intro c hc
  have hc8 : c < 8 := Finset.mem_range.1 hc
  rw [block_cell k m M p j hp hjk a c ha hc8, hE p j hp hjk, hw j c hjk hc8]

end CauchyRSCoder

namespace CauchyRSCoder

open GaloisOperator

/-! ## The matrix that `Decode` inverts is invertible -/

theorem GF256.byte_inj (p q : Nat) (hp : p < 256) (hq : q < 256)
    (h : GF256.byte p = GF256.byte q) : p = q := by
  have h' := congrArg GF256.val h
  rw [GF256.byte_val p hp, GF256.byte_val q hq] at h'
  exact h'

/-- A matrix made of identity block-rows for the data words that are there
and of block-rows of the encoding bit matrix, of different code words, for the
data words that are not, has a determinant that is not zero. -/
theorem substituted_matrix_det (k m : Nat) (hkm : k + m ≤ 256)
    (E : Nat → Bool) (sub : Nat → Nat)
    (hsub : ∀ i, i < k → E i = true → sub i < m)
    (hinj : ∀ i j, i < k → j < k → E i = true → E j = true → sub i = sub j → i = j)
    (T : Nat → Nat)
    (hT0 : ∀ i a col, i < k → E i = false → a < 8 → col < k * 8 →
      T ((i * 8 + a) * (k * 8) + col) = if col = i * 8 + a then 1 else 0)
    (hT1 : ∀ i a col, i < k → E i = true → a < 8 → col < k * 8 →
      T ((i * 8 + a) * (k * 8) + col)
        = _MatrixToBitMatrix k m (_GenerateEncodeMatrix k m) ((sub i * 8 + a) * (k * 8) + col)) :
    (bitMatrix (k * 8) T).det ≠ 0 := by
  intro hdet
  obtain ⟨v, hv0, hv⟩ := Matrix.exists_mulVec_eq_zero_iff.2 hdet
  apply hv0
  obtain ⟨inst, hadd, hmul, h0, h1, hinv, hneg⟩ := GF256.field
  obtain ⟨R, G, hR, hG, hM⟩ := GenerateEncodeMatrix_field k m hkm
  have hv2 : ∃ v2 : Nat → Nat, (∀ n, v2 n ≤ 1) ∧
      ∀ j : Fin (k * 8), ((v2 j.val : Nat) : ZMod 2) = v j := by
    refine ⟨fun n => if h : n < k * 8 then (v ⟨n, h⟩).val else 0, ?_, ?_⟩
    · intro n
      dsimp only
      split
      · have := ZMod.val_lt (v ⟨n, by assumption⟩)
        omega
      · exact Nat.zero_le _
    · intro j
      dsimp only
      rw [dif_pos j.isLt]
      exact ZMod.natCast_zmod_val _
  obtain ⟨v2, hv2le, hv2cast⟩ := hv2
  have hrow : ∀ r, r < k * 8 →
      ∑ col ∈ Finset.range (k * 8),
        ((T (r * (k * 8) + col) : Nat) : ZMod 2) * ((v2 col : Nat) : ZMod 2) = 0 := by
    intro r hr
    have h : ∑ j : Fin (k * 8), bitMatrix (k * 8) T ⟨r, hr⟩ j * v j = 0 := congrFun hv ⟨r, hr⟩
    rw [Finset.sum_range, ← h]
    apply Finset.sum_congr rfl
    intro j _
    rw [hv2cast, bitMatrix_apply]
  have hw : ∀ j, ∃ w : GF256, ∀ c, c < 8 → bitOf ((w.val : Nat) : Int) c = v2 (j * 8 + c) := by
    intro j
    obtain ⟨w, hw, hb⟩ := exists_byte_of_bits (fun c => v2 (j * 8 + c)) (fun c _ => hv2le _)
    exact ⟨⟨w, hw⟩, hb⟩
  choose w hw using hw
  have hint : ∀ i a, i < k → E i = false → a < 8 → v2 (i * 8 + a) = 0 := by
    intro i a hi hE ha
    have h := hrow (i * 8 + a) (by omega)
    rw [Finset.sum_eq_single (i * 8 + a)] at h
    · rw [hT0 i a _ hi hE ha (by omega), if_pos rfl, Nat.cast_one, one_mul] at h
      exact (cast_eq_zero _ (hv2le _)).1 h
    · intro col hcol hne
      rw [hT0 i a col hi hE ha (Finset.mem_range.1 hcol), if_neg hne, Nat.cast_zero, zero_mul]
    · intro h'
      exact absurd (Finset.mem_range.2 (by omega)) h'
  have wzero : ∀ j, j < k → E j = false → w j = 0 := by
    intro j hj hE
    rw [h0]
    apply GF256.ext_val
    exact byte_zero_of_bits _ (w j).lt (fun c hc => by rw [hw j c hc]; exact hint j c hj hE hc)
  have hsum : ∀ i, i < k → E i = true →
      ∑ j ∈ Finset.range k,
        GF256.mul (GF256.mul (GF256.inv (GF256.add (GF256.byte (sub i)) (GF256.byte (m + j))))
          (G j)) (R (sub i)) * w j = 0 := by
    intro i hi hE
    rw [h0]
    apply GF256.ext_val
    apply byte_zero_of_bits _ (GF256.lt _)
    intro a ha
    have h := hrow (i * 8 + a) (by omega)
    rw [Finset.sum_congr rfl (fun col hcol => by
      rw [hT1 i a col hi hE ha (Finset.mem_range.1 hcol)])] at h
    rw [block_row_product hadd hmul h0 k m (_GenerateEncodeMatrix k m)
      (fun p j => GF256.mul (GF256.mul (GF256.inv (GF256.add (GF256.byte p) (GF256.byte (m + j))))
          (G j)) (R p)) hM v2 w (fun j c _ hc => hw j c hc) (sub i) a (hsub i hi hE) ha] at h
    exact (cast_eq_zero _ (bitOf_le _ _)).1 h
  have hS := cauchy_kernel ((Finset.range k).filter (fun j => E j = true))
    (fun i => GF256.byte (sub i)) (fun j => GF256.byte (m + j)) ?_ ?_ ?_ (fun j => G j * w j) ?_
  · have wall : ∀ j, j < k → w j = 0 := by
      intro j hj
      by_cases hE : E j = true
      · have h := hS j (Finset.mem_filter.2 ⟨Finset.mem_range.2 hj, hE⟩)
        rcases mul_eq_zero.1 h with h' | h'
        · exact absurd (h'.trans h0) (hG j hj)
        · exact h'
      · exact wzero j hj (by simpa using hE)
    funext n
    rw [← hv2cast n]
    have hn := n.isLt
    have e : n.val = n.val / 8 * 8 + n.val % 8 := by omega
    rw [e, ← hw (n.val / 8) (n.val % 8) (by omega), wall (n.val / 8) (by omega), h0]
    show ((bitOf ((0 : Nat) : Int) _ : Nat) : ZMod 2) = 0
    rw [bitOf_testBit, Nat.zero_testBit]
    rfl
  · intro i hi j hj h
    have hi' := Finset.mem_filter.1 (Finset.mem_coe.1 hi)
    have hj' := Finset.mem_filter.1 (Finset.mem_coe.1 hj)
    have hik := Finset.mem_range.1 hi'.1
    have hjk := Finset.mem_range.1 hj'.1
    have h1 := hsub i hik hi'.2
    have h2 := hsub j hjk hj'.2
    exact hinj i j hik hjk hi'.2 hj'.2 (GF256.byte_inj _ _ (by omega) (by omega) h)
  · intro i hi j hj h
    have hi' := Finset.mem_filter.1 (Finset.mem_coe.1 hi)
    have hj' := Finset.mem_filter.1 (Finset.mem_coe.1 hj)
    have hik := Finset.mem_range.1 hi'.1
    have hjk := Finset.mem_range.1 hj'.1
    have := GF256.byte_inj _ _ (by omega) (by omega) h
    omega
  · intro i hi j hj h
    have hi' := Finset.mem_filter.1 hi
    have hj' := Finset.mem_filter.1 hj
    have hik := Finset.mem_range.1 hi'.1
    have hjk := Finset.mem_range.1 hj'.1
    have h1 := hsub i hik hi'.2
    have := GF256.byte_inj _ _ (by omega) (by omega) h
    omega
  · intro i hi
    have hi' := Finset.mem_filter.1 hi
    have hik := Finset.mem_range.1 hi'.1
    have h := hsum i hik hi'.2
    rw [← Finset.sum_filter_of_ne (p := fun j => E j = true)] at h
    · have e : ∀ j ∈ (Finset.range k).filter (fun j => E j = true),
          GF256.mul (GF256.mul (GF256.inv (GF256.add (GF256.byte (sub i)) (GF256.byte (m + j))))
            (G j)) (R (sub i)) * w j
          = R (sub i) * ((GF256.byte (sub i) - GF256.byte (m + j))⁻¹ * (G j * w j)) := by
        intro j _
        rw [← hmul, ← hmul, ← hinv, ← hadd, sub_eq_add_neg, hneg]
        ring
      rw [Finset.sum_congr rfl e, ← Finset.mul_sum] at h
      rcases mul_eq_zero.1 h with h' | h'
      · exact absurd (h'.trans h0) (hR _ (hsub i hik hi'.2))
      · exact h'
    · intro j hj hne
      by_contra hE
      apply hne
      rw [wzero j (Finset.mem_range.1 hj) (by simpa using hE), mul_zero]

end CauchyRSCoder

namespace CauchyRSCoder

open GaloisOperator

/-- The cells of the matrix that `Decode` assembles for a coder made by
`_Init`: the identity block-row for a data part that is there, the block-row
of the encoding bit matrix of the stand-in code part for one that is not. -/
theorem Decode_tmp_cells (k m : Nat) (erased : Nat → Bool)
    (s : DecodeSetup) (hs : SetupInv k m erased k m s) :
    (∀ i a col, i < k → erased i = false → a < 8 → col < k * 8 →
      Decode_tmp_bit_matrix (_Init k m) s.rowid_to_partidx ((i * 8 + a) * (k * 8) + col)
        = if col = i * 8 + a then 1 else 0) ∧
    (∀ i a col, i < k → erased i = true → a < 8 → col < k * 8 →
      Decode_tmp_bit_matrix (_Init k m) s.rowid_to_partidx ((i * 8 + a) * (k * 8) + col)
        = _MatrixToBitMatrix k m (_GenerateEncodeMatrix k m)
            ((((s.rowid_to_partidx i).toNat - k) * 8 + a) * (k * 8) + col)) := by
  have hgl := hs.good_le
  have hblocks := Decode_tmp_blocks_of (_Init k m) k rfl s.rowid_to_partidx
  have hidx : ∀ i a col : Nat, (i * 8 + a) * (k * 8) + col
      = i * (k * 8 * 8) + (a * (k * 8) + col) := by
    intro i a col
    ring
  constructor
  · intro i a col hi he ha hcol
    rw [hidx]
    exact (hblocks i hi).1 (hs.intact i hi he).2 a col ha hcol
  · intro i a col hi he ha hcol
    obtain ⟨cp, h1, h2, _, _, h5⟩ := hs.subst i hi he
    have hne : s.rowid_to_partidx i ≠ (i : Int) := by
      rw [h5]
      intro h
      have : cp = i := by exact_mod_cast h
      omega
    rw [hidx, (hblocks i hi).2 hne _ (cell_in_block (k * 8) a col ha hcol)]
    show _MatrixToBitMatrix k m (_GenerateEncodeMatrix k m) _ = _
    congr 1
    show (((k : Int) * kWordBits * kWordBits * (s.rowid_to_partidx i - (k : Int))).toNat
        + (a * (k * 8) + col)) = (((s.rowid_to_partidx i).toNat - k) * 8 + a) * (k * 8) + col
    rw [h5]
    simp only [Int.toNat_ofNat]
    obtain ⟨q, rfl⟩ : ∃ q, cp = k + q := ⟨cp - k, by omega⟩
    have e : ((k : Int) * kWordBits * kWordBits * (((k + q : Nat) : Int) - (k : Int)))
        = ((k * 8 * 8 * q : Nat) : Int) := by
      unfold kWordBits
      push_cast
      ring
    rw [e, Int.toNat_ofNat, Nat.add_sub_cancel_left]
    ring

/-- The matrix that `Decode` assembles for a coder made by `_Init` and an
erasure vector with at most `m` erased shards is invertible over GF(2). -/
theorem Decode_tmp_det (k m : Nat) (hkm : k + m ≤ 256) (erased : Nat → Bool)
    (s : DecodeSetup) (hs : SetupInv k m erased k m s) :
    (bitMatrix (k * 8) (Decode_tmp_bit_matrix (_Init k m) s.rowid_to_partidx)).det ≠ 0 := by
  have hgl := hs.good_le
  obtain ⟨hc0, hc1⟩ := Decode_tmp_cells k m erased s hs
  apply substituted_matrix_det k m hkm erased (fun i => (s.rowid_to_partidx i).toNat - k)
  · intro i hi he
    obtain ⟨cp, h1, h2, _, _, h5⟩ := hs.subst i hi he
    show (s.rowid_to_partidx i).toNat - k < m
    rw [h5]
    simp only [Int.toNat_ofNat]
    omega
  · intro i j hi hj hei hej h
    obtain ⟨cp, h1, _, _, _, h5⟩ := hs.subst i hi hei
    obtain ⟨cq, h1', _, _, _, h5'⟩ := hs.subst j hj hej
    apply hs.part_inj i j (by omega) (by omega)
    have h' : (s.rowid_to_partidx i).toNat - k = (s.rowid_to_partidx j).toNat - k := h
    rw [h5, h5'] at h' ⊢
    simp only [Int.toNat_ofNat] at h' ⊢
    omega
  · exact hc0
  · exact hc1

/-- With the set-up of `Decode` for at most `m` erased shards, the inversion
finds a pivot in every column: it returns the inverse of the matrix. -/
theorem Decode_inverse_exists (k m : Nat) (hkm : k + m ≤ 256) (erased : Nat → Bool)
    (s : DecodeSetup) (hs : SetupInv k m erased k m s) :
    (∀ r c, r < k * 8 → c < k * 8 →
      Decode_tmp_bit_matrix (_Init k m) s.rowid_to_partidx (r * (k * 8) + c) ≤ 1) ∧
    ∃ res, _InvertBitMatrix (Decode_tmp_bit_matrix (_Init k m) s.rowid_to_partidx) (fun _ => 0)
        (k * kWordBits) = some res ∧
      (∀ r c, r < k * 8 → c < k * 8 → res.2 (r * (k * 8) + c) ≤ 1) ∧
      bitMatrix (k * 8) res.2
          * bitMatrix (k * 8) (Decode_tmp_bit_matrix (_Init k m) s.rowid_to_partidx) = 1 ∧
      bitMatrix (k * 8) (Decode_tmp_bit_matrix (_Init k m) s.rowid_to_partidx)
          * bitMatrix (k * 8) res.2 = 1 := by
  have hblocks := Decode_tmp_blocks_of (_Init k m) k rfl s.rowid_to_partidx
  have hbits : ∀ r c, r < k * 8 → c < k * 8 →
      Decode_tmp_bit_matrix (_Init k m) s.rowid_to_partidx (r * (k * 8) + c) ≤ 1 := by
    intro r c hr hc
    have e : r * (k * 8) + c = (r / 8) * (k * 8 * 8) + ((r % 8) * (k * 8) + c) := by
      have h := Nat.div_add_mod r 8
      generalize r / 8 = q at h ⊢
      generalize r % 8 = t at h ⊢
      subst h
      ring
    rw [e]
    by_cases hrt : s.rowid_to_partidx (r / 8) = ((r / 8 : Nat) : Int)
    · rw [(hblocks (r / 8) (by omega)).1 hrt (r % 8) c (Nat.mod_lt _ (by decide)) hc]
      split <;> omega
    · rw [(hblocks (r / 8) (by omega)).2 hrt _
        (cell_in_block (k * 8) (r % 8) c (Nat.mod_lt _ (by decide)) hc)]
      exact MatrixToBitMatrix_le_one k m _ _
  refine ⟨hbits, ?_⟩
  have hspec := InvertBitMatrix_spec (k * 8)
    (Decode_tmp_bit_matrix (_Init k m) s.rowid_to_partidx) (fun _ => 0) hbits
  obtain ⟨res, hres⟩ := hspec.2.1 (Decode_tmp_det k m hkm erased s hs)
  obtain ⟨_, h2, h3, h4⟩ := hspec.1 res hres
  exact ⟨res, hres, h2, h3, h4⟩

end CauchyRSCoder

namespace CauchyRSCoder

open GaloisOperator

/-! ## The claims on the scheduler, the field, the matrices and the inversion -/

/-- A row has no source exactly when it has no column that is not zero. -/
theorem scratchSrcs_nil_iff (k : Nat) (B : Nat → Nat) (x : Nat) :
    scratchSrcs k B x = [] ↔ ∀ j, j < k * kWordBits → B (x * (k * kWordBits) + j) = 0 := by
  unfold scratchSrcs
  rw [List.filter_eq_nil_iff]
  constructor
  · intro h j hj
    have := h j (List.mem_range.2 hj)
    rw [← Nat.mul_assoc]
    simpa using this
  · intro h j hj
    have := h j (List.mem_range.1 hj)
    rw [← Nat.mul_assoc] at this
    simpa using this

/-- One run of the schedule of a matrix of zeros and ones over the buffers at
offset zero, row by row. -/
theorem schedule_rows (k r : Nat) (B : Nat → Nat) (hr : 0 < r)
    (hB : ∀ x j, x < r * kWordBits → j < k * kWordBits → B (x * (k * kWordBits) + j) ≤ 1)
    (mem : Shards) (x : Nat) (hx : x < r * kWordBits) (rel : Int) (h0 : 0 ≤ rel)
    (h1 : rel < kPacketSize) :
    ((∃ j, j < k * kWordBits ∧ B (x * (k * kWordBits) + j) = 1) →
      _DoScheduleOperations_stripe (fun d => ⟨d, 0⟩) (_BitMatrixToSchedule k r B) mem
          (k + x / kWordBits) (((x % kWordBits : Nat) : Int) * kPacketSize + rel)
        = xorSrcs (fun j => mem (j / kWordBits) (((j % kWordBits : Nat) : Int) * kPacketSize + rel))
            ((List.range (k * kWordBits)).filter
              (fun j => decide (B (x * (k * kWordBits) + j) = 1)))) ∧
    ((∀ j, j < k * kWordBits → B (x * (k * kWordBits) + j) = 0) →
      _DoScheduleOperations_stripe (fun d => ⟨d, 0⟩) (_BitMatrixToSchedule k r B) mem
          (k + x / kWordBits) (((x % kWordBits : Nat) : Int) * kPacketSize + rel)
        = mem (k + x / kWordBits) (((x % kWordBits : Nat) : Int) * kPacketSize + rel)) := by
  have hB' : ∀ x j, x < r * kWordBits → j < k * kWordBits → B (x * k * kWordBits + j) ≤ 1 := by
    intro x j hx hj
    rw [Nat.mul_assoc]
    exact hB x j hx hj
  obtain ⟨fr, va⟩ := schedule_stripe k r B hr (fun d => ⟨d, 0⟩) (fun d => d) 0
    (fun _ _ => rfl) (fun _ _ _ _ h => h) mem
  have e0 : ((x % kWordBits : Nat) : Int) * kPacketSize + rel
      = 0 + ((x % kWordBits : Nat) : Int) * kPacketSize + rel := by ring
  constructor
  · rintro ⟨j, hj, hone⟩
    have hne : scratchSrcs k B x ≠ [] := by
      intro h
      have := (scratchSrcs_nil_iff k B x).1 h j hj
      omega
    rw [e0, va hB' x hx hne rel h0 h1]
    unfold rowValue
    rw [scratchSrcs_eq_ones k B x (fun j hj => hB' x j hx hj)]
    apply xorSrcs_congr
    intro j _
    show mem (j / kWordBits) _ = mem (j / kWordBits) _
    rw [zero_add]
  · intro hz
    apply fr
    intro y hy hne hin
    have hxy : y ≠ x := by
      intro h
      subst h
      exact hne ((scratchSrcs_nil_iff k B y).2 hz)
    have := pkt_disjoint k y x (k + r) (fun d => d) 0 (fun _ _ _ _ h => h)
      (row_lt_np k r y _ hy (le_refl _)) (row_lt_np k r x _ hx (le_refl _)) hxy rel h0 h1
    rw [← e0] at this
    exact this hin

/-- C11, as the code has it.  For every `k`, every `r > 0`, every matrix `B`
of zeros and ones with `r * 8` rows and `k * 8` columns and every content of
the buffers, one run of the schedule of `B` leaves in the sub-packet `i mod 8`
of shard `k + i div 8` the xor of the input sub-packets `j mod 8` of the shards
`j div 8` over exactly the `j` with `B[i][j] = 1` when row `i` has a one; the
sub-packet of a row without a one is left as it was (no tuple targets it). -/
theorem schedule_computes_rows (k r : Nat) (B : Nat → Nat) (hr : 0 < r)
    (hB : ∀ x j, x < r * kWordBits → j < k * kWordBits → B (x * (k * kWordBits) + j) ≤ 1)
    (mem : Shards) (i : Nat) (hi : i < r * kWordBits) (rel : Int) (h0 : 0 ≤ rel)
    (h1 : rel < kPacketSize) :
    ((∃ j, j < k * kWordBits ∧ B (i * (k * kWordBits) + j) = 1) →
      _DoScheduleOperations_stripe (fun d => ⟨d, 0⟩) (_BitMatrixToSchedule k r B) mem
          (k + i / kWordBits) (((i % kWordBits : Nat) : Int) * kPacketSize + rel)
        = xorSrcs (fun j => mem (j / kWordBits) (((j % kWordBits : Nat) : Int) * kPacketSize + rel))
            ((List.range (k * kWordBits)).filter
              (fun j => decide (B (i * (k * kWordBits) + j) = 1)))) ∧
    ((∀ j, j < k * kWordBits → B (i * (k * kWordBits) + j) = 0) →
      _DoScheduleOperations_stripe (fun d => ⟨d, 0⟩) (_BitMatrixToSchedule k r B) mem
          (k + i / kWordBits) (((i % kWordBits : Nat) : Int) * kPacketSize + rel)
        = mem (k + i / kWordBits) (((i % kWordBits : Nat) : Int) * kPacketSize + rel)) :=
  schedule_rows k r B hr hB mem i hi rel h0 h1

theorem schedule_computes_rows_witness :
    _DoScheduleOperations_stripe (fun d => ⟨d, 0⟩)
        (_BitMatrixToSchedule 1 1 (fun idx => if idx % 9 = 0 then 1 else 0)) (fun _ _ => 5)
        (1 + 0 / kWordBits) (((0 % kWordBits : Nat) : Int) * kPacketSize + 0)
      = xorSrcs (fun j => (fun _ _ => 5 : Shards) (j / kWordBits)
            (((j % kWordBits : Nat) : Int) * kPacketSize + 0))
          ((List.range (1 * kWordBits)).filter
            (fun j => decide ((fun idx => if idx % 9 = 0 then 1 else 0 : Nat → Nat)
              (0 * (1 * kWordBits) + j) = 1))) :=
  (schedule_computes_rows 1 1 (fun idx => if idx % 9 = 0 then 1 else 0) (by decide)
    (fun x j _ _ => by
      show (if (x * (1 * kWordBits) + j) % 9 = 0 then 1 else 0) ≤ 1
      split <;> omega)
    (fun _ _ => 5) 0 (by decide) 0 (by decide) (by decide)).1 ⟨0, by decide, by decide⟩

/-- C11, the counterexample.  For `k = r = 1` and the matrix of zeros, row 0
has no one, so the claim asks for the all-zero packet in sub-packet 0 of shard
1; the schedule holds no tuple for the row and byte 0 of the sub-packet keeps
the `7` it held. -/
theorem schedule_skips_zero_row :
    (∀ j, j < 1 * kWordBits → (fun _ => 0 : Nat → Nat) (0 * (1 * kWordBits) + j) ≠ 1) ∧
    xorSrcs (fun j => (fun b _ => if b = 1 then 7 else 0 : Shards) (j / kWordBits)
        (((j % kWordBits : Nat) : Int) * kPacketSize + 0))
      ((List.range (1 * kWordBits)).filter
        (fun j => decide ((fun _ => 0 : Nat → Nat) (0 * (1 * kWordBits) + j) = 1))) = 0 ∧
    _DoScheduleOperations_stripe (fun d => ⟨d, 0⟩) (_BitMatrixToSchedule 1 1 (fun _ => 0))
      (fun b _ => if b = 1 then 7 else 0) (1 + 0 / kWordBits)
      (((0 % kWordBits : Nat) : Int) * kPacketSize + 0) = 7 := by
  refine ⟨fun j _ => Nat.zero_ne_one, by decide, ?_⟩
  rw [(schedule_rows 1 1 (fun _ => 0) (by decide) (fun _ _ _ _ => Nat.zero_le _)
    (fun b _ => if b = 1 then 7 else 0) 0 (by decide) 0 (by decide) (by decide)).2
    (fun _ _ => rfl)]
  rfl

/-- The range of a product and when it is zero. -/
theorem Multiply_range (x y : Nat) (hx : x < 256) (hy : y < 256) :
    0 ≤ Multiply (x : Int) (y : Int) ∧ Multiply (x : Int) (y : Int) < 256 ∧
    (Multiply (x : Int) (y : Int) = 0 ↔ x = 0 ∨ y = 0) := by
  have h := GF256.mul_cast ⟨x, hx⟩ ⟨y, hy⟩
  have hv := GF256.mul_val ⟨x, hx⟩ ⟨y, hy⟩
  have hl := (GF256.mul ⟨x, hx⟩ ⟨y, hy⟩).lt
  rw [show (GF256.mk x hx).val = x from rfl, show (GF256.mk y hy).val = y from rfl] at h hv
  rw [h]
  refine ⟨by omega, by omega, ?_⟩
  by_cases hz : x = 0 ∨ y = 0
  · rw [if_pos hz] at hv
    rw [hv]
    simp [hz]
  · rw [if_neg hz] at hv
    have := alog_range (lg x + lg y)
    constructor
    · intro h0
      have : (GF256.mul ⟨x, hx⟩ ⟨y, hy⟩).val = 0 := by exact_mod_cast h0
      omega
    · intro h0
      exact absurd h0 hz

/-- C12. `Multiply` is the multiplication of GF(2^8): for all `x, y` in
`[0, 256)` it is the carry-less product of `x` and `y` reduced modulo the
polynomial 285; it lies in `[0, 256)` and is `0` exactly when `x = 0` or
`y = 0`. -/
theorem Multiply_is_polynomial_product (x y : Nat) (hx : x < 256) (hy : y < 256) :
    Multiply (x : Int) (y : Int) = ((specMultiply x y : Nat) : Int) ∧
    0 ≤ Multiply (x : Int) (y : Int) ∧ Multiply (x : Int) (y : Int) < 256 ∧
    (Multiply (x : Int) (y : Int) = 0 ↔ x = 0 ∨ y = 0) :=
  ⟨Multiply_spec_nat x y hx hy, Multiply_range x y hx hy⟩

theorem Multiply_is_polynomial_product_witness :
    Multiply ((87 : Nat) : Int) ((131 : Nat) : Int) = ((specMultiply 87 131 : Nat) : Int) ∧
    0 ≤ Multiply ((87 : Nat) : Int) ((131 : Nat) : Int) ∧
    Multiply ((87 : Nat) : Int) ((131 : Nat) : Int) < 256 ∧
    (Multiply ((87 : Nat) : Int) ((131 : Nat) : Int) = 0 ↔ 87 = 0 ∨ 131 = 0) :=
  Multiply_is_polynomial_product 87 131 (by decide) (by decide)

/-- C13. Division inverts multiplication: for `x` in `[0, 256)` and `y` in
`[1, 256)`, `Multiply(Divide(x, y), y) = x` and `Divide(Multiply(x, y), y) = x`;
`Divide(0, y) = 0`; and `Divide(z, 0)` is the sentinel `-1` for every `z`, zero
included. -/
theorem Divide_inverts_Multiply (x y : Nat) (hx : x < 256) (hy0 : 1 ≤ y) (hy : y < 256) :
    Multiply (Divide (x : Int) (y : Int)) (y : Int) = (x : Int) ∧
    Divide (Multiply (x : Int) (y : Int)) (y : Int) = (x : Int) ∧
    Divide 0 (y : Int) = 0 ∧ (∀ z : Int, Divide z 0 = -1) :=
  ⟨Multiply_Divide_nat x y hx hy (by omega), Divide_Multiply_nat x y hx hy (by omega),
    Divide_zero_left _ (by exact_mod_cast (show y ≠ 0 by omega)), Divide_zero_right⟩

theorem Divide_inverts_Multiply_witness :
    Multiply (Divide ((200 : Nat) : Int) ((3 : Nat) : Int)) ((3 : Nat) : Int) = ((200 : Nat) : Int) ∧
    Divide (Multiply ((200 : Nat) : Int) ((3 : Nat) : Int)) ((3 : Nat) : Int) = ((200 : Nat) : Int) ∧
    Divide 0 ((3 : Nat) : Int) = 0 ∧ (∀ z : Int, Divide z 0 = -1) :=
  Divide_inverts_Multiply 200 3 (by decide) (by decide) (by decide)

/-- C14. The first row is normalised: for `k, m > 0` with `k + m ≤ 256`,
every entry of row 0 of the matrix that `_GenerateEncodeMatrix` returns is
`1`. -/
theorem first_row_all_ones (k m : Nat) (hm : 0 < m) (hkm : k + m ≤ 256) (j : Nat) (hj : j < k) :
    _GenerateEncodeMatrix k m (0 * k + j) = 1 := by
  rw [Nat.zero_mul, Nat.zero_add]
  exact GenerateEncodeMatrix_first_row k m hm hkm j hj

theorem first_row_all_ones_witness : _GenerateEncodeMatrix 3 2 (0 * 3 + 1) = 1 :=
  first_row_all_ones 3 2 (by decide) (by decide) 1 (by decide)

/-- C15. Stripes are coded one by one: for every `n ≥ 1`, `size = n * 32768`
and stripe `s < n`, the bytes of stripe `s` of every buffer after `Encode` on
the whole buffers
are the bytes after a single-stripe `Encode` (`size = 32768`) on stripe `s`
alone; so they depend only on stripe `s` of the input. -/
theorem Encode_stripe_by_stripe (k m : Nat) (hm : 0 < m) (n : Nat) (s : Nat)
    (hs : s < n) (mem : Shards) :
    (∀ b o, 0 ≤ o → o < 32768 →
      (Encode (_Init k m) ((n : Int) * 32768) mem).2 b ((s : Int) * 32768 + o)
        = (Encode (_Init k m) 32768 (stripeOf mem s)).2 b o) ∧
    (∀ mem' : Shards,
      (∀ b o, 0 ≤ o → o < 32768 → mem' b ((s : Int) * 32768 + o) = mem b ((s : Int) * 32768 + o)) →
      ∀ b o, 0 ≤ o → o < 32768 →
        (Encode (_Init k m) ((n : Int) * 32768) mem').2 b ((s : Int) * 32768 + o)
          = (Encode (_Init k m) ((n : Int) * 32768) mem).2 b ((s : Int) * 32768 + o)) := by
  have hB : ∀ idx, (_Init k m).m_encoding_bit_matrix idx ≤ 1 :=
    fun idx => MatrixToBitMatrix_le_one k m _ idx
  constructor
  · intro b o h0 h1
    exact Encode_stripe (_Init k m) hm rfl hB n s hs mem (stripeOf mem s) (fun _ _ _ _ => rfl)
      b o h0 h1
  · intro mem' hag b o h0 h1
    rw [Encode_stripe (_Init k m) hm rfl hB n s hs mem' (stripeOf mem s)
        (fun b o h0 h1 => (hag b o h0 h1).symm) b o h0 h1,
      Encode_stripe (_Init k m) hm rfl hB n s hs mem (stripeOf mem s) (fun _ _ _ _ => rfl)
        b o h0 h1]

theorem Encode_stripe_by_stripe_witness :
    (Encode (_Init 2 1) (((2 : Nat) : Int) * 32768) (fun b o => b + o.toNat % 7)).2 2
        (((1 : Nat) : Int) * 32768 + 5)
      = (Encode (_Init 2 1) 32768 (stripeOf (fun b o => b + o.toNat % 7) 1)).2 2 5 :=
  (Encode_stripe_by_stripe 2 1 (by decide) 2 1 (by decide)
    (fun b o => b + o.toNat % 7)).1 2 5 (by decide) (by decide)

/-- C17. The bit-matrix expansion represents the multiplication: for an
element `a = M[i][j]` in `[0, 256)` and `x` in `[0, 256)`, bit `n` of
`Multiply(a, x)` is the xor over `c` in `[0, 8)` of the cell `[n][c]` of the
`8 * 8` block of `_MatrixToBitMatrix(M)` at rows `i * 8 ..`, columns `j * 8 ..`,
and bit `c` of `x`; column `c` of the block holds the bits of `a * 2^c`; and
every cell of the bit matrix is `0` or `1`. -/
theorem bit_matrix_block_multiplies (k m : Nat) (M : Nat → Int) (i j : Nat) (hi : i < m)
    (hj : j < k) (a : Nat) (ha : a < 256) (hM : M (i * k + j) = (a : Int)) (x : Nat)
    (hx : x < 256) (n : Nat) (hn : n < 8) :
    bitOf (Multiply (a : Int) (x : Int)) n
      = xorSrcs (fun c => _MatrixToBitMatrix k m M ((i * 8 + n) * (k * 8) + (j * 8 + c))
          &&& bitOf (x : Int) c) (List.range 8) ∧
    (∀ c, c < 8 → _MatrixToBitMatrix k m M ((i * 8 + n) * (k * 8) + (j * 8 + c))
      = bitOf (Multiply (a : Int) ((2 ^ c : Nat) : Int)) n) ∧
    (∀ idx, _MatrixToBitMatrix k m M idx ≤ 1) := by
  refine ⟨?_, ?_, fun idx => MatrixToBitMatrix_le_one k m M idx⟩
  · rw [Multiply_bits a x ha hx n]
    apply xorSrcs_congr
    intro c hc
    rw [block_cell k m M i j hi hj n c hn (List.mem_range.1 hc), hM]
  · intro c hc
    rw [block_cell k m M i j hi hj n c hn hc, hM, mulPow_eq_Multiply a c ha hc]

theorem bit_matrix_block_multiplies_witness :
    bitOf (Multiply ((3 : Nat) : Int) ((5 : Nat) : Int)) 1
      = xorSrcs (fun c => _MatrixToBitMatrix 1 1 (fun _ => 3) ((0 * 8 + 1) * (1 * 8) + (0 * 8 + c))
          &&& bitOf ((5 : Nat) : Int) c) (List.range 8) :=
  (bit_matrix_block_multiplies 1 1 (fun _ => 3) 0 0 (by decide) (by decide) 3 (by decide) rfl 5
    (by decide) 1 (by decide)).1

/-- C18. The inversion over GF(2) is correct: for every `n` and every
invertible `n * n` matrix `A` of zeros and ones, `_InvertBitMatrix` finds a
pivot row below `n` in every column (it never reads row `n`), ends with its
working copy of `A` the identity, and leaves in `inverse` a matrix of zeros and
ones with `inverse * A = A * inverse = 1` over GF(2). -/
theorem InvertBitMatrix_inverts (n : Nat) (A inverse : Nat → Nat)
    (hA : ∀ r c, r < n → c < n → A (r * n + c) ≤ 1) (hinv : IsUnit (bitMatrix n A)) :
    ∃ res, _InvertBitMatrix A inverse n = some res ∧
      (∀ r c, r < n → c < n → res.1 (r * n + c) = if r = c then 1 else 0) ∧
      (∀ r c, r < n → c < n → res.2 (r * n + c) ≤ 1) ∧
      bitMatrix n res.2 * bitMatrix n A = 1 ∧ bitMatrix n A * bitMatrix n res.2 = 1 := by
  obtain ⟨h1, h2, _⟩ := InvertBitMatrix_spec n A inverse hA
  have hdet : (bitMatrix n A).det ≠ 0 :=
    isUnit_iff_ne_zero.1 ((Matrix.isUnit_iff_isUnit_det _).1 hinv)
  obtain ⟨res, hres⟩ := h2 hdet
  exact ⟨res, hres, h1 res hres⟩

theorem InvertBitMatrix_inverts_witness :
    ∃ res, _InvertBitMatrix (fun idx => if idx = 2 then 0 else 1) (fun _ => 0) 2 = some res ∧
      (∀ r c, r < 2 → c < 2 → res.1 (r * 2 + c) = if r = c then 1 else 0) ∧
      (∀ r c, r < 2 → c < 2 → res.2 (r * 2 + c) ≤ 1) ∧
      bitMatrix 2 res.2 * bitMatrix 2 (fun idx => if idx = 2 then 0 else 1) = 1 ∧
      bitMatrix 2 (fun idx => if idx = 2 then 0 else 1) * bitMatrix 2 res.2 = 1 :=
  InvertBitMatrix_inverts 2 (fun idx => if idx = 2 then 0 else 1) (fun _ => 0)
    (fun r c _ _ => by
      show (if r * 2 + c = 2 then 0 else 1) ≤ 1
      split <;> omega)
    (by
      rw [Matrix.isUnit_iff_isUnit_det, Matrix.det_fin_two]
      simp only [bitMatrix_apply]
      decide)

/-- C20. `_CountCauchyOnes` agrees with the expansion: for every `a` in
`[0, 256)` it returns the sum over `c` in `[0, 8)` of the number of one bits of
`a * 2^c`, the product taken in GF(2^8), which is the number of ones of the
`8 * 8` block that `_MatrixToBitMatrix` writes for an element `a`.  The statics
of the source hold the same values on the first call and on every later one. -/
theorem CountCauchyOnes_counts_block (a : Nat) (ha : a < 256) :
    _CountCauchyOnes (a : Int)
      = (((List.range 8).foldl
          (fun s c => s + onesOf (Multiply (a : Int) ((2 ^ c : Nat) : Int))) 0 : Nat) : Int) ∧
    (∀ (k m : Nat) (M : Nat → Int) (i j : Nat), i < m → j < k → M (i * k + j) = (a : Int) →
      _CountCauchyOnes (a : Int)
        = (((List.range 8).foldl
            (fun s c => s + (List.range 8).foldl
              (fun t n => t + _MatrixToBitMatrix k m M ((i * 8 + n) * (k * 8) + (j * 8 + c))) 0)
            0 : Nat) : Int)) := by
  constructor
  · rw [CountCauchyOnes_block a ha]
    congr 1
    unfold blockOnes
    apply List.foldl_ext
    intro s c hc
    rw [mulPow_eq_Multiply a c ha (List.mem_range.1 hc)]
  · intro k m M i j hi hj hM
    rw [CountCauchyOnes_block a ha]
    congr 1
    unfold blockOnes
    apply List.foldl_ext
    intro s c hc
    congr 1
    unfold onesOf
    apply List.foldl_ext
    intro t n hn
    rw [block_cell k m M i j hi hj n c (List.mem_range.1 hn) (List.mem_range.1 hc), hM]

theorem CountCauchyOnes_counts_block_witness :
    _CountCauchyOnes ((1 : Nat) : Int)
      = (((List.range 8).foldl
          (fun s c => s + onesOf (Multiply ((1 : Nat) : Int) ((2 ^ c : Nat) : Int))) 0 : Nat) : Int) :=
  (CountCauchyOnes_counts_block 1 (by decide)).1

end CauchyRSCoder

namespace CauchyRSCoder

open GaloisOperator

/-! ## One round of the scheduler -/

theorem unlink_frame (s : Sched) (x : Int) :
    (_BitMatrixToSchedule_unlink s x).diff = s.diff ∧
    (_BitMatrixToSchedule_unlink s x).frm = s.frm ∧
    (_BitMatrixToSchedule_unlink s x).operations = s.operations := by
  unfold _BitMatrixToSchedule_unlink
  dsimp only
  split
  · split <;> exact ⟨rfl, rfl, rfl⟩
  · split <;> exact ⟨rfl, rfl, rfl⟩

theorem scan_operations (k : Nat) (B : Nat → Nat) (x : Int) (fuel : Nat) (i : Int) (s : Sched) :
    (_BitMatrixToSchedule_scan k B x fuel i s).operations = s.operations := by
  induction fuel generalizing i s with
  | zero => rfl
  | succ fuel ih =>
    unfold _BitMatrixToSchedule_scan
    split
    · dsimp only
      rw [ih]
      exact (rate_flink k B x i s).2.2.2
    · rfl

/-- The tuples that one round of `while (top != -1)` appends. -/
theorem round_operations (k r : Nat) (B : Nat → Nat) (s : Sched) :
    (_BitMatrixToSchedule_round k r B s).operations
      = if load s.frm s.best_row_index = -1 then
          _BitMatrixToSchedule_scratch k B s.best_row_index s.operations
        else
          _BitMatrixToSchedule_derive k B s.best_row_index (load s.frm s.best_row_index)
            s.operations := by
  unfold _BitMatrixToSchedule_round
  dsimp only
  rw [scan_operations]
  obtain ⟨_, h2, h3⟩ := unlink_frame s s.best_row_index
  rw [h2, h3]

/-- The tuples of a derived row: a copy from the row it is derived from, then
xors from data sub-packets. -/
theorem derive_shape (k : Nat) (B : Nat → Nat) (x p : Nat) (ops : List Tuple) :
    _BitMatrixToSchedule_derive k B x p ops
      = ops ++ fromTuple k x p :: (deriveSrcs k B x p).map (fun j => srcTuple k x j 1) := by
  rw [derive_append, ← rowGroup_derive]
  unfold rowGroup
  rw [if_neg (by omega)]

end CauchyRSCoder

namespace CauchyRSCoder

open GaloisOperator

/-! ## The order of the tuples of a schedule -/

theorem srcTuple_src_lt (k x j : Nat) (op : Int) (hj : j < k * kWordBits) :
    (srcTuple k x j op).src_dev < (k : Int) := by
  show (j : Int) / kWordBits < (k : Int)
  unfold kWordBits at *
  omega

/-- A tuple of a row that reads an output row is the copy from the row that
the row is derived from. -/
theorem rowGroup_from (k : Nat) (B : Nat → Nat) (x : Nat) (f : Int)
    (hf : f = -1 ∨ ∃ p : Nat, f = (p : Int)) (pre : List Tuple) (t : Tuple) (post : List Tuple)
    (h : rowGroup k B x f = pre ++ t :: post) (hsrc : (k : Int) ≤ t.src_dev) :
    pre = [] ∧ ∃ p : Nat, f = (p : Int) ∧ (t.src_dev, t.src_bit) = rowDst k p := by
  have hmap : ∀ js : List Nat, (∀ j, j ∈ js → j < k * kWordBits) → ∀ op,
      t ∉ js.map (fun j => srcTuple k x j op) := by
    intro js hjs op ht
    obtain ⟨j, hj, rfl⟩ := List.mem_map.1 ht
    have := srcTuple_src_lt k x j op (hjs j hj)
    omega
  rcases hf with rfl | ⟨p, rfl⟩
  · exfalso
    rw [rowGroup_scratch] at h
    have hjs : ∀ j, j ∈ scratchSrcs k B x → j < k * kWordBits := by
      intro j hj
      unfold scratchSrcs at hj
      exact List.mem_range.1 (List.mem_filter.1 hj).1
    have ht : t ∈ copyThenXor k x (scratchSrcs k B x) := by rw [h]; simp
    cases hs : scratchSrcs k B x with
    | nil => rw [hs] at ht; cases ht
    | cons j js =>
      rw [hs] at ht hjs
      rcases List.mem_cons.1 ht with h1 | h1
      · have := srcTuple_src_lt k x j 0 (hjs j (List.mem_cons_self _ _))
        rw [← h1] at this
        omega
      · exact hmap js (fun j' hj' => hjs j' (List.mem_cons_of_mem _ hj')) 1 h1
  · rw [rowGroup_derive] at h
    have hjs : ∀ j, j ∈ deriveSrcs k B x p → j < k * kWordBits := by
      intro j hj
      unfold deriveSrcs at hj
      exact List.mem_range.1 (List.mem_filter.1 hj).1
    cases pre with
    | nil =>
      simp only [List.nil_append, List.cons.injEq] at h
      exact ⟨rfl, p, rfl, by rw [← h.1]; rfl⟩
    | cons a pre' =>
      exfalso
      simp only [List.cons_append, List.cons.injEq] at h
      exact hmap _ hjs 1 (by rw [h.2]; simp)

/-- A row with a column that is not zero has a tuple. -/
theorem rowGroup_ne_nil (k : Nat) (B : Nat → Nat) (x : Nat) (f : Int)
    (hf : f = -1 ∨ ∃ p : Nat, f = (p : Int)) (hne : scratchSrcs k B x ≠ []) :
    rowGroup k B x f ≠ [] := by
  rcases hf with rfl | ⟨p, rfl⟩
  · rw [rowGroup_scratch]
    cases hs : scratchSrcs k B x with
    | nil => exact absurd hs hne
    | cons j js => simp [copyThenXor]
  · rw [rowGroup_derive]
    simp

/-- The tuples of a plan, run by run. -/
theorem planOps_ordering (k : Nat) (B : Nat → Nat) (done : List (Nat × Int))
    (hnd : (done.map Prod.fst).Nodup) (hok : PlanOK k B done) :
    (∀ pre a mid c post, planOps k B done = pre ++ a :: (mid ++ c :: post) → a.dst = c.dst →
      ∀ b, b ∈ mid → b.dst = a.dst) ∧
    (∀ pre t post, planOps k B done = pre ++ t :: post → (k : Int) ≤ t.src_dev →
      (∃ p, p ∈ done.map Prod.fst ∧ (t.src_dev, t.src_bit) = rowDst k p) ∧
      (∃ u, u ∈ pre ∧ u.dst = (t.src_dev, t.src_bit)) ∧
      ∀ u, u ∈ t :: post → u.dst ≠ (t.src_dev, t.src_bit)) ∧
    (∀ x f, (x, f) ∈ done → scratchSrcs k B x ≠ [] →
      ∃ u, u ∈ planOps k B done ∧ u.dst = rowDst k x) := by
  induction done with
  | nil =>
    refine ⟨fun pre a mid c post h => ?_, fun pre t post h => ?_, fun x f h => (by cases h)⟩
    · simp [planOps] at h
    · simp [planOps] at h
  | cons e older ih =>
    obtain ⟨x, f⟩ := e
    obtain ⟨hf, hok2⟩ := hok
    have hnd2 : (older.map Prod.fst).Nodup := (List.nodup_cons.1 hnd).2
    have hx : x ∉ older.map Prod.fst := (List.nodup_cons.1 hnd).1
    obtain ⟨ih1, ih2, ih3⟩ := ih hnd2 hok2
    obtain ⟨_, hrows⟩ := planOps_firstCopy k B older hnd2 hok2
    have hf' : f = -1 ∨ ∃ p : Nat, f = (p : Int) := by
      rcases hf with h | ⟨p, _, h, _⟩
      · exact Or.inl h
      · exact Or.inr ⟨p, h⟩
    obtain ⟨g1, _⟩ := rowGroup_shape k B x f hf'
    have g1' : ∀ t, t ∈ rowGroup k B x f → t.dst = rowDst k x := g1
    have hA : ∀ u, u ∈ planOps k B older → u.dst ≠ rowDst k x := by
      intro u hu heq
      obtain ⟨y, g, hy, _, hd⟩ := hrows u hu
      rw [hd] at heq
      have := rowDst_inj k y x heq
      subst this
      exact hx (List.mem_map.2 ⟨(y, g), hy, rfl⟩)
    have hunfold : planOps k B ((x, f) :: older) = planOps k B older ++ rowGroup k B x f := rfl
    refine ⟨?_, ?_, ?_⟩
    · -- the runs
      intro pre a mid c post heq hac b hb
      rw [hunfold] at heq
      have inG : ∀ a', rowGroup k B x f = a' ++ a :: (mid ++ c :: post) → b.dst = a.dst := by
        intro a' hg
        rw [g1' b (by rw [hg]; simp [hb]), g1' a (by rw [hg]; simp)]
      have cInG : ∀ m', rowGroup k B x f = m' ++ c :: post → a ∈ planOps k B older → False := by
        intro m' hg ha
        exact hA a ha (hac.trans (g1' c (by rw [hg]; simp)))
      rcases List.append_eq_append_iff.1 heq with ⟨a', hpre, hg⟩ | ⟨c', hO, hc⟩
      · exact inG a' hg
      · cases c' with
        | nil =>
          rw [List.nil_append] at hc
          exact inG [] hc.symm
        | cons v c'' =>
          simp only [List.cons_append, List.cons.injEq] at hc
          obtain ⟨rfl, hc⟩ := hc
          have haO : a ∈ planOps k B older := by rw [hO]; simp
          rcases List.append_eq_append_iff.1 hc.symm with ⟨m', hmid, hg⟩ | ⟨c2, hc2, hg⟩
          · exact absurd haO (fun h => cInG m' hg h)
          · cases c2 with
            | nil =>
              rw [List.nil_append] at hg
              exact absurd haO (fun h => cInG [] hg.symm h)
            | cons w c3 =>
              simp only [List.cons_append, List.cons.injEq] at hg
              obtain ⟨rfl, _⟩ := hg
              rw [hc2] at hO
              exact ih1 pre a mid c c3 hO hac b hb
    · -- the copies from output rows
      intro pre t post heq hsrc
      rw [hunfold] at heq
      have inG : ∀ a', pre = planOps k B older ++ a' → rowGroup k B x f = a' ++ t :: post →
          (∃ p, p ∈ ((x, f) :: older).map Prod.fst ∧ (t.src_dev, t.src_bit) = rowDst k p) ∧
          (∃ u, u ∈ pre ∧ u.dst = (t.src_dev, t.src_bit)) ∧
          ∀ u, u ∈ t :: post → u.dst ≠ (t.src_dev, t.src_bit) := by
        intro a' hpre hg
        obtain ⟨ha', p, hfp, hp⟩ := rowGroup_from k B x f hf' a' t post hg hsrc
        rcases hf with h | ⟨q, hq, hfq, hrate⟩
        · exfalso
          rw [h] at hfp
          omega
        · have hpq : p = q := by
            rw [hfp] at hfq
            exact_mod_cast hfq
          subst hpq
          obtain ⟨⟨y, g⟩, hyg, hy⟩ := List.mem_map.1 hq
          have hy' : y = p := hy
          subst hy'
          obtain ⟨u, hu, hud⟩ := ih3 y g hyg (rated_rows_nonzero k B y x hrate).2
          refine ⟨⟨y, List.mem_cons_of_mem _ hq, hp⟩, ⟨u, by rw [hpre]; simp [hu], by rw [hud, hp]⟩,
            ?_⟩
          intro w hw hwd
          have hwg : w ∈ rowGroup k B x f := by rw [hg]; simp [List.mem_cons.1 hw]
          rw [g1' w hwg, hp] at hwd
          have := rowDst_inj k x y hwd
          subst this
          exact hx hq
      rcases List.append_eq_append_iff.1 heq with ⟨a', hpre, hg⟩ | ⟨c', hO, hc⟩
      · exact inG a' hpre hg
      · cases c' with
        | nil =>
          rw [List.nil_append] at hc
          rw [List.append_nil] at hO
          exact inG [] (by rw [hO, List.append_nil]) hc.symm
        | cons v c'' =>
          simp only [List.cons_append, List.cons.injEq] at hc
          obtain ⟨rfl, hc⟩ := hc
          obtain ⟨⟨p, hp, hpd⟩, ⟨u, hu, hud⟩, h3⟩ := ih2 pre t c'' hO hsrc
          refine ⟨⟨p, List.mem_cons_of_mem _ hp, hpd⟩, ⟨u, hu, hud⟩, ?_⟩
          intro w hw
          rw [hc] at hw
          rcases List.mem_cons.1 hw with h | h
          · exact h3 w (by rw [h]; simp)
          · rcases List.mem_append.1 h with h' | h'
            · exact h3 w (List.mem_cons_of_mem _ h')
            · intro hwd
              rw [g1' w h'] at hwd
              exact hA u (by rw [hO]; simp [hu]) (hud.trans hwd.symm)
    · intro y g hy hne
      rw [hunfold]
      rcases List.mem_cons.1 hy with h | h
      · obtain ⟨rfl, rfl⟩ := Prod.mk.inj h
        cases hg : rowGroup k B y g with
        | nil => exact absurd hg (rowGroup_ne_nil k B y g hf' hne)
        | cons u rest =>
          exact ⟨u, by simp, g1' u (by rw [hg]; simp)⟩
      · obtain ⟨u, hu, hud⟩ := ih3 y g h hne
        exact ⟨u, List.mem_append_left _ hu, hud⟩

end CauchyRSCoder

namespace CauchyRSCoder

open GaloisOperator

/-! ## The rounds of the scheduler and the number of tuples -/

theorem init_diffExact (k r : Nat) (B : Nat → Nat) :
    DiffExact k B (List.range (r * kWordBits)) (_BitMatrixToSchedule_init k r B) := by
  obtain ⟨h1, _, _, _⟩ := init_loop k B (r * kWordBits)
  intro i hi
  left
  rw [load_natCast, load_natCast]
  exact ⟨(h1 i (List.mem_range.1 hi)).2.1, (h1 i (List.mem_range.1 hi)).1⟩

/-- The state after `t` rounds of `while (top != -1)`: `t` rows are emitted,
the others are linked and their entries `diff` are exact. -/
theorem rounds_inv (k r : Nat) (B : Nat → Nat) (hr : 0 < r) (t : Nat) (ht : t ≤ r * kWordBits) :
    ∃ L done, SchedInv k (r * kWordBits) B
        ((_BitMatrixToSchedule_round k r B)^[t] (_BitMatrixToSchedule_init k r B)) L done ∧
      DiffExact k B L ((_BitMatrixToSchedule_round k r B)^[t] (_BitMatrixToSchedule_init k r B)) ∧
      L.length + t = r * kWordBits := by
  induction t with
  | zero =>
    exact ⟨_, _, init_inv k r B hr, init_diffExact k r B, by simp⟩
  | succ t ih =>
    obtain ⟨L, done, h1, h2, h3⟩ := ih (by omega)
    have hL : L ≠ [] := by
      intro h
      rw [h] at h3
      simp at h3
      omega
    obtain ⟨x, hx, _, h4, h5⟩ := round_step k r B _ L done h1 hL
    rw [Function.iterate_succ_apply']
    refine ⟨_, _, h4, h5 h2, ?_⟩
    have := List.length_erase_of_mem hx
    have : 0 < L.length := List.length_pos.2 hL
    omega

/-- The loop `while (top != -1)` runs one round for every linked row. -/
theorem while_eq_iterate (k r : Nat) (B : Nat → Nat) (fuel : Nat) (s : Sched) (L : List Nat)
    (done : List (Nat × Int)) (h : SchedInv k (r * kWordBits) B s L done)
    (hfuel : L.length ≤ fuel) :
    _BitMatrixToSchedule_while k r B fuel s = (_BitMatrixToSchedule_round k r B)^[L.length] s := by
  induction fuel generalizing s L done with
  | zero =>
    have : L = [] := List.length_eq_zero.1 (by omega)
    subst this
    rfl
  | succ fuel ih =>
    cases L with
    | nil =>
      have htop : s.top = -1 := h.fwd
      simp only [_BitMatrixToSchedule_while, htop, ne_eq, not_true_eq_false, if_false]
      rfl
    | cons a t =>
      have htop : s.top ≠ -1 := by
        have : s.top = (a : Int) := h.fwd.1
        omega
      obtain ⟨x, hx, _, h2, _⟩ := round_step k r B s (a :: t) done h (by simp)
      simp only [_BitMatrixToSchedule_while, htop, ne_eq, not_false_eq_true, if_true]
      have hlen := List.length_erase_of_mem hx
      simp only [List.length_cons] at hfuel hlen
      rw [ih _ _ _ h2 (by rw [hlen]; omega), hlen]
      simp only [List.length_cons, Nat.add_sub_cancel, Function.iterate_succ_apply]

/-- The schedule is the list of tuples after `r * 8` rounds, then the sentinel. -/
theorem schedule_eq_rounds (k r : Nat) (B : Nat → Nat) (hr : 0 < r) :
    _BitMatrixToSchedule k r B
      = ((_BitMatrixToSchedule_round k r B)^[r * kWordBits]
          (_BitMatrixToSchedule_init k r B)).operations ++ [sentinel] := by
  unfold _BitMatrixToSchedule
  dsimp only
  rw [while_eq_iterate k r B _ _ _ _ (init_inv k r B hr) (by simp)]
  simp only [List.length_range]

theorem copyThenXor_length (k x : Nat) (js : List Nat) :
    (copyThenXor k x js).length = js.length := by
  cases js with
  | nil => rfl
  | cons j t => simp [copyThenXor]

/-- The count of ones of a row is the number of its cells that are one. -/
theorem rowOnes_eq_length (k : Nat) (B : Nat → Nat) (x : Nat) :
    rowOnes k B x
      = (((List.range (k * kWordBits)).filter
          (fun j => decide (B (x * (k * kWordBits) + j) = 1))).length : Int) := by
  unfold rowOnes
  have key : ∀ n, forLoop n (fun j (c : Int) => if B (x * (k * kWordBits) + j) = 1 then c + 1 else c) 0
      = (((List.range n).filter (fun j => decide (B (x * (k * kWordBits) + j) = 1))).length : Int) := by
    intro n
    induction n with
    | zero => rfl
    | succ n ih =>
      rw [forLoop_succ, ih, List.range_succ, List.filter_append, List.length_append]
      by_cases hB : B (x * (k * kWordBits) + n) = 1
      · rw [if_pos hB]
        simp [List.filter, hB]
      · rw [if_neg hB]
        simp [List.filter, hB]
  exact key _

/-- The rating of a row of zeros and ones against another is one plus the
number of columns in which the two differ. -/
theorem rowRate_eq_length (k : Nat) (B : Nat → Nat) (p x : Nat)
    (hp : ∀ j, j < k * kWordBits → B (p * k * kWordBits + j) ≤ 1)
    (hx : ∀ j, j < k * kWordBits → B (x * k * kWordBits + j) ≤ 1) :
    rowRate k B p x = 1 + ((deriveSrcs k B x p).length : Int) := by
  unfold rowRate deriveSrcs
  have key : ∀ n, n ≤ k * kWordBits →
      forLoop n (fun j (c : Int) =>
          c + ((B (p * k * kWordBits + j) ^^^ B (x * k * kWordBits + j) : Nat) : Int)) 1
      = 1 + (((List.range n).filter
          (fun j => decide (B (x * k * kWordBits + j) ^^^ B (p * k * kWordBits + j) ≠ 0))).length
            : Int) := by
    intro n hn
    induction n with
    | zero => rfl
    | succ n ih =>
      rw [forLoop_succ, ih (by omega), List.range_succ, List.filter_append, List.length_append]
      have h1 := hp n (by omega)
      have h2 := hx n (by omega)
      have hle := xor_le_one _ _ h1 h2
      have hc : B (x * k * kWordBits + n) ^^^ B (p * k * kWordBits + n)
          = B (p * k * kWordBits + n) ^^^ B (x * k * kWordBits + n) := Nat.xor_comm _ _
      by_cases hB : B (p * k * kWordBits + n) ^^^ B (x * k * kWordBits + n) = 0
      · have hf : List.filter
            (fun j => decide (B (x * k * kWordBits + j) ^^^ B (p * k * kWordBits + j) ≠ 0)) [n]
              = [] := by
          simp only [List.filter, hc, hB, ne_eq, not_true_eq_false, decide_False]
        rw [hf, hB]
        simp
      · have h1' : B (p * k * kWordBits + n) ^^^ B (x * k * kWordBits + n) = 1 := by omega
        have hf : List.filter
            (fun j => decide (B (x * k * kWordBits + j) ^^^ B (p * k * kWordBits + j) ≠ 0)) [n]
              = [n] := by
          simp only [List.filter, hc, h1', ne_eq, one_ne_zero, not_false_eq_true, decide_True]
        rw [hf, h1']
        simp
        ring
  exact key _ (le_refl _)

/-- The number of tuples of a row: its count of ones when it is computed from
scratch, its rating against the row it is derived from otherwise. -/
theorem rowGroup_length (k : Nat) (B : Nat → Nat) (x : Nat)
    (hx : ∀ j, j < k * kWordBits → B (x * k * kWordBits + j) ≤ 1) :
    ((rowGroup k B x (-1)).length : Int) = rowOnes k B x ∧
    ∀ p : Nat, (∀ j, j < k * kWordBits → B (p * k * kWordBits + j) ≤ 1) →
      ((rowGroup k B x (p : Int)).length : Int) = rowRate k B p x := by
  constructor
  · rw [rowGroup_scratch, copyThenXor_length, scratchSrcs_eq_ones k B x hx, rowOnes_eq_length]
  · intro p hp
    rw [rowGroup_derive, rowRate_eq_length k B p x hp hx]
    simp only [List.length_cons, List.length_map]
    push_cast
    ring

end CauchyRSCoder

namespace CauchyRSCoder

open GaloisOperator

/-- What round `t` of `while (top != -1)` emits: the tuples of the best row,
as many as the entry `diff` of the row says. -/
theorem round_tuples (k r : Nat) (B : Nat → Nat) (hr : 0 < r)
    (hB : ∀ x j, x < r * kWordBits → j < k * kWordBits → B (x * k * kWordBits + j) ≤ 1)
    (t : Nat) (ht : t < r * kWordBits) :
    ∃ x : Nat, x < r * kWordBits ∧
      ((_BitMatrixToSchedule_round k r B)^[t] (_BitMatrixToSchedule_init k r B)).best_row_index
        = (x : Int) ∧
      ((_BitMatrixToSchedule_round k r B)^[t] (_BitMatrixToSchedule_init k r B)).top ≠ -1 ∧
      ((_BitMatrixToSchedule_round k r B)^[t + 1] (_BitMatrixToSchedule_init k r B)).operations
        = ((_BitMatrixToSchedule_round k r B)^[t] (_BitMatrixToSchedule_init k r B)).operations
          ++ rowGroup k B x
            (((_BitMatrixToSchedule_round k r B)^[t] (_BitMatrixToSchedule_init k r B)).frm x) ∧
      ((rowGroup k B x
          (((_BitMatrixToSchedule_round k r B)^[t] (_BitMatrixToSchedule_init k r B)).frm x)).length
          : Int)
        = ((_BitMatrixToSchedule_round k r B)^[t] (_BitMatrixToSchedule_init k r B)).diff x ∧
      ((((_BitMatrixToSchedule_round k r B)^[t] (_BitMatrixToSchedule_init k r B)).frm x = -1 ∧
          ((_BitMatrixToSchedule_round k r B)^[t] (_BitMatrixToSchedule_init k r B)).diff x
            = rowOnes k B x) ∨
        ∃ p : Nat, p < r * kWordBits ∧
          ((_BitMatrixToSchedule_round k r B)^[t] (_BitMatrixToSchedule_init k r B)).frm x
            = (p : Int) ∧
          ((_BitMatrixToSchedule_round k r B)^[t] (_BitMatrixToSchedule_init k r B)).diff x
            = rowRate k B p x) ∧
      ((_BitMatrixToSchedule_round k r B)^[t] (_BitMatrixToSchedule_init k r B)).diff x
        ≤ rowOnes k B x := by
  obtain ⟨L, done, h1, h2, h3⟩ := rounds_inv k r B hr t (by omega)
  rw [Function.iterate_succ_apply']
  generalize (_BitMatrixToSchedule_round k r B)^[t] (_BitMatrixToSchedule_init k r B) = s
    at h1 h2 ⊢
  have hL : L ≠ [] := by
    intro h
    rw [h] at h3
    simp at h3
    omega
  obtain ⟨x, hx, hbest, h4, _⟩ := round_step k r B s L done h1 hL
  have hmem : ∀ y, y ∈ done.map Prod.fst ++ L → y < r * kWordBits := by
    intro y hy
    exact List.mem_range.1 ((h1.perm.mem_iff).1 hy)
  have hxlt : x < r * kWordBits := hmem x (List.mem_append_right _ hx)
  have htop : s.top ≠ -1 := by
    cases L with
    | nil => exact absurd rfl hL
    | cons a l =>
      have : s.top = (a : Int) := h1.fwd.1
      omega
  have hdiff := h1.diff_le x hx
  rw [load_natCast] at hdiff
  have hlen := rowGroup_length k B x (fun j hj => hB x j hxlt hj)
  have hcase : (s.frm x = -1 ∧ s.diff x = rowOnes k B x) ∨
      ∃ p : Nat, p < r * kWordBits ∧ s.frm x = (p : Int) ∧ s.diff x = rowRate k B p x := by
    rcases h2 x hx with ⟨e1, e2⟩ | ⟨p, e1, e2⟩
    · rw [load_natCast] at e1 e2
      exact Or.inl ⟨e1, e2⟩
    · rw [load_natCast] at e1 e2
      rcases h1.frm_ok x hx with h | ⟨q, hq, hfq, _⟩
      · rw [load_natCast, e1] at h
        omega
      · rw [load_natCast, e1] at hfq
        have hpq : p = q := by exact_mod_cast hfq
        subst hpq
        exact Or.inr ⟨p, hmem p (List.mem_append_left _ hq), e1, e2⟩
  refine ⟨x, hxlt, hbest, htop, ?_, ?_, hcase, hdiff⟩
  · rw [h4.ops, h1.ops, load_natCast]
    rfl
  · rcases hcase with ⟨e1, e2⟩ | ⟨p, hp, e1, e2⟩
    · rw [e1, e2]
      exact hlen.1
    · rw [e1, e2]
      exact hlen.2 p (fun j hj => hB p j hp hj)

/-- The tuples of a plan are at most as many as the ones of its rows. -/
theorem planOps_length_le (k r : Nat) (B : Nat → Nat)
    (hB : ∀ x j, x < r * kWordBits → j < k * kWordBits → B (x * k * kWordBits + j) ≤ 1)
    (done : List (Nat × Int)) (hlt : ∀ x, x ∈ done.map Prod.fst → x < r * kWordBits)
    (hok : PlanOK k B done) :
    ((planOps k B done).length : Int) ≤ ((done.map Prod.fst).map (rowOnes k B)).sum := by
  induction done with
  | nil => simp [planOps]
  | cons e older ih =>
    obtain ⟨x, f⟩ := e
    obtain ⟨hf, hok2⟩ := hok
    have hxlt : x < r * kWordBits := hlt x (by simp)
    have ih' := ih (fun y hy => hlt y (by
      simp only [List.map_cons, List.mem_cons]
      exact Or.inr hy)) hok2
    have hlen := rowGroup_length k B x (fun j hj => hB x j hxlt hj)
    have hg : ((rowGroup k B x f).length : Int) ≤ rowOnes k B x := by
      rcases hf with rfl | ⟨p, hp, rfl, hrate⟩
      · rw [hlen.1]
      · have hplt : p < r * kWordBits := hlt p (by
          simp only [List.map_cons, List.mem_cons]
          exact Or.inr hp)
        rw [hlen.2 p (fun j hj => hB p j hplt hj)]
        exact hrate
    show ((planOps k B older ++ rowGroup k B x f).length : Int) ≤ _
    simp only [List.length_append, List.map_cons, List.sum_cons]
    push_cast
    omega

theorem sum_rowOnes_le (k : Nat) (B : Nat → Nat) (n : Nat) :
    ((List.range n).map (rowOnes k B)).sum ≤ (n : Int) * ((k : Int) * kWordBits) := by
  induction n with
  | zero => simp
  | succ n ih =>
    rw [List.range_succ, List.map_append, List.sum_append]
    have := rowOnes_le k B n
    simp only [List.map_cons, List.map_nil, List.sum_cons, List.sum_nil, add_zero]
    push_cast
    nlinarith

/-- The length of a schedule: at most one more than the ones of the matrix,
which are at most `k * r * 64`. -/
theorem schedule_length_le (k r : Nat) (B : Nat → Nat) (hr : 0 < r)
    (hB : ∀ x j, x < r * kWordBits → j < k * kWordBits → B (x * k * kWordBits + j) ≤ 1) :
    ((_BitMatrixToSchedule k r B).length : Int)
        ≤ ((List.range (r * kWordBits)).map (rowOnes k B)).sum + 1 ∧
      ((List.range (r * kWordBits)).map (rowOnes k B)).sum + 1 ≤ (k : Int) * r * 64 + 1 := by
  obtain ⟨done, h1, h2, h3, _⟩ := schedule_plan k r B hr
  constructor
  · rw [h1, List.length_append]
    have := planOps_length_le k r B hB done
      (fun x hx => List.mem_range.1 ((h2.mem_iff).1 hx)) h3
    rw [(h2.map (rowOnes k B)).sum_eq] at this
    simp only [List.length_singleton]
    push_cast
    omega
  · have := sum_rowOnes_le k B (r * kWordBits)
    unfold kWordBits at *
    push_cast at this ⊢
    nlinarith

end CauchyRSCoder

namespace CauchyRSCoder

open GaloisOperator

/-! ## The first code part is the xor of the data parts -/

theorem xtime_iter_one_bit : ∀ c : Nat, c < 8 → ∀ n : Nat, n < 8 →
    (xtime^[c] 1).testBit n = decide (n = c) := by
  decide

/-- The block of the matrix element `1` is the identity. -/
theorem mulPow_one_bit (c n : Nat) (hc : c < 8) (hn : n < 8) :
    bitOf (mulPow c 1) n = if n = c then 1 else 0 := by
  have h := (mulPow_nat c 1 (by decide)).1
  rw [show (((1 : Nat) : Int)) = 1 from rfl] at h
  rw [h, bitOf_testBit, xtime_iter_one_bit c hc n hn]
  by_cases hnc : n = c
  · rw [if_pos hnc, if_pos (by simpa using hnc)]
  · rw [if_neg hnc, if_neg (by simpa using hnc)]

/-- The first eight rows of the encoding bit matrix: row `x` has its ones in
the columns `j` with `j mod 8 = x`. -/
theorem first_block_row (k m : Nat) (hm : 0 < m) (hkm : k + m ≤ 256) (x j : Nat) (hx : x < 8)
    (hj : j < k * kWordBits) :
    _MatrixToBitMatrix k m (_GenerateEncodeMatrix k m) (x * k * kWordBits + j)
      = if j % 8 = x then 1 else 0 := by
  have h := MatrixToBitMatrix_cell k m (_GenerateEncodeMatrix k m) x j
    (by unfold kWordBits; omega) hj
  rw [Nat.mul_assoc, h]
  have e1 : x / kWordBits = 0 := by unfold kWordBits; omega
  have e2 : x % kWordBits = x := by unfold kWordBits; omega
  have hjk : j / kWordBits < k := by unfold kWordBits at *; omega
  rw [e1, e2, Nat.zero_mul, Nat.zero_add, GenerateEncodeMatrix_first_row k m hm hkm _ hjk]
  have hc : j % kWordBits < 8 := Nat.mod_lt _ (by decide)
  rw [mulPow_one_bit _ _ hc hx]
  show (if x = j % 8 then 1 else 0) = _
  by_cases h' : j % 8 = x
  · rw [if_pos h'.symm, if_pos h']
  · rw [if_neg (fun e => h' e.symm), if_neg h']

theorem xorSrcs_append (g : Nat → Nat) (l1 l2 : List Nat) :
    xorSrcs g (l1 ++ l2) = xorSrcs g l1 ^^^ xorSrcs g l2 := by
  unfold xorSrcs
  rw [List.foldl_append, foldl_xor_start]
  rfl

theorem xorSrcs_map (g : Nat → Nat) (f : Nat → Nat) (l : List Nat) :
    xorSrcs g (l.map f) = xorSrcs (fun i => g (f i)) l := by
  unfold xorSrcs
  rw [List.foldl_map]

theorem filter_range_eight (x : Nat) (hx : x < 8) :
    (List.range 8).filter (fun c => decide (c = x)) = [x] := by
  have h : x = 0 ∨ x = 1 ∨ x = 2 ∨ x = 3 ∨ x = 4 ∨ x = 5 ∨ x = 6 ∨ x = 7 := by omega
  rcases h with h | h | h | h | h | h | h | h <;> subst h <;> decide

/-- The xor over the columns `j` below `k * 8` with `j mod 8 = x`. -/
theorem xorSrcs_column (g : Nat → Nat) (x : Nat) (hx : x < 8) (k : Nat) :
    xorSrcs g ((List.range (k * 8)).filter (fun j => decide (j % 8 = x)))
      = xorSrcs (fun i => g (i * 8 + x)) (List.range k) := by
  induction k with
  | zero => rfl
  | succ k ih =>
    have hr : List.range (k + 1) = List.range k ++ [k] := List.range_succ k
    rw [hr, Nat.add_mul, Nat.one_mul, List.range_add, List.filter_append, xorSrcs_append, ih,
      xorSrcs_append, List.filter_map, xorSrcs_map]
    congr 1
    have hf : (List.range 8).filter ((fun j => decide (j % 8 = x)) ∘ fun x_1 => k * 8 + x_1)
        = (List.range 8).filter (fun c => decide (c = x)) := by
      apply List.filter_congr
      intro c hc
      have hc8 : c < 8 := List.mem_range.1 hc
      show decide ((k * 8 + c) % 8 = x) = decide (c = x)
      have e : (k * 8 + c) % 8 = c := by omega
      rw [e]
    rw [hf, filter_range_eight x hx]
    show (0 ^^^ g (k * 8 + x)) = (0 ^^^ g (k * 8 + x))
    rfl

/-- After `Encode` every byte of code part `0` is the xor of the bytes at the
same offset of the data parts. -/
theorem Encode_first_parity (k m : Nat) (hk : 0 < k) (hm : 0 < m) (hkm : k + m ≤ 256)
    (n : Nat) (mem : Shards) (o : Int) (h0 : 0 ≤ o) (h1 : o < (n : Int) * 32768) :
    (Encode (_Init k m) ((n : Int) * 32768) mem).2 k o
      = xorSrcs (fun i => mem i o) (List.range k) := by
  obtain ⟨st, bit, rel, hst, hbit, hr0, hr1, rfl⟩ := offset_split o n h0 h1
  have hbit8 : bit < 8 := hbit
  have hsz : (0 : Int) < (n : Int) * 32768 := by omega
  have h := Encode_product k m hk hm hkm _ hsz mem st bit (by rw [numStripes_mul]; exact hst)
    (by unfold kWordBits; omega) rel hr0 hr1
  have e1 : bit / kWordBits = 0 := by unfold kWordBits; omega
  have e2 : bit % kWordBits = bit := by unfold kWordBits; omega
  rw [e1, e2, Nat.add_zero] at h
  rw [h]
  unfold rowValue
  have hs : scratchSrcs k (_MatrixToBitMatrix k m (_GenerateEncodeMatrix k m)) bit
      = (List.range (k * 8)).filter (fun j => decide (j % 8 = bit)) := by
    unfold scratchSrcs
    apply List.filter_congr
    intro j hj
    rw [first_block_row k m hm hkm bit j hbit8 (List.mem_range.1 hj)]
    by_cases h' : j % 8 = bit
    · rw [if_pos h']
      simp [h']
    · rw [if_neg h']
      simp [h']
  rw [hs, xorSrcs_column _ bit hbit8 k]
  apply xorSrcs_congr
  intro i _
  have e3 : (i * 8 + bit) / kWordBits = i := by unfold kWordBits; omega
  have e4 : (i * 8 + bit) % kWordBits = bit := by unfold kWordBits; omega
  show mem ((i * 8 + bit) / kWordBits) _ = mem i _
  rw [e3, e4]

end CauchyRSCoder

namespace CauchyRSCoder

open GaloisOperator

/-! ## The index maps of `Decode` -/

theorem load_store_ne {α : Type} (a : Nat → α) (i : Nat) (x : α) (v : Int) (n : Nat)
    (hv : v = (n : Int)) (hn : n ≠ i) : load (store a (i : Int) x) v = load a v := by
  subst hv
  rw [load_natCast, load_natCast]
  exact store_other _ _ _ _ (by exact_mod_cast hn)

theorem load_store_eq {α : Type} (a : Nat → α) (i : Nat) (x : α) :
    load (store a (i : Int) x) (i : Int) = x := by
  rw [load_natCast]
  exact store_same _ _ _

/-- What the search for a stand-in returns: the first part from `g0` on that
is not erased, below `total`. -/
theorem skip_some (erased : Nat → Bool) (total fuel g0 g : Nat)
    (h : Decode_skip erased total fuel g0 = some g) :
    g0 ≤ g ∧ g < total ∧ erased g = false ∧ ∀ j, g0 ≤ j → j < g → erased j = true := by
  induction fuel generalizing g0 with
  | zero => cases h
  | succ fuel ih =>
    unfold Decode_skip at h
    by_cases hlt : g0 < total
    · rw [if_pos hlt] at h
      by_cases he : erased g0 = true
      · rw [if_pos he] at h
        obtain ⟨h1, h2, h3, h4⟩ := ih (g0 + 1) h
        refine ⟨by omega, h2, h3, ?_⟩
        intro j hj1 hj2
        by_cases hj : j = g0
        · rw [hj]; exact he
        · exact h4 j (by omega) hj2
      · rw [if_neg he] at h
        have : g0 = g := by simpa using h
        subst this
        exact ⟨le_refl _, hlt, by simpa using he, fun j h1 h2 => by omega⟩
    · rw [if_neg hlt] at h
      cases h

/-- One round of the first set-up loop keeps the index maps inverse to each
other. -/
theorem setup_data_step2 (c : CauchyRSCoder) (erased : Nat → Bool) (i : Nat) (s s' : DecodeSetup)
    (hi : i < c.m_num_data_parts)
    (h : SetupInv c.m_num_data_parts c.m_num_code_parts erased i 0 s)
    (h2 : SetupInv2 c.m_num_data_parts erased i s)
    (hs' : Decode_setup_data c erased i s = some s') :
    SetupInv2 c.m_num_data_parts erased (i + 1) s' := by
  have hnec : s.num_erased_code_parts = 0 := by
    have := h.nec
    simp only [Nat.add_zero] at this
    omega
  have hepi := h.epi
  have hge := h.good_ge
  -- the part of a row id looked at before
  have hold : ∀ d, d < i → ∃ v : Nat, s.rowid_to_partidx d = (v : Int) ∧ v ≠ i ∧
      (v < s.good_code_part_index) := by
    intro d hd
    by_cases he : erased d = true
    · obtain ⟨cp, h1, h3, _, _, h5⟩ := h.subst d hd he
      exact ⟨cp, h5, by omega, h3⟩
    · obtain ⟨_, h5⟩ := h.intact d hd (by simpa using he)
      exact ⟨d, h5, by omega, by omega⟩
  have hout : ∀ e, c.m_num_data_parts ≤ e → e < s.erased_part_index →
      ∃ d : Nat, d < i ∧ s.rowid_to_partidx e = (d : Int) ∧ s.partidx_to_rowid d = (e : Int) := by
    intro e h1 h3
    obtain ⟨d, g1, _, _, g4, g5⟩ := h.out_data e h1 (by omega)
    exact ⟨d, g1, g4, g5⟩
  unfold Decode_setup_data at hs'
  dsimp only at hs'
  by_cases he : erased i = true
  · rw [if_neg (by simp [he])] at hs'
    cases hsk : Decode_skip erased (c.m_num_data_parts + c.m_num_code_parts)
        (c.m_num_data_parts + c.m_num_code_parts + 1) s.good_code_part_index with
    | none => rw [hsk] at hs'; cases hs'
    | some g =>
      rw [hsk] at hs'
      obtain ⟨k1, k2, k3, k4⟩ := skip_some erased _ _ _ g hsk
      have hs'' : s' = _ := (Option.some.inj hs').symm
      subst hs''
      have hgi : g ≠ i := by omega
      have hie : i ≠ s.erased_part_index := by omega
      constructor
      · intro d hd
        show load (store (store s.partidx_to_rowid (g : Int) (i : Int)) (i : Int)
            (s.erased_part_index : Int))
          (store (store s.rowid_to_partidx (i : Int) (g : Int)) (s.erased_part_index : Int)
            (i : Int) d) = (d : Int)
        by_cases hdi : d = i
        · subst hdi
          rw [store_other _ _ _ _ (by exact_mod_cast hie), store_same,
            load_store_ne _ _ _ _ g rfl hgi, load_store_eq]
        · obtain ⟨v, hv, hvi, hvg⟩ := hold d (by omega)
          rw [store_other _ _ _ _ (by
              have : d ≠ s.erased_part_index := by omega
              exact_mod_cast this),
            store_other _ _ _ _ (by exact_mod_cast hdi), hv,
            load_store_ne _ _ _ _ v rfl hvi, load_store_ne _ _ _ _ v rfl (by omega), ← hv]
          exact h2.inv_lo d (by omega)
      · intro e he1 he2
        have he2' : e < s.erased_part_index + 1 := he2
        show load (store (store s.partidx_to_rowid (g : Int) (i : Int)) (i : Int)
            (s.erased_part_index : Int))
          (store (store s.rowid_to_partidx (i : Int) (g : Int)) (s.erased_part_index : Int)
            (i : Int) e) = (e : Int)
        by_cases hee : e = s.erased_part_index
        · subst hee
          rw [store_same, load_store_eq]
        · obtain ⟨d, hd, hrd, hpd⟩ := hout e he1 (by omega)
          rw [store_other _ _ _ _ (by exact_mod_cast hee),
            store_other _ _ _ _ (by
              have : e ≠ i := by omega
              exact_mod_cast this), hrd,
            load_store_ne _ _ _ _ d rfl (by omega), load_store_ne _ _ _ _ d rfl (by omega),
            load_natCast, hpd]
      · intro cp hc1 hc2 hc3
        have hc2' : cp < g + 1 := hc2
        by_cases hcg : cp = g
        · subst hcg
          refine ⟨i, by omega, he, ?_⟩
          show store (store s.rowid_to_partidx (i : Int) (cp : Int)) (s.erased_part_index : Int)
            (i : Int) i = (cp : Int)
          rw [store_other _ _ _ _ (by exact_mod_cast hie), store_same]
        · by_cases hlt : cp < s.good_code_part_index
          · obtain ⟨d, hd, hde, hrd⟩ := h2.all_subst cp hc1 hlt hc3
            refine ⟨d, by omega, hde, ?_⟩
            show store (store s.rowid_to_partidx (i : Int) (g : Int)) (s.erased_part_index : Int)
              (i : Int) d = (cp : Int)
            rw [store_other _ _ _ _ (by
                have : d ≠ s.erased_part_index := by omega
                exact_mod_cast this),
              store_other _ _ _ _ (by
                have : d ≠ i := by omega
                exact_mod_cast this)]
            exact hrd
          · have := k4 cp (by omega) (by omega)
            rw [hc3] at this
            cases this
  · rw [if_pos (by simpa using he)] at hs'
    have hs'' : s' = _ := (Option.some.inj hs').symm
    subst hs''
    constructor
    · intro d hd
      show load (store s.partidx_to_rowid (i : Int) (i : Int))
        (store s.rowid_to_partidx (i : Int) (i : Int) d) = (d : Int)
      by_cases hdi : d = i
      · subst hdi
        rw [store_same, load_store_eq]
      · obtain ⟨v, hv, hvi, _⟩ := hold d (by omega)
        rw [store_other _ _ _ _ (by exact_mod_cast hdi), hv, load_store_ne _ _ _ _ v rfl hvi, ← hv]
        exact h2.inv_lo d (by omega)
    · intro e he1 he2
      have he2' : e < s.erased_part_index := he2
      show load (store s.partidx_to_rowid (i : Int) (i : Int))
        (store s.rowid_to_partidx (i : Int) (i : Int) e) = (e : Int)
      obtain ⟨d, hd, hrd, hpd⟩ := hout e he1 he2'
      rw [store_other _ _ _ _ (by
          have : e ≠ i := by omega
          exact_mod_cast this), hrd, load_store_ne _ _ _ _ d rfl (by omega), load_natCast, hpd]
    · intro cp hc1 hc2 hc3
      have hc2' : cp < s.good_code_part_index := hc2
      obtain ⟨d, hd, hde, hrd⟩ := h2.all_subst cp hc1 hc2' hc3
      refine ⟨d, by omega, hde, ?_⟩
      show store s.rowid_to_partidx (i : Int) (i : Int) d = (cp : Int)
      rw [store_other _ _ _ _ (by
          have : d ≠ i := by omega
          exact_mod_cast this)]
      exact hrd

end CauchyRSCoder

namespace CauchyRSCoder

open GaloisOperator

/-- One round of the second set-up loop keeps the index maps inverse to each
other. -/
theorem setup_code_step2 (c : CauchyRSCoder) (erased : Nat → Bool) (i2 : Nat) (s : DecodeSetup)
    (h : SetupInv c.m_num_data_parts c.m_num_code_parts erased c.m_num_data_parts i2 s)
    (h2 : SetupInv2 c.m_num_data_parts erased c.m_num_data_parts s) :
    SetupInv2 c.m_num_data_parts erased c.m_num_data_parts
      (Decode_setup_code c erased (c.m_num_data_parts + i2) s) := by
  have hepi := h.epi
  unfold Decode_setup_code
  dsimp only
  by_cases he : erased (c.m_num_data_parts + i2) = true
  · rw [if_pos he]
    have hlo : ∀ d, d < c.m_num_data_parts → ∃ v : Nat, s.rowid_to_partidx d = (v : Int) ∧
        v ≠ c.m_num_data_parts + i2 := by
      intro d hd
      by_cases hde : erased d = true
      · obtain ⟨cp, _, _, h4, _, h5⟩ := h.subst d hd hde
        refine ⟨cp, h5, ?_⟩
        intro hcp
        rw [hcp, he] at h4
        cases h4
      · obtain ⟨_, h5⟩ := h.intact d hd (by simpa using hde)
        exact ⟨d, h5, by omega⟩
    have hhi : ∀ e, c.m_num_data_parts ≤ e → e < s.erased_part_index →
        ∃ v : Nat, s.rowid_to_partidx e = (v : Int) ∧ v ≠ c.m_num_data_parts + i2 := by
      intro e h1 h3
      by_cases hreg : e < c.m_num_data_parts + s.num_erased_data_parts
      · obtain ⟨d, g1, _, _, g4, _⟩ := h.out_data e h1 hreg
        exact ⟨d, g4, by omega⟩
      · obtain ⟨cp, _, g2, _, _, g5⟩ := h.out_code e (by omega) h3
        exact ⟨cp, g5, by omega⟩
    constructor
    · intro d hd
      show load (store s.partidx_to_rowid ((c.m_num_data_parts + i2 : Nat) : Int)
          (s.erased_part_index : Int))
        (store s.rowid_to_partidx (s.erased_part_index : Int)
          ((c.m_num_data_parts + i2 : Nat) : Int) d) = (d : Int)
      obtain ⟨v, hv, hvn⟩ := hlo d hd
      rw [store_other _ _ _ _ (by
          have : d ≠ s.erased_part_index := by omega
          exact_mod_cast this), hv, load_store_ne _ _ _ _ v rfl hvn, ← hv]
      exact h2.inv_lo d hd
    · intro e he1 he2
      have he2' : e < s.erased_part_index + 1 := he2
      show load (store s.partidx_to_rowid ((c.m_num_data_parts + i2 : Nat) : Int)
          (s.erased_part_index : Int))
        (store s.rowid_to_partidx (s.erased_part_index : Int)
          ((c.m_num_data_parts + i2 : Nat) : Int) e) = (e : Int)
      by_cases hee : e = s.erased_part_index
      · subst hee
        rw [store_same, load_store_eq]
      · obtain ⟨v, hv, hvn⟩ := hhi e he1 (by omega)
        rw [store_other _ _ _ _ (by exact_mod_cast hee), hv, load_store_ne _ _ _ _ v rfl hvn,
          ← hv]
        exact h2.inv_hi e he1 (by omega)
    · intro cp hc1 hc2 hc3
      obtain ⟨d, hd, hde, hrd⟩ := h2.all_subst cp hc1 hc2 hc3
      refine ⟨d, hd, hde, ?_⟩
      show store s.rowid_to_partidx (s.erased_part_index : Int)
          ((c.m_num_data_parts + i2 : Nat) : Int) d = (cp : Int)
      rw [store_other _ _ _ _ (by
          have : d ≠ s.erased_part_index := by omega
          exact_mod_cast this)]
      exact hrd
  · rw [if_neg he]
    exact h2

/-- The set-up of `Decode` for at most `m` erased parts: it reads `erased`
below `k + m` only, and leaves the index maps as described by the two
invariants. -/
theorem Decode_setup_spec2 (c : CauchyRSCoder) (erased : Nat → Bool)
    (hcount : erasedCount erased (c.m_num_data_parts + c.m_num_code_parts) ≤ c.m_num_code_parts) :
    ∃ s, Decode_setup c erased = some s ∧
      SetupInv c.m_num_data_parts c.m_num_code_parts erased c.m_num_data_parts
        c.m_num_code_parts s ∧
      SetupInv2 c.m_num_data_parts erased c.m_num_data_parts s := by
  unfold Decode_setup
  dsimp only
  have h1 := forLoop_inv
    (fun (i : Nat) (so : Option DecodeSetup) =>
      ∃ s, so = some s ∧ SetupInv c.m_num_data_parts c.m_num_code_parts erased i 0 s ∧
        SetupInv2 c.m_num_data_parts erased i s)
    c.m_num_data_parts
    (fun i (s : Option DecodeSetup) => s.bind (Decode_setup_data c erased i))
    (some
        { ptrs := fun _ => ⟨0, 0⟩, rowid_to_partidx := fun _ => 0, partidx_to_rowid := fun _ => 0,
          good_code_part_index := c.m_num_data_parts, erased_part_index := c.m_num_data_parts,
          num_erased_data_parts := 0, num_erased_code_parts := 0 })
    ?_ ?_
  · obtain ⟨s, hs, hinv, hinv2⟩ := h1
    rw [hs]
    refine ⟨_, rfl, ?_⟩
    have h2 := forLoop_inv
      (fun (i2 : Nat) (s : DecodeSetup) =>
        SetupInv c.m_num_data_parts c.m_num_code_parts erased c.m_num_data_parts i2 s ∧
          SetupInv2 c.m_num_data_parts erased c.m_num_data_parts s)
      c.m_num_code_parts
      (fun i' (s : DecodeSetup) => Decode_setup_code c erased (c.m_num_data_parts + i') s)
      s ⟨hinv, hinv2⟩
      (fun i2 _ t ht => ⟨setup_code_step c erased i2 t ht.1, setup_code_step2 c erased i2 t ht.1 ht.2⟩)
    simpa using h2
  · -- the invariants hold before the first round
    obtain ⟨s0, hs0, hinv0⟩ : ∃ s0, (some
        { ptrs := fun _ => ⟨0, 0⟩, rowid_to_partidx := fun _ => 0, partidx_to_rowid := fun _ => 0,
          good_code_part_index := c.m_num_data_parts, erased_part_index := c.m_num_data_parts,
          num_erased_data_parts := 0, num_erased_code_parts := 0 } : Option DecodeSetup)
          = some s0 ∧ SetupInv2 c.m_num_data_parts erased 0 s0 := by
      refine ⟨_, rfl, ?_⟩
      constructor
      · intro d hd
        omega
      · intro e h1 h2
        have : e < c.m_num_data_parts := h2
        omega
      · intro cp h1 h2
        have : cp < c.m_num_data_parts := h2
        omega
    have hs0' := (Option.some.inj hs0).symm
    subst hs0'
    refine ⟨_, rfl, ?_, hinv0⟩
    constructor
    · rfl
    · show 0 + _ = _
      simp
    · rfl
    · exact le_refl _
    · show c.m_num_data_parts ≤ _
      omega
    · exact goodCodeCount_data _ _ _ (le_refl _)
    · intro d hd; omega
    · intro d hd; omega
    · intro d d' _ hd'; omega
    · intro e h1 h2
      have : e < c.m_num_data_parts + 0 := h2
      omega
    · intro e h1 h2
      have : c.m_num_data_parts + 0 ≤ e := h1
      have : e < c.m_num_data_parts := h2
      omega
    · intro e e' h1 h2 h3
      have : e' < c.m_num_data_parts := h3
      omega
    · intro d hd; omega
    · intro cp h1 h2; omega
  · intro i hi so ⟨s, hs, hinv, hinv2⟩
    rw [hs]
    obtain ⟨s', hs', hinv'⟩ := setup_data_step c erased i s hi hcount hinv
    exact ⟨s', hs', hinv', setup_data_step2 c erased i s s' hi hinv hinv2 hs'⟩

end CauchyRSCoder

namespace CauchyRSCoder

open GaloisOperator

/-! ## The calls of `Divide` in `_GenerateEncodeMatrix` -/

theorem forLoop_fst {σ τ : Type} (n : Nat) (f : Nat → σ × τ → σ × τ) (g : Nat → σ → σ)
    (h : ∀ i s, (f i s).1 = g i s.1) (s0 : σ × τ) :
    (forLoop n f s0).1 = forLoop n g s0.1 := by
  induction n with
  | zero => rfl
  | succ n ih => rw [forLoop_succ, forLoop_succ, h, ih]

/-- One round of the column normalisation keeps the elements other than zero. -/
theorem firstRow_step_unit (k m : Nat) (hm : 0 < m) (i : Nat) (hi : i < k) (M : Nat → Int)
    (hM : ∀ idx, idx < m * k → IsUnit256 (M idx)) :
    ∀ idx, idx < m * k → IsUnit256
      ((forLoop m
        (fun _ (t : (Nat → Int) × Int) =>
          (store t.1 t.2 (Multiply (load t.1 t.2) (Divide 1 (load M (i : Int)))), t.2 + k))
        (M, (i : Int))).1 idx) := by
  have htmp : IsUnit256 (Divide 1 (load M (i : Int))) := by
    rw [load_natCast]
    exact Divide_unit _ _ one_unit (hM i (by
      have := idx_lt 0 i k m hm hi
      simpa using this))
  have inner := forLoop_inv
    (fun (J : Nat) (s : (Nat → Int) × Int) =>
      (∀ idx, idx < m * k → IsUnit256 (s.1 idx)) ∧ s.2 = ((J * k + i : Nat) : Int)) m
    (fun _ (s : (Nat → Int) × Int) =>
      (store s.1 s.2 (Multiply (load s.1 s.2) (Divide 1 (load M (i : Int)))), s.2 + k))
    (M, (i : Int)) ⟨hM, by simp⟩ ?_
  · exact inner.1
  · intro j hj s ⟨h1, h2⟩
    refine ⟨?_, ?_⟩
    · intro idx hidx
      show IsUnit256 (store s.1 s.2 _ idx)
      rw [store_apply]
      split
      · rw [h2, load_natCast]
        exact Multiply_unit _ _ (h1 _ (idx_lt j i k m hj hi)) htmp
      · exact h1 idx hidx
    · show s.2 + (k : Int) = _
      rw [h2]; push_cast; ring

/-- Scaling a row by an element other than zero keeps the elements other than
zero. -/
theorem scaleRow_unit (k m : Nat) (i : Nat) (hi : i < m) (M : Nat → Int) (tmp : Int)
    (htmp : IsUnit256 tmp) (hM : ∀ idx, idx < m * k → IsUnit256 (M idx)) :
    ∀ idx, idx < m * k → IsUnit256
      (forLoop k
        (fun j matrix => store matrix (((i : Nat) : Int) * k + j)
          (Multiply (load matrix (((i : Nat) : Int) * k + j)) tmp)) M idx) := by
  have hidx : ∀ j : Nat, (((i : Nat) : Int) * k + j) = ((i * k + j : Nat) : Int) := by
    intro j; push_cast; ring
  refine forLoop_inv (fun _ (M : Nat → Int) => ∀ idx, idx < m * k → IsUnit256 (M idx)) k _ M
    hM ?_
  intro j hj M'' hM'' idx hidx'
  show IsUnit256 (store M'' _ _ idx)
  rw [store_apply]
  split
  · rw [hidx, load_natCast]
    exact Multiply_unit _ _ (hM'' _ (idx_lt i j k m hi hj)) htmp
  · exact hM'' idx hidx'

theorem cauchy_calls_fst (k m : Nat) :
    (_GenerateEncodeMatrix_cauchy_calls k m).1 = _GenerateEncodeMatrix_cauchy k m := by
  unfold _GenerateEncodeMatrix_cauchy_calls _GenerateEncodeMatrix_cauchy
  exact forLoop_fst m _ _ (fun i s => forLoop_fst k _ _ (fun j t => rfl) s) _

theorem cauchy_calls_log (k m : Nat) (hkm : k + m ≤ 256) :
    ∀ d, d ∈ (_GenerateEncodeMatrix_cauchy_calls k m).2 → IsUnit256 d := by
  unfold _GenerateEncodeMatrix_cauchy_calls
  refine forLoop_inv (fun _ (s : (Nat → Int) × List Int) => ∀ d, d ∈ s.2 → IsUnit256 d) m _ _
    (fun d hd => by cases hd) ?_
  intro i hi s hs
  refine forLoop_inv (fun _ (s : (Nat → Int) × List Int) => ∀ d, d ∈ s.2 → IsUnit256 d) k _ _
    hs ?_
  intro j hj t ht d hd
  have hd' : d ∈ t.2 ++ [Int.xor (i : Int) ((m : Int) + (j : Int))] := hd
  rcases List.mem_append.1 hd' with h | h
  · exact ht d h
  · rw [List.mem_singleton.1 h]
    exact xor_unit i j m hi (by omega)

theorem firstRow_calls_fst (k m : Nat) (s : (Nat → Int) × List Int) :
    (_GenerateEncodeMatrix_firstRow_calls k m s).1 = _GenerateEncodeMatrix_firstRow k m s.1 := by
  unfold _GenerateEncodeMatrix_firstRow_calls _GenerateEncodeMatrix_firstRow
  apply forLoop_fst
  intro i t
  dsimp only
  split <;> rfl

theorem firstRow_calls_log (k m : Nat) (hm : 0 < m) (s : (Nat → Int) × List Int)
    (hM : ∀ idx, idx < m * k → IsUnit256 (s.1 idx)) (hlog : ∀ d, d ∈ s.2 → IsUnit256 d) :
    ∀ d, d ∈ (_GenerateEncodeMatrix_firstRow_calls k m s).2 → IsUnit256 d := by
  unfold _GenerateEncodeMatrix_firstRow_calls
  have key := forLoop_inv
    (fun _ (t : (Nat → Int) × List Int) =>
      (∀ idx, idx < m * k → IsUnit256 (t.1 idx)) ∧ ∀ d, d ∈ t.2 → IsUnit256 d) k
    (fun i (s : (Nat → Int) × List Int) =>
      if load s.1 i ≠ 1 then
        let d := load s.1 i
        let tmp := Divide 1 d
        ((forLoop m
          (fun _ (t : (Nat → Int) × Int) =>
            (store t.1 t.2 (Multiply (load t.1 t.2) tmp), t.2 + k))
          (s.1, (i : Int))).1, s.2 ++ [d])
      else s) s ⟨hM, hlog⟩ ?_
  · exact key.2
  · intro i hi t ⟨h1, h2⟩
    dsimp only
    split
    · refine ⟨firstRow_step_unit k m hm i hi t.1 h1, ?_⟩
      intro d hd
      rcases List.mem_append.1 hd with h | h
      · exact h2 d h
      · rw [List.mem_singleton.1 h, load_natCast]
        have := idx_lt 0 i k m hm hi
        exact h1 i (by simpa using this)
    · exact ⟨h1, h2⟩

theorem best_calls_fst (k : Nat) (M : Nat → Int) (index mins : Int) (log : List Int) :
    (_GenerateEncodeMatrix_best_calls k M index mins log).1
      = _GenerateEncodeMatrix_best k M index mins := by
  unfold _GenerateEncodeMatrix_best_calls _GenerateEncodeMatrix_best
  have h := forLoop_fst k
    (fun j (s : (Int × Int) × List Int) =>
      if load M (index + j) ≠ 1 then
        let d := load M (index + j)
        let tmp := Divide 1 d
        let cur_ones_count : Int :=
          forLoop k
            (fun k' c => c + _CountCauchyOnes (Multiply (load M (index + k')) tmp)) 0
        (if cur_ones_count < s.1.1 then (cur_ones_count, (j : Int)) else s.1, s.2 ++ [d])
      else s)
    (fun j (s : Int × Int) =>
      let min_ones_count := s.1
      if load M (index + j) ≠ 1 then
        let tmp := Divide 1 (load M (index + j))
        let cur_ones_count : Int :=
          forLoop k
            (fun k' c => c + _CountCauchyOnes (Multiply (load M (index + k')) tmp)) 0
        if cur_ones_count < min_ones_count then (cur_ones_count, (j : Int)) else s
      else s)
    (fun j s => by
      dsimp only
      split <;> rfl) ((mins, -1), log)
  exact h

theorem best_calls_log (k : Nat) (M : Nat → Int) (index mins : Int) (log : List Int)
    (hrow : ∀ j, j < k → IsUnit256 (load M (index + j))) (hlog : ∀ d, d ∈ log → IsUnit256 d) :
    ∀ d, d ∈ (_GenerateEncodeMatrix_best_calls k M index mins log).2 → IsUnit256 d := by
  unfold _GenerateEncodeMatrix_best_calls
  refine forLoop_inv (fun _ (s : (Int × Int) × List Int) => ∀ d, d ∈ s.2 → IsUnit256 d) k _ _
    hlog ?_
  intro j hj s hs
  dsimp only
  split
  · intro d hd
    rcases List.mem_append.1 hd with h | h
    · exact hs d h
    · rw [List.mem_singleton.1 h]
      exact hrow j hj
  · exact hs

theorem otherRows_calls_fst (k m : Nat) (s : (Nat → Int) × List Int) :
    (_GenerateEncodeMatrix_otherRows_calls k m s).1
      = _GenerateEncodeMatrix_otherRows k m s.1 := by
  unfold _GenerateEncodeMatrix_otherRows_calls _GenerateEncodeMatrix_otherRows
  apply forLoop_fst
  intro i t
  dsimp only
  rw [best_calls_fst]
  split <;> rfl

theorem otherRows_calls_log (k m : Nat) (s : (Nat → Int) × List Int)
    (hM : ∀ idx, idx < m * k → IsUnit256 (s.1 idx)) (hlog : ∀ d, d ∈ s.2 → IsUnit256 d) :
    ∀ d, d ∈ (_GenerateEncodeMatrix_otherRows_calls k m s).2 → IsUnit256 d := by
  unfold _GenerateEncodeMatrix_otherRows_calls
  have key := forLoop_inv
    (fun _ (t : (Nat → Int) × List Int) =>
      (∀ idx, idx < m * k → IsUnit256 (t.1 idx)) ∧ ∀ d, d ∈ t.2 → IsUnit256 d) (m - 1)
    (fun i' (s : (Nat → Int) × List Int) =>
      let matrix := s.1
      let i := i' + 1
      let index : Int := i * k
      let min_ones_count : Int :=
        forLoop k (fun j c => c + _CountCauchyOnes (load matrix (index + j))) 0
      let b := _GenerateEncodeMatrix_best_calls k matrix index min_ones_count s.2
      let best_m_index := b.1.2
      if best_m_index ≠ -1 then
        let d := load matrix (index + best_m_index)
        let tmp := Divide 1 d
        (forLoop k
          (fun j matrix => store matrix (index + j) (Multiply (load matrix (index + j)) tmp))
          matrix, b.2 ++ [d])
      else (matrix, b.2)) s ⟨hM, hlog⟩ ?_
  · exact key.2
  · intro i' hi' t ⟨h1, h2⟩
    have hidx : ∀ j : Nat, (((i' + 1 : Nat) : Int) * k + j) = (((i' + 1) * k + j : Nat) : Int) := by
      intro j; push_cast; ring
    have hrow : ∀ j, j < k → IsUnit256 (load t.1 (((i' + 1 : Nat) : Int) * k + j)) := by
      intro j hj
      rw [hidx, load_natCast]
      exact h1 _ (idx_lt (i' + 1) j k m (by omega) hj)
    have hblog := best_calls_log k t.1 (((i' + 1 : Nat) : Int) * k)
      (forLoop k (fun j c => c + _CountCauchyOnes (load t.1 (((i' + 1 : Nat) : Int) * k + j))) 0)
      t.2 hrow h2
    dsimp only
    split
    · rename_i hbest
      rw [best_calls_fst] at hbest ⊢
      rcases best_range k t.1 (((i' + 1 : Nat) : Int) * k)
        (forLoop k (fun j c => c + _CountCauchyOnes (load t.1 (((i' + 1 : Nat) : Int) * k + j))) 0)
        with h | ⟨b, hb, h⟩
      · exact absurd h hbest
      · rw [h]
        have hd := hrow b hb
        refine ⟨scaleRow_unit k m (i' + 1) (by omega) t.1 _ (Divide_unit _ _ one_unit hd) h1, ?_⟩
        intro d hdm
        rcases List.mem_append.1 hdm with h' | h'
        · exact hblog d h'
        · rw [List.mem_singleton.1 h']
          exact hd
    · exact ⟨h1, hblog⟩

/-- The matrix of the logged generator is the matrix of `_GenerateEncodeMatrix`,
and every logged second argument of `Divide` is a field element other than
zero. -/
theorem GenerateEncodeMatrix_calls_spec (k m : Nat) (hm : 0 < m) (hkm : k + m ≤ 256) :
    (_GenerateEncodeMatrix_calls k m).1 = _GenerateEncodeMatrix k m ∧
      ∀ d, d ∈ (_GenerateEncodeMatrix_calls k m).2 → IsUnit256 d := by
  unfold _GenerateEncodeMatrix_calls _GenerateEncodeMatrix
  refine ⟨by rw [otherRows_calls_fst, firstRow_calls_fst, cauchy_calls_fst], ?_⟩
  have h1 : ∀ idx, idx < m * k → IsUnit256 ((_GenerateEncodeMatrix_cauchy_calls k m).1 idx) := by
    rw [cauchy_calls_fst]
    exact cauchy_unit k m hkm
  have h2 := cauchy_calls_log k m hkm
  have h3 : ∀ idx, idx < m * k → IsUnit256
      ((_GenerateEncodeMatrix_firstRow_calls k m (_GenerateEncodeMatrix_cauchy_calls k m)).1
        idx) := by
    rw [firstRow_calls_fst]
    exact firstRow_unit k m _ h1
  exact otherRows_calls_log k m _ h3 (firstRow_calls_log k m hm _ h1 h2)

end CauchyRSCoder

namespace CauchyRSCoder

open GaloisOperator

/-! ## The improvement of the rows of the coding matrix -/

/-- Step 2 of the row improvement picks the first column, among those whose
element is not one, whose candidate count is the least, when that count is
below the count it starts from; otherwise it picks none. -/
theorem best_spec (k : Nat) (M : Nat → Int) (index mins : Int) :
    ((_GenerateEncodeMatrix_best k M index mins).2 = -1 ∧
      ∀ j, j < k → load M (index + j) ≠ 1 →
        mins ≤ forLoop k (fun k' c => c + _CountCauchyOnes
          (Multiply (load M (index + k')) (Divide 1 (load M (index + j))))) 0) ∨
    ∃ js, js < k ∧ (_GenerateEncodeMatrix_best k M index mins).2 = (js : Int) ∧
      load M (index + js) ≠ 1 ∧
      forLoop k (fun k' c => c + _CountCauchyOnes
          (Multiply (load M (index + k')) (Divide 1 (load M (index + js))))) 0 < mins ∧
      (∀ j, j < k → load M (index + j) ≠ 1 →
        forLoop k (fun k' c => c + _CountCauchyOnes
            (Multiply (load M (index + k')) (Divide 1 (load M (index + js))))) 0
          ≤ forLoop k (fun k' c => c + _CountCauchyOnes
            (Multiply (load M (index + k')) (Divide 1 (load M (index + j))))) 0) ∧
      (∀ j, j < js → load M (index + j) ≠ 1 →
        forLoop k (fun k' c => c + _CountCauchyOnes
            (Multiply (load M (index + k')) (Divide 1 (load M (index + js))))) 0
          < forLoop k (fun k' c => c + _CountCauchyOnes
            (Multiply (load M (index + k')) (Divide 1 (load M (index + j))))) 0) := by
  generalize hcand : (fun j : Nat => forLoop k (fun k' c => c + _CountCauchyOnes
      (Multiply (load M (index + k')) (Divide 1 (load M (index + j))))) 0) = cand
  have hc : ∀ j : Nat, forLoop k (fun k' c => c + _CountCauchyOnes
      (Multiply (load M (index + k')) (Divide 1 (load M (index + j))))) 0 = cand j := by
    intro j
    rw [← hcand]
  simp only [hc]
  unfold _GenerateEncodeMatrix_best
  have key := forLoop_inv
    (fun (J : Nat) (s : Int × Int) =>
      (s.2 = -1 ∧ s.1 = mins ∧ ∀ j, j < J → load M (index + j) ≠ 1 → mins ≤ cand j) ∨
      ∃ js, js < J ∧ s.2 = (js : Int) ∧ s.1 = cand js ∧ load M (index + js) ≠ 1 ∧
        cand js < mins ∧ (∀ j, j < J → load M (index + j) ≠ 1 → cand js ≤ cand j) ∧
        (∀ j, j < js → load M (index + j) ≠ 1 → cand js < cand j)) k
    (fun j (s : Int × Int) =>
      let min_ones_count := s.1
      if load M (index + j) ≠ 1 then
        let tmp := Divide 1 (load M (index + j))
        let cur_ones_count : Int :=
          forLoop k
            (fun k' c => c + _CountCauchyOnes (Multiply (load M (index + k')) tmp)) 0
        if cur_ones_count < min_ones_count then (cur_ones_count, (j : Int)) else s
      else s)
    (mins, -1) (Or.inl ⟨rfl, rfl, fun j hj => absurd hj (Nat.not_lt_zero _)⟩) ?_
  · rcases key with ⟨h1, _, h3⟩ | ⟨js, h1, h2, _, h4, h5, h6, h7⟩
    · exact Or.inl ⟨h1, h3⟩
    · exact Or.inr ⟨js, h1, h2, h4, h5, h6, h7⟩
  · intro J hJ s hs
    dsimp only
    rw [hc]
    by_cases hone : load M (index + J) ≠ 1
    · rw [if_pos hone]
      by_cases hlt : cand J < s.1
      · rw [if_pos hlt]
        right
        rcases hs with ⟨h1, h2, h3⟩ | ⟨js, h1, h2, h3, h4, h5, h6, h7⟩
        · rw [h2] at hlt
          refine ⟨J, by omega, rfl, rfl, hone, hlt, ?_, ?_⟩
          · intro j hj hj1
            rcases Nat.lt_or_ge j J with h | h
            · have := h3 j h hj1
              omega
            · have : j = J := by omega
              rw [this]
          · intro j hj hj1
            have := h3 j hj hj1
            omega
        · rw [h3] at hlt
          refine ⟨J, by omega, rfl, rfl, hone, by omega, ?_, ?_⟩
          · intro j hj hj1
            rcases Nat.lt_or_ge j J with h | h
            · have := h6 j h hj1
              omega
            · have : j = J := by omega
              rw [this]
          · intro j hj hj1
            have := h6 j hj hj1
            omega
      · rw [if_neg hlt]
        rcases hs with ⟨h1, h2, h3⟩ | ⟨js, h1, h2, h3, h4, h5, h6, h7⟩
        · left
          refine ⟨h1, h2, ?_⟩
          intro j hj hj1
          rcases Nat.lt_or_ge j J with h | h
          · exact h3 j h hj1
          · have : j = J := by omega
            rw [this]
            rw [h2] at hlt
            omega
        · right
          refine ⟨js, by omega, h2, h3, h4, h5, ?_, h7⟩
          intro j hj hj1
          rcases Nat.lt_or_ge j J with h | h
          · exact h6 j h hj1
          · have : j = J := by omega
            rw [this]
            rw [h3] at hlt
            omega
    · rw [if_neg hone]
      rcases hs with ⟨h1, h2, h3⟩ | ⟨js, h1, h2, h3, h4, h5, h6, h7⟩
      · left
        refine ⟨h1, h2, ?_⟩
        intro j hj hj1
        rcases Nat.lt_or_ge j J with h | h
        · exact h3 j h hj1
        · have : j = J := by omega
          rw [this] at hj1
          exact absurd hj1 hone
      · right
        refine ⟨js, by omega, h2, h3, h4, h5, ?_, h7⟩
        intro j hj hj1
        rcases Nat.lt_or_ge j J with h | h
        · exact h6 j h hj1
        · have : j = J := by omega
          rw [this] at hj1
          exact absurd hj1 hone

/-- The cells after the loop that multiplies row `i` by `tmp`. -/
theorem scaleRow_cells (k i : Nat) (M : Nat → Int) (tmp : Int) :
    ∀ r j, j < k →
      forLoop k
        (fun j matrix => store matrix (((i : Nat) : Int) * k + j)
          (Multiply (load matrix (((i : Nat) : Int) * k + j)) tmp)) M (r * k + j)
        = if r = i then Multiply (M (r * k + j)) tmp else M (r * k + j) := by
  have hidx : ∀ j : Nat, (((i : Nat) : Int) * k + j) = ((i * k + j : Nat) : Int) := by
    intro j; push_cast; ring
  have inner := forLoop_inv
    (fun (J : Nat) (M'' : Nat → Int) =>
      ∀ r j, j < k → M'' (r * k + j)
        = if r = i ∧ j < J then Multiply (M (r * k + j)) tmp else M (r * k + j)) k
    (fun j matrix => store matrix (((i : Nat) : Int) * k + j)
      (Multiply (load matrix (((i : Nat) : Int) * k + j)) tmp))
    M (fun r j _ => by rw [if_neg (fun h => absurd h.2 (Nat.not_lt_zero _))]) ?_
  · intro r j hj
    rw [inner r j hj]
    by_cases hr : r = i
    · rw [if_pos ⟨hr, hj⟩, if_pos hr]
    · rw [if_neg (fun h => hr h.1), if_neg hr]
  · intro J hJ M'' h2 r j hj
    show store M'' _ _ (r * k + j) = _
    rw [hidx]
    by_cases he : r = i ∧ j = J
    · obtain ⟨e1, e2⟩ := he
      subst e1
      subst e2
      rw [store_same, load_natCast, h2 _ j hj,
        if_neg (fun h' => absurd h'.2 (Nat.lt_irrefl _)),
        if_pos ⟨rfl, Nat.lt_succ_self _⟩]
    · rw [store_other]
      · rw [h2 r j hj]
        by_cases hir : r = i
        · have hjJ : j ≠ J := fun h' => he ⟨hir, h'⟩
          by_cases hlt : j < J
          · rw [if_pos ⟨hir, hlt⟩, if_pos ⟨hir, by omega⟩]
          · rw [if_neg (fun h' => hlt h'.2), if_neg (fun h' => hlt (by omega))]
        · rw [if_neg (fun h' => hir h'.1), if_neg (fun h' => hir h'.1)]
      · intro h'
        have h'' : r * k + j = i * k + J := by exact_mod_cast h'
        exact he (cell_inj k r j i J hj hJ h'')

/-- The rows after the row improvement: row `0` is as it was, and every other
row is as it was when no candidate count is below its count of ones, and is
divided by its element in the first column with the least candidate count
otherwise. -/
theorem otherRows_rows (k m : Nat) (M1 : Nat → Int) :
    (∀ j, j < k → _GenerateEncodeMatrix_otherRows k m M1 j = M1 j) ∧
    ∀ i, 1 ≤ i → i < m →
      ((∀ j, j < k → M1 (i * k + j) ≠ 1 → rowCauchyOnes k M1 i ≤ candOnes k M1 i j) ∧
        ∀ j, j < k → _GenerateEncodeMatrix_otherRows k m M1 (i * k + j) = M1 (i * k + j)) ∨
      ∃ js, js < k ∧ M1 (i * k + js) ≠ 1 ∧ candOnes k M1 i js < rowCauchyOnes k M1 i ∧
        (∀ j, j < k → M1 (i * k + j) ≠ 1 → candOnes k M1 i js ≤ candOnes k M1 i j) ∧
        (∀ j, j < js → M1 (i * k + j) ≠ 1 → candOnes k M1 i js < candOnes k M1 i j) ∧
        ∀ j, j < k → _GenerateEncodeMatrix_otherRows k m M1 (i * k + j)
          = Multiply (M1 (i * k + j)) (Divide 1 (M1 (i * k + js))) := by
  unfold _GenerateEncodeMatrix_otherRows
  have key := forLoop_inv
    (fun (I : Nat) (M' : Nat → Int) =>
      (∀ i j, j < k → (i = 0 ∨ I < i) → M' (i * k + j) = M1 (i * k + j)) ∧
      ∀ i, 1 ≤ i → i ≤ I →
        ((∀ j, j < k → M1 (i * k + j) ≠ 1 → rowCauchyOnes k M1 i ≤ candOnes k M1 i j) ∧
          ∀ j, j < k → M' (i * k + j) = M1 (i * k + j)) ∨
        ∃ js, js < k ∧ M1 (i * k + js) ≠ 1 ∧ candOnes k M1 i js < rowCauchyOnes k M1 i ∧
          (∀ j, j < k → M1 (i * k + j) ≠ 1 → candOnes k M1 i js ≤ candOnes k M1 i j) ∧
          (∀ j, j < js → M1 (i * k + j) ≠ 1 → candOnes k M1 i js < candOnes k M1 i j) ∧
          ∀ j, j < k → M' (i * k + j)
            = Multiply (M1 (i * k + j)) (Divide 1 (M1 (i * k + js)))) (m - 1)
    (fun i' matrix =>
      let i := i' + 1
      let index : Int := i * k
      let min_ones_count : Int :=
        forLoop k (fun j c => c + _CountCauchyOnes (load matrix (index + j))) 0
      let best_m_index := (_GenerateEncodeMatrix_best k matrix index min_ones_count).2
      if best_m_index ≠ -1 then
        let tmp := Divide 1 (load matrix (index + best_m_index))
        forLoop k
          (fun j matrix => store matrix (index + j) (Multiply (load matrix (index + j)) tmp))
          matrix
      else matrix)
    M1 ⟨fun _ _ _ _ => rfl, fun i h1 h2 => by omega⟩ ?_
  · refine ⟨fun j hj => ?_, fun i h1 h2 => key.2 i h1 (by omega)⟩
    have := key.1 0 j hj (Or.inl rfl)
    rw [Nat.zero_mul, Nat.zero_add] at this
    exact this
  · intro I hI M' ⟨hrest, hdone⟩
    have hidx : ∀ j : Nat, (((I + 1 : Nat) : Int) * k + j) = (((I + 1) * k + j : Nat) : Int) := by
      intro j; push_cast; ring
    have hrow : ∀ j, j < k → load M' (((I + 1 : Nat) : Int) * k + j) = M1 ((I + 1) * k + j) := by
      intro j hj
      rw [hidx, load_natCast]
      exact hrest (I + 1) j hj (Or.inr (Nat.lt_succ_self _))
    have hones : forLoop k
        (fun j c => c + _CountCauchyOnes (load M' (((I + 1 : Nat) : Int) * k + j))) 0
        = rowCauchyOnes k M1 (I + 1) := by
      unfold rowCauchyOnes
      apply forLoop_congr
      intro j hj c
      rw [hrow j hj]
    have hcand : ∀ j, j < k → forLoop k (fun k' c => c + _CountCauchyOnes
        (Multiply (load M' (((I + 1 : Nat) : Int) * k + k'))
          (Divide 1 (load M' (((I + 1 : Nat) : Int) * k + j))))) 0
        = candOnes k M1 (I + 1) j := by
      intro j hj
      unfold candOnes
      apply forLoop_congr
      intro k' hk' c
      rw [hrow j hj, hrow k' hk']
    have hkeep : ∀ (M'' : Nat → Int),
        (∀ r j, j < k → r ≠ I + 1 → M'' (r * k + j) = M' (r * k + j)) →
        (∀ i j, j < k → (i = 0 ∨ I + 1 < i) → M'' (i * k + j) = M1 (i * k + j)) ∧
        ∀ i, 1 ≤ i → i ≤ I →
          ((∀ j, j < k → M1 (i * k + j) ≠ 1 → rowCauchyOnes k M1 i ≤ candOnes k M1 i j) ∧
            ∀ j, j < k → M'' (i * k + j) = M1 (i * k + j)) ∨
          ∃ js, js < k ∧ M1 (i * k + js) ≠ 1 ∧ candOnes k M1 i js < rowCauchyOnes k M1 i ∧
            (∀ j, j < k → M1 (i * k + j) ≠ 1 → candOnes k M1 i js ≤ candOnes k M1 i j) ∧
            (∀ j, j < js → M1 (i * k + j) ≠ 1 → candOnes k M1 i js < candOnes k M1 i j) ∧
            ∀ j, j < k → M'' (i * k + j)
              = Multiply (M1 (i * k + j)) (Divide 1 (M1 (i * k + js))) := by
      intro M'' hM''
      refine ⟨?_, ?_⟩
      · intro i j hj hi
        rw [hM'' i j hj (by omega)]
        exact hrest i j hj (by omega)
      · intro i h1 h2
        rcases hdone i h1 h2 with ⟨g1, g2⟩ | ⟨js, g1, g2, g3, g4, g5, g6⟩
        · exact Or.inl ⟨g1, fun j hj => by rw [hM'' i j hj (by omega)]; exact g2 j hj⟩
        · exact Or.inr ⟨js, g1, g2, g3, g4, g5,
            fun j hj => by rw [hM'' i j hj (by omega)]; exact g6 j hj⟩
    have hsplit : ∀ (M'' : Nat → Int) (P : Nat → Prop), 
        ((∀ i j, j < k → (i = 0 ∨ I + 1 < i) → M'' (i * k + j) = M1 (i * k + j)) ∧
          ∀ i, 1 ≤ i → i ≤ I → P i) → P (I + 1) →
        ((∀ i j, j < k → (i = 0 ∨ I + 1 < i) → M'' (i * k + j) = M1 (i * k + j)) ∧
          ∀ i, 1 ≤ i → i ≤ I + 1 → P i) := by
      intro M'' P h hP
      refine ⟨h.1, fun i h1 h2 => ?_⟩
      rcases Nat.lt_or_ge i (I + 1) with h' | h'
      · exact h.2 i h1 (by omega)
      · have : i = I + 1 := by omega
        rw [this]
        exact hP
    dsimp only
    rw [hones]
    rcases best_spec k M' (((I + 1 : Nat) : Int) * k) (rowCauchyOnes k M1 (I + 1))
      with ⟨b1, b2⟩ | ⟨js, b1, b2, b3, b4, b5, b6⟩
    · rw [if_neg (not_not.mpr b1)]
      refine hsplit M' _ (hkeep M' (fun _ _ _ _ => rfl)) (Or.inl ⟨?_, ?_⟩)
      · intro j hj hne
        have := b2 j hj (by rw [hrow j hj]; exact hne)
        rw [hcand j hj] at this
        exact this
      · intro j hj
        exact hrest (I + 1) j hj (Or.inr (Nat.lt_succ_self _))
    · rw [if_pos (by rw [b2]; omega), b2]
      have hcells := scaleRow_cells k (I + 1) M'
        (Divide 1 (load M' (((I + 1 : Nat) : Int) * k + js)))
      refine hsplit _ _ (hkeep _ (fun r j hj hr => by rw [hcells r j hj, if_neg hr]))
        (Or.inr ⟨js, b1, ?_, ?_, ?_, ?_, ?_⟩)
      · rw [← hrow js b1]
        exact b3
      · rw [← hcand js b1]
        exact b4
      · intro j hj hne
        rw [← hcand js b1, ← hcand j hj]
        exact b5 j hj (by rw [hrow j hj]; exact hne)
      · intro j hj hne
        rw [← hcand js b1, ← hcand j (by omega)]
        exact b6 j hj (by rw [hrow j (by omega)]; exact hne)
      · intro j hj
        rw [hcells (I + 1) j hj, if_pos rfl, hrow js b1,
          hrest (I + 1) j hj (Or.inr (Nat.lt_succ_self _))]

end CauchyRSCoder

namespace CauchyRSCoder

open GaloisOperator

theorem Multiply_comm_unit (x y : Int) (hx : IsUnit256 x) (hy : IsUnit256 y) :
    Multiply x y = Multiply y x := by
  obtain ⟨a, rfl, ha, ha0⟩ := hx.exists_nat
  obtain ⟨b, rfl, hb, hb0⟩ := hy.exists_nat
  have h1 := GF256.mul_cast ⟨a, ha⟩ ⟨b, hb⟩
  have h2 := GF256.mul_cast ⟨b, hb⟩ ⟨a, ha⟩
  rw [show (GF256.mk a ha).val = a from rfl, show (GF256.mk b hb).val = b from rfl] at h1 h2
  rw [h1, h2, GF256.mul_comm]

theorem Divide_one_one : Divide 1 1 = 1 := by
  have hu : IsUnit256 (Divide 1 1) := Divide_unit _ _ one_unit one_unit
  have h1 := Multiply_inverse 1 one_unit
  rw [Multiply_comm_unit _ _ one_unit hu, Multiply_one_unit _ hu] at h1
  exact h1

/-- Dividing a row by an element that is one leaves its count of ones. -/
theorem candOnes_of_one (k m : Nat) (M : Nat → Int) (hM : ∀ idx, idx < m * k → IsUnit256 (M idx))
    (i j : Nat) (hi : i < m) (hone : M (i * k + j) = 1) :
    candOnes k M i j = rowCauchyOnes k M i := by
  unfold candOnes rowCauchyOnes
  apply forLoop_congr
  intro k' hk' c
  rw [hone, Divide_one_one, Multiply_one_unit _ (hM _ (idx_lt i k' k m hi hk'))]

/-- The rule of the row improvement, and what it means for the count of ones
of the row. -/
theorem sparsify_rule (k m : Nat) (M1 : Nat → Int)
    (hM : ∀ idx, idx < m * k → IsUnit256 (M1 idx)) (i : Nat) (h1 : 1 ≤ i) (hi : i < m) :
    ((∀ j, j < k → M1 (i * k + j) ≠ 1 → rowCauchyOnes k M1 i ≤ candOnes k M1 i j) →
      ∀ j, j < k → _GenerateEncodeMatrix_otherRows k m M1 (i * k + j) = M1 (i * k + j)) ∧
    (∀ js, js < k → M1 (i * k + js) ≠ 1 → candOnes k M1 i js < rowCauchyOnes k M1 i →
      (∀ j, j < k → M1 (i * k + j) ≠ 1 → candOnes k M1 i js ≤ candOnes k M1 i j) →
      (∀ j, j < js → M1 (i * k + j) ≠ 1 → candOnes k M1 i js < candOnes k M1 i j) →
      ∀ j, j < k → _GenerateEncodeMatrix_otherRows k m M1 (i * k + j)
        = Multiply (M1 (i * k + j)) (Divide 1 (M1 (i * k + js)))) ∧
    rowCauchyOnes k (_GenerateEncodeMatrix_otherRows k m M1) i ≤ rowCauchyOnes k M1 i ∧
    (∀ j, j < k →
      rowCauchyOnes k (_GenerateEncodeMatrix_otherRows k m M1) i ≤ candOnes k M1 i j) ∧
    (rowCauchyOnes k (_GenerateEncodeMatrix_otherRows k m M1) i = rowCauchyOnes k M1 i ∨
      ∃ j, j < k ∧
        rowCauchyOnes k (_GenerateEncodeMatrix_otherRows k m M1) i = candOnes k M1 i j) := by
  have hcandle : ∀ v : Int, v ≤ rowCauchyOnes k M1 i →
      (∀ j, j < k → M1 (i * k + j) ≠ 1 → v ≤ candOnes k M1 i j) →
      ∀ j, j < k → v ≤ candOnes k M1 i j := by
    intro v hv hall j hj
    by_cases hone : M1 (i * k + j) = 1
    · rw [candOnes_of_one k m M1 hM i j hi hone]
      exact hv
    · exact hall j hj hone
  rcases (otherRows_rows k m M1).2 i h1 hi with ⟨g1, g2⟩ | ⟨js, g1, g2, g3, g4, g5, g6⟩
  · have hsame : rowCauchyOnes k (_GenerateEncodeMatrix_otherRows k m M1) i
        = rowCauchyOnes k M1 i := by
      unfold rowCauchyOnes
      apply forLoop_congr
      intro j hj c
      rw [g2 j hj]
    refine ⟨fun _ => g2, ?_, le_of_eq hsame, ?_, Or.inl hsame⟩
    · intro js hjs hne hlt _ _
      have := g1 js hjs hne
      omega
    · rw [hsame]
      exact hcandle _ (le_refl _) g1
  · have hsame : rowCauchyOnes k (_GenerateEncodeMatrix_otherRows k m M1) i
        = candOnes k M1 i js := by
      unfold rowCauchyOnes candOnes
      apply forLoop_congr
      intro j hj c
      rw [g6 j hj]
    refine ⟨?_, ?_, by rw [hsame]; omega, ?_, Or.inr ⟨js, g1, hsame⟩⟩
    · intro hno
      have := hno js g1 g2
      omega
    · intro js' hjs' hne' hlt' hmin' hfirst' j hj
      have e : js' = js := by
        rcases Nat.lt_trichotomy js' js with h | h | h
        · have a1 := g5 js' h hne'
          have a2 := hmin' js g1 g2
          omega
        · exact h
        · have a1 := hfirst' js h g2
          have a2 := g4 js' hjs' hne'
          omega
      rw [e]
      exact g6 j hj
    · rw [hsame]
      exact hcandle _ (by omega) g4

end CauchyRSCoder

namespace CauchyRSCoder

open GaloisOperator

/-! ## The log of the calls of `Divide` is kept -/

theorem cauchy_calls_mem (k m : Nat) :
    ∀ i j, i < m → j < k →
      Int.xor (i : Int) ((m : Int) + (j : Int)) ∈ (_GenerateEncodeMatrix_cauchy_calls k m).2 := by
  unfold _GenerateEncodeMatrix_cauchy_calls
  refine forLoop_inv
    (fun (I : Nat) (s : (Nat → Int) × List Int) => ∀ i j, i < I → j < k →
      Int.xor (i : Int) ((m : Int) + (j : Int)) ∈ s.2) m _ _
    (fun i j h => absurd h (Nat.not_lt_zero _)) ?_
  intro I _ s hs
  have inner := forLoop_inv
    (fun (J : Nat) (t : (Nat → Int) × List Int) =>
      (∀ d, d ∈ s.2 → d ∈ t.2) ∧
      ∀ j, j < J → Int.xor (I : Int) ((m : Int) + (j : Int)) ∈ t.2) k
    (fun j (s : (Nat → Int) × List Int) =>
      let index := I * k + j
      let d := Int.xor (I : Int) ((m : Int) + (j : Int))
      (store s.1 index (Divide 1 d), s.2 ++ [d]))
    s ⟨fun d hd => hd, fun j h => absurd h (Nat.not_lt_zero _)⟩ ?_
  · intro i j hi hj
    rcases Nat.lt_or_ge i I with h | h
    · exact inner.1 _ (hs i j h hj)
    · have e : i = I := by omega
      subst e
      exact inner.2 j hj
  · intro J _ t ⟨h1, h2⟩
    refine ⟨fun d hd => List.mem_append_left _ (h1 d hd), ?_⟩
    intro j hj
    show _ ∈ t.2 ++ [_]
    rcases Nat.lt_or_ge j J with h | h
    · exact List.mem_append_left _ (h2 j h)
    · have e : j = J := by omega
      subst e
      exact List.mem_append_right _ (List.mem_singleton.2 rfl)

theorem firstRow_calls_mem (k m : Nat) (s : (Nat → Int) × List Int) :
    ∀ d, d ∈ s.2 → d ∈ (_GenerateEncodeMatrix_firstRow_calls k m s).2 := by
  unfold _GenerateEncodeMatrix_firstRow_calls
  refine forLoop_inv (fun _ (t : (Nat → Int) × List Int) => ∀ d, d ∈ s.2 → d ∈ t.2) k _ _
    (fun d hd => hd) ?_
  intro i _ t ht
  dsimp only
  split
  · exact fun d hd => List.mem_append_left _ (ht d hd)
  · exact ht

theorem best_calls_mem (k : Nat) (M : Nat → Int) (index mins : Int) (log : List Int) :
    ∀ d, d ∈ log → d ∈ (_GenerateEncodeMatrix_best_calls k M index mins log).2 := by
  unfold _GenerateEncodeMatrix_best_calls
  refine forLoop_inv (fun _ (t : (Int × Int) × List Int) => ∀ d, d ∈ log → d ∈ t.2) k _ _
    (fun d hd => hd) ?_
  intro i _ t ht
  dsimp only
  split
  · exact fun d hd => List.mem_append_left _ (ht d hd)
  · exact ht

theorem otherRows_calls_mem (k m : Nat) (s : (Nat → Int) × List Int) :
    ∀ d, d ∈ s.2 → d ∈ (_GenerateEncodeMatrix_otherRows_calls k m s).2 := by
  unfold _GenerateEncodeMatrix_otherRows_calls
  refine forLoop_inv (fun _ (t : (Nat → Int) × List Int) => ∀ d, d ∈ s.2 → d ∈ t.2) (m - 1) _ _
    (fun d hd => hd) ?_
  intro i _ t ht
  dsimp only
  split
  · exact fun d hd => List.mem_append_left _ (best_calls_mem _ _ _ _ _ d (ht d hd))
  · exact fun d hd => best_calls_mem _ _ _ _ _ d (ht d hd)

/-- The log holds the second argument of every call of the Cauchy step. -/
theorem GenerateEncodeMatrix_calls_mem (k m : Nat) :
    ∀ i j, i < m → j < k →
      Int.xor (i : Int) ((m : Int) + (j : Int)) ∈ (_GenerateEncodeMatrix_calls k m).2 := by
  intro i j hi hj
  unfold _GenerateEncodeMatrix_calls
  exact otherRows_calls_mem k m _ _ (firstRow_calls_mem k m _ _ (cauchy_calls_mem k m i j hi hj))

/-! ## Counting -/

/-- The columns in which two rows differ. -/
theorem deriveSrcs_eq (k : Nat) (B : Nat → Nat) (x p : Nat) :
    deriveSrcs k B x p
      = (List.range (k * kWordBits)).filter
          (fun j => decide (B (x * (k * kWordBits) + j) ≠ B (p * (k * kWordBits) + j))) := by
  unfold deriveSrcs
  apply List.filter_congr
  intro j _
  rw [Nat.mul_assoc, Nat.mul_assoc]
  by_cases h : B (x * (k * kWordBits) + j) = B (p * (k * kWordBits) + j)
  · rw [h, Nat.xor_self]
    simp
  · have : B (x * (k * kWordBits) + j) ^^^ B (p * (k * kWordBits) + j) ≠ 0 :=
      fun h' => h (Nat.xor_eq_zero.1 h')
    simp [h, this]

theorem sum_cast_map (f : Nat → Nat) (l : List Nat) :
    (((l.map f).sum : Nat) : Int) = (l.map (fun x => (f x : Int))).sum := by
  induction l with
  | nil => rfl
  | cons a t ih =>
    simp only [List.map_cons, List.sum_cons]
    rw [Nat.cast_add, ih]

/-- A code part that is not erased is counted. -/
theorem goodCodeCount_lt (k : Nat) (erased : Nat → Bool) (cp g : Nat) (hk : k ≤ cp)
    (he : erased cp = false) :
    cp < g ↔ goodCodeCount k erased cp < goodCodeCount k erased g := by
  have hs : goodCodeCount k erased (cp + 1) = goodCodeCount k erased cp + 1 := by
    rw [goodCodeCount_succ, if_pos ⟨hk, he⟩]
  constructor
  · intro h
    have := goodCodeCount_mono k erased (cp + 1) g (by omega)
    omega
  · intro h
    by_contra hge
    have := goodCodeCount_mono k erased g cp (by omega)
    omega

end CauchyRSCoder

namespace CauchyRSCoder

open GaloisOperator

/-! ## The decoding bit matrix, cell by cell -/

/-- The rows of the decoding bit matrix for the erased data parts are copies of
block-rows of the inverse; the cells after them are not written. -/
theorem Decode_data_rows_cells (c : CauchyRSCoder) (s : DecodeSetup) (Tinv d0 : Nat → Nat) :
    (∀ e r, e < s.num_erased_data_parts → r < c.m_num_data_parts * 8 * 8 →
      Decode_data_rows c s Tinv d0 (e * (c.m_num_data_parts * 8 * 8) + r)
        = Tinv (((c.m_num_data_parts : Int) * kWordBits * kWordBits
            * load s.rowid_to_partidx ((c.m_num_data_parts : Int) + e)).toNat + r)) ∧
    ∀ idx, s.num_erased_data_parts * (c.m_num_data_parts * 8 * 8) ≤ idx →
      Decode_data_rows c s Tinv d0 idx = d0 idx := by
  unfold Decode_data_rows
  have key := forLoop_inv
    (fun (I : Nat) (d : (Nat → Nat) × Nat) =>
      d.2 = I * (c.m_num_data_parts * 8 * 8) ∧
      (∀ e r, e < I → r < c.m_num_data_parts * 8 * 8 →
        d.1 (e * (c.m_num_data_parts * 8 * 8) + r)
          = Tinv (((c.m_num_data_parts : Int) * kWordBits * kWordBits
              * load s.rowid_to_partidx ((c.m_num_data_parts : Int) + e)).toNat + r)) ∧
      ∀ idx, I * (c.m_num_data_parts * 8 * 8) ≤ idx → d.1 idx = d0 idx)
    s.num_erased_data_parts
    (fun i (d : (Nat → Nat) × Nat) =>
      (memcpyArr d.1 d.2 Tinv
        ((c.m_num_data_parts : Int) * kWordBits * kWordBits
          * load s.rowid_to_partidx ((c.m_num_data_parts : Int) + i)).toNat
        (c.m_num_data_parts * kWordBits * kWordBits),
       d.2 + c.m_num_data_parts * kWordBits * kWordBits))
    (d0, 0) ⟨by simp, fun e r h => absurd h (Nat.not_lt_zero _), fun _ _ => rfl⟩ ?_
  · exact ⟨key.2.1, key.2.2⟩
  · intro I _ d ⟨h1, h2, h3⟩
    have hW : c.m_num_data_parts * kWordBits * kWordBits = c.m_num_data_parts * 8 * 8 := rfl
    refine ⟨?_, ?_, ?_⟩
    · show d.2 + c.m_num_data_parts * kWordBits * kWordBits = _
      rw [h1, hW]
      ring
    · intro e r he hr
      show memcpyArr d.1 d.2 Tinv _ _ _ = _
      rw [h1, hW]
      unfold memcpyArr
      rcases Nat.lt_or_ge e I with hlt | hge
      · have := block_before (c.m_num_data_parts * 8 * 8) e I r hlt hr
        rw [if_neg (by omega)]
        exact h2 e r hlt hr
      · have heI : e = I := by omega
        subst heI
        rw [if_pos (by omega)]
        congr 2
        omega
    · intro idx hidx
      show memcpyArr d.1 d.2 Tinv _ _ _ = _
      rw [h1, hW]
      unfold memcpyArr
      have e1 : (I + 1) * (c.m_num_data_parts * 8 * 8)
          = I * (c.m_num_data_parts * 8 * 8) + c.m_num_data_parts * 8 * 8 := by ring
      rw [if_neg (by omega)]
      exact h3 idx (by omega)

/-- The loop of `Decode` that sets the columns of the data parts that are not
there to zero in a block-row of the decoding bit matrix. -/
theorem zero_blocks (k iter : Nat) (rtp : Nat → Int) (d1 : Nat → Nat) :
    (∀ idx, idx < iter ∨ iter + k * 8 * 8 ≤ idx →
      forLoop k
        (fun i d =>
          if load rtp i ≠ i then
            forLoop kWordBits
              (fun j d => bzeroArr d (iter + j * k * kWordBits + i * kWordBits) kWordBits) d
          else d) d1 idx = d1 idx) ∧
    ∀ j col, j < 8 → col < k * 8 →
      forLoop k
        (fun i d =>
          if load rtp i ≠ i then
            forLoop kWordBits
              (fun j d => bzeroArr d (iter + j * k * kWordBits + i * kWordBits) kWordBits) d
          else d) d1 (iter + (j * (k * 8) + col))
        = if rtp (col / 8) ≠ ((col / 8 : Nat) : Int) then 0 else d1 (iter + (j * (k * 8) + col)) := by
  have key := forLoop_inv
    (fun (I : Nat) (t : Nat → Nat) =>
      (∀ idx, idx < iter ∨ iter + k * 8 * 8 ≤ idx → t idx = d1 idx) ∧
      ∀ j col, j < 8 → col < k * 8 →
        t (iter + (j * (k * 8) + col))
          = if col / 8 < I ∧ rtp (col / 8) ≠ ((col / 8 : Nat) : Int) then 0
            else d1 (iter + (j * (k * 8) + col))) k
    (fun i d =>
      if load rtp i ≠ i then
        forLoop kWordBits
          (fun j d => bzeroArr d (iter + j * k * kWordBits + i * kWordBits) kWordBits) d
      else d) d1 ⟨fun _ _ => rfl, ?_⟩ ?_
  · refine ⟨key.1, ?_⟩
    intro j col hj hcol
    rw [key.2 j col hj hcol]
    have hlt : col / 8 < k := by omega
    by_cases h : rtp (col / 8) ≠ ((col / 8 : Nat) : Int)
    · rw [if_pos ⟨hlt, h⟩, if_pos h]
    · rw [if_neg (fun h' => h h'.2), if_neg h]
  · intro j col _ _
    rw [if_neg (fun h => absurd h.1 (Nat.not_lt_zero _))]
  · intro I hI t ⟨h1, h2⟩
    beta_reduce
    rw [load_natCast]
    by_cases hE : rtp I ≠ (I : Int)
    · rw [if_pos hE]
      have inner := forLoop_inv
        (fun (J : Nat) (u : Nat → Nat) =>
          (∀ idx, idx < iter ∨ iter + k * 8 * 8 ≤ idx → u idx = t idx) ∧
          ∀ j col, j < 8 → col < k * 8 →
            u (iter + (j * (k * 8) + col))
              = if j < J ∧ col / 8 = I then 0 else t (iter + (j * (k * 8) + col))) kWordBits
        (fun j d => bzeroArr d (iter + j * k * kWordBits + I * kWordBits) kWordBits) t
        ⟨fun _ _ => rfl, ?_⟩ ?_
      · refine ⟨fun idx hidx => (inner.1 idx hidx).trans (h1 idx hidx), ?_⟩
        intro j col hj hcol
        rw [inner.2 j col hj hcol, h2 j col hj hcol]
        by_cases hc : col / 8 = I
        · rw [if_pos ⟨hj, hc⟩, if_pos ⟨by omega, by rw [hc]; exact hE⟩]
        · rw [if_neg (fun h => hc h.2)]
          by_cases hlt : col / 8 < I
          · by_cases hr : rtp (col / 8) ≠ ((col / 8 : Nat) : Int)
            · rw [if_pos ⟨hlt, hr⟩, if_pos ⟨by omega, hr⟩]
            · rw [if_neg (fun h => hr h.2), if_neg (fun h => hr h.2)]
          · rw [if_neg (fun h => hlt h.1), if_neg (fun h => hlt (by omega))]
      · intro j col _ _
        rw [if_neg (fun h => absurd h.1 (Nat.not_lt_zero _))]
      · intro J hJ u ⟨g1, g2⟩
        have hJ8 : J < 8 := hJ
        have e : iter + J * k * kWordBits + I * kWordBits = iter + (J * (k * 8) + I * 8) := by
          unfold kWordBits
          ring
        have hin := cell_in_block (k * 8) J (I * 8 + 7) hJ8 (by omega)
        refine ⟨?_, ?_⟩
        · intro idx hidx
          show bzeroArr u _ _ idx = _
          rw [e]
          unfold bzeroArr kWordBits
          rw [if_neg (by omega)]
          exact g1 idx hidx
        · intro j col hj hcol
          show bzeroArr u _ _ (iter + (j * (k * 8) + col)) = _
          rw [e]
          unfold bzeroArr kWordBits
          by_cases hc : j = J ∧ col / 8 = I
          · obtain ⟨e1, e2⟩ := hc
            subst e1
            rw [if_pos (by omega), if_pos ⟨Nat.lt_succ_self _, e2⟩]
          · rw [if_neg]
            · rw [g2 j col hj hcol]
              by_cases hc2 : col / 8 = I
              · have hjJ : j ≠ J := fun h => hc ⟨h, hc2⟩
                by_cases hlt : j < J
                · rw [if_pos ⟨hlt, hc2⟩, if_pos ⟨by omega, hc2⟩]
                · rw [if_neg (fun h => hlt h.1), if_neg (fun h => hlt (by omega))]
              · rw [if_neg (fun h => hc2 h.2), if_neg (fun h => hc2 h.2)]
            · intro hr
              have hcol2 : j * (k * 8) + col - J * (k * 8) < k * 8 := by omega
              have := cell_inj (k * 8) j col J (j * (k * 8) + col - J * (k * 8)) hcol hcol2
                (by omega)
              apply hc
              refine ⟨this.1, ?_⟩
              omega
    · rw [if_neg hE]
      refine ⟨h1, ?_⟩
      intro j col hj hcol
      rw [h2 j col hj hcol]
      have hE2 : rtp I = (I : Int) := not_not.mp hE
      by_cases hlt : col / 8 < I
      · by_cases hr : rtp (col / 8) ≠ ((col / 8 : Nat) : Int)
        · rw [if_pos ⟨hlt, hr⟩, if_pos ⟨by omega, hr⟩]
        · rw [if_neg (fun h => hr h.2), if_neg (fun h => hr h.2)]
      · rw [if_neg (fun h => hlt h.1)]
        by_cases hc : col / 8 = I
        · rw [if_neg]
          intro h
          apply h.2
          rw [hc]
          exact hE2
        · rw [if_neg (fun h => hc (by omega))]

end CauchyRSCoder

namespace CauchyRSCoder

open GaloisOperator

/-! ## The rows of the decoding bit matrix for an erased code part -/

/-- The innermost loop of `Decode`: one row of the decoding bit matrix is added
to a later one. -/
theorem xor_row_loop (d : Nat → Nat) (p1 off : Int) (q1 p2 len : Nat)
    (hq : ∀ n, n < len → (p1 + n + off).toNat = q1 + n) (h : q1 + len ≤ p2) (idx : Nat) :
    forLoop len
        (fun n d => store d ((p2 + n : Nat) : Int) (d (p2 + n) ^^^ load d (p1 + n + off))) d idx
      = if p2 ≤ idx ∧ idx < p2 + len then d idx ^^^ d (q1 + (idx - p2)) else d idx := by
  have key := forLoop_inv
    (fun (N : Nat) (t : Nat → Nat) => N ≤ len →
      ∀ idx, t idx = if p2 ≤ idx ∧ idx < p2 + N then d idx ^^^ d (q1 + (idx - p2)) else d idx)
    len
    (fun n d => store d ((p2 + n : Nat) : Int) (d (p2 + n) ^^^ load d (p1 + n + off))) d ?_ ?_
  · exact key (Nat.le_refl _) idx
  · intro _ idx
    rw [if_neg (by omega)]
  · intro N hN t ht hle idx
    have ht2 := ht (by omega)
    show store t _ _ idx = _
    by_cases hi : idx = p2 + N
    · subst hi
      rw [store_same, if_pos (by omega), ht2 (p2 + N), if_neg (by omega)]
      unfold load
      rw [hq N hN, ht2 (q1 + N), if_neg (by omega)]
      congr 2
      omega
    · rw [store_other _ _ _ _ (by intro h'; exact hi (by exact_mod_cast h')), ht2 idx]
      by_cases hr : p2 ≤ idx ∧ idx < p2 + N
      · rw [if_pos hr, if_pos (by omega)]
      · rw [if_neg hr, if_neg (by omega)]

theorem substTerms_succ (rtp : Nat → Int) (B : Nat → Nat) (rs C : Nat) :
    substTerms rtp B rs (C + 1)
      = substTerms rtp B rs C
        ++ (if rtp (C / 8) ≠ ((C / 8 : Nat) : Int) ∧ B (rs + C) ≠ 0 then [C] else []) := by
  unfold substTerms
  rw [List.range_succ, List.filter_append]
  congr 1
  by_cases h : rtp (C / 8) ≠ ((C / 8 : Nat) : Int) ∧ B (rs + C) ≠ 0
  · rw [if_pos h]
    simp only [List.filter, h.1, h.2, ne_eq, not_false_eq_true, decide_True, Bool.and_self]
  · rw [if_neg h]
    have h' : (decide (rtp (C / 8) ≠ ((C / 8 : Nat) : Int)) && decide (B (rs + C) ≠ 0)) = false := by
      rw [Bool.and_eq_false_iff]
      rcases not_and_or.mp h with h1 | h1
      · exact Or.inl (decide_eq_false h1)
      · exact Or.inr (decide_eq_false h1)
    simp only [List.filter, h']

theorem codeRowCell_succ_pos (n : Nat) (rtp : Nat → Int) (B Tinv : Nat → Nat) (rs C col : Nat)
    (h1 : rtp (C / 8) ≠ ((C / 8 : Nat) : Int)) (h2 : B (rs + C) ≠ 0) :
    codeRowCell n rtp B Tinv rs (C + 1) col
      = codeRowCell n rtp B Tinv rs C col ^^^ Tinv (C * n + col) := by
  unfold codeRowCell
  rw [substTerms_succ, if_pos ⟨h1, h2⟩, List.foldl_append]
  simp only [List.foldl]
  rw [Nat.xor_assoc]

theorem codeRowCell_succ_neg (n : Nat) (rtp : Nat → Int) (B Tinv : Nat → Nat) (rs C col : Nat)
    (h : ¬ (rtp (C / 8) ≠ ((C / 8 : Nat) : Int) ∧ B (rs + C) ≠ 0)) :
    codeRowCell n rtp B Tinv rs (C + 1) col = codeRowCell n rtp B Tinv rs C col := by
  unfold codeRowCell
  rw [substTerms_succ, if_neg h, List.append_nil]

/-- A block of a data part that is there adds nothing to a row. -/
theorem codeRowCell_skip (n : Nat) (rtp : Nat → Int) (B Tinv : Nat → Nat) (rs I col : Nat)
    (h : rtp I = (I : Int)) (M : Nat) (hM : M ≤ 8) :
    codeRowCell n rtp B Tinv rs (I * 8 + M) col = codeRowCell n rtp B Tinv rs (I * 8) col := by
  induction M with
  | zero => rfl
  | succ M ih =>
    rw [← Nat.add_assoc, codeRowCell_succ_neg, ih (by omega)]
    intro h'
    apply h'.1
    have e : (I * 8 + M) / 8 = I := by omega
    rw [e]
    exact h

theorem codeRowCell_zero (n : Nat) (rtp : Nat → Int) (B Tinv : Nat → Nat) (rs col : Nat) :
    codeRowCell n rtp B Tinv rs 0 col = maskedCell rtp B rs col := by
  unfold codeRowCell substTerms
  simp

/-- The loop of `Decode` that adds to a block-row of the decoding bit matrix,
for every data part that is not there, the rows of the inverse that the
encoding bit matrix selects. -/
theorem add_inverse_rows (k iter rowBase : Nat) (index : Int) (hindex : index = (rowBase : Int))
    (rtp ptr : Nat → Int) (B Tinv d2 : Nat → Nat)
    (hptr : ∀ i, i < k → rtp i ≠ (i : Int) → ∃ e : Nat, ptr i = (k : Int) + e ∧
      (e + 1) * (k * 8 * 8) ≤ iter ∧
      ∀ m col, m < 8 → col < k * 8 →
        d2 (e * (k * 8 * 8) + (m * (k * 8) + col)) = Tinv ((i * 8 + m) * (k * 8) + col))
    (hrow : ∀ j col, j < 8 → col < k * 8 →
      d2 (iter + (j * (k * 8) + col)) = maskedCell rtp B (rowBase + j * (k * 8)) col) :
    (∀ idx, idx < iter ∨ iter + k * 8 * 8 ≤ idx →
      forLoop k
        (fun i d =>
          if load rtp i ≠ i then
            forLoop kWordBits
              (fun j d =>
                forLoop kWordBits
                  (fun m d =>
                    if load B (index + j * k * kWordBits + i * kWordBits + m) ≠ 0 then
                      forLoop (k * kWordBits)
                        (fun n d =>
                          store d ((iter + j * k * kWordBits + n : Nat) : Int)
                            (d (iter + j * k * kWordBits + n)
                              ^^^ load d ((load ptr i - k) * k * kWordBits * kWordBits
                                    + n + m * k * kWordBits)))
                        d
                    else d)
                  d)
              d
          else d) d2 idx = d2 idx) ∧
    ∀ j col, j < 8 → col < k * 8 →
      forLoop k
        (fun i d =>
          if load rtp i ≠ i then
            forLoop kWordBits
              (fun j d =>
                forLoop kWordBits
                  (fun m d =>
                    if load B (index + j * k * kWordBits + i * kWordBits + m) ≠ 0 then
                      forLoop (k * kWordBits)
                        (fun n d =>
                          store d ((iter + j * k * kWordBits + n : Nat) : Int)
                            (d (iter + j * k * kWordBits + n)
                              ^^^ load d ((load ptr i - k) * k * kWordBits * kWordBits
                                    + n + m * k * kWordBits)))
                        d
                    else d)
                  d)
              d
          else d) d2 (iter + (j * (k * 8) + col))
        = codeRowCell (k * 8) rtp B Tinv (rowBase + j * (k * 8)) (k * 8) col := by
  have key := forLoop_inv
    (fun (I : Nat) (t : Nat → Nat) =>
      (∀ idx, idx < iter ∨ iter + k * 8 * 8 ≤ idx → t idx = d2 idx) ∧
      ∀ j col, j < 8 → col < k * 8 →
        t (iter + (j * (k * 8) + col))
          = codeRowCell (k * 8) rtp B Tinv (rowBase + j * (k * 8)) (I * 8) col) k
    (fun i d =>
      if load rtp i ≠ i then
        forLoop kWordBits
          (fun j d =>
            forLoop kWordBits
              (fun m d =>
                if load B (index + j * k * kWordBits + i * kWordBits + m) ≠ 0 then
                  forLoop (k * kWordBits)
                    (fun n d =>
                      store d ((iter + j * k * kWordBits + n : Nat) : Int)
                        (d (iter + j * k * kWordBits + n)
                          ^^^ load d ((load ptr i - k) * k * kWordBits * kWordBits
                                + n + m * k * kWordBits)))
                    d
                else d)
              d)
          d
      else d) d2 ⟨fun _ _ => rfl, ?_⟩ ?_
  · exact key
  · intro j col hj hcol
    rw [Nat.zero_mul, codeRowCell_zero]
    exact hrow j col hj hcol
  · intro I hI t ⟨h1, h2⟩
    beta_reduce
    rw [load_natCast]
    by_cases hE : rtp I ≠ (I : Int)
    · rw [if_pos hE]
      obtain ⟨e, hpe, hle, hread⟩ := hptr I hI hE
      have outer := forLoop_inv
        (fun (J : Nat) (u : Nat → Nat) =>
          (∀ idx, idx < iter ∨ iter + k * 8 * 8 ≤ idx → u idx = d2 idx) ∧
          ∀ j col, j < 8 → col < k * 8 →
            u (iter + (j * (k * 8) + col))
              = codeRowCell (k * 8) rtp B Tinv (rowBase + j * (k * 8))
                  (if j < J then (I + 1) * 8 else I * 8) col) kWordBits
        (fun j d =>
          forLoop kWordBits
            (fun m d =>
              if load B (index + j * k * kWordBits + I * kWordBits + m) ≠ 0 then
                forLoop (k * kWordBits)
                  (fun n d =>
                    store d ((iter + j * k * kWordBits + n : Nat) : Int)
                      (d (iter + j * k * kWordBits + n)
                        ^^^ load d ((load ptr I - k) * k * kWordBits * kWordBits
                              + n + m * k * kWordBits)))
                  d
              else d)
            d) t ⟨h1, ?_⟩ ?_
      · refine ⟨outer.1, ?_⟩
        intro j col hj hcol
        rw [outer.2 j col hj hcol, if_pos (show j < kWordBits from hj)]
      · intro j col hj hcol
        rw [if_neg (Nat.not_lt_zero _)]
        exact h2 j col hj hcol
      · intro J hJ u ⟨g1, g2⟩
        have hJ8 : J < 8 := hJ
        beta_reduce
        have inner := forLoop_inv
          (fun (M : Nat) (v : Nat → Nat) =>
            (∀ idx, idx < iter ∨ iter + k * 8 * 8 ≤ idx → v idx = d2 idx) ∧
            ∀ j col, j < 8 → col < k * 8 →
              v (iter + (j * (k * 8) + col))
                = codeRowCell (k * 8) rtp B Tinv (rowBase + j * (k * 8))
                    (if j < J then (I + 1) * 8 else if j = J then I * 8 + M else I * 8) col)
          kWordBits
          (fun m d =>
            if load B (index + J * k * kWordBits + I * kWordBits + m) ≠ 0 then
              forLoop (k * kWordBits)
                (fun n d =>
                  store d ((iter + J * k * kWordBits + n : Nat) : Int)
                    (d (iter + J * k * kWordBits + n)
                      ^^^ load d ((load ptr I - k) * k * kWordBits * kWordBits
                            + n + m * k * kWordBits)))
                d
            else d) u ⟨g1, ?_⟩ ?_
        · refine ⟨inner.1, ?_⟩
          intro j col hj hcol
          rw [inner.2 j col hj hcol]
          by_cases hlt : j < J
          · rw [if_pos hlt, if_pos (by omega)]
          · rw [if_neg hlt]
            by_cases hjJ : j = J
            · rw [if_pos hjJ, if_pos (by omega)]
              congr 1
              unfold kWordBits
              ring
            · rw [if_neg hjJ, if_neg (by omega)]
        · intro j col hj hcol
          rw [g2 j col hj hcol]
          by_cases hlt : j < J
          · rw [if_pos hlt, if_pos hlt]
          · rw [if_neg hlt, if_neg hlt]
            by_cases hjJ : j = J
            · rw [if_pos hjJ]
              rfl
            · rw [if_neg hjJ]
        · intro M hM v ⟨f1, f2⟩
          have hM8 : M < 8 := hM
          beta_reduce
          have hB : load B (index + J * k * kWordBits + I * kWordBits + M)
              = B (rowBase + J * (k * 8) + (I * 8 + M)) := by
            apply load_of_nonneg
            rw [hindex]
            unfold kWordBits
            push_cast
            ring
          rw [hB]
          have hC : (I * 8 + M) / 8 = I := by omega
          by_cases hb : B (rowBase + J * (k * 8) + (I * 8 + M)) ≠ 0
          · rw [if_pos hb]
            have hq : ∀ n, n < k * kWordBits →
                ((load ptr I - k) * k * kWordBits * kWordBits + n + M * k * kWordBits).toNat
                  = (e * (k * 8 * 8) + M * (k * 8)) + n := by
              intro n _
              have e1 : (load ptr I - k) * k * kWordBits * kWordBits + n + M * k * kWordBits
                  = (((e * (k * 8 * 8) + M * (k * 8)) + n : Nat) : Int) := by
                rw [load_natCast, hpe]
                unfold kWordBits
                push_cast
                ring
              rw [e1, Int.toNat_ofNat]
            have hp2 : iter + J * k * kWordBits = iter + J * (k * 8) := by
              unfold kWordBits
              ring
            have hinM : M * (k * 8) + k * 8 ≤ k * 8 * 8 := by
              have h := Nat.mul_le_mul_right (k * 8) (show M + 1 ≤ 8 by omega)
              rw [Nat.add_mul, Nat.one_mul] at h
              omega
            have hinJ : J * (k * 8) + k * 8 ≤ k * 8 * 8 := by
              have h := Nat.mul_le_mul_right (k * 8) (show J + 1 ≤ 8 by omega)
              rw [Nat.add_mul, Nat.one_mul] at h
              omega
            have e2 : (e + 1) * (k * 8 * 8) = e * (k * 8 * 8) + k * 8 * 8 := by ring
            have hkk : k * kWordBits = k * 8 := rfl
            have hxor := xor_row_loop v ((load ptr I - k) * k * kWordBits * kWordBits)
              (M * k * kWordBits) (e * (k * 8 * 8) + M * (k * 8)) (iter + J * k * kWordBits)
              (k * kWordBits) hq (by
                rw [hp2, hkk]
                omega)
            refine ⟨?_, ?_⟩
            · intro idx hidx
              rw [hxor idx, hp2, hkk]
              rw [if_neg]
              · exact f1 idx hidx
              · intro hr
                omega
            · intro j col hj hcol
              rw [hxor (iter + (j * (k * 8) + col)), hp2, hkk]
              by_cases hjJ : j = J
              · subst hjJ
                rw [if_pos (by omega), f2 j col hj hcol, if_neg (Nat.lt_irrefl _), if_pos rfl,
                  if_neg (Nat.lt_irrefl _), if_pos rfl]
                have e3 : e * (k * 8 * 8) + M * (k * 8) + (iter + (j * (k * 8) + col)
                    - (iter + j * (k * 8))) = e * (k * 8 * 8) + (M * (k * 8) + col) := by omega
                rw [e3]
                have hlt' : e * (k * 8 * 8) + (M * (k * 8) + col) < iter := by
                  omega
                rw [f1 _ (Or.inl hlt'), hread M col hM8 hcol]
                rw [← Nat.add_assoc (I * 8) M 1]
                rw [codeRowCell_succ_pos (k * 8) rtp B Tinv _ (I * 8 + M) col
                  (by rw [hC]; exact hE) (by rw [← Nat.add_assoc] at hb ⊢; exact hb)]
              · rw [if_neg, f2 j col hj hcol]
                · by_cases hlt : j < J
                  · rw [if_pos hlt, if_pos hlt]
                  · rw [if_neg hlt, if_neg hlt, if_neg hjJ, if_neg hjJ]
                · intro hr
                  have hcol2 : j * (k * 8) + col - J * (k * 8) < k * 8 := by omega
                  have := cell_inj (k * 8) j col J (j * (k * 8) + col - J * (k * 8)) hcol hcol2
                    (by omega)
                  exact hjJ this.1
          · rw [if_neg hb]
            refine ⟨f1, ?_⟩
            intro j col hj hcol
            rw [f2 j col hj hcol]
            by_cases hlt : j < J
            · rw [if_pos hlt, if_pos hlt]
            · rw [if_neg hlt, if_neg hlt]
              by_cases hjJ : j = J
              · subst hjJ
                rw [if_pos rfl, if_pos rfl, ← Nat.add_assoc (I * 8) M 1]
                rw [codeRowCell_succ_neg]
                intro h'
                exact hb h'.2
              · rw [if_neg hjJ, if_neg hjJ]
    · rw [if_neg hE]
      refine ⟨h1, ?_⟩
      intro j col hj hcol
      rw [h2 j col hj hcol]
      have e1 : (I + 1) * 8 = I * 8 + 8 := by ring
      rw [e1, codeRowCell_skip (k * 8) rtp B Tinv _ I col (not_not.mp hE) 8 (Nat.le_refl _)]

end CauchyRSCoder

namespace CauchyRSCoder

open GaloisOperator

/-- One round of the loop of `Decode` over the erased code parts, cell by
cell: the block-row of the round holds the rows of the encoding bit matrix of
the code part with the rows of the inverse added; no other cell is written. -/
theorem Decode_code_rows_cells (c : CauchyRSCoder) (s : DecodeSetup) (k' : Nat)
    (d Tinv : Nat → Nat) (cp : Nat)
    (hcp : load s.rowid_to_partidx ((k' : Int) + s.num_erased_data_parts + c.m_num_data_parts)
      = (cp : Int))
    (hk : c.m_num_data_parts ≤ cp)
    (hptr : ∀ i, i < c.m_num_data_parts → s.rowid_to_partidx i ≠ (i : Int) →
      ∃ e : Nat, e < s.num_erased_data_parts ∧
        s.partidx_to_rowid i = (c.m_num_data_parts : Int) + e ∧
        ∀ m col, m < 8 → col < c.m_num_data_parts * 8 →
          d (e * (c.m_num_data_parts * 8 * 8) + (m * (c.m_num_data_parts * 8) + col))
            = Tinv ((i * 8 + m) * (c.m_num_data_parts * 8) + col)) :
    (∀ idx, idx < (s.num_erased_data_parts + k') * (c.m_num_data_parts * 8 * 8) ∨
        (s.num_erased_data_parts + k') * (c.m_num_data_parts * 8 * 8)
          + c.m_num_data_parts * 8 * 8 ≤ idx →
      Decode_code_rows c s k' d idx = d idx) ∧
    ∀ j col, j < 8 → col < c.m_num_data_parts * 8 →
      Decode_code_rows c s k' d
          ((s.num_erased_data_parts + k') * (c.m_num_data_parts * 8 * 8)
            + (j * (c.m_num_data_parts * 8) + col))
        = codeRowCell (c.m_num_data_parts * 8) s.rowid_to_partidx c.m_encoding_bit_matrix Tinv
            (((cp - c.m_num_data_parts) * 8 + j) * (c.m_num_data_parts * 8))
            (c.m_num_data_parts * 8) col := by
  obtain ⟨k, m, B, sch⟩ := c
  obtain ⟨ptrs, rtp, ptr, gi, ei, ned, nec⟩ := s
  dsimp only at hcp hk hptr ⊢
  have hiter : k * kWordBits * kWordBits * (ned + k') = (ned + k') * (k * 8 * 8) := by
    unfold kWordBits
    ring
  have hindex : (load rtp ((k' : Int) + ned + k) - k) * k * kWordBits * kWordBits
      = (((cp - k) * (k * 8 * 8) : Nat) : Int) := by
    rw [hcp]
    unfold kWordBits
    push_cast [Nat.cast_sub hk]
    ring
  have hW : k * kWordBits * kWordBits = k * 8 * 8 := rfl
  have hin : ∀ j col, j < 8 → col < k * 8 → j * (k * 8) + col < k * 8 * 8 := by
    intro j col hj hcol
    have := cell_in_block (k * 8) j col hj hcol
    omega
  -- the copy of the block-row of the encoding bit matrix
  have hd1a : ∀ idx, idx < (ned + k') * (k * 8 * 8) ∨
      (ned + k') * (k * 8 * 8) + k * 8 * 8 ≤ idx →
      memcpyArr d ((ned + k') * (k * 8 * 8)) B
        ((load rtp ((k' : Int) + ned + k) - k) * k * kWordBits * kWordBits).toNat
        (k * kWordBits * kWordBits) idx = d idx := by
    intro idx hidx
    rw [hW]
    unfold memcpyArr
    rw [if_neg (by omega)]
  have hd1b : ∀ r, r < k * 8 * 8 →
      memcpyArr d ((ned + k') * (k * 8 * 8)) B
        ((load rtp ((k' : Int) + ned + k) - k) * k * kWordBits * kWordBits).toNat
        (k * kWordBits * kWordBits) ((ned + k') * (k * 8 * 8) + r)
        = B ((cp - k) * (k * 8 * 8) + r) := by
    intro r hr
    rw [hW, hindex, Int.toNat_ofNat]
    unfold memcpyArr
    rw [if_pos (by omega)]
    congr 2
    omega
  have hz := zero_blocks k (k * kWordBits * kWordBits * (ned + k')) rtp
    (memcpyArr d (k * kWordBits * kWordBits * (ned + k')) B
      ((load rtp ((k' : Int) + ned + k) - k) * k * kWordBits * kWordBits).toNat
      (k * kWordBits * kWordBits))
  rw [hiter] at hz
  have h3 := add_inverse_rows k (k * kWordBits * kWordBits * (ned + k')) ((cp - k) * (k * 8 * 8))
    ((load rtp ((k' : Int) + ned + k) - k) * k * kWordBits * kWordBits) hindex rtp ptr B Tinv
    (forLoop k
      (fun i d =>
        if load rtp i ≠ i then
          forLoop kWordBits
            (fun j d =>
              bzeroArr d (k * kWordBits * kWordBits * (ned + k') + j * k * kWordBits
                + i * kWordBits) kWordBits) d
        else d)
      (memcpyArr d (k * kWordBits * kWordBits * (ned + k')) B
        ((load rtp ((k' : Int) + ned + k) - k) * k * kWordBits * kWordBits).toNat
        (k * kWordBits * kWordBits)))
    (by
      intro i hi hE
      obtain ⟨e, he, hpe, hread⟩ := hptr i hi hE
      have hbb : (e + 1) * (k * 8 * 8) ≤ (ned + k') * (k * 8 * 8) :=
        Nat.mul_le_mul_right _ (by omega)
      refine ⟨e, hpe, by rw [hiter]; exact hbb, ?_⟩
      intro m col hm hcol
      have e2 : (e + 1) * (k * 8 * 8) = e * (k * 8 * 8) + k * 8 * 8 := by ring
      have := hin m col hm hcol
      rw [hiter, hz.1 _ (Or.inl (by omega)), hd1a _ (Or.inl (by omega))]
      exact hread m col hm hcol)
    (by
      intro j col hj hcol
      rw [hiter, hz.2 j col hj hcol, hd1b _ (hin j col hj hcol)]
      unfold maskedCell
      congr 2
      ring)
  rw [hiter] at h3
  have hgoal : Decode_code_rows ⟨k, m, B, sch⟩ ⟨ptrs, rtp, ptr, gi, ei, ned, nec⟩ k' d
      = forLoop k
        (fun i d =>
          if load rtp i ≠ i then
            forLoop kWordBits
              (fun j d =>
                forLoop kWordBits
                  (fun m d =>
                    if load B ((load rtp ((k' : Int) + ned + k) - k) * k * kWordBits * kWordBits
                        + j * k * kWordBits + i * kWordBits + m) ≠ 0 then
                      forLoop (k * kWordBits)
                        (fun n d =>
                          store d (((ned + k') * (k * 8 * 8) + j * k * kWordBits + n : Nat) : Int)
                            (d ((ned + k') * (k * 8 * 8) + j * k * kWordBits + n)
                              ^^^ load d ((load ptr i - k) * k * kWordBits * kWordBits
                                    + n + m * k * kWordBits)))
                        d
                    else d)
                  d)
              d
          else d)
        (forLoop k
          (fun i d =>
            if load rtp i ≠ i then
              forLoop kWordBits
                (fun j d =>
                  bzeroArr d ((ned + k') * (k * 8 * 8) + j * k * kWordBits
                    + i * kWordBits) kWordBits) d
            else d)
          (memcpyArr d ((ned + k') * (k * 8 * 8)) B
            ((load rtp ((k' : Int) + ned + k) - k) * k * kWordBits * kWordBits).toNat
            (k * kWordBits * kWordBits))) := by
    rw [← hiter]
    rfl
  rw [hgoal]
  refine ⟨?_, ?_⟩
  · intro idx hidx
    rw [h3.1 idx hidx, hz.1 idx hidx]
    exact hd1a idx hidx
  · intro j col hj hcol
    rw [h3.2 j col hj hcol]
    congr 1
    ring

end CauchyRSCoder

namespace CauchyRSCoder

open GaloisOperator

theorem Decode_data_rows_cells_of (c : CauchyRSCoder) (k : Nat) (hk : c.m_num_data_parts = k)
    (s : DecodeSetup) (Tinv d0 : Nat → Nat) :
    (∀ e r, e < s.num_erased_data_parts → r < k * 8 * 8 →
      Decode_data_rows c s Tinv d0 (e * (k * 8 * 8) + r)
        = Tinv (((k : Int) * kWordBits * kWordBits
            * load s.rowid_to_partidx ((k : Int) + e)).toNat + r)) ∧
    ∀ idx, s.num_erased_data_parts * (k * 8 * 8) ≤ idx →
      Decode_data_rows c s Tinv d0 idx = d0 idx := by
  subst hk
  exact Decode_data_rows_cells c s Tinv d0

theorem Decode_code_rows_cells_of (c : CauchyRSCoder) (k : Nat) (hk : c.m_num_data_parts = k)
    (B : Nat → Nat) (hB : c.m_encoding_bit_matrix = B) (s : DecodeSetup) (k' : Nat)
    (d Tinv : Nat → Nat) (cp : Nat)
    (hcp : load s.rowid_to_partidx ((k' : Int) + s.num_erased_data_parts + k) = (cp : Int))
    (hkcp : k ≤ cp)
    (hptr : ∀ i, i < k → s.rowid_to_partidx i ≠ (i : Int) →
      ∃ e : Nat, e < s.num_erased_data_parts ∧
        s.partidx_to_rowid i = (k : Int) + e ∧
        ∀ m col, m < 8 → col < k * 8 →
          d (e * (k * 8 * 8) + (m * (k * 8) + col)) = Tinv ((i * 8 + m) * (k * 8) + col)) :
    (∀ idx, idx < (s.num_erased_data_parts + k') * (k * 8 * 8) ∨
        (s.num_erased_data_parts + k') * (k * 8 * 8) + k * 8 * 8 ≤ idx →
      Decode_code_rows c s k' d idx = d idx) ∧
    ∀ j col, j < 8 → col < k * 8 →
      Decode_code_rows c s k' d
          ((s.num_erased_data_parts + k') * (k * 8 * 8) + (j * (k * 8) + col))
        = codeRowCell (k * 8) s.rowid_to_partidx B Tinv
            (((cp - k) * 8 + j) * (k * 8)) (k * 8) col := by
  subst hk
  subst hB
  exact Decode_code_rows_cells c s k' d Tinv cp hcp hkcp hptr

/-- The decoding bit matrix of `Decode`, row by row: the rows for an erased
data part are the rows of the inverse for that part; the rows for an erased
code part are the rows of the encoding bit matrix for that part, with the rows
of the inverse added for the columns of the data parts that are not there. -/
theorem Decode_matrix_rows (k m : Nat) (hkm : k + m ≤ 256) (erased : Nat → Bool)
    (s : DecodeSetup) (hs : SetupInv k m erased k m s) :
    ∃ Tinv D : Nat → Nat,
      Decode_decoding_bit_matrix (_Init k m) s = some D ∧
      (∀ r c, r < k * 8 → c < k * 8 → Tinv (r * (k * 8) + c) ≤ 1) ∧
      bitMatrix (k * 8) Tinv
          * bitMatrix (k * 8) (Decode_tmp_bit_matrix (_Init k m) s.rowid_to_partidx) = 1 ∧
      bitMatrix (k * 8) (Decode_tmp_bit_matrix (_Init k m) s.rowid_to_partidx)
          * bitMatrix (k * 8) Tinv = 1 ∧
      (∀ e a col, e < s.num_erased_data_parts → a < 8 → col < k * 8 →
        D ((e * 8 + a) * (k * 8) + col)
          = Tinv (((s.rowid_to_partidx (k + e)).toNat * 8 + a) * (k * 8) + col)) ∧
      (∀ k' j col, k' < s.num_erased_code_parts → j < 8 → col < k * 8 →
        D (((s.num_erased_data_parts + k') * 8 + j) * (k * 8) + col)
          = codeRowCell (k * 8) s.rowid_to_partidx
              (_MatrixToBitMatrix k m (_GenerateEncodeMatrix k m)) Tinv
              ((((s.rowid_to_partidx (k + s.num_erased_data_parts + k')).toNat - k) * 8 + j)
                * (k * 8)) (k * 8) col) := by
  obtain ⟨_, res, hres, hres1, hl, hr⟩ := Decode_inverse_exists k m hkm erased s hs
  have hidx : ∀ i a col : Nat, (i * 8 + a) * (k * 8) + col
      = i * (k * 8 * 8) + (a * (k * 8) + col) := by
    intro i a col
    ring
  have hin : ∀ j col, j < 8 → col < k * 8 → j * (k * 8) + col < k * 8 * 8 := by
    intro j col hj hcol
    have := cell_in_block (k * 8) j col hj hcol
    omega
  -- the rows for the erased data parts
  have hdata : ∃ D0 : Nat → Nat,
      (if s.num_erased_data_parts > 0 then
        (_InvertBitMatrix (Decode_tmp_bit_matrix (_Init k m) s.rowid_to_partidx) (fun _ => 0)
            (k * kWordBits)).map
          fun r => Decode_data_rows (_Init k m) s r.2 (fun _ => 0)
      else some (fun _ => 0)) = some D0 ∧
      ∀ e a col, e < s.num_erased_data_parts → a < 8 → col < k * 8 →
        D0 (e * (k * 8 * 8) + (a * (k * 8) + col))
          = res.2 (((s.rowid_to_partidx (k + e)).toNat * 8 + a) * (k * 8) + col) := by
    by_cases hned : s.num_erased_data_parts > 0
    · refine ⟨Decode_data_rows (_Init k m) s res.2 (fun _ => 0), ?_, ?_⟩
      · rw [if_pos hned, hres]
        rfl
      · intro e a col he ha hcol
        rw [(Decode_data_rows_cells_of (_Init k m) k rfl s res.2 (fun _ => 0)).1 e _ he
          (hin a col ha hcol)]
        obtain ⟨d, _, _, _, hd, _⟩ := hs.out_data (k + e) (by omega) (by omega)
        have hl : load s.rowid_to_partidx ((k : Int) + e) = (d : Int) := by
          rw [load_of_nonneg s.rowid_to_partidx ((k : Int) + e) (k + e) (by push_cast; ring)]
          exact hd
        rw [hl, hd, Int.toNat_ofNat]
        have e1 : (k : Int) * kWordBits * kWordBits * d = ((d * (k * 8 * 8) : Nat) : Int) := by
          unfold kWordBits
          push_cast
          ring
        rw [e1, Int.toNat_ofNat, hidx]
    · refine ⟨fun _ => 0, by rw [if_neg hned], ?_⟩
      intro e a col he
      omega
  obtain ⟨D0, hD0, hD0c⟩ := hdata
  have hepi := hs.epi
  -- the rows for the erased code parts
  have key := forLoop_inv
    (fun (K : Nat) (t : Nat → Nat) =>
      (∀ idx, idx < s.num_erased_data_parts * (k * 8 * 8) → t idx = D0 idx) ∧
      ∀ k' j col, k' < K → j < 8 → col < k * 8 →
        t ((s.num_erased_data_parts + k') * (k * 8 * 8) + (j * (k * 8) + col))
          = codeRowCell (k * 8) s.rowid_to_partidx
              (_MatrixToBitMatrix k m (_GenerateEncodeMatrix k m)) res.2
              ((((s.rowid_to_partidx (k + s.num_erased_data_parts + k')).toNat - k) * 8 + j)
                * (k * 8)) (k * 8) col) s.num_erased_code_parts
    (Decode_code_rows (_Init k m) s) D0
    ⟨fun _ _ => rfl, fun k' j col h => absurd h (Nat.not_lt_zero _)⟩ ?_
  · refine ⟨res.2, forLoop s.num_erased_code_parts (Decode_code_rows (_Init k m) s) D0,
      ?_, hres1, hl, hr, ?_, ?_⟩
    · unfold Decode_decoding_bit_matrix
      dsimp only
      have hk : (_Init k m).m_num_data_parts = k := rfl
      rw [hk, hD0]
      rfl
    · intro e a col he ha hcol
      rw [hidx, key.1 _ (by
        have := block_before (k * 8 * 8) e s.num_erased_data_parts _ he (hin a col ha hcol)
        omega)]
      exact hD0c e a col he ha hcol
    · intro k' j col hk' hj hcol
      rw [hidx]
      exact key.2 k' j col hk' hj hcol
  · intro K hK t ⟨h1, h2⟩
    obtain ⟨cp, hkcp, _, _, _, hcp⟩ := hs.out_code (k + s.num_erased_data_parts + K)
      (by omega) (by omega)
    have hload : load s.rowid_to_partidx ((K : Int) + s.num_erased_data_parts + k) = (cp : Int) := by
      rw [load_of_nonneg s.rowid_to_partidx _ (k + s.num_erased_data_parts + K)
        (by push_cast; ring)]
      exact hcp
    have hrows := Decode_code_rows_cells_of (_Init k m) k rfl
      (_MatrixToBitMatrix k m (_GenerateEncodeMatrix k m)) rfl s K t res.2 cp hload hkcp (by
        intro i hi hE
        have hei : erased i = true := by
          by_contra hne
          have hf : erased i = false := by
            cases h : erased i
            · rfl
            · exact absurd h hne
          exact hE (hs.intact i hi hf).2
        obtain ⟨e', he1, he2, he3⟩ := hs.all_data i hi hei
        obtain ⟨d, _, _, _, hd, hpd⟩ := hs.out_data e' he1 he2
        have hdi : d = i := by
          have : (d : Int) = (i : Int) := hd.symm.trans he3
          exact_mod_cast this
        subst hdi
        refine ⟨e' - k, by omega, ?_, ?_⟩
        · rw [hpd]
          push_cast [Nat.cast_sub he1]
          ring
        · intro mm col hmm hcol
          rw [h1 _ (by
            have := block_before (k * 8 * 8) (e' - k) s.num_erased_data_parts _
              (by omega) (hin mm col hmm hcol)
            omega)]
          rw [hD0c (e' - k) mm col (by omega) hmm hcol]
          have e2 : k + (e' - k) = e' := by omega
          rw [e2, hd, Int.toNat_ofNat])
    refine ⟨?_, ?_⟩
    · intro idx hidx'
      rw [hrows.1 idx (Or.inl (by
        have : s.num_erased_data_parts * (k * 8 * 8)
            ≤ (s.num_erased_data_parts + K) * (k * 8 * 8) := Nat.mul_le_mul_right _ (by omega)
        omega))]
      exact h1 idx hidx'
    · intro k' j col hk' hj hcol
      rcases Nat.lt_or_ge k' K with hlt | hge
      · rw [hrows.1 _ (Or.inl (by
          have := block_before (k * 8 * 8) (s.num_erased_data_parts + k')
            (s.num_erased_data_parts + K) _ (by omega) (hin j col hj hcol)
          omega))]
        exact h2 k' j col hlt hj hcol
      · have hkK : k' = K := by omega
        subst hkK
        rw [hrows.2 j col hj hcol, hcp, Int.toNat_ofNat]

end CauchyRSCoder

namespace CauchyRSCoder

open GaloisOperator

/-! ## The decoding bit matrix over GF(2) -/

/-- The rows of the inverse for a data part that is there are rows of the
identity. -/
theorem inverse_intact_rows (k m : Nat) (erased : Nat → Bool) (s : DecodeSetup)
    (hs : SetupInv k m erased k m s) (Tinv : Nat → Nat)
    (hT1 : ∀ r c, r < k * 8 → c < k * 8 → Tinv (r * (k * 8) + c) ≤ 1)
    (hr : bitMatrix (k * 8) (Decode_tmp_bit_matrix (_Init k m) s.rowid_to_partidx)
      * bitMatrix (k * 8) Tinv = 1)
    (i a col : Nat) (hi : i < k) (he : erased i = false) (ha : a < 8) (hcol : col < k * 8) :
    Tinv ((i * 8 + a) * (k * 8) + col) = if col = i * 8 + a then 1 else 0 := by
  have hrow : i * 8 + a < k * 8 := by omega
  have h := congrFun (congrFun hr ⟨i * 8 + a, hrow⟩) ⟨col, hcol⟩
  rw [Matrix.mul_apply, Finset.sum_eq_single (⟨i * 8 + a, hrow⟩ : Fin (k * 8))] at h
  · have hc := (Decode_tmp_cells k m erased s hs).1 i a (i * 8 + a) hi he ha hrow
    rw [if_pos rfl] at hc
    unfold bitMatrix at h
    simp only [Matrix.of_apply] at h
    rw [hc, Nat.cast_one, one_mul, Matrix.one_apply] at h
    have hle := hT1 (i * 8 + a) col hrow hcol
    by_cases hcc : col = i * 8 + a
    · rw [if_pos hcc]
      rw [if_pos (by rw [Fin.mk.injEq]; exact hcc.symm)] at h
      rcases Nat.le_one_iff_eq_zero_or_eq_one.1 hle with h0 | h1
      · rw [h0] at h
        exact absurd h (by decide)
      · exact h1
    · rw [if_neg hcc]
      rw [if_neg (by rw [Fin.mk.injEq]; exact fun h' => hcc h'.symm)] at h
      exact (cast_eq_zero _ hle).1 h
  · intro x _ hx
    have hc := (Decode_tmp_cells k m erased s hs).1 i a x.val hi he ha x.isLt
    rw [if_neg (by
      intro h'
      apply hx
      exact Fin.ext h')] at hc
    unfold bitMatrix
    simp only [Matrix.of_apply]
    rw [hc, Nat.cast_zero, zero_mul]
  · intro h'
    exact absurd (Finset.mem_univ _) h'

/-- The rows of the inverse that a row of the encoding bit matrix selects, added
up over GF(2). -/
theorem substTerms_cast (n : Nat) (rtp : Nat → Int) (B Tinv : Nat → Nat) (rs col : Nat)
    (hB : ∀ c, B c ≤ 1) (hT : ∀ c, c < n → Tinv (c * n + col) ≤ 1) (C : Nat) (hC : C ≤ n) :
    (substTerms rtp B rs C).foldl (fun acc c => acc ^^^ Tinv (c * n + col)) 0 ≤ 1 ∧
    ((((substTerms rtp B rs C).foldl (fun acc c => acc ^^^ Tinv (c * n + col)) 0 : Nat)) : ZMod 2)
      = ∑ c ∈ Finset.range C,
          if rtp (c / 8) ≠ ((c / 8 : Nat) : Int) then
            ((B (rs + c) : Nat) : ZMod 2) * ((Tinv (c * n + col) : Nat) : ZMod 2)
          else 0 := by
  induction C with
  | zero =>
    refine ⟨Nat.zero_le _, ?_⟩
    simp [substTerms]
  | succ C ih =>
    obtain ⟨ih1, ih2⟩ := ih (by omega)
    rw [substTerms_succ, List.foldl_append, Finset.sum_range_succ, ← ih2]
    by_cases h : rtp (C / 8) ≠ ((C / 8 : Nat) : Int) ∧ B (rs + C) ≠ 0
    · rw [if_pos h, if_pos h.1]
      have hB1 : B (rs + C) = 1 := by
        have := hB (rs + C)
        have := h.2
        omega
      simp only [List.foldl]
      rw [hB1, Nat.cast_one, one_mul]
      exact ⟨xor_le_one _ _ ih1 (hT C (by omega)), cast_xor _ _ ih1 (hT C (by omega))⟩
    · rw [if_neg h]
      simp only [List.foldl]
      refine ⟨ih1, ?_⟩
      by_cases h1 : rtp (C / 8) ≠ ((C / 8 : Nat) : Int)
      · rw [if_pos h1]
        have hB0 : B (rs + C) = 0 := by
          by_contra h2
          exact h ⟨h1, h2⟩
        rw [hB0, Nat.cast_zero, zero_mul, add_zero]
      · rw [if_neg h1, add_zero]

/-- A cell of a row of the decoding bit matrix for an erased code part is the
cell of the product of the row of the encoding bit matrix and the inverse. -/
theorem codeRowCell_cast (n : Nat) (rtp : Nat → Int) (B Tinv : Nat → Nat) (rs col : Nat)
    (hcol : col < n)
    (hB : ∀ c, B c ≤ 1) (hT : ∀ c, c < n → Tinv (c * n + col) ≤ 1)
    (hunit : ∀ c, c < n → rtp (c / 8) = ((c / 8 : Nat) : Int) →
      Tinv (c * n + col) = if col = c then 1 else 0) :
    codeRowCell n rtp B Tinv rs n col ≤ 1 ∧
    ((codeRowCell n rtp B Tinv rs n col : Nat) : ZMod 2)
      = ∑ c ∈ Finset.range n,
          ((B (rs + c) : Nat) : ZMod 2) * ((Tinv (c * n + col) : Nat) : ZMod 2) := by
  obtain ⟨h1, h2⟩ := substTerms_cast n rtp B Tinv rs col hB hT n (Nat.le_refl _)
  have hm1 : maskedCell rtp B rs col ≤ 1 := by
    unfold maskedCell
    split
    · exact Nat.zero_le _
    · exact hB _
  have hm2 : ((maskedCell rtp B rs col : Nat) : ZMod 2)
      = ∑ c ∈ Finset.range n,
          if rtp (c / 8) ≠ ((c / 8 : Nat) : Int) then 0
          else ((B (rs + c) : Nat) : ZMod 2) * ((Tinv (c * n + col) : Nat) : ZMod 2) := by
    rw [Finset.sum_eq_single col]
    · unfold maskedCell
      by_cases h : rtp (col / 8) ≠ ((col / 8 : Nat) : Int)
      · rw [if_pos h, if_pos h, Nat.cast_zero]
      · rw [if_neg h, if_neg h, hunit col hcol (not_not.mp h), if_pos rfl, Nat.cast_one, mul_one]
    · intro c hc hne
      by_cases h : rtp (c / 8) ≠ ((c / 8 : Nat) : Int)
      · rw [if_pos h]
      · rw [if_neg h, hunit c (Finset.mem_range.1 hc) (not_not.mp h),
          if_neg (fun h' => hne h'.symm), Nat.cast_zero, mul_zero]
    · intro h
      exact absurd (Finset.mem_range.2 hcol) h
  unfold codeRowCell
  refine ⟨xor_le_one _ _ hm1 h1, ?_⟩
  rw [cast_xor _ _ hm1 h1, hm2, h2, ← Finset.sum_add_distrib]
  apply Finset.sum_congr rfl
  intro c _
  by_cases h : rtp (c / 8) ≠ ((c / 8 : Nat) : Int)
  · rw [if_pos h, if_pos h, zero_add]
  · rw [if_neg h, if_neg h, add_zero]

/-- A row of zeros and ones that the inverse maps to zero is zero. -/
theorem row_zero_of_product_zero (n : Nat) (Tinv T : Nat → Nat) (b : Nat → Nat)
    (hb : ∀ c, c < n → b c ≤ 1)
    (hl : bitMatrix n Tinv * bitMatrix n T = 1)
    (h : ∀ col, col < n →
      ∑ c ∈ Finset.range n, ((b c : Nat) : ZMod 2) * ((Tinv (c * n + col) : Nat) : ZMod 2) = 0) :
    ∀ c, c < n → b c = 0 := by
  have hv : Matrix.vecMul (fun c : Fin n => ((b c.val : Nat) : ZMod 2)) (bitMatrix n Tinv) = 0 := by
    funext col
    have := h col.val col.isLt
    rw [Finset.sum_range] at this
    exact this
  have h2 : Matrix.vecMul (fun c : Fin n => ((b c.val : Nat) : ZMod 2))
      (bitMatrix n Tinv * bitMatrix n T) = 0 := by
    rw [← Matrix.vecMul_vecMul, hv, Matrix.zero_vecMul]
  rw [hl, Matrix.vecMul_one] at h2
  intro c hc
  have := congrFun h2 ⟨c, hc⟩
  exact (cast_eq_zero _ (hb c hc)).1 this

/-- A row of the inverse is not zero. -/
theorem inverse_row_nonzero (n : Nat) (Tinv T : Nat → Nat)
    (hl : bitMatrix n Tinv * bitMatrix n T = 1) (r : Nat) (hr : r < n) :
    ∃ col, col < n ∧ Tinv (r * n + col) ≠ 0 := by
  by_contra hno
  have hz : ∀ col, col < n → Tinv (r * n + col) = 0 := by
    intro col hcol
    by_contra h
    exact hno ⟨col, hcol, h⟩
  have h := congrFun (congrFun hl ⟨r, hr⟩) ⟨r, hr⟩
  rw [Matrix.mul_apply, Matrix.one_apply_eq] at h
  rw [Finset.sum_eq_zero] at h
  · exact absurd h (by decide)
  · intro x _
    unfold bitMatrix
    simp only [Matrix.of_apply]
    rw [hz x.val x.isLt, Nat.cast_zero, zero_mul]

theorem scratchSrcs_ne_nil_of (k : Nat) (B : Nat → Nat) (x j : Nat) (hj : j < k * 8)
    (h : B (x * (k * 8) + j) ≠ 0) : scratchSrcs k B x ≠ [] := by
  intro hnil
  have := scratchSrcs_eq_nil k B x hnil j hj
  apply h
  rw [← this]
  congr 1
  unfold kWordBits
  ring

/-- The decoding bit matrix of `Decode` is a matrix of zeros and ones without a
row of zeros; over GF(2) the row for sub-packet `a` of an erased data part `p`
is row `p * 8 + a` of the inverse, and the row for sub-packet `a` of an erased
code part `p` is the product of row `(p - k) * 8 + a` of the encoding bit
matrix and the inverse. -/
theorem Decode_matrix_form (k m : Nat) (hk : 0 < k) (hkm : k + m ≤ 256) (erased : Nat → Bool)
    (s : DecodeSetup) (hs : SetupInv k m erased k m s) :
    ∃ Tinv D : Nat → Nat,
      Decode_decoding_bit_matrix (_Init k m) s = some D ∧
      bitMatrix (k * 8) Tinv
          * bitMatrix (k * 8) (Decode_tmp_bit_matrix (_Init k m) s.rowid_to_partidx) = 1 ∧
      (∀ x j, x < (s.num_erased_data_parts + s.num_erased_code_parts) * kWordBits →
        j < k * kWordBits → D (x * k * kWordBits + j) ≤ 1) ∧
      (∀ x, x < (s.num_erased_data_parts + s.num_erased_code_parts) * kWordBits →
        scratchSrcs k D x ≠ []) ∧
      ∀ x, x < (s.num_erased_data_parts + s.num_erased_code_parts) * 8 →
        ∀ p : Nat, s.rowid_to_partidx (k + x / 8) = (p : Int) →
          (p < k → ∀ col, col < k * 8 →
            D (x * (k * 8) + col) = Tinv ((p * 8 + x % 8) * (k * 8) + col)) ∧
          (k ≤ p → ∀ col, col < k * 8 →
            ((D (x * (k * 8) + col) : Nat) : ZMod 2)
              = ∑ c ∈ Finset.range (k * 8),
                  ((_MatrixToBitMatrix k m (_GenerateEncodeMatrix k m)
                      (((p - k) * 8 + x % 8) * (k * 8) + c) : Nat) : ZMod 2)
                    * ((Tinv (c * (k * 8) + col) : Nat) : ZMod 2)) := by
  obtain ⟨Tinv, D, hD, hT1, hl, hr, hdata, hcode⟩ := Decode_matrix_rows k m hkm erased s hs
  have hepi := hs.epi
  have hunit : ∀ col, col < k * 8 → ∀ c, c < k * 8 →
      s.rowid_to_partidx (c / 8) = ((c / 8 : Nat) : Int) →
      Tinv (c * (k * 8) + col) = if col = c then 1 else 0 := by
    intro col hcol c hc hrt
    have hce : erased (c / 8) = false := by
      cases h : erased (c / 8)
      · rfl
      · obtain ⟨cp, h1, _, _, _, h5⟩ := hs.subst (c / 8) (by omega) h
        rw [h5] at hrt
        have : cp = c / 8 := by exact_mod_cast hrt
        omega
    have := inverse_intact_rows k m erased s hs Tinv hT1 hr (c / 8) (c % 8) col (by omega) hce
      (Nat.mod_lt _ (by decide)) hcol
    have e : c / 8 * 8 + c % 8 = c := by omega
    rw [e] at this
    exact this
  -- every row, split into its part and its bit
  have hrowcases : ∀ x, x < (s.num_erased_data_parts + s.num_erased_code_parts) * 8 →
      (∀ j, j < k * 8 → D (x * (k * 8) + j) ≤ 1) ∧
      (∃ j, j < k * 8 ∧ D (x * (k * 8) + j) ≠ 0) ∧
      ∀ p : Nat, s.rowid_to_partidx (k + x / 8) = (p : Int) →
        (p < k → ∀ col, col < k * 8 →
          D (x * (k * 8) + col) = Tinv ((p * 8 + x % 8) * (k * 8) + col)) ∧
        (k ≤ p → ∀ col, col < k * 8 →
          ((D (x * (k * 8) + col) : Nat) : ZMod 2)
            = ∑ c ∈ Finset.range (k * 8),
                ((_MatrixToBitMatrix k m (_GenerateEncodeMatrix k m)
                    (((p - k) * 8 + x % 8) * (k * 8) + c) : Nat) : ZMod 2)
                  * ((Tinv (c * (k * 8) + col) : Nat) : ZMod 2)) := by
    intro x hx
    have ex : x = x / 8 * 8 + x % 8 := by omega
    have hbit : x % 8 < 8 := Nat.mod_lt _ (by decide)
    rcases Nat.lt_or_ge (x / 8) s.num_erased_data_parts with hlt | hge
    · -- a row for an erased data part
      obtain ⟨d, hd1, _, _, hd, _⟩ := hs.out_data (k + x / 8) (by omega) (by omega)
      have hrow : d * 8 + x % 8 < k * 8 := by omega
      have hcell : ∀ j, j < k * 8 →
          D (x * (k * 8) + j) = Tinv ((d * 8 + x % 8) * (k * 8) + j) := by
        intro j hj
        have := hdata (x / 8) (x % 8) j hlt hbit hj
        rw [← ex, hd, Int.toNat_ofNat] at this
        exact this
      refine ⟨fun j hj => by rw [hcell j hj]; exact hT1 _ _ hrow hj, ?_, ?_⟩
      · obtain ⟨col, hcol, hne⟩ := inverse_row_nonzero (k * 8) Tinv _ hl (d * 8 + x % 8) hrow
        exact ⟨col, hcol, by rw [hcell col hcol]; exact hne⟩
      · intro p hp
        have hpd : p = d := by
          have : (p : Int) = (d : Int) := hp.symm.trans hd
          exact_mod_cast this
        subst hpd
        exact ⟨fun _ col hcol => hcell col hcol, fun h => absurd h (by omega)⟩
    · -- a row for an erased code part
      have hk' : x / 8 - s.num_erased_data_parts < s.num_erased_code_parts := by omega
      have e2 : s.num_erased_data_parts + (x / 8 - s.num_erased_data_parts) = x / 8 := by omega
      obtain ⟨cp, hcp1, hcp2, _, _, hcp⟩ := hs.out_code (k + x / 8) (by omega) (by omega)
      have hcell : ∀ j, j < k * 8 →
          D (x * (k * 8) + j)
            = codeRowCell (k * 8) s.rowid_to_partidx
                (_MatrixToBitMatrix k m (_GenerateEncodeMatrix k m)) Tinv
                (((cp - k) * 8 + x % 8) * (k * 8)) (k * 8) j := by
        intro j hj
        have := hcode (x / 8 - s.num_erased_data_parts) (x % 8) j hk' hbit hj
        rw [e2, ← ex, Nat.add_assoc, e2, hcp, Int.toNat_ofNat] at this
        exact this
      have hcast := fun j (hj : j < k * 8) =>
        codeRowCell_cast (k * 8) s.rowid_to_partidx
          (_MatrixToBitMatrix k m (_GenerateEncodeMatrix k m)) Tinv
          (((cp - k) * 8 + x % 8) * (k * 8)) j hj (MatrixToBitMatrix_le_one k m _)
          (fun c hc => hT1 c j hc hj) (hunit j hj)
      refine ⟨fun j hj => by rw [hcell j hj]; exact (hcast j hj).1, ?_, ?_⟩
      swap
      · intro p hp
        have hpd : p = cp := by
          have : (p : Int) = (cp : Int) := hp.symm.trans hcp
          exact_mod_cast this
        subst hpd
        refine ⟨fun h => absurd h (by omega), fun _ col hcol => ?_⟩
        rw [hcell col hcol]
        exact (hcast col hcol).2
      by_contra hno
      have hz : ∀ j, j < k * 8 → D (x * (k * 8) + j) = 0 := by
        intro j hj
        by_contra h
        exact hno ⟨j, hj, h⟩
      have hB0 := row_zero_of_product_zero (k * 8) Tinv _
        (fun c => _MatrixToBitMatrix k m (_GenerateEncodeMatrix k m)
          (((cp - k) * 8 + x % 8) * (k * 8) + c))
        (fun c _ => MatrixToBitMatrix_le_one k m _ _) hl (by
          intro col hcol
          rw [← (hcast col hcol).2, ← hcell col hcol, hz col hcol, Nat.cast_zero])
      have hnz := encoding_rows_nonzero k m hk hkm ((cp - k) * 8 + x % 8) (by
        unfold kWordBits
        omega)
      apply hnz
      unfold scratchSrcs
      rw [List.filter_eq_nil_iff]
      intro c hc
      have hc' : c < k * 8 := List.mem_range.1 hc
      have : _MatrixToBitMatrix k m (_GenerateEncodeMatrix k m)
          (((cp - k) * 8 + x % 8) * (k * 8) + c) = 0 := hB0 c hc'
      have e3 : ((cp - k) * 8 + x % 8) * k * kWordBits + c
          = ((cp - k) * 8 + x % 8) * (k * 8) + c := by
        unfold kWordBits
        ring
      rw [e3, this]
      simp
  refine ⟨Tinv, D, hD, hl, ?_, ?_, fun x hx => (hrowcases x hx).2.2⟩
  · intro x j hx hj
    have e : x * k * kWordBits + j = x * (k * 8) + j := by
      unfold kWordBits
      ring
    rw [e]
    exact (hrowcases x hx).1 j hj
  · intro x hx
    obtain ⟨j, hj, hne⟩ := (hrowcases x hx).2.1
    exact scratchSrcs_ne_nil_of k D x j hj hne

/-- The decoding bit matrix of `Decode` is a matrix of zeros and ones without a
row of zeros. -/
theorem Decode_matrix_props (k m : Nat) (hk : 0 < k) (hkm : k + m ≤ 256) (erased : Nat → Bool)
    (s : DecodeSetup) (hs : SetupInv k m erased k m s) :
    ∃ D : Nat → Nat,
      Decode_decoding_bit_matrix (_Init k m) s = some D ∧
      (∀ x j, x < (s.num_erased_data_parts + s.num_erased_code_parts) * kWordBits →
        j < k * kWordBits → D (x * k * kWordBits + j) ≤ 1) ∧
      ∀ x, x < (s.num_erased_data_parts + s.num_erased_code_parts) * kWordBits →
        scratchSrcs k D x ≠ [] := by
  obtain ⟨_, D, hD, _, h1, h2, _⟩ := Decode_matrix_form k m hk hkm erased s hs
  exact ⟨D, hD, h1, h2⟩

end CauchyRSCoder

namespace CauchyRSCoder

open GaloisOperator

/-! ## What `Decode` writes into the erased shards -/

/-- The bytes that `Decode` writes: every byte of an erased shard within the
stripes is the value of one row of the decoding bit matrix, the xor of bytes of
the shards that the row ids below `k` stand for. -/
theorem Decode_erased_value (k m : Nat) (hk : 0 < k) (hkm : k + m ≤ 256) (erased : Nat → Bool)
    (hne : erasedCount erased (k + m) ≠ 0) (hle : erasedCount erased (k + m) ≤ m)
    (size : Int) (hsize : 0 < size) :
    ∃ (s : DecodeSetup) (D : Nat → Nat),
      Decode_setup (_Init k m) erased = some s ∧ SetupInv k m erased k m s ∧
      Decode_decoding_bit_matrix (_Init k m) s = some D ∧
      (∀ mem : Shards, (Decode (_Init k m) erased size mem).1 = Outcome.returned) ∧
      ∀ b o, b < k + m → erased b = true → 0 ≤ o → o < (numStripes size : Int) * 32768 →
        ∃ (e st bit : Nat) (rel : Int),
          k ≤ e ∧ e < k + (s.num_erased_data_parts + s.num_erased_code_parts) ∧
          s.rowid_to_partidx e = (b : Int) ∧ st < numStripes size ∧ bit < 8 ∧
          0 ≤ rel ∧ rel < kPacketSize ∧
          o = (st : Int) * 32768 + (bit : Int) * kPacketSize + rel ∧
          ∀ mem : Shards,
            (Decode (_Init k m) erased size mem).2 b o
              = rowValue k D (fun d => (s.rowid_to_partidx d).toNat) ((st : Int) * 32768) mem
                  ((e - k) * 8 + bit) rel := by
  obtain ⟨s, hset, hinv⟩ := Decode_setup_spec (_Init k m) erased hle
  have hinv' : SetupInv k m erased k m s := hinv
  obtain ⟨D, hD, hD1, hnz⟩ := Decode_matrix_props k m hk hkm erased s hinv'
  refine ⟨s, D, hset, hinv', hD, ?_⟩
  have hepi := hinv'.epi
  have hned := hinv'.ned
  have hnec := hinv'.nec
  have hdec : ∀ mem : Shards, Decode (_Init k m) erased size mem = (Outcome.returned,
      _DoScheduleOperations (_Init k m)
        (_BitMatrixToSchedule k (s.num_erased_data_parts + s.num_erased_code_parts) D)
        s.ptrs size mem) := by
    intro mem
    rw [Decode_unfold, if_neg (not_not.mpr hsize), if_neg (by
      show ¬ m < erasedCount erased (k + m)
      omega),
      if_neg (show ¬ erasedCount erased
        ((_Init k m).m_num_data_parts + (_Init k m).m_num_code_parts) = 0 from hne), hset]
    dsimp only
    rw [hD]
    rfl
  have hp : ∀ d, d < k + (s.num_erased_data_parts + s.num_erased_code_parts) →
      s.ptrs d = ⟨(s.rowid_to_partidx d).toNat, 0⟩ := by
    intro d hd
    obtain ⟨p, hp1, hp2, _⟩ := hinv'.part_of d hd
    rw [hp2, hp1]
    rfl
  refine ⟨fun mem => by rw [hdec mem], ?_⟩
  intro b o hb he ho1 ho2
  obtain ⟨st, bit, rel, hst, hbit, hr0, hr1, ho⟩ := offset_split o _ ho1 ho2
  have hbit8 : bit < 8 := hbit
  -- the row id of the erased shard
  have hrow : ∃ e, k ≤ e ∧ e < k + (s.num_erased_data_parts + s.num_erased_code_parts) ∧
      s.rowid_to_partidx e = (b : Int) := by
    rcases Nat.lt_or_ge b k with hlt | hge
    · obtain ⟨e, he1, he2, he3⟩ := hinv'.all_data b hlt he
      exact ⟨e, he1, by omega, he3⟩
    · obtain ⟨e, he1, he2, he3⟩ := hinv'.all_code b hge hb he
      exact ⟨e, by omega, by omega, he3⟩
  obtain ⟨e, he1, he2, he3⟩ := hrow
  refine ⟨e, st, bit, rel, he1, he2, he3, hst, hbit8, hr0, hr1, ho, ?_⟩
  intro mem
  rw [hdec mem]
  have hspec := (DoScheduleOperations_spec (_Init k m) k
    (s.num_erased_data_parts + s.num_erased_code_parts) D s.ptrs
    (fun d => (s.rowid_to_partidx d).toNat) size mem (by omega)
    (by
      show k + (s.num_erased_data_parts + s.num_erased_code_parts) ≤ k + m
      omega) hp
    (fun d e hd he h => hinv'.part_inj d e hd he h)).2
  obtain ⟨hq1, hq2⟩ := block_row_index (e - k) bit hbit
  have hxlt : (e - k) * kWordBits + bit
      < (s.num_erased_data_parts + s.num_erased_code_parts) * kWordBits := by
    unfold kWordBits at *
    omega
  have hdv := hspec hD1 st _ hst hxlt (hnz _ hxlt) rel hr0 hr1
  rw [hq1, hq2] at hdv
  have hee : k + (e - k) = e := by omega
  have hpb : (s.rowid_to_partidx (k + (e - k))).toNat = b := by
    rw [hee, he3]
    rfl
  simp only [hpb] at hdv
  rw [ho]
  exact hdv

/-- The shards that the row ids below `k` stand for: the data shards that are
there and the lowest code shards that are there, one for every erased data
shard. -/
theorem Decode_sources (k m : Nat) (erased : Nat → Bool) (s : DecodeSetup)
    (hs : SetupInv k m erased k m s) (d : Nat) (hd : d < k) :
    (erased d = false ∧ s.rowid_to_partidx d = (d : Int)) ∨
    ∃ cp : Nat, k ≤ cp ∧ cp < k + m ∧ erased cp = false ∧
      goodCodeCount k erased cp < erasedCount erased k ∧ s.rowid_to_partidx d = (cp : Int) := by
  cases he : erased d
  · exact Or.inl ⟨rfl, (hs.intact d hd he).2⟩
  · obtain ⟨cp, h1, h2, h3, _, h5⟩ := hs.subst d hd he
    have hgl := hs.good_le
    refine Or.inr ⟨cp, h1, by omega, h3, ?_, h5⟩
    rw [← hs.ned, ← hs.good_count]
    exact (goodCodeCount_lt k erased cp s.good_code_part_index h1 h3).1 h2

end CauchyRSCoder

namespace CauchyRSCoder

open GaloisOperator

/-! ## The xor of bytes, bit by bit over GF(2) -/

theorem bitZ_xor (a b i : Nat) : bitZ (a ^^^ b) i = bitZ a i + bitZ b i := by
  unfold bitZ
  rw [Nat.testBit_xor]
  cases a.testBit i <;> cases b.testBit i <;> decide

theorem bitZ_zero (i : Nat) : bitZ 0 i = 0 := by
  unfold bitZ
  rw [Nat.zero_testBit]
  rfl

/-- Two numbers with the same bits are equal. -/
theorem eq_of_bitZ (a b : Nat) (h : ∀ i, bitZ a i = bitZ b i) : a = b := by
  apply Nat.eq_of_testBit_eq
  intro i
  have := h i
  unfold bitZ at this
  cases ha : a.testBit i <;> cases hb : b.testBit i
  · rfl
  · rw [ha, hb] at this
    exact absurd this (by decide)
  · rw [ha, hb] at this
    exact absurd this (by decide)
  · rfl

theorem xorSrcs_bitZ (g : Nat → Nat) (i : Nat) (js : List Nat) :
    bitZ (xorSrcs g js) i = (js.map (fun j => bitZ (g j) i)).sum := by
  induction js using List.reverseRecOn with
  | nil =>
    rw [xorSrcs_nil, bitZ_zero]
    rfl
  | append_singleton js j ih =>
    rw [xorSrcs_snoc, bitZ_xor, ih, List.map_append, List.sum_append]
    simp

theorem filter_map_sum (p : Nat → Bool) (f : Nat → ZMod 2) (n : Nat) :
    (((List.range n).filter p).map f).sum
      = ∑ j ∈ Finset.range n, if p j = true then f j else 0 := by
  induction n with
  | zero => rfl
  | succ n ih =>
    rw [List.range_succ, List.filter_append, List.map_append, List.sum_append, ih,
      Finset.sum_range_succ]
    congr 1
    cases h : p n <;> simp [List.filter, h]

/-- A bit of the xor of the bytes that a row of zeros and ones selects is the
product of the row and the bits of the bytes. -/
theorem xorSrcs_filter_bitZ (g P : Nat → Nat) (n : Nat) (hP : ∀ j, j < n → P j ≤ 1) (i : Nat) :
    bitZ (xorSrcs g ((List.range n).filter (fun j => decide (P j ≠ 0)))) i
      = ∑ j ∈ Finset.range n, ((P j : Nat) : ZMod 2) * bitZ (g j) i := by
  rw [xorSrcs_bitZ, filter_map_sum]
  apply Finset.sum_congr rfl
  intro j hj
  rcases Nat.le_one_iff_eq_zero_or_eq_one.1 (hP j (Finset.mem_range.1 hj)) with h | h
  · rw [h]
    simp
  · rw [h]
    simp

/-- A bit of the value of a row of a bit matrix of zeros and ones. -/
theorem rowValue_bitZ (k : Nat) (B : Nat → Nat) (part : Nat → Nat) (base : Int) (mem : Shards)
    (x : Nat) (rel : Int) (hB : ∀ j, j < k * 8 → B (x * (k * 8) + j) ≤ 1) (i : Nat) :
    bitZ (rowValue k B part base mem x rel) i
      = ∑ j : Fin (k * 8), ((B (x * (k * 8) + j.val) : Nat) : ZMod 2)
          * bitZ (mem (part (j.val / kWordBits))
              (base + ((j.val % kWordBits : Nat) : Int) * kPacketSize + rel)) i := by
  unfold rowValue scratchSrcs
  have e : ∀ j, x * k * kWordBits + j = x * (k * 8) + j := by
    intro j
    unfold kWordBits
    ring
  have hk8 : k * kWordBits = k * 8 := rfl
  rw [hk8, xorSrcs_filter_bitZ _ (fun j => B (x * k * kWordBits + j)) (k * 8)
    (fun j hj => by
      show B (x * k * kWordBits + j) ≤ 1
      rw [e]
      exact hB j hj) i, Finset.sum_range]
  apply Finset.sum_congr rfl
  intro j _
  rw [e]

end CauchyRSCoder

namespace CauchyRSCoder

open GaloisOperator

/-! ## `Decode` after `Encode` -/

/-- `Encode` leaves the data shards as they are. -/
theorem Encode_data_unchanged (k m : Nat) (hm : 0 < m) (size : Int) (hsize : 0 < size)
    (mem : Shards) (d : Nat) (hd : d < k) (o : Int) :
    (Encode (_Init k m) size mem).2 d o = mem d o := by
  by_contra hne
  have := (Encode_frame (_Init k m) size mem hsize hm rfl d o hne).1
  have hk : (_Init k m).m_num_data_parts = k := rfl
  omega

/-- A byte that `Decode` reads, bit by bit: the product of a row of the matrix
that `Decode` inverts and the bits of the data that `Encode` was run on. -/
theorem Decode_source_bits (k m : Nat) (hk : 0 < k) (hm : 0 < m) (hkm : k + m ≤ 256)
    (erased : Nat → Bool) (s : DecodeSetup) (hs : SetupInv k m erased k m s)
    (size : Int) (hsize : 0 < size) (mem0 mem1 : Shards)
    (hagree : ∀ b o, b < k + m → erased b = false →
      mem1 b o = (Encode (_Init k m) size mem0).2 b o)
    (st : Nat) (hst : st < numStripes size) (rel : Int) (hr0 : 0 ≤ rel) (hr1 : rel < kPacketSize)
    (i : Nat) (j : Fin (k * 8)) :
    bitZ (mem1 ((s.rowid_to_partidx (j.val / kWordBits)).toNat)
        ((st : Int) * 32768 + ((j.val % kWordBits : Nat) : Int) * kPacketSize + rel)) i
      = ∑ c : Fin (k * 8),
          ((Decode_tmp_bit_matrix (_Init k m) s.rowid_to_partidx (j.val * (k * 8) + c.val) : Nat)
              : ZMod 2)
            * bitZ (mem0 (c.val / kWordBits)
                ((st : Int) * 32768 + ((c.val % kWordBits : Nat) : Int) * kPacketSize + rel)) i := by
  have hj := j.isLt
  have hj8 : j.val / kWordBits < k := by
    unfold kWordBits
    omega
  have hbit : j.val % kWordBits < 8 := Nat.mod_lt _ (by decide)
  have ej : j.val / kWordBits * 8 + j.val % kWordBits = j.val := by
    unfold kWordBits
    omega
  obtain ⟨hc0, hc1⟩ := Decode_tmp_cells k m erased s hs
  rcases Decode_sources k m erased s hs (j.val / kWordBits) hj8 with
    ⟨h1, h2⟩ | ⟨cp, h1, h2, h3, h4, h5⟩
  · -- the data shard is there
    rw [h2, Int.toNat_ofNat, hagree _ _ (by omega) h1,
      Encode_data_unchanged k m hm size hsize mem0 _ hj8]
    rw [Finset.sum_eq_single j]
    · have := hc0 (j.val / kWordBits) (j.val % kWordBits) j.val hj8 h1 hbit hj
      rw [ej, if_pos rfl] at this
      rw [this, Nat.cast_one, one_mul]
    · intro c _ hne
      have := hc0 (j.val / kWordBits) (j.val % kWordBits) c.val hj8 h1 hbit c.isLt
      rw [ej, if_neg (fun h => hne (Fin.ext h))] at this
      rw [this, Nat.cast_zero, zero_mul]
    · intro h
      exact absurd (Finset.mem_univ _) h
  · -- a code shard stands in for the data shard
    have herased : erased (j.val / kWordBits) = true := by
      cases h : erased (j.val / kWordBits)
      · have := (hs.intact _ hj8 h).2
        rw [h5] at this
        have : cp = j.val / kWordBits := by exact_mod_cast this
        omega
      · rfl
    rw [h5, Int.toNat_ofNat, hagree _ _ h2 h3]
    obtain ⟨hq1, hq2⟩ := block_row_index (cp - k) (j.val % kWordBits) hbit
    have hx : (cp - k) * kWordBits + j.val % kWordBits < m * kWordBits := by
      unfold kWordBits at *
      omega
    have henc := Encode_product k m hk hm hkm size hsize mem0 st
      ((cp - k) * kWordBits + j.val % kWordBits) hst hx rel hr0 hr1
    rw [hq1, hq2] at henc
    have ecp : k + (cp - k) = cp := by omega
    rw [ecp] at henc
    rw [henc, rowValue_bitZ k _ (fun d => d) _ mem0 _ rel
      (fun c _ => MatrixToBitMatrix_le_one k m _ _) i]
    apply Finset.sum_congr rfl
    intro c _
    have := hc1 (j.val / kWordBits) (j.val % kWordBits) c.val hj8 herased hbit c.isLt
    rw [ej, h5, Int.toNat_ofNat] at this
    rw [this]
    rfl

/-- `Decode` after `Encode`: every byte of an erased shard within the stripes
is again the byte that `Encode` left there. -/
theorem Decode_restores (k m : Nat) (hk : 0 < k) (hkm : k + m ≤ 256) (erased : Nat → Bool)
    (hne : erasedCount erased (k + m) ≠ 0) (hle : erasedCount erased (k + m) ≤ m)
    (size : Int) (hsize : 0 < size) (mem0 mem1 : Shards)
    (hagree : ∀ b o, b < k + m → erased b = false →
      mem1 b o = (Encode (_Init k m) size mem0).2 b o) :
    ∀ b o, b < k + m → erased b = true → 0 ≤ o → o < (numStripes size : Int) * 32768 →
      (Decode (_Init k m) erased size mem1).2 b o = (Encode (_Init k m) size mem0).2 b o := by
  have hm : 0 < m := by omega
  obtain ⟨s, D, hset, hs, hD, hret, hval⟩ :=
    Decode_erased_value k m hk hkm erased hne hle size hsize
  obtain ⟨Tinv, D', hD', hl, hD1, _, hform⟩ := Decode_matrix_form k m hk hkm erased s hs
  have hDD : D' = D := Option.some.inj (hD'.symm.trans hD)
  subst hDD
  intro b o hb he ho1 ho2
  obtain ⟨e, st, bit, rel, he1, he2, he3, hst, hbit, hr0, hr1, ho, h⟩ := hval b o hb he ho1 ho2
  rw [h mem1]
  apply eq_of_bitZ
  intro i
  have hxr : (e - k) * 8 + bit < (s.num_erased_data_parts + s.num_erased_code_parts) * 8 := by
    omega
  have hxd : ((e - k) * 8 + bit) / 8 = e - k := by omega
  have hxm : ((e - k) * 8 + bit) % 8 = bit := by omega
  have hD1' : ∀ j, j < k * 8 → D' (((e - k) * 8 + bit) * (k * 8) + j) ≤ 1 := by
    intro j hj
    have := hD1 ((e - k) * 8 + bit) j hxr hj
    have e' : ((e - k) * 8 + bit) * k * kWordBits + j = ((e - k) * 8 + bit) * (k * 8) + j := by
      unfold kWordBits
      ring
    rw [e'] at this
    exact this
  rw [rowValue_bitZ k D' _ _ mem1 _ rel hD1' i]
  -- the bytes read are the product of the inverted matrix and the data
  have hy := fun j => Decode_source_bits k m hk hm hkm erased s hs size hsize mem0 mem1 hagree
    st hst rel hr0 hr1 i j
  have hsum : ∀ dv : Fin (k * 8) → ZMod 2,
      ∑ j : Fin (k * 8), dv j
          * bitZ (mem1 ((fun d => (s.rowid_to_partidx d).toNat) (j.val / kWordBits))
              ((st : Int) * 32768 + ((j.val % kWordBits : Nat) : Int) * kPacketSize + rel)) i
        = Matrix.dotProduct
            (Matrix.vecMul dv
              (bitMatrix (k * 8) (Decode_tmp_bit_matrix (_Init k m) s.rowid_to_partidx)))
            (fun c : Fin (k * 8) => bitZ (mem0 (c.val / kWordBits)
              ((st : Int) * 32768 + ((c.val % kWordBits : Nat) : Int) * kPacketSize + rel)) i) := by
    intro dv
    rw [← Matrix.dotProduct_mulVec]
    unfold Matrix.dotProduct
    apply Finset.sum_congr rfl
    intro j _
    congr 1
    exact hy j
  have hee : k + ((e - k) * 8 + bit) / 8 = e := by omega
  have hrt : s.rowid_to_partidx (k + ((e - k) * 8 + bit) / 8) = (b : Int) := by
    rw [hee]
    exact he3
  obtain ⟨hf1, hf2⟩ := hform _ hxr b hrt
  rw [hxm] at hf1 hf2
  rw [hsum, ho]
  rcases Nat.lt_or_ge b k with hlt | hge
  · -- an erased data shard
    rw [Encode_data_unchanged k m hm size hsize mem0 b hlt]
    have hrow : b * 8 + bit < k * 8 := by omega
    have hdv : (fun j : Fin (k * 8) => ((D' (((e - k) * 8 + bit) * (k * 8) + j.val) : Nat) : ZMod 2))
        = (bitMatrix (k * 8) Tinv) ⟨b * 8 + bit, hrow⟩ := by
      funext j
      rw [hf1 hlt j.val j.isLt]
      rfl
    rw [hdv, ← Matrix.mul_apply_eq_vecMul, hl]
    have h1 : Matrix.dotProduct ((1 : Matrix (Fin (k * 8)) (Fin (k * 8)) (ZMod 2)) ⟨b * 8 + bit, hrow⟩)
        (fun c : Fin (k * 8) => bitZ (mem0 (c.val / kWordBits)
          ((st : Int) * 32768 + ((c.val % kWordBits : Nat) : Int) * kPacketSize + rel)) i)
        = (Matrix.mulVec (1 : Matrix (Fin (k * 8)) (Fin (k * 8)) (ZMod 2))
            (fun c : Fin (k * 8) => bitZ (mem0 (c.val / kWordBits)
              ((st : Int) * 32768 + ((c.val % kWordBits : Nat) : Int) * kPacketSize + rel)) i))
            ⟨b * 8 + bit, hrow⟩ := rfl
    rw [h1, Matrix.one_mulVec]
    have e1 : (b * 8 + bit) / kWordBits = b := by
      unfold kWordBits
      omega
    have e2 : (b * 8 + bit) % kWordBits = bit := by
      unfold kWordBits
      omega
    show bitZ (mem0 ((b * 8 + bit) / kWordBits)
      ((st : Int) * 32768 + (((b * 8 + bit) % kWordBits : Nat) : Int) * kPacketSize + rel)) i = _
    rw [e1, e2]
  · -- an erased code shard
    have hdv : (fun j : Fin (k * 8) => ((D' (((e - k) * 8 + bit) * (k * 8) + j.val) : Nat) : ZMod 2))
        = Matrix.vecMul
            (fun c : Fin (k * 8) => ((_MatrixToBitMatrix k m (_GenerateEncodeMatrix k m)
              (((b - k) * 8 + bit) * (k * 8) + c.val) : Nat) : ZMod 2))
            (bitMatrix (k * 8) Tinv) := by
      funext j
      rw [hf2 hge j.val j.isLt, Finset.sum_range]
      rfl
    rw [hdv, Matrix.vecMul_vecMul, hl, Matrix.vecMul_one]
    obtain ⟨hq1, hq2⟩ := block_row_index (b - k) bit hbit
    have hx : (b - k) * kWordBits + bit < m * kWordBits := by
      unfold kWordBits at *
      omega
    have henc := Encode_product k m hk hm hkm size hsize mem0 st
      ((b - k) * kWordBits + bit) hst hx rel hr0 hr1
    rw [hq1, hq2] at henc
    have ecp : k + (b - k) = b := by omega
    rw [ecp] at henc
    rw [henc, rowValue_bitZ k _ (fun d => d) _ mem0 _ rel
      (fun c _ => MatrixToBitMatrix_le_one k m _ _) i]
    rfl

end CauchyRSCoder

namespace CauchyRSCoder

open GaloisOperator

/-! ## The claims on the round trip, recoverability, the row improvement, the
order and the length of the schedule, the first parity part and the set-up and
the reads of `Decode` -/

/-- C1. Encode/Decode round trip.  For a coder with `k > 0` data and `m > 0`
code shards, `k + m ≤ 256`, a positive `size`, any content `mem0` of the
shards and any erasure vector with at most `m` erased shards: after `Encode`
on `mem0`, if the erased shards are overwritten in any way (with zeros, for
one) and the shards that are not erased are left as `Encode` left them, then
`Decode` returns and every byte in the stripes of every data shard is the
byte of `mem0` and every byte in the stripes of every code shard is the byte
that `Encode` wrote. -/
theorem Encode_Decode_round_trip (k m : Nat) (hk : 0 < k) (hm : 0 < m) (hkm : k + m ≤ 256)
    (erased : Nat → Bool) (hle : erasedCount erased (k + m) ≤ m)
    (size : Int) (hsize : 0 < size) (mem0 mem1 : Shards)
    (hintact : ∀ b o, b < k + m → erased b = false →
      mem1 b o = (Encode (_Init k m) size mem0).2 b o) :
    (Encode (_Init k m) size mem0).1 = Outcome.returned ∧
    (Decode (_Init k m) erased size mem1).1 = Outcome.returned ∧
    (∀ b o, b < k → 0 ≤ o → o < (numStripes size : Int) * 32768 →
      (Decode (_Init k m) erased size mem1).2 b o = mem0 b o) ∧
    (∀ b o, k ≤ b → b < k + m → 0 ≤ o → o < (numStripes size : Int) * 32768 →
      (Decode (_Init k m) erased size mem1).2 b o = (Encode (_Init k m) size mem0).2 b o) := by
  have hall : ∀ b o, b < k + m → 0 ≤ o → o < (numStripes size : Int) * 32768 →
      (Decode (_Init k m) erased size mem1).2 b o = (Encode (_Init k m) size mem0).2 b o := by
    intro b o hb ho1 ho2
    cases he : erased b
    · rw [← hintact b o hb he]
      by_contra h
      have := (Decode_frame (_Init k m) erased size mem1 b o h).2.1
      rw [he] at this
      cases this
    · have hne : erasedCount erased (k + m) ≠ 0 := by
        unfold erasedCount
        intro h0
        rw [List.length_eq_zero, List.filter_eq_nil_iff] at h0
        exact h0 b (List.mem_range.2 hb) he
      exact Decode_restores k m hk hkm erased hne hle size hsize mem0 mem1 hintact b o hb he
        ho1 ho2
  refine ⟨(Encode_spec (_Init k m) size mem0 hsize hm rfl).1, ?_, ?_, ?_⟩
  · by_cases h0 : erasedCount erased (k + m) = 0
    · rw [Decode_unfold, if_neg (not_not.mpr hsize), if_neg (by
        show ¬ m < erasedCount erased (k + m)
        omega),
        if_pos (show erasedCount erased
          ((_Init k m).m_num_data_parts + (_Init k m).m_num_code_parts) = 0 from h0)]
    · obtain ⟨_, _, _, _, _, hret, _⟩ := Decode_erased_value k m hk hkm erased h0 hle size hsize
      exact hret mem1
  · intro b o hb ho1 ho2
    rw [hall b o (by omega) ho1 ho2]
    exact Encode_data_unchanged k m hm size hsize mem0 b hb o
  · intro b o _ hb ho1 ho2
    exact hall b o hb ho1 ho2

theorem Encode_Decode_round_trip_witness :
    (Decode (_Init 2 1) (fun i => decide (i = 0)) 32768
      (fun b o => if decide (b = 0) = true then 0
        else (Encode (_Init 2 1) 32768 (fun b _ => if b = 0 then 7 else 9)).2 b o)).2 0 5 = 7 :=
  (Encode_Decode_round_trip 2 1 (by decide) (by decide) (by decide) (fun i => decide (i = 0))
    (by decide) 32768 (by decide) (fun b _ => if b = 0 then 7 else 9)
    (fun b o => if decide (b = 0) = true then 0
      else (Encode (_Init 2 1) 32768 (fun b _ => if b = 0 then 7 else 9)).2 b o)
    (fun b o _ he => by
      show (if decide (b = 0) = true then 0
        else (Encode (_Init 2 1) 32768 (fun b _ => if b = 0 then 7 else 9)).2 b o) = _
      rw [if_neg (by rw [show decide (b = 0) = false from he]; decide)])).2.2.1 0 5 (by decide) (by decide) (by decide)

/-- C3. Recoverability.  For every `k` and `m` with `k + m ≤ 256` and every
erasure vector with at most `m` erased shards, the set-up of `Decode` succeeds
and the `(k * 8) × (k * 8)` matrix `T` that `Decode` assembles, with the
identity block-row for each data shard that is there and, for each erased data
shard, the block-row of the encoding bit matrix of the code shard that stands
in for it, is invertible over GF(2): its determinant is not zero, it is a unit
of the matrix ring, and `_InvertBitMatrix` finds a pivot in every column and
returns a two-sided inverse. -/
theorem Decode_matrix_invertible (k m : Nat) (hkm : k + m ≤ 256) (erased : Nat → Bool)
    (hcount : erasedCount erased (k + m) ≤ m) :
    ∃ s, Decode_setup (_Init k m) erased = some s ∧
      (∀ i a col, i < k → erased i = false → a < 8 → col < k * 8 →
        Decode_tmp_bit_matrix (_Init k m) s.rowid_to_partidx ((i * 8 + a) * (k * 8) + col)
          = if col = i * 8 + a then 1 else 0) ∧
      (∀ i a col, i < k → erased i = true → a < 8 → col < k * 8 →
        ∃ cp, k ≤ cp ∧ cp < k + m ∧ erased cp = false ∧ s.rowid_to_partidx i = (cp : Int) ∧
          Decode_tmp_bit_matrix (_Init k m) s.rowid_to_partidx ((i * 8 + a) * (k * 8) + col)
            = (_Init k m).m_encoding_bit_matrix (((cp - k) * 8 + a) * (k * 8) + col)) ∧
      (bitMatrix (k * 8) (Decode_tmp_bit_matrix (_Init k m) s.rowid_to_partidx)).det ≠ 0 ∧
      IsUnit (bitMatrix (k * 8) (Decode_tmp_bit_matrix (_Init k m) s.rowid_to_partidx)) ∧
      ∃ res, _InvertBitMatrix (Decode_tmp_bit_matrix (_Init k m) s.rowid_to_partidx)
          (fun _ => 0) (k * kWordBits) = some res ∧
        bitMatrix (k * 8) res.2
            * bitMatrix (k * 8) (Decode_tmp_bit_matrix (_Init k m) s.rowid_to_partidx) = 1 ∧
        bitMatrix (k * 8) (Decode_tmp_bit_matrix (_Init k m) s.rowid_to_partidx)
            * bitMatrix (k * 8) res.2 = 1 := by
  obtain ⟨s, h1, hs⟩ := Decode_setup_spec (_Init k m) erased hcount
  have hs' : SetupInv k m erased k m s := hs
  obtain ⟨hc0, hc1⟩ := Decode_tmp_cells k m erased s hs'
  have hdet := Decode_tmp_det k m hkm erased s hs'
  obtain ⟨_, res, hres, _, h3, h4⟩ := Decode_inverse_exists k m hkm erased s hs'
  refine ⟨s, h1, hc0, ?_, hdet, (Matrix.isUnit_iff_isUnit_det _).2 (IsUnit.mk0 _ hdet),
    res, hres, h3, h4⟩
  intro i a col hi he ha hcol
  obtain ⟨cp, g1, g2, g3, _, g5⟩ := hs'.subst i hi he
  have hgl := hs'.good_le
  refine ⟨cp, g1, by omega, g3, g5, ?_⟩
  rw [hc1 i a col hi he ha hcol, g5]
  rfl

theorem Decode_matrix_invertible_witness :
    ∃ s, Decode_setup (_Init 1 1) (fun i => decide (i = 0)) = some s ∧
      (bitMatrix (1 * 8) (Decode_tmp_bit_matrix (_Init 1 1) s.rowid_to_partidx)).det ≠ 0 :=
  (Decode_matrix_invertible 1 1 (by decide) (fun i => decide (i = 0)) (by decide)).imp
    (fun _ h => ⟨h.1, h.2.2.2.1⟩)

/-- C21. The rule of the row improvement.  For `k + m ≤ 256` and a row `i`
in `[1, m)`, let `R` be the matrix after the column normalisation,
`rowCauchyOnes k R i` the sum of `_CountCauchyOnes` over row `i` and
`candOnes k R i j` the same sum for the row divided by its element `j`.  When
no column `j` with `R[i][j] ≠ 1` has a candidate sum below the sum of the row,
the final row is the row of `R`; when `js` is the first column with
`R[i][js] ≠ 1` whose candidate sum is the least and that sum is below the sum
of the row, the final row is the row of `R` divided by `R[i][js]`.  The sum of
the final row is at most the sum of the row of `R` and at most every candidate
sum, and it is one of them. -/
theorem row_sparsification_rule (k m : Nat) (hkm : k + m ≤ 256) (i : Nat) (h1 : 1 ≤ i)
    (hi : i < m) :
    ((∀ j, j < k →
        _GenerateEncodeMatrix_firstRow k m (_GenerateEncodeMatrix_cauchy k m) (i * k + j) ≠ 1 →
        rowCauchyOnes k (_GenerateEncodeMatrix_firstRow k m (_GenerateEncodeMatrix_cauchy k m)) i
          ≤ candOnes k (_GenerateEncodeMatrix_firstRow k m (_GenerateEncodeMatrix_cauchy k m))
              i j) →
      ∀ j, j < k → _GenerateEncodeMatrix k m (i * k + j)
        = _GenerateEncodeMatrix_firstRow k m (_GenerateEncodeMatrix_cauchy k m) (i * k + j)) ∧
    (∀ js, js < k →
      _GenerateEncodeMatrix_firstRow k m (_GenerateEncodeMatrix_cauchy k m) (i * k + js) ≠ 1 →
      candOnes k (_GenerateEncodeMatrix_firstRow k m (_GenerateEncodeMatrix_cauchy k m)) i js
        < rowCauchyOnes k (_GenerateEncodeMatrix_firstRow k m (_GenerateEncodeMatrix_cauchy k m))
            i →
      (∀ j, j < k →
        _GenerateEncodeMatrix_firstRow k m (_GenerateEncodeMatrix_cauchy k m) (i * k + j) ≠ 1 →
        candOnes k (_GenerateEncodeMatrix_firstRow k m (_GenerateEncodeMatrix_cauchy k m)) i js
          ≤ candOnes k (_GenerateEncodeMatrix_firstRow k m (_GenerateEncodeMatrix_cauchy k m))
              i j) →
      (∀ j, j < js →
        _GenerateEncodeMatrix_firstRow k m (_GenerateEncodeMatrix_cauchy k m) (i * k + j) ≠ 1 →
        candOnes k (_GenerateEncodeMatrix_firstRow k m (_GenerateEncodeMatrix_cauchy k m)) i js
          < candOnes k (_GenerateEncodeMatrix_firstRow k m (_GenerateEncodeMatrix_cauchy k m))
              i j) →
      ∀ j, j < k → _GenerateEncodeMatrix k m (i * k + j)
        = Multiply
            (_GenerateEncodeMatrix_firstRow k m (_GenerateEncodeMatrix_cauchy k m) (i * k + j))
            (Divide 1
              (_GenerateEncodeMatrix_firstRow k m (_GenerateEncodeMatrix_cauchy k m)
                (i * k + js)))) ∧
    rowCauchyOnes k (_GenerateEncodeMatrix k m) i
      ≤ rowCauchyOnes k (_GenerateEncodeMatrix_firstRow k m (_GenerateEncodeMatrix_cauchy k m))
          i ∧
    (∀ j, j < k → rowCauchyOnes k (_GenerateEncodeMatrix k m) i
      ≤ candOnes k (_GenerateEncodeMatrix_firstRow k m (_GenerateEncodeMatrix_cauchy k m)) i j) ∧
    (rowCauchyOnes k (_GenerateEncodeMatrix k m) i
        = rowCauchyOnes k (_GenerateEncodeMatrix_firstRow k m (_GenerateEncodeMatrix_cauchy k m))
            i ∨
      ∃ j, j < k ∧ rowCauchyOnes k (_GenerateEncodeMatrix k m) i
        = candOnes k (_GenerateEncodeMatrix_firstRow k m (_GenerateEncodeMatrix_cauchy k m))
            i j) :=
  sparsify_rule k m _ (firstRow_unit k m _ (cauchy_unit k m hkm)) i h1 hi

theorem row_sparsification_rule_witness :
    rowCauchyOnes 2 (_GenerateEncodeMatrix 2 2) 1
      ≤ rowCauchyOnes 2 (_GenerateEncodeMatrix_firstRow 2 2 (_GenerateEncodeMatrix_cauchy 2 2))
          1 :=
  (row_sparsification_rule 2 2 (by decide) 1 (by decide) (by decide)).2.2.1

/-- C22. The order of the schedule.  For every `k`, every `r > 0` and every
matrix `B`, the schedule is a list `ops` followed by the sentinel; every tuple
of `ops` targets the sub-packet of one of the `r * 8` rows, and different rows
have different sub-packets; the tuples that target one destination stand next
to each other (between two tuples with the same destination there is no tuple
with another one), so a row has at most one run; and whenever a tuple reads a
source with `src_dev ≥ k`, that source is the sub-packet of a row `p`, a tuple
that targets it stands before the tuple, and neither the tuple nor any tuple
after it targets it: the run of `p` is there, complete, strictly earlier. -/
theorem schedule_ordering (k r : Nat) (B : Nat → Nat) (hr : 0 < r) :
    ∃ ops : List Tuple, _BitMatrixToSchedule k r B = ops ++ [sentinel] ∧
      (∀ t, t ∈ ops → ∃ x, x < r * kWordBits ∧ t.dst = rowDst k x) ∧
      (∀ x y, rowDst k x = rowDst k y → x = y) ∧
      (∀ pre a mid c post, ops = pre ++ a :: (mid ++ c :: post) → a.dst = c.dst →
        ∀ b, b ∈ mid → b.dst = a.dst) ∧
      (∀ pre t post, ops = pre ++ t :: post → (k : Int) ≤ t.src_dev →
        (∃ p, p < r * kWordBits ∧ (t.src_dev, t.src_bit) = rowDst k p) ∧
        (∃ u, u ∈ pre ∧ u.dst = (t.src_dev, t.src_bit)) ∧
        ∀ u, u ∈ t :: post → u.dst ≠ (t.src_dev, t.src_bit)) := by
  obtain ⟨done, h1, h2, h3, _⟩ := schedule_plan k r B hr
  have hnd : (done.map Prod.fst).Nodup := h2.nodup_iff.2 (List.nodup_range _)
  have hlt : ∀ x, x ∈ done.map Prod.fst → x < r * kWordBits :=
    fun x hx => List.mem_range.1 ((h2.mem_iff).1 hx)
  obtain ⟨g1, g2, _⟩ := planOps_ordering k B done hnd h3
  refine ⟨_, h1, ?_, rowDst_inj k, g1, ?_⟩
  · intro t ht
    obtain ⟨x, f, hx, _, hd⟩ := (planOps_firstCopy k B done hnd h3).2 t ht
    exact ⟨x, hlt x (List.mem_map.2 ⟨(x, f), hx, rfl⟩), hd⟩
  · intro pre t post heq hsrc
    obtain ⟨⟨p, hp, hpd⟩, hu, hall⟩ := g2 pre t post heq hsrc
    exact ⟨⟨p, hlt p hp, hpd⟩, hu, hall⟩

theorem schedule_ordering_witness :
    ∃ ops : List Tuple,
      _BitMatrixToSchedule 1 1 (fun idx => if idx < 3 ∨ (8 ≤ idx ∧ idx < 12) then 1 else 0)
        = ops ++ [sentinel] :=
  (schedule_ordering 1 1 (fun idx => if idx < 3 ∨ (8 ≤ idx ∧ idx < 12) then 1 else 0)
    (by decide)).imp (fun _ h => h.1)

/-- C23, as the code has it.  When the row `x` that a round of the scheduler
emits has a `from` entry `p` (not `-1`), the round appends first the tuple with
source `(k + p div 8, p mod 8)` and destination `(k + x div 8, x mod 8)`, and
this tuple carries the opcode `0` (copy); the tuples after it in the round read
data sub-packets and carry the opcode `1` (xor). -/
theorem derive_step_opcode (k r : Nat) (B : Nat → Nat) (s : Sched) (x p : Nat)
    (hx : s.best_row_index = (x : Int)) (hp : load s.frm (x : Int) = (p : Int)) :
    ∃ rest, (_BitMatrixToSchedule_round k r B s).operations
        = s.operations ++
          ({ src_dev := (k : Int) + (p : Int) / kWordBits, src_bit := (p : Int) % kWordBits,
             dst_dev := (k : Int) + (x : Int) / kWordBits, dst_bit := (x : Int) % kWordBits,
             op := 0 } : Tuple) :: rest ∧
      ∀ t, t ∈ rest → t.op = 1 ∧ t.src_dev < (k : Int) ∧ t.dst = rowDst k x := by
  refine ⟨(deriveSrcs k B x p).map (fun j => srcTuple k x j 1), ?_, ?_⟩
  · rw [round_operations, hx, hp, if_neg (by omega), derive_shape]
    rfl
  · intro t ht
    obtain ⟨j, hj, rfl⟩ := List.mem_map.1 ht
    refine ⟨rfl, srcTuple_src_lt k x j 1 ?_, rfl⟩
    unfold deriveSrcs at hj
    exact List.mem_range.1 (List.mem_filter.1 hj).1

set_option maxRecDepth 100000 in
theorem derive_step_opcode_witness :
    ∃ rest, (_BitMatrixToSchedule_round 1 1
          (fun idx => if idx < 3 ∨ (8 ≤ idx ∧ idx < 12) then 1 else 0)
          ((_BitMatrixToSchedule_round 1 1
            (fun idx => if idx < 3 ∨ (8 ≤ idx ∧ idx < 12) then 1 else 0))^[7]
            (_BitMatrixToSchedule_init 1 1
              (fun idx => if idx < 3 ∨ (8 ≤ idx ∧ idx < 12) then 1 else 0)))).operations
        = ((_BitMatrixToSchedule_round 1 1
            (fun idx => if idx < 3 ∨ (8 ≤ idx ∧ idx < 12) then 1 else 0))^[7]
            (_BitMatrixToSchedule_init 1 1
              (fun idx => if idx < 3 ∨ (8 ≤ idx ∧ idx < 12) then 1 else 0))).operations ++
          ({ src_dev := ((1 : Nat) : Int) + ((0 : Nat) : Int) / kWordBits,
             src_bit := ((0 : Nat) : Int) % kWordBits,
             dst_dev := ((1 : Nat) : Int) + ((1 : Nat) : Int) / kWordBits,
             dst_bit := ((1 : Nat) : Int) % kWordBits, op := 0 } : Tuple) :: rest :=
  (derive_step_opcode 1 1 (fun idx => if idx < 3 ∨ (8 ≤ idx ∧ idx < 12) then 1 else 0)
    ((_BitMatrixToSchedule_round 1 1
      (fun idx => if idx < 3 ∨ (8 ≤ idx ∧ idx < 12) then 1 else 0))^[7]
      (_BitMatrixToSchedule_init 1 1
        (fun idx => if idx < 3 ∨ (8 ≤ idx ∧ idx < 12) then 1 else 0)))
    1 0 (by decide!) (by decide!)).imp (fun _ h => h.1)

set_option maxRecDepth 100000 in
/-- C23, the counterexample.  For `k = r = 1` and the matrix whose row 0 is
`1 1 1 0 0 0 0 0`, whose row 1 is `1 1 1 1 0 0 0 0` and whose other rows are
zero, row 1 is emitted in the eighth round with `from[1] = 0`, and the first
tuple of the row, the one with source `(1, 0)` and destination `(1, 1)`, has
the opcode `0`, not `1`. -/
theorem derive_step_opcode_is_copy :
    _BitMatrixToSchedule 1 1 (fun idx => if idx < 3 ∨ (8 ≤ idx ∧ idx < 12) then 1 else 0)
      = [⟨0, 0, 1, 0, 0⟩, ⟨0, 1, 1, 0, 1⟩, ⟨0, 2, 1, 0, 1⟩, ⟨1, 0, 1, 1, 0⟩, ⟨0, 3, 1, 1, 1⟩,
          sentinel] ∧
    ((_BitMatrixToSchedule_round 1 1
        (fun idx => if idx < 3 ∨ (8 ≤ idx ∧ idx < 12) then 1 else 0))^[7]
      (_BitMatrixToSchedule_init 1 1
        (fun idx => if idx < 3 ∨ (8 ≤ idx ∧ idx < 12) then 1 else 0))).best_row_index = 1 ∧
    load ((_BitMatrixToSchedule_round 1 1
        (fun idx => if idx < 3 ∨ (8 ≤ idx ∧ idx < 12) then 1 else 0))^[7]
      (_BitMatrixToSchedule_init 1 1
        (fun idx => if idx < 3 ∨ (8 ≤ idx ∧ idx < 12) then 1 else 0))).frm 1 = 0 ∧
    (⟨1, 0, 1, 1, 0⟩ : Tuple).op ≠ 1 := by
  decide!

/-- C24. The first parity shard is the plain xor parity.  For `k, m > 0` with
`k + m ≤ 256`, a size of `n > 0` stripes of 32768 bytes and every content of
the buffers, `Encode` returns and every byte of code shard `0` (buffer `k`) in
the `n` stripes is afterwards the xor of the bytes at the same offset of the
`k` data shards. -/
theorem first_parity_is_xor (k m : Nat) (hk : 0 < k) (hm : 0 < m) (hkm : k + m ≤ 256)
    (n : Nat) (hn : 0 < n) (mem : Shards) (o : Int) (h0 : 0 ≤ o) (h1 : o < (n : Int) * 32768) :
    (Encode (_Init k m) ((n : Int) * 32768) mem).1 = Outcome.returned ∧
    (Encode (_Init k m) ((n : Int) * 32768) mem).2 k o
      = xorSrcs (fun i => mem i o) (List.range k) := by
  have hsz : (0 : Int) < (n : Int) * 32768 := by omega
  exact ⟨(Encode_spec (_Init k m) _ mem hsz hm rfl).1,
    Encode_first_parity k m hk hm hkm n mem o h0 h1⟩

theorem first_parity_is_xor_witness :
    (Encode (_Init 3 2) (((1 : Nat) : Int) * 32768)
      (fun b _ => if b = 0 then 0 else if b = 1 then 255 else if b = 2 then 170 else 0)).2 3 0
      = 85 :=
  ((first_parity_is_xor 3 2 (by decide) (by decide) (by decide) 1 (by decide)
    (fun b _ => if b = 0 then 0 else if b = 1 then 255 else if b = 2 then 170 else 0) 0
    (by decide) (by decide)).2).trans (by decide)

/-- C25. The index maps of `Decode` are inverse to each other.  For every
coder with `k` data and `m` code parts and every erasure vector with at most
`m` erased shards, `ed` of them data shards and `ec` code shards, the set-up
ends with `partidx_to_rowid[rowid_to_partidx[r]] = r` for every row id `r`
below `k + ed + ec`; `rowid_to_partidx` is injective there; on `[0, k)` its
values are the data shards that are there, each at its own index, and, for the
erased ones, the `ed` lowest code shards that are not erased, and every one of
those is a value; on `[k, k + ed + ec)` its values are the erased data shards
followed by the erased code shards, every one of them, in rising order. -/
theorem Decode_index_maps (c : CauchyRSCoder) (erased : Nat → Bool)
    (hcount : erasedCount erased (c.m_num_data_parts + c.m_num_code_parts) ≤ c.m_num_code_parts) :
    ∃ s, Decode_setup c erased = some s ∧
      s.num_erased_data_parts = erasedCount erased c.m_num_data_parts ∧
      s.num_erased_data_parts + s.num_erased_code_parts
        = erasedCount erased (c.m_num_data_parts + c.m_num_code_parts) ∧
      (∀ r, r < c.m_num_data_parts + s.num_erased_data_parts + s.num_erased_code_parts →
        load s.partidx_to_rowid (s.rowid_to_partidx r) = (r : Int)) ∧
      (∀ r q, r < c.m_num_data_parts + s.num_erased_data_parts + s.num_erased_code_parts →
        q < c.m_num_data_parts + s.num_erased_data_parts + s.num_erased_code_parts →
        s.rowid_to_partidx r = s.rowid_to_partidx q → r = q) ∧
      (∀ r, r < c.m_num_data_parts →
        (erased r = false ∧ s.rowid_to_partidx r = (r : Int)) ∨
        (erased r = true ∧ ∃ cp, c.m_num_data_parts ≤ cp ∧
          cp < c.m_num_data_parts + c.m_num_code_parts ∧ erased cp = false ∧
          goodCodeCount c.m_num_data_parts erased cp < s.num_erased_data_parts ∧
          s.rowid_to_partidx r = (cp : Int))) ∧
      (∀ cp, c.m_num_data_parts ≤ cp → erased cp = false →
        goodCodeCount c.m_num_data_parts erased cp < s.num_erased_data_parts →
        ∃ r, r < c.m_num_data_parts ∧ erased r = true ∧ s.rowid_to_partidx r = (cp : Int)) ∧
      (∀ e, e < s.num_erased_data_parts → ∃ d, d < c.m_num_data_parts ∧ erased d = true ∧
        s.rowid_to_partidx (c.m_num_data_parts + e) = (d : Int)) ∧
      (∀ e, s.num_erased_data_parts ≤ e → e < s.num_erased_data_parts + s.num_erased_code_parts →
        ∃ cp, c.m_num_data_parts ≤ cp ∧ cp < c.m_num_data_parts + c.m_num_code_parts ∧
          erased cp = true ∧ s.rowid_to_partidx (c.m_num_data_parts + e) = (cp : Int)) ∧
      (∀ d, d < c.m_num_data_parts → erased d = true →
        ∃ e, e < s.num_erased_data_parts ∧
          s.rowid_to_partidx (c.m_num_data_parts + e) = (d : Int)) ∧
      (∀ cp, c.m_num_data_parts ≤ cp → cp < c.m_num_data_parts + c.m_num_code_parts →
        erased cp = true →
        ∃ e, s.num_erased_data_parts ≤ e ∧
          e < s.num_erased_data_parts + s.num_erased_code_parts ∧
          s.rowid_to_partidx (c.m_num_data_parts + e) = (cp : Int)) ∧
      (∀ e f, e < f → f < s.num_erased_data_parts + s.num_erased_code_parts →
        s.rowid_to_partidx (c.m_num_data_parts + e)
          < s.rowid_to_partidx (c.m_num_data_parts + f)) := by
  obtain ⟨s, h1, hs, hs2⟩ := Decode_setup_spec2 c erased hcount
  have hepi := hs.epi
  have hgl := hs.good_le
  have hgc := hs.good_count
  refine ⟨s, h1, hs.counts.1, hs.counts.2, ?_, ?_, ?_, ?_, ?_, ?_, ?_, ?_, ?_⟩
  · intro r hr
    rcases Nat.lt_or_ge r c.m_num_data_parts with h | h
    · exact hs2.inv_lo r h
    · exact hs2.inv_hi r h (by omega)
  · intro r q hr hq h
    exact hs.part_inj r q (by omega) (by omega) (by rw [h])
  · intro r hr
    by_cases he : erased r = true
    · obtain ⟨cp, g1, g2, g3, _, g5⟩ := hs.subst r hr he
      refine Or.inr ⟨he, cp, g1, by omega, g3, ?_, g5⟩
      rw [← hgc]
      exact (goodCodeCount_lt _ erased cp _ g1 g3).1 g2
    · have he' : erased r = false := by simpa using he
      exact Or.inl ⟨he', (hs.intact r hr he').2⟩
  · intro cp g1 g3 hlt
    rw [← hgc] at hlt
    exact hs2.all_subst cp g1 ((goodCodeCount_lt _ erased cp _ g1 g3).2 hlt) g3
  · intro e he
    obtain ⟨d, g1, g2, _, g4, _⟩ := hs.out_data (c.m_num_data_parts + e) (by omega) (by omega)
    exact ⟨d, g1, g2, g4⟩
  · intro e he1 he2
    obtain ⟨cp, g1, g2, g3, _, g5⟩ := hs.out_code (c.m_num_data_parts + e) (by omega) (by omega)
    exact ⟨cp, g1, g2, g3, g5⟩
  · intro d hd he
    obtain ⟨e, g1, g2, g3⟩ := hs.all_data d hd he
    refine ⟨e - c.m_num_data_parts, by omega, ?_⟩
    rw [Nat.add_sub_cancel' g1]
    exact g3
  · intro cp hc1 hc2 he
    obtain ⟨e, g1, g2, g3⟩ := hs.all_code cp hc1 hc2 he
    refine ⟨e - c.m_num_data_parts, by omega, by omega, ?_⟩
    rw [Nat.add_sub_cancel' (by omega)]
    exact g3
  · intro e f hef hf
    exact hs.out_mono _ _ (by omega) (by omega) (by omega)

theorem Decode_index_maps_witness :
    ∃ s, Decode_setup ⟨2, 2, fun _ => 0, []⟩ (fun i => decide (i = 1 ∨ i = 2)) = some s ∧
      s.num_erased_data_parts = erasedCount (fun i => decide (i = 1 ∨ i = 2)) 2 :=
  (Decode_index_maps ⟨2, 2, fun _ => 0, []⟩ (fun i => decide (i = 1 ∨ i = 2)) (by decide)).imp
    (fun _ h => ⟨h.1, h.2.1⟩)

/-- C26. `Decode` reads only the survivors it selected.  For a coder with
`k > 0` data and `m` code shards, `k + m ≤ 256`, an erasure vector with at
least one and at most `m` erased shards and a positive `size`: two runs of
`Decode` on memories that agree on every data shard that is not erased and on
every code shard that is not erased and has fewer than `ed` code shards that
are not erased below it (`ed` the number of erased data shards), and that
differ arbitrarily elsewhere, both return and leave the same byte at every
offset of the stripes in every erased shard. -/
theorem Decode_reads_survivors_only (k m : Nat) (hk : 0 < k) (hkm : k + m ≤ 256)
    (erased : Nat → Bool)
    (hne : erasedCount erased (k + m) ≠ 0) (hle : erasedCount erased (k + m) ≤ m)
    (size : Int) (hsize : 0 < size) (mem mem' : Shards)
    (hdata : ∀ i o, i < k → erased i = false → mem i o = mem' i o)
    (hcode : ∀ cp o, k ≤ cp → cp < k + m → erased cp = false →
      goodCodeCount k erased cp < erasedCount erased k → mem cp o = mem' cp o) :
    (Decode (_Init k m) erased size mem).1 = Outcome.returned ∧
    (Decode (_Init k m) erased size mem').1 = Outcome.returned ∧
    ∀ b o, b < k + m → erased b = true → 0 ≤ o → o < (numStripes size : Int) * 32768 →
      (Decode (_Init k m) erased size mem).2 b o = (Decode (_Init k m) erased size mem').2 b o := by
  obtain ⟨s, D, _, hs, _, hret, hval⟩ :=
    Decode_erased_value k m hk hkm erased hne hle size hsize
  refine ⟨hret mem, hret mem', ?_⟩
  intro b o hb he ho1 ho2
  obtain ⟨e, st, bit, rel, _, _, _, _, _, _, _, _, h⟩ := hval b o hb he ho1 ho2
  rw [h mem, h mem']
  unfold rowValue
  apply xorSrcs_congr
  intro j hj
  unfold scratchSrcs at hj
  rw [List.mem_filter, List.mem_range] at hj
  have hj8 : j / kWordBits < k := by
    have := hj.1
    unfold kWordBits at *
    omega
  show mem (s.rowid_to_partidx (j / kWordBits)).toNat _
    = mem' (s.rowid_to_partidx (j / kWordBits)).toNat _
  rcases Decode_sources k m erased s hs (j / kWordBits) hj8 with ⟨h1, h2⟩ | ⟨cp, h1, h2, h3, h4, h5⟩
  · rw [h2, Int.toNat_ofNat]
    exact hdata _ _ hj8 h1
  · rw [h5, Int.toNat_ofNat]
    exact hcode cp _ h1 h2 h3 h4

theorem Decode_reads_survivors_only_witness :
    (Decode (_Init 1 1) (fun i => decide (i = 0)) 1 (fun _ _ => 0)).2 0 5
      = (Decode (_Init 1 1) (fun i => decide (i = 0)) 1 (fun b _ => if b = 0 then 7 else 0)).2 0 5 :=
  (Decode_reads_survivors_only 1 1 (by decide) (by decide) (fun i => decide (i = 0))
    (by decide) (by decide) 1 (by decide) (fun _ _ => 0) (fun b _ => if b = 0 then 7 else 0)
    (fun i o hi he => by
      have h0 : i = 0 := by omega
      subst h0
      exact absurd he (by decide))
    (fun cp o h1 _ _ _ => by
      show (0 : Nat) = if cp = 0 then 7 else 0
      rw [if_neg (by omega)])).2.2 0 5 (by decide) (by decide) (by decide) (by decide)

/-- C27. The generation of the matrix never divides by zero.  For `m > 0`
and `k + m ≤ 256`, the generator run with a log of the second arguments of its
calls `Divide(1, d)` returns the matrix of `_GenerateEncodeMatrix`; the log
holds the argument `i ^ (m + j)` of every call of the Cauchy step; every
logged `d`, from the Cauchy step, the column normalisation and both steps of
the row improvement, lies in `[1, 255]`, and the call returns an element of
`[1, 255]`, not the value `-1` of a division by zero; and every entry of the
matrix returned lies in `[1, 255]`. -/
theorem GenerateEncodeMatrix_never_divides_by_zero (k m : Nat) (hm : 0 < m)
    (hkm : k + m ≤ 256) :
    (_GenerateEncodeMatrix_calls k m).1 = _GenerateEncodeMatrix k m ∧
    (∀ i j, i < m → j < k →
      Int.xor (i : Int) ((m : Int) + (j : Int)) ∈ (_GenerateEncodeMatrix_calls k m).2) ∧
    (∀ d, d ∈ (_GenerateEncodeMatrix_calls k m).2 →
      1 ≤ d ∧ d ≤ 255 ∧ Divide 1 d ≠ -1 ∧ 1 ≤ Divide 1 d ∧ Divide 1 d ≤ 255) ∧
    (∀ idx, idx < m * k →
      1 ≤ _GenerateEncodeMatrix k m idx ∧ _GenerateEncodeMatrix k m idx ≤ 255) := by
  obtain ⟨h1, h2⟩ := GenerateEncodeMatrix_calls_spec k m hm hkm
  refine ⟨h1, GenerateEncodeMatrix_calls_mem k m, ?_, GenerateEncodeMatrix_unit k m hkm⟩
  intro d hd
  have hu := h2 d hd
  have hq := Divide_unit 1 d one_unit hu
  exact ⟨hu.1, hu.2, by have := hq.1; omega, hq.1, hq.2⟩

theorem GenerateEncodeMatrix_never_divides_by_zero_witness :
    (_GenerateEncodeMatrix_calls 3 2).1 = _GenerateEncodeMatrix 3 2 :=
  (GenerateEncodeMatrix_never_divides_by_zero 3 2 (by decide) (by decide)).1

/-- C28. The length of the schedule.  For every `k`, every `r > 0` and every
matrix `B` of zeros and ones, round `t < r * 8` of the loop `while (top != -1)`
runs (`top` is not `-1`), takes the row `x = best_row_index` out of the list
and appends a run of tuples that target the sub-packet of `x`, as many as
`diff[x]` says at that moment: the count of ones of the row when `from[x]` is
`-1`, one plus the number of columns in which the row differs from the row
`from[x]` otherwise, and never more than the count of ones of the row.  The
schedule is what `r * 8` rounds append, then the sentinel; its length is at
most the number of ones of `B` plus one, which is at most `k * r * 64 + 1`. -/
theorem schedule_length_exact (k r : Nat) (B : Nat → Nat) (hr : 0 < r)
    (hB : ∀ x j, x < r * 8 → j < k * 8 → B (x * (k * 8) + j) ≤ 1) :
    (∀ t, t < r * 8 → ∃ x g, x < r * 8 ∧
      ((_BitMatrixToSchedule_round k r B)^[t] (_BitMatrixToSchedule_init k r B)).best_row_index
        = (x : Int) ∧
      ((_BitMatrixToSchedule_round k r B)^[t] (_BitMatrixToSchedule_init k r B)).top ≠ -1 ∧
      ((_BitMatrixToSchedule_round k r B)^[t + 1] (_BitMatrixToSchedule_init k r B)).operations
        = ((_BitMatrixToSchedule_round k r B)^[t] (_BitMatrixToSchedule_init k r B)).operations
            ++ g ∧
      (∀ u, u ∈ g → u.dst = rowDst k x) ∧
      (g.length : Int)
        = ((_BitMatrixToSchedule_round k r B)^[t] (_BitMatrixToSchedule_init k r B)).diff x ∧
      ((((_BitMatrixToSchedule_round k r B)^[t] (_BitMatrixToSchedule_init k r B)).frm x = -1 ∧
          g.length
            = ((List.range (k * 8)).filter (fun j => decide (B (x * (k * 8) + j) = 1))).length) ∨
        ∃ p : Nat, p < r * 8 ∧
          ((_BitMatrixToSchedule_round k r B)^[t] (_BitMatrixToSchedule_init k r B)).frm x
            = (p : Int) ∧
          g.length = 1 + ((List.range (k * 8)).filter
            (fun j => decide (B (x * (k * 8) + j) ≠ B (p * (k * 8) + j)))).length) ∧
      g.length
        ≤ ((List.range (k * 8)).filter (fun j => decide (B (x * (k * 8) + j) = 1))).length) ∧
    _BitMatrixToSchedule k r B
      = ((_BitMatrixToSchedule_round k r B)^[r * 8]
          (_BitMatrixToSchedule_init k r B)).operations ++ [sentinel] ∧
    (_BitMatrixToSchedule k r B).length
      ≤ ((List.range (r * 8)).map (fun x =>
          ((List.range (k * 8)).filter (fun j => decide (B (x * (k * 8) + j) = 1))).length)).sum
        + 1 ∧
    ((List.range (r * 8)).map (fun x =>
        ((List.range (k * 8)).filter (fun j => decide (B (x * (k * 8) + j) = 1))).length)).sum + 1
      ≤ k * r * 64 + 1 := by
  have hB' : ∀ x j, x < r * kWordBits → j < k * kWordBits → B (x * k * kWordBits + j) ≤ 1 := by
    intro x j hx hj
    rw [Nat.mul_assoc]
    exact hB x j hx hj
  have hones : ∀ x, rowOnes k B x
      = ((((List.range (k * 8)).filter (fun j => decide (B (x * (k * 8) + j) = 1))).length : Nat)
          : Int) := fun x => rowOnes_eq_length k B x
  have hsum : ((List.range (r * kWordBits)).map (rowOnes k B)).sum
      = ((((List.range (r * 8)).map (fun x =>
          ((List.range (k * 8)).filter (fun j => decide (B (x * (k * 8) + j) = 1))).length)).sum
            : Nat) : Int) := by
    rw [sum_cast_map]
    congr 1
    apply List.map_congr_left
    intro x _
    exact hones x
  obtain ⟨l1, l2⟩ := schedule_length_le k r B hr hB'
  rw [hsum] at l1 l2
  refine ⟨?_, schedule_eq_rounds k r B hr, by exact_mod_cast l1, by exact_mod_cast l2⟩
  intro t ht
  obtain ⟨x, hx, g1, g2, g3, g4, g5, g6⟩ := round_tuples k r B hr hB' t ht
  refine ⟨x, _, hx, g1, g2, g3, ?_, g4, ?_, ?_⟩
  · have hf : ((_BitMatrixToSchedule_round k r B)^[t] (_BitMatrixToSchedule_init k r B)).frm x
        = -1 ∨ ∃ p : Nat,
        ((_BitMatrixToSchedule_round k r B)^[t] (_BitMatrixToSchedule_init k r B)).frm x
          = (p : Int) := by
      rcases g5 with ⟨e, _⟩ | ⟨p, _, e, _⟩
      · exact Or.inl e
      · exact Or.inr ⟨p, e⟩
    exact (rowGroup_shape k B x _ hf).1
  · rcases g5 with ⟨e1, e2⟩ | ⟨p, hp, e1, e2⟩
    · left
      refine ⟨e1, ?_⟩
      rw [e2, hones x] at g4
      exact_mod_cast g4
    · right
      refine ⟨p, hp, e1, ?_⟩
      rw [e2, rowRate_eq_length k B p x (fun j hj => hB' p j hp hj)
        (fun j hj => hB' x j hx hj), deriveSrcs_eq] at g4
      exact_mod_cast g4
  · rw [← g4, hones x] at g6
    exact_mod_cast g6

theorem schedule_length_exact_witness :
    (_BitMatrixToSchedule 1 1 (fun idx => if idx % 9 = 0 then 1 else 0)).length
      ≤ ((List.range (1 * 8)).map (fun x =>
          ((List.range (1 * 8)).filter
            (fun j => decide ((fun idx => if idx % 9 = 0 then 1 else 0 : Nat → Nat)
              (x * (1 * 8) + j) = 1))).length)).sum + 1 :=
  (schedule_length_exact 1 1 (fun idx => if idx % 9 = 0 then 1 else 0) (by decide)
    (fun x j _ _ => by
      show (if (x * (1 * 8) + j) % 9 = 0 then 1 else 0) ≤ 1
      split <;> omega)).2.2.1

/-- C29. The search for stand-ins stays in range.  For every coder with `k`
data and `m` code parts and every erasure vector with at most `m` erased
shards, the set-up of `Decode` succeeds, which in this model means that the
loop `while (erased[good_code_part_index])` never reads `erased` at an index
that is not below `k + m`; every erased data shard gets a code shard that is
not erased, and the stand-ins of later erased data shards have higher indices:
they are distinct and rise strictly. -/
theorem substitute_search_in_range (c : CauchyRSCoder) (erased : Nat → Bool)
    (hcount : erasedCount erased (c.m_num_data_parts + c.m_num_code_parts) ≤ c.m_num_code_parts) :
    ∃ s, Decode_setup c erased = some s ∧
      s.good_code_part_index ≤ c.m_num_data_parts + c.m_num_code_parts ∧
      (∀ d, d < c.m_num_data_parts → erased d = true →
        ∃ cp, c.m_num_data_parts ≤ cp ∧ cp < s.good_code_part_index ∧
          cp < c.m_num_data_parts + c.m_num_code_parts ∧ erased cp = false ∧
          s.rowid_to_partidx d = (cp : Int) ∧
          s.ptrs d = coding_ptrs c.m_num_data_parts ((cp : Int) - c.m_num_data_parts)) ∧
      (∀ d e, d < e → e < c.m_num_data_parts → erased d = true → erased e = true →
        s.rowid_to_partidx d < s.rowid_to_partidx e) ∧
      (∀ fuel g0 g, Decode_skip erased (c.m_num_data_parts + c.m_num_code_parts) fuel g0
          = some g →
        g0 ≤ g ∧ g < c.m_num_data_parts + c.m_num_code_parts ∧ erased g = false ∧
          ∀ j, g0 ≤ j → j < g → erased j = true) := by
  obtain ⟨s, h1, hs⟩ := Decode_setup_spec c erased hcount
  have hgl := hs.good_le
  refine ⟨s, h1, hgl, ?_, hs.subst_mono, fun fuel g0 g h => skip_some erased _ fuel g0 g h⟩
  intro d hd he
  obtain ⟨cp, g1, g2, g3, g4, g5⟩ := hs.subst d hd he
  exact ⟨cp, g1, g2, by omega, g3, g5, by rw [g4, coding_ptrs_nat _ _ g1]⟩

theorem substitute_search_in_range_witness :
    ∃ s, Decode_setup ⟨2, 2, fun _ => 0, []⟩ (fun i => decide (i = 0 ∨ i = 2)) = some s ∧
      s.good_code_part_index ≤ 2 + 2 :=
  (substitute_search_in_range ⟨2, 2, fun _ => 0, []⟩ (fun i => decide (i = 0 ∨ i = 2))
    (by decide)).imp (fun _ h => ⟨h.1, h.2.1⟩)

end CauchyRSCoder
